import Mathlib

/-! # socow_vector: small-object, copy-on-write vector

A shallow embedding of `src/socow-vector.h`.

* A heap is a list of slots; the address of a `buffer` is its index, a destroyed
  buffer leaves `none` behind, and `make_new_buffer` always hands out a fresh address.
* An array of `T` (the inline `small_buf_` or the `data_` of a buffer) is represented by the
  list of its constructed elements, which always form a prefix of the array.  Constructing
  anywhere but directly behind that prefix, destroying or reading anything outside of it, or
  writing past the capacity of the array is undefined behaviour in the source and makes the
  model `stuck`.
* Every member function takes the object(s) it works on and the global state `St` and returns
  the new object(s) and state.  Two objects handed to one function are always different
  objects; the test `&other == this` of `operator=` and `swap` is made where objects have an
  identity, in `World.assign` and `World.swap`.
* The member functions call each other recursively, so each call spends one unit of `fuel`.
* Element copy construction is counted in `St.copies`, and the copy construction whose
  ordinal is `St.throw_at` throws.  The element type has no move operations, so `std::swap`
  on two elements copy-constructs a temporary, which is counted and may throw like any other
  copy construction.  Copy assignment of elements and element destructors never throw.
* `operator new` grants every request.  The only capacity that a caller chooses freely is the
  argument of `reserve`; `Op.run` takes a `reserve` of more than `max_capacity` elements to
  be outside of what the model describes.
-/

namespace SocowVector

variable {α : Type}

/-- The class `buffer` (lines 24-31): capacity, reference count, and the constructed prefix of
the trailing array `data_`. -/
structure buffer (α : Type) where
  capacity_ : Nat
  ref_count_ : Nat
  data_ : List α
deriving DecidableEq

/-- The free store: slot `p` holds the buffer allocated at address `p`, or `none` once it has
been destroyed. -/
abbrev Heap (α : Type) := List (Option (buffer α))

/-- The buffer living at address `p`, if any. -/
def Heap.lookup (h : Heap α) (p : Nat) : Option (buffer α) := (h[p]?).join

/-- Whether address `p` holds a live buffer. -/
def Heap.live (h : Heap α) (p : Nat) : Bool := (h.lookup p).isSome

/-- Read through the pointer `p`; a dangling pointer reads as an empty dummy buffer. -/
def Heap.getBuf (h : Heap α) (p : Nat) : buffer α := (h.lookup p).getD ⟨0, 0, []⟩

/-- The global state: the heap and the instrumentation of the element type. -/
structure St (α : Type) where
  heap : Heap α
  /-- The ordinal (counted from 1) of the element copy construction that throws, if any. -/
  throw_at : Option Nat
  /-- Number of element copy constructions attempted so far. -/
  copies : Nat
  /-- Number of `std::swap` calls on elements so far. -/
  swaps : Nat
  /-- Number of element destructor calls so far. -/
  dtors : Nat
deriving DecidableEq

/-- The data members of `socow_vector` (lines 91-97).  `small_buf_` lists the constructed
elements of the inline array; `buf_` keeps its last value while `allocated_` is false, as the
bytes of the union do until the inline array is written. -/
structure socow_vector (α : Type) where
  size_ : Nat
  allocated_ : Bool
  buf_ : Nat
  small_buf_ : List α
deriving DecidableEq

/-- Outcome of a call: normal return, an exception leaving the call (with the state after
unwinding inside the callee), or undefined behaviour / exhausted fuel. -/
inductive Res (ε σ : Type) where
  | ok (s : σ)
  | threw (e : ε)
  | stuck
deriving DecidableEq

/-- Sequencing of calls; an exception passes through unchanged. -/
def Res.bind {ε σ τ : Type} (r : Res ε σ) (f : σ → Res ε τ) : Res ε τ :=
  match r with
  | .ok s => f s
  | .threw e => .threw e
  | .stuck => .stuck

/-- A function declared `noexcept`: an escaping exception terminates the program. -/
def Res.noexcept {ε ε' σ : Type} (r : Res ε σ) : Res ε' σ :=
  match r with
  | .ok s => .ok s
  | .threw _ => .stuck
  | .stuck => .stuck

/-- Lift a step that cannot throw. -/
def Res.ofOption {ε σ : Type} (o : Option σ) : Res ε σ :=
  match o with
  | some s => .ok s
  | none => .stuck

/-! ## Element-level primitives -/

/-- Run `n` consecutive element copy constructions.  If the throwing one is among them, the
elements constructed before it are destroyed again and the exception leaves. -/
def charge_copies (n : Nat) (st : St α) : Res (St α) (St α) :=
  match st.throw_at with
  | some N =>
    if st.copies < N ∧ N ≤ st.copies + n then
      .threw { st with copies := N, dtors := st.dtors + (N - st.copies - 1) }
    else .ok { st with copies := st.copies + n }
  | none => .ok { st with copies := st.copies + n }

/-- The call `std::uninitialized_copy_n(src + src_off, n, dst + dst_off)` into an array of
`cap` slots whose constructed prefix is `dst`. -/
def uninitialized_copy_n (src : List α) (src_off n : Nat) (dst : List α) (dst_off cap : Nat)
    (st : St α) : Res (St α) (List α × St α) :=
  if src_off + n ≤ src.length ∧ dst.length = dst_off ∧ dst_off + n ≤ cap then
    match charge_copies n st with
    | .ok st1 => .ok (dst ++ (src.drop src_off).take n, st1)
    | .threw st1 => .threw st1
    | .stuck => .stuck
  else .stuck

/-- The call `std::construct_at(dst + idx, value)` into an array of `cap` slots. -/
def construct_at (dst : List α) (idx : Nat) (value : α) (cap : Nat) (st : St α) :
    Res (St α) (List α × St α) :=
  if dst.length = idx ∧ idx < cap then
    match charge_copies 1 st with
    | .ok st1 => .ok (dst ++ [value], st1)
    | .threw st1 => .threw st1
    | .stuck => .stuck
  else .stuck

/-- The call `std::destroy_at(dst + idx)`. -/
def destroy_at (dst : List α) (idx : Nat) (st : St α) : Option (List α × St α) :=
  if idx + 1 = dst.length then some (dst.dropLast, { st with dtors := st.dtors + 1 }) else none

/-- The call `std::destroy_n(dst + first, n)`. -/
def destroy_n (dst : List α) (first n : Nat) (st : St α) : Option (List α × St α) :=
  if first + n = dst.length then some (dst.take first, { st with dtors := st.dtors + n })
  else none

/-- What a call `std::swap(a, b)` on two elements does besides exchanging them:
`T tmp(std::move(a)); a = std::move(b); b = std::move(tmp);` copy-constructs the temporary,
for an element type without move operations, and destroys it at the end.  The call is counted
in `swaps` when it starts; the copy construction may throw, before anything is exchanged. -/
def std_swap (st : St α) : Res (St α) (St α) :=
  match charge_copies 1 { st with swaps := st.swaps + 1 } with
  | .ok st1 => .ok { st1 with dtors := st1.dtors + 1 }
  | .threw st1 => .threw st1
  | .stuck => .stuck

/-- The call `std::swap(x[i], y[i])` on two different arrays. -/
def std_swap_across (x y : List α) (i : Nat) (st : St α) :
    Res (St α) (List α × List α × St α) :=
  match x[i]?, y[i]? with
  | some u, some w =>
    match std_swap st with
    | .ok st1 => .ok (x.set i w, y.set i u, st1)
    | .threw st1 => .threw st1
    | .stuck => .stuck
  | _, _ => .stuck

/-- The call `std::swap(x[i], x[j])` inside one array. -/
def std_swap_within (x : List α) (i j : Nat) (st : St α) : Res (St α) (List α × St α) :=
  match x[i]?, x[j]? with
  | some u, some w =>
    match std_swap st with
    | .ok st1 => .ok ((x.set i w).set j u, st1)
    | .threw st1 => .threw st1
    | .stuck => .stuck
  | _, _ => .stuck

/-! ## Buffers -/

/-- Function `make_new_buffer` (lines 33-37): a fresh buffer with `ref_count_ = 1` and no
constructed element; returns its address.  The byte count
`sizeof(buffer) + sizeof(T) * capacity` of line 34 is taken not to wrap in `size_t`, and
`operator new` to grant it. -/
def make_new_buffer (capacity : Nat) (st : St α) : Nat × St α :=
  (st.heap.length, { st with heap := st.heap ++ [some ⟨capacity, 1, []⟩] })

/-- Function `destroy_buffer` (lines 39-42). -/
def destroy_buffer (buf : Nat) (st : St α) : Option (St α) :=
  if st.heap.live buf then some { st with heap := st.heap.set buf none } else none

/-- Function `add_ref` (lines 44-46). -/
def add_ref (v : socow_vector α) (st : St α) : Option (St α) :=
  match st.heap.lookup v.buf_ with
  | some b => some { st with heap := st.heap.set v.buf_ (some { b with ref_count_ := b.ref_count_ + 1 }) }
  | none => none

/-- Function `sharing` (lines 65-67). -/
def sharing (v : socow_vector α) (h : Heap α) : Bool :=
  v.allocated_ && decide ((h.getBuf v.buf_).ref_count_ > 1)

/-- Function `capacity` (lines 260-265). -/
def capacity (SMALL_SIZE : Nat) (v : socow_vector α) (h : Heap α) : Nat :=
  if !v.allocated_ then SMALL_SIZE else (h.getBuf v.buf_).capacity_

/-- Function `size` (lines 215-217). -/
def size (v : socow_vector α) : Nat := v.size_

/-- Function `empty` (lines 256-258). -/
def empty (v : socow_vector α) : Bool := decide (size v = 0)

/-- The const overload of `data` (lines 208-213): the array it designates, as the list of its
constructed elements. -/
def data_const (v : socow_vector α) (h : Heap α) : List α :=
  if !v.allocated_ then v.small_buf_ else (h.getBuf v.buf_).data_

/-- Store `d` as the new constructed prefix of the array designated by `data()`. -/
def put_data (v : socow_vector α) (d : List α) (st : St α) : Option (socow_vector α × St α) :=
  if !v.allocated_ then some ({ v with small_buf_ := d }, st)
  else
    match st.heap.lookup v.buf_ with
    | some b => some (v, { st with heap := st.heap.set v.buf_ (some { b with data_ := d }) })
    | none => none

/-- The private constructor (lines 100-118). -/
def ctor (SMALL_SIZE : Nat) (other : socow_vector α) (new_capacity copy_size : Nat)
    (share_buf : Bool) (st : St α) : Res (St α) (socow_vector α × St α) :=
  let allocated := decide (new_capacity > SMALL_SIZE)
  if !allocated then
    match uninitialized_copy_n (data_const other st.heap) 0 copy_size [] 0 SMALL_SIZE st with
    | .ok (d, st1) => .ok (⟨copy_size, allocated, 0, d⟩, st1)
    | .threw st1 => .threw st1
    | .stuck => .stuck
  else if share_buf then
    match add_ref ⟨copy_size, allocated, other.buf_, []⟩ st with
    | some st1 => .ok (⟨copy_size, allocated, other.buf_, []⟩, st1)
    | none => .stuck
  else
    let (new_buf, st1) := make_new_buffer new_capacity st
    match uninitialized_copy_n (data_const other st1.heap) 0 copy_size [] 0 new_capacity st1 with
    | .ok (d, st2) =>
      .ok (⟨copy_size, allocated, new_buf, []⟩,
        { st2 with heap := st2.heap.set new_buf (some ⟨new_capacity, 1, d⟩) })
    | .threw st2 =>
      match destroy_buffer new_buf st2 with
      | some st3 => .threw st3
      | none => .stuck
    | .stuck => .stuck

/-- The default constructor (line 121). -/
def default_ctor : socow_vector α := ⟨0, false, 0, []⟩

/-- The copy constructor (line 123). -/
def copy_ctor (SMALL_SIZE : Nat) (other : socow_vector α) (st : St α) :
    Res (St α) (socow_vector α × St α) :=
  ctor SMALL_SIZE other (capacity SMALL_SIZE other st.heap) (size other) true st

/-- The loop of `swap_small_buffers` (lines 69-73), `k` iterations starting at index `i`.  An
exception leaves with the two arrays as the iterations before it left them. -/
def swap_small_buffers_loop : Nat → Nat → List α → List α → St α →
    Res (List α × List α × St α) (List α × List α × St α)
  | 0, _, x, y, st => .ok (x, y, st)
  | k + 1, i, x, y, st =>
    match std_swap_across x y i st with
    | .ok (x1, y1, st1) => swap_small_buffers_loop k (i + 1) x1 y1 st1
    | .threw st1 => .threw (x, y, st1)
    | .stuck => .stuck

/-- Function `swap_small_buffers` (lines 69-73). -/
def swap_small_buffers (v other : socow_vector α) (size : Nat) (st : St α) :
    Res (socow_vector α × socow_vector α × St α) (socow_vector α × socow_vector α × St α) :=
  match swap_small_buffers_loop size 0 v.small_buf_ other.small_buf_ st with
  | .ok (x, y, st1) => .ok ({ v with small_buf_ := x }, { other with small_buf_ := y }, st1)
  | .threw (x, y, st1) =>
    .threw ({ v with small_buf_ := x }, { other with small_buf_ := y }, st1)
  | .stuck => .stuck

/-! ## The mutually recursive core

`release_ref`, `clear`, `hard_clear`, `pop_back`, `unshare`, `data`, `swap`, `operator=` and
`suffix_try_copy_small` call each other; the first argument is the fuel.  The destructor
`~socow_vector()` (lines 188-190) is the call `hard_clear()`, and `clear()` (lines 302-304) is
the call `clear(true)`. -/

mutual

/-- Function `release_ref` (lines 48-55), `noexcept`. -/
def release_ref (SMALL_SIZE : Nat) : Nat → socow_vector α → St α →
    Res (socow_vector α × St α) (socow_vector α × St α)
  | 0, _, _ => .stuck
  | n + 1, v, st =>
    match st.heap.lookup v.buf_ with
    | none => .stuck
    | some b =>
      if b.ref_count_ = 0 then .stuck
      else
        let st1 : St α :=
          { st with heap := st.heap.set v.buf_ (some { b with ref_count_ := b.ref_count_ - 1 }) }
        let v1 : socow_vector α := { v with allocated_ := false }
        if b.ref_count_ - 1 = 0 then
          match clear_bool SMALL_SIZE n true v1 st1 with
          | .ok (v2, st2) =>
            match destroy_buffer v2.buf_ st2 with
            | some st3 => .ok (v2, st3)
            | none => .stuck
          | _ => .stuck
        else .ok (v1, st1)

/-- Function `clear(bool save_capacity)` (lines 306-319). -/
def clear_bool (SMALL_SIZE : Nat) : Nat → Bool → socow_vector α → St α →
    Res (socow_vector α × St α) (socow_vector α × St α)
  | 0, _, _, _ => .stuck
  | n + 1, save_capacity, v, st =>
    if !sharing v st.heap then clear_loop SMALL_SIZE n v st
    else
      match release_ref SMALL_SIZE n v st with
      | .ok (v1, st1) =>
        let v2 : socow_vector α := { v1 with size_ := 0 }
        if save_capacity then
          let v3 : socow_vector α := { v2 with allocated_ := true }
          let r := make_new_buffer (capacity SMALL_SIZE v3 st1.heap) st1
          .ok ({ v3 with buf_ := r.1 }, r.2)
        else .ok (v2, st1)
      | .threw e => .threw e
      | .stuck => .stuck

/-- The loop `while (size() != 0) pop_back();` of `clear(bool)` (lines 308-310). -/
def clear_loop (SMALL_SIZE : Nat) : Nat → socow_vector α → St α →
    Res (socow_vector α × St α) (socow_vector α × St α)
  | 0, _, _ => .stuck
  | n + 1, v, st =>
    if size v ≠ 0 then
      match pop_back SMALL_SIZE n v st with
      | .ok (v1, st1) => clear_loop SMALL_SIZE n v1 st1
      | .threw e => .threw e
      | .stuck => .stuck
    else .ok (v, st)

/-- Function `hard_clear` (lines 295-300), `noexcept`. -/
def hard_clear (SMALL_SIZE : Nat) : Nat → socow_vector α → St α →
    Res (socow_vector α × St α) (socow_vector α × St α)
  | 0, _, _ => .stuck
  | n + 1, v, st =>
    match clear_bool SMALL_SIZE n false v st with
    | .ok (v1, st1) =>
      if v1.allocated_ then (release_ref SMALL_SIZE n v1 st1).noexcept else .ok (v1, st1)
    | _ => .stuck

/-- Function `pop_back` (lines 246-254). -/
def pop_back (SMALL_SIZE : Nat) : Nat → socow_vector α → St α →
    Res (socow_vector α × St α) (socow_vector α × St α)
  | 0, _, _ => .stuck
  | n + 1, v, st =>
    if size v = 0 then .stuck
    else if sharing v st.heap then
      match ctor SMALL_SIZE v (capacity SMALL_SIZE v st.heap) (size v - 1) false st with
      | .ok (tmp, st1) =>
        match swap SMALL_SIZE n v tmp st1 with
        | .ok (v1, tmp1, st2) =>
          match hard_clear SMALL_SIZE n tmp1 st2 with
          | .ok (_, st3) => .ok (v1, st3)
          | _ => .stuck
        | .threw (v1, tmp1, st2) =>
          match hard_clear SMALL_SIZE n tmp1 st2 with
          | .ok (_, st3) => .threw (v1, st3)
          | _ => .stuck
        | .stuck => .stuck
      | .threw st1 => .threw (v, st1)
      | .stuck => .stuck
    else
      match data SMALL_SIZE n v st with
      | .ok (v1, st1) =>
        match destroy_at (data_const v1 st1.heap) (size v1 - 1) st1 with
        | some (d, st2) =>
          match put_data v1 d st2 with
          | some (v2, st3) => .ok ({ v2 with size_ := v2.size_ - 1 }, st3)
          | none => .stuck
        | none => .stuck
      | .threw e => .threw e
      | .stuck => .stuck

/-- Function `unshare` (lines 57-63). -/
def unshare (SMALL_SIZE : Nat) : Nat → socow_vector α → St α →
    Res (socow_vector α × St α) (socow_vector α × St α)
  | 0, _, _ => .stuck
  | n + 1, v, st =>
    if !sharing v st.heap then .ok (v, st)
    else
      match ctor SMALL_SIZE v (capacity SMALL_SIZE v st.heap) (size v) false st with
      | .ok (tmp, st1) =>
        match swap SMALL_SIZE n v tmp st1 with
        | .ok (v1, tmp1, st2) =>
          match hard_clear SMALL_SIZE n tmp1 st2 with
          | .ok (_, st3) => .ok (v1, st3)
          | _ => .stuck
        | .threw (v1, tmp1, st2) =>
          match hard_clear SMALL_SIZE n tmp1 st2 with
          | .ok (_, st3) => .threw (v1, st3)
          | _ => .stuck
        | .stuck => .stuck
      | .threw st1 => .threw (v, st1)
      | .stuck => .stuck

/-- The non-const overload of `data` (lines 200-206).  The returned pointer designates the
array that `data_const` reads on the returned object. -/
def data (SMALL_SIZE : Nat) : Nat → socow_vector α → St α →
    Res (socow_vector α × St α) (socow_vector α × St α)
  | 0, _, _ => .stuck
  | n + 1, v, st =>
    if !v.allocated_ then .ok (v, st)
    else unshare SMALL_SIZE n v st

/-- Function `swap` (lines 155-186) for `&other != this`; the first object is `*this`. -/
def swap (SMALL_SIZE : Nat) : Nat → socow_vector α → socow_vector α → St α →
    Res (socow_vector α × socow_vector α × St α) (socow_vector α × socow_vector α × St α)
  | 0, _, _, _ => .stuck
  | n + 1, v, other, st =>
    if size v > size other then
      match swap SMALL_SIZE n other v st with
      | .ok (other1, v1, st1) => .ok (v1, other1, st1)
      | .threw (other1, v1, st1) => .threw (v1, other1, st1)
      | .stuck => .stuck
    else if !v.allocated_ && !other.allocated_ then
      let suffix_size := size other - size v
      match uninitialized_copy_n other.small_buf_ (size v) suffix_size v.small_buf_ (size v)
          SMALL_SIZE st with
      | .ok (d, st1) =>
        let v1 : socow_vector α := { v with small_buf_ := d }
        match swap_small_buffers v1 other (size v1) st1 with
        | .ok (v2, other2, st2) =>
          match destroy_n other2.small_buf_ (size v) suffix_size st2 with
          | some (d', st3) =>
            .ok ({ v2 with size_ := other2.size_ },
              { other2 with small_buf_ := d', size_ := v2.size_ }, st3)
          | none => .stuck
        | .threw (v2, other2, st2) =>
          match destroy_n v2.small_buf_ (size v) suffix_size st2 with
          | some (d', st3) => .threw ({ v2 with small_buf_ := d' }, other2, st3)
          | none => .stuck
        | .stuck => .stuck
      | .threw st1 => .threw (v, other, st1)
      | .stuck => .stuck
    else
      match copy_ctor SMALL_SIZE other st with
      | .ok (tmp, st1) =>
        match assign SMALL_SIZE n other v st1 with
        | .ok (other1, st2) =>
          match assign SMALL_SIZE n v tmp st2 with
          | .ok (v1, st3) =>
            match hard_clear SMALL_SIZE n tmp st3 with
            | .ok (_, st4) => .ok (v1, other1, st4)
            | _ => .stuck
          | .threw (v1, st3) =>
            match hard_clear SMALL_SIZE n tmp st3 with
            | .ok (_, st4) => .threw (v1, other1, st4)
            | _ => .stuck
          | .stuck => .stuck
        | .threw (other1, st2) =>
          match hard_clear SMALL_SIZE n tmp st2 with
          | .ok (_, st3) => .threw (v, other1, st3)
          | _ => .stuck
        | .stuck => .stuck
      | .threw st1 => .threw (v, other, st1)
      | .stuck => .stuck

/-- Function `operator=` (lines 125-153) for `&other != this`; the first object is `*this`. -/
def assign (SMALL_SIZE : Nat) : Nat → socow_vector α → socow_vector α → St α →
    Res (socow_vector α × St α) (socow_vector α × St α)
  | 0, _, _, _ => .stuck
  | n + 1, v, other, st =>
    if other.allocated_ then
      match hard_clear SMALL_SIZE n v st with
      | .ok (v1, st1) =>
        let v2 : socow_vector α := { v1 with buf_ := other.buf_ }
        match add_ref v2 st1 with
        | some st2 => .ok ({ v2 with allocated_ := other.allocated_, size_ := size other }, st2)
        | none => .stuck
      | _ => .stuck
    else if v.allocated_ then
      match copy_ctor SMALL_SIZE v st with
      | .ok (tmp, st1) =>
        match hard_clear SMALL_SIZE n v st1 with
        | .ok (v1, st2) =>
          match suffix_try_copy_small SMALL_SIZE n v1 other tmp 0 st2 with
          | .ok (v2, tmp2, st3) =>
            match hard_clear SMALL_SIZE n tmp2 st3 with
            | .ok (_, st4) =>
              .ok ({ v2 with allocated_ := other.allocated_, size_ := size other }, st4)
            | _ => .stuck
          | .threw (v2, tmp2, st3) =>
            match hard_clear SMALL_SIZE n tmp2 st3 with
            | .ok (_, st4) => .threw (v2, st4)
            | _ => .stuck
          | .stuck => .stuck
        | _ => .stuck
      | .threw st1 => .threw (v, st1)
      | .stuck => .stuck
    else if size v < size other then
      match ctor SMALL_SIZE other (capacity SMALL_SIZE other st.heap) (size v) false st with
      | .ok (tmp, st1) =>
        match uninitialized_copy_n (data_const other st1.heap) (size v) (size other - size v)
            v.small_buf_ (size v) SMALL_SIZE st1 with
        | .ok (d, st2) =>
          let v1 : socow_vector α := { v with small_buf_ := d, size_ := size other }
          match swap_small_buffers v1 tmp (size tmp) st2 with
          | .ok (v2, tmp2, st3) =>
            match hard_clear SMALL_SIZE n tmp2 st3 with
            | .ok (_, st4) =>
              .ok ({ v2 with allocated_ := other.allocated_, size_ := size other }, st4)
            | _ => .stuck
          | .threw (v2, tmp2, st3) =>
            match hard_clear SMALL_SIZE n tmp2 st3 with
            | .ok (_, st4) => .threw (v2, st4)
            | _ => .stuck
          | .stuck => .stuck
        | .threw st2 =>
          match hard_clear SMALL_SIZE n tmp st2 with
          | .ok (_, st3) => .threw (v, st3)
          | _ => .stuck
        | .stuck => .stuck
      | .threw st1 => .threw (v, st1)
      | .stuck => .stuck
    else
      match copy_ctor SMALL_SIZE other st with
      | .ok (tmp, st1) =>
        match swap_small_buffers v tmp (size other) st1 with
        | .ok (v1, tmp1, st2) =>
          match destroy_n v1.small_buf_ (size other) (size v1 - size other) st2 with
          | some (d, st3) =>
            let v2 : socow_vector α := { v1 with small_buf_ := d }
            match hard_clear SMALL_SIZE n tmp1 st3 with
            | .ok (_, st4) =>
              .ok ({ v2 with allocated_ := other.allocated_, size_ := size other }, st4)
            | _ => .stuck
          | none => .stuck
        | .threw (v1, tmp1, st2) =>
          match hard_clear SMALL_SIZE n tmp1 st2 with
          | .ok (_, st3) => .threw (v1, st3)
          | _ => .stuck
        | .stuck => .stuck
      | .threw st1 => .threw (v, st1)
      | .stuck => .stuck

/-- Function `suffix_try_copy_small` (lines 75-82).  Returns `*this` and `backup`; `other` is
only read, before `backup` can change. -/
def suffix_try_copy_small (SMALL_SIZE : Nat) : Nat → socow_vector α → socow_vector α →
    socow_vector α → Nat → St α →
    Res (socow_vector α × socow_vector α × St α) (socow_vector α × socow_vector α × St α)
  | 0, _, _, _, _, _ => .stuck
  | n + 1, v, other, backup, offset, st =>
    match uninitialized_copy_n (data_const other st.heap) offset (size other - offset)
        v.small_buf_ offset SMALL_SIZE st with
    | .ok (d, st1) => .ok ({ v with small_buf_ := d }, backup, st1)
    | .threw st1 =>
      match swap SMALL_SIZE n v backup st1 with
      | .ok (v1, backup1, st2) => .threw (v1, backup1, st2)
      | .threw (v1, backup1, st2) => .threw (v1, backup1, st2)
      | .stuck => .stuck
    | .stuck => .stuck

end

/-! ## The remaining member functions -/

/-- Function `push_back` (lines 235-244). -/
def push_back (SMALL_SIZE : Nat) : Nat → socow_vector α → α → St α →
    Res (socow_vector α × St α) (socow_vector α × St α)
  | 0, _, _, _ => .stuck
  | n + 1, v, value, st =>
    if decide (size v = capacity SMALL_SIZE v st.heap) || sharing v st.heap then
      match ctor SMALL_SIZE v
          (if size v = capacity SMALL_SIZE v st.heap then capacity SMALL_SIZE v st.heap * 2
           else capacity SMALL_SIZE v st.heap) (size v) false st with
      | .ok (tmp, st1) =>
        match push_back SMALL_SIZE n tmp value st1 with
        | .ok (tmp1, st2) =>
          match assign SMALL_SIZE n v tmp1 st2 with
          | .ok (v1, st3) =>
            match hard_clear SMALL_SIZE n tmp1 st3 with
            | .ok (_, st4) => .ok (v1, st4)
            | _ => .stuck
          | .threw (v1, st3) =>
            match hard_clear SMALL_SIZE n tmp1 st3 with
            | .ok (_, st4) => .threw (v1, st4)
            | _ => .stuck
          | .stuck => .stuck
        | .threw (tmp1, st2) =>
          match hard_clear SMALL_SIZE n tmp1 st2 with
          | .ok (_, st3) => .threw (v, st3)
          | _ => .stuck
        | .stuck => .stuck
      | .threw st1 => .threw (v, st1)
      | .stuck => .stuck
    else
      match data SMALL_SIZE n v st with
      | .ok (v1, st1) =>
        match construct_at (data_const v1 st1.heap) (size v1) value
            (capacity SMALL_SIZE v1 st1.heap) st1 with
        | .ok (d, st2) =>
          match put_data v1 d st2 with
          | some (v2, st3) => .ok ({ v2 with size_ := v2.size_ + 1 }, st3)
          | none => .stuck
        | .threw st2 => .threw (v1, st2)
        | .stuck => .stuck
      | .threw e => .threw e
      | .stuck => .stuck

/-- Function `push_back_range` (lines 84-88); `other[i]` is the const `operator[]`. -/
def push_back_range (SMALL_SIZE : Nat) : Nat → socow_vector α → socow_vector α → Nat → Nat →
    St α → Res (socow_vector α × St α) (socow_vector α × St α)
  | 0, _, _, _, _, _ => .stuck
  | n + 1, v, other, i, to_i, st =>
    if i < to_i then
      match (data_const other st.heap)[i]? with
      | some x =>
        match push_back SMALL_SIZE n v x st with
        | .ok (v1, st1) => push_back_range SMALL_SIZE n v1 other (i + 1) to_i st1
        | .threw e => .threw e
        | .stuck => .stuck
      | none => .stuck
    else .ok (v, st)

/-- One `std::swap(data()[i], data()[j])` as written in `insert` and `erase`: two calls of the
non-const `data()`, then the exchange. -/
def swap_elements (SMALL_SIZE : Nat) (n : Nat) (v : socow_vector α) (i j : Nat) (st : St α) :
    Res (socow_vector α × St α) (socow_vector α × St α) :=
  match data SMALL_SIZE n v st with
  | .ok (v1, st1) =>
    match data SMALL_SIZE n v1 st1 with
    | .ok (v2, st2) =>
      match std_swap_within (data_const v2 st2.heap) i j st2 with
      | .ok (d, st3) =>
        match put_data v2 d st3 with
        | some (v3, st4) => .ok (v3, st4)
        | none => .stuck
      | .threw st3 => .threw (v2, st3)
      | .stuck => .stuck
    | .threw e => .threw e
    | .stuck => .stuck
  | .threw e => .threw e
  | .stuck => .stuck

/-- The loop of `insert` (lines 346-348), with loop variable `i`. -/
def insert_loop (SMALL_SIZE : Nat) : Nat → socow_vector α → Nat → Nat → St α →
    Res (socow_vector α × St α) (socow_vector α × St α)
  | 0, _, _, _, _ => .stuck
  | n + 1, v, i, npos, st =>
    if i > npos then
      match swap_elements SMALL_SIZE n v i (i - 1) st with
      | .ok (v1, st1) => insert_loop SMALL_SIZE n v1 (i - 1) npos st1
      | .threw e => .threw e
      | .stuck => .stuck
    else .ok (v, st)

/-- Function `insert` (lines 337-352); `npos` is `pos - begin()`.  Returns the object, the
index the returned iterator points at, and the state. -/
def insert (SMALL_SIZE : Nat) : Nat → socow_vector α → Nat → α → St α →
    Res (socow_vector α × St α) (socow_vector α × Nat × St α)
  | 0, _, _, _, _ => .stuck
  | n + 1, v, npos, value, st =>
    let body : Res (socow_vector α × St α) (socow_vector α × St α) :=
      if sharing v st.heap || decide (size v = capacity SMALL_SIZE v st.heap) then
        match ctor SMALL_SIZE v
            (if size v = capacity SMALL_SIZE v st.heap then capacity SMALL_SIZE v st.heap * 2
             else capacity SMALL_SIZE v st.heap) npos false st with
        | .ok (tmp, st1) =>
          match (push_back SMALL_SIZE n tmp value st1).bind
              (fun r => push_back_range SMALL_SIZE n r.1 v npos (size v) r.2) with
          | .ok (tmp2, st3) =>
            match assign SMALL_SIZE n v tmp2 st3 with
            | .ok (v1, st4) =>
              match hard_clear SMALL_SIZE n tmp2 st4 with
              | .ok (_, st5) => .ok (v1, st5)
              | _ => .stuck
            | .threw (v1, st4) =>
              match hard_clear SMALL_SIZE n tmp2 st4 with
              | .ok (_, st5) => .threw (v1, st5)
              | _ => .stuck
            | .stuck => .stuck
          | .threw (tmp2, st3) =>
            match hard_clear SMALL_SIZE n tmp2 st3 with
            | .ok (_, st4) => .threw (v, st4)
            | _ => .stuck
          | .stuck => .stuck
        | .threw st1 => .threw (v, st1)
        | .stuck => .stuck
      else
        match push_back SMALL_SIZE n v value st with
        | .ok (v1, st1) => insert_loop SMALL_SIZE n v1 (size v1 - 1) npos st1
        | .threw e => .threw e
        | .stuck => .stuck
    match body with
    | .ok (v1, st1) =>
      match data SMALL_SIZE n v1 st1 with
      | .ok (v2, st2) => .ok (v2, npos, st2)
      | .threw e => .threw e
      | .stuck => .stuck
    | .threw e => .threw e
    | .stuck => .stuck

/-- The first loop of `erase` (lines 369-371), with loop variable `i`. -/
def erase_shift_loop (SMALL_SIZE : Nat) : Nat → socow_vector α → Nat → Nat → St α →
    Res (socow_vector α × St α) (socow_vector α × St α)
  | 0, _, _, _, _ => .stuck
  | n + 1, v, i, swap_distance, st =>
    if i < size v then
      match swap_elements SMALL_SIZE n v i (i - swap_distance) st with
      | .ok (v1, st1) => erase_shift_loop SMALL_SIZE n v1 (i + 1) swap_distance st1
      | .threw e => .threw e
      | .stuck => .stuck
    else .ok (v, st)

/-- The second loop of `erase` (lines 372-374), with loop variable `i`. -/
def erase_pop_loop (SMALL_SIZE : Nat) : Nat → socow_vector α → Nat → Nat → St α →
    Res (socow_vector α × St α) (socow_vector α × St α)
  | 0, _, _, _, _ => .stuck
  | n + 1, v, i, swap_distance, st =>
    if i < swap_distance then
      match pop_back SMALL_SIZE n v st with
      | .ok (v1, st1) => erase_pop_loop SMALL_SIZE n v1 (i + 1) swap_distance st1
      | .threw e => .threw e
      | .stuck => .stuck
    else .ok (v, st)

/-- Function `erase(first, last)` (lines 358-379); `first_i` and `last_i` are `first - begin()`
and `last - begin()`.  A range with `last < first` is undefined behaviour.  Returns the
object, the index the returned iterator points at, and the state. -/
def erase (SMALL_SIZE : Nat) : Nat → socow_vector α → Nat → Nat → St α →
    Res (socow_vector α × St α) (socow_vector α × Nat × St α)
  | 0, _, _, _, _ => .stuck
  | n + 1, v, first_i, last_i, st =>
    if last_i < first_i then .stuck
    else
      let swap_distance := last_i - first_i
      let body : Res (socow_vector α × St α) (socow_vector α × St α) :=
        if swap_distance ≠ 0 then
          if sharing v st.heap then
            match ctor SMALL_SIZE v (capacity SMALL_SIZE v st.heap) first_i false st with
            | .ok (tmp, st1) =>
              match push_back_range SMALL_SIZE n tmp v last_i (size v) st1 with
              | .ok (tmp1, st2) =>
                match assign SMALL_SIZE n v tmp1 st2 with
                | .ok (v1, st3) =>
                  match hard_clear SMALL_SIZE n tmp1 st3 with
                  | .ok (_, st4) => .ok (v1, st4)
                  | _ => .stuck
                | .threw (v1, st3) =>
                  match hard_clear SMALL_SIZE n tmp1 st3 with
                  | .ok (_, st4) => .threw (v1, st4)
                  | _ => .stuck
                | .stuck => .stuck
              | .threw (tmp1, st2) =>
                match hard_clear SMALL_SIZE n tmp1 st2 with
                | .ok (_, st3) => .threw (v, st3)
                | _ => .stuck
              | .stuck => .stuck
            | .threw st1 => .threw (v, st1)
            | .stuck => .stuck
          else
            match erase_shift_loop SMALL_SIZE n v last_i swap_distance st with
            | .ok (v1, st1) => erase_pop_loop SMALL_SIZE n v1 0 swap_distance st1
            | .threw e => .threw e
            | .stuck => .stuck
        else .ok (v, st)
      match body with
      | .ok (v1, st1) =>
        match data SMALL_SIZE n v1 st1 with
        | .ok (v2, st2) => .ok (v2, first_i, st2)
        | .threw e => .threw e
        | .stuck => .stuck
      | .threw e => .threw e
      | .stuck => .stuck

/-- Function `erase(pos)` (lines 354-356). -/
def erase_one (SMALL_SIZE : Nat) (n : Nat) (v : socow_vector α) (pos : Nat) (st : St α) :
    Res (socow_vector α × St α) (socow_vector α × Nat × St α) :=
  erase SMALL_SIZE n v pos (pos + 1) st

/-- The block `socow_vector tmp(*this); hard_clear(); suffix_try_copy_small(tmp, tmp);
size_ = tmp.size();` shared by `reserve` (lines 270-273) and `shrink_to_fit` (lines 284-287). -/
def move_to_small (SMALL_SIZE : Nat) (n : Nat) (v : socow_vector α) (st : St α) :
    Res (socow_vector α × St α) (socow_vector α × St α) :=
  match copy_ctor SMALL_SIZE v st with
  | .ok (tmp, st1) =>
    match hard_clear SMALL_SIZE n v st1 with
    | .ok (v1, st2) =>
      match suffix_try_copy_small SMALL_SIZE n v1 tmp tmp 0 st2 with
      | .ok (v2, tmp2, st3) =>
        match hard_clear SMALL_SIZE n tmp2 st3 with
        | .ok (_, st4) => .ok ({ v2 with size_ := size tmp2 }, st4)
        | _ => .stuck
      | .threw (v2, tmp2, st3) =>
        match hard_clear SMALL_SIZE n tmp2 st3 with
        | .ok (_, st4) => .threw (v2, st4)
        | _ => .stuck
      | .stuck => .stuck
    | _ => .stuck
  | .threw st1 => .threw (v, st1)
  | .stuck => .stuck

/-- The largest capacity that a caller may ask `reserve` for.  The source has no such check:
`make_new_buffer` (line 34) computes `sizeof(buffer) + sizeof(T) * capacity` in `size_t` and
hands it to `operator new`; the sum wraps around for a capacity that is large enough, and
`operator new` refuses a block that is too large.  Up to `max_capacity` elements both are
taken to succeed. -/
def max_capacity : Nat := 2 ^ 20

/-- Function `reserve` (lines 267-279). -/
def reserve (SMALL_SIZE : Nat) : Nat → socow_vector α → Nat → St α →
    Res (socow_vector α × St α) (socow_vector α × St α)
  | 0, _, _, _ => .stuck
  | n + 1, v, new_capacity, st =>
    if decide (new_capacity > capacity SMALL_SIZE v st.heap) ||
        (decide (new_capacity > size v) && sharing v st.heap) then
      if new_capacity ≤ SMALL_SIZE then move_to_small SMALL_SIZE n v st
      else
        match ctor SMALL_SIZE v new_capacity (size v) false st with
        | .ok (tmp, st1) =>
          match assign SMALL_SIZE n v tmp st1 with
          | .ok (v1, st2) =>
            match hard_clear SMALL_SIZE n tmp st2 with
            | .ok (_, st3) => .ok (v1, st3)
            | _ => .stuck
          | .threw (v1, st2) =>
            match hard_clear SMALL_SIZE n tmp st2 with
            | .ok (_, st3) => .threw (v1, st3)
            | _ => .stuck
          | .stuck => .stuck
        | .threw st1 => .threw (v, st1)
        | .stuck => .stuck
    else .ok (v, st)

/-- Function `shrink_to_fit` (lines 281-293). -/
def shrink_to_fit (SMALL_SIZE : Nat) : Nat → socow_vector α → St α →
    Res (socow_vector α × St α) (socow_vector α × St α)
  | 0, _, _ => .stuck
  | n + 1, v, st =>
    if v.allocated_ && decide (capacity SMALL_SIZE v st.heap > size v) then
      if size v ≤ SMALL_SIZE then move_to_small SMALL_SIZE n v st
      else
        match ctor SMALL_SIZE v (size v) (size v) false st with
        | .ok (tmp, st1) =>
          match swap SMALL_SIZE n v tmp st1 with
          | .ok (v1, tmp1, st2) =>
            match hard_clear SMALL_SIZE n tmp1 st2 with
            | .ok (_, st3) => .ok (v1, st3)
            | _ => .stuck
          | .threw (v1, tmp1, st2) =>
            match hard_clear SMALL_SIZE n tmp1 st2 with
            | .ok (_, st3) => .threw (v1, st3)
            | _ => .stuck
          | .stuck => .stuck
        | .threw st1 => .threw (v, st1)
        | .stuck => .stuck
    else .ok (v, st)

/-- Function `clear()` (lines 302-304), `noexcept`. -/
def clear (SMALL_SIZE : Nat) : Nat → socow_vector α → St α →
    Res (socow_vector α × St α) (socow_vector α × St α)
  | 0, _, _ => .stuck
  | n + 1, v, st => (clear_bool SMALL_SIZE n true v st).noexcept

/-- The const `operator[]` (lines 196-198). -/
def index_const (v : socow_vector α) (h : Heap α) (index : Nat) : Option α :=
  (data_const v h)[index]?

/-- The const `front` (lines 223-225). -/
def front_const (v : socow_vector α) (h : Heap α) : Option α := (data_const v h)[0]?

/-- The const `back` (lines 231-233); `size() - 1` wraps around on an empty container. -/
def back_const (v : socow_vector α) (h : Heap α) : Option α :=
  if size v = 0 then none else (data_const v h)[size v - 1]?

/-- The element sequence of a container: what `begin() const` to `end() const` ranges over. -/
def elems (v : socow_vector α) (h : Heap α) : List α := (data_const v h).take (size v)

/-! ## Programs over several containers

A `World` is the state of a program that owns the containers `objs`; a container is named by
its position in `objs`.  `Op` lists the public operations, `Op.run` executes one. -/

/-- The state of a client program: the global state and its containers. -/
structure World (α : Type) where
  st : St α
  objs : List (socow_vector α)
deriving DecidableEq

/-- What a `T*` returned by `data()` points at: the inline array of container `obj`, or the
array of the buffer at address `buf`. -/
inductive Addr where
  | small (obj : Nat)
  | heap (buf : Nat)
deriving DecidableEq

/-- The non-const accessors (lines 192-233, 321-327); each of them is a call of the non-const
`data()` followed by pointer arithmetic. -/
inductive Accessor where
  | data
  | index (k : Nat)
  | front
  | back
  | begin_
  | end_
deriving DecidableEq

/-- The public operations of a container `i` of the program. -/
inductive Op (α : Type) where
  | construct
  | copy_construct (src : Nat)
  | destroy (i : Nat)
  | assign (i j : Nat)
  | swap (i j : Nat)
  | push_back (i : Nat) (value : α)
  | pop_back (i : Nat)
  | insert (i pos : Nat) (value : α)
  | erase (i first last : Nat)
  | erase_one (i pos : Nat)
  | clear (i : Nat)
  | clear_bool (i : Nat) (save_capacity : Bool)
  | hard_clear (i : Nat)
  | reserve (i n : Nat)
  | shrink_to_fit (i : Nat)
  | access (i : Nat) (acc : Accessor)
  | write (i k : Nat) (value : α)

/-- Run a member function on container `i`. -/
def World.on (w : World α) (i : Nat)
    (f : socow_vector α → St α → Res (socow_vector α × St α) (socow_vector α × St α)) :
    Res (World α) (World α) :=
  match w.objs[i]? with
  | none => .stuck
  | some v =>
    match f v w.st with
    | .ok (v1, st1) => .ok ⟨st1, w.objs.set i v1⟩
    | .threw (v1, st1) => .threw ⟨st1, w.objs.set i v1⟩
    | .stuck => .stuck

/-- Forget the iterator returned by `insert` and `erase`. -/
def drop_iterator (r : Res (socow_vector α × St α) (socow_vector α × Nat × St α)) :
    Res (socow_vector α × St α) (socow_vector α × St α) :=
  match r with
  | .ok (v, _, st) => .ok (v, st)
  | .threw e => .threw e
  | .stuck => .stuck

/-- The expression `v[k] = value` on a non-const container: the non-const `operator[]`
(lines 192-194), then an assignment to the element it refers to. -/
def write (SMALL_SIZE : Nat) (n : Nat) (v : socow_vector α) (k : Nat) (value : α) (st : St α) :
    Res (socow_vector α × St α) (socow_vector α × St α) :=
  match data SMALL_SIZE n v st with
  | .ok (v1, st1) =>
    if k < (data_const v1 st1.heap).length then
      Res.ofOption (put_data v1 ((data_const v1 st1.heap).set k value) st1)
    else .stuck
  | .threw e => .threw e
  | .stuck => .stuck

/-- Copy assignment `objs[i] = objs[j]` (lines 125-153), with the test `&other == this`. -/
def World.assign (SMALL_SIZE fuel : Nat) (w : World α) (i j : Nat) : Res (World α) (World α) :=
  if i = j then (if i < w.objs.length then .ok w else .stuck)
  else
    match w.objs[j]? with
    | none => .stuck
    | some other => w.on i (fun v st => SocowVector.assign SMALL_SIZE fuel v other st)

/-- The call `objs[i].swap(objs[j])` (lines 155-186), with the test `&other == this`. -/
def World.swap (SMALL_SIZE fuel : Nat) (w : World α) (i j : Nat) : Res (World α) (World α) :=
  if i = j then (if i < w.objs.length then .ok w else .stuck)
  else
    match w.objs[i]?, w.objs[j]? with
    | some v, some other =>
      match SocowVector.swap SMALL_SIZE fuel v other w.st with
      | .ok (v1, other1, st1) => .ok ⟨st1, (w.objs.set i v1).set j other1⟩
      | .threw (v1, other1, st1) => .threw ⟨st1, (w.objs.set i v1).set j other1⟩
      | .stuck => .stuck
    | _, _ => .stuck

/-- Execute one public operation.  A new container is appended to `objs`; a destroyed container
leaves its (empty, inline) storage behind, where it counts as default-constructed.  Iterator
arguments are indices; an iterator outside `[begin(), end()]` is undefined behaviour.  A
`reserve` of more than `max_capacity` elements is not described. -/
def Op.run (SMALL_SIZE fuel : Nat) (w : World α) : Op α → Res (World α) (World α)
  | .construct => .ok ⟨w.st, w.objs ++ [default_ctor]⟩
  | .copy_construct src =>
    match w.objs[src]? with
    | none => .stuck
    | some other =>
      match copy_ctor SMALL_SIZE other w.st with
      | .ok (v, st1) => .ok ⟨st1, w.objs ++ [v]⟩
      | .threw st1 => .threw ⟨st1, w.objs⟩
      | .stuck => .stuck
  | .destroy i => w.on i (SocowVector.hard_clear SMALL_SIZE fuel)
  | .assign i j => w.assign SMALL_SIZE fuel i j
  | .swap i j => w.swap SMALL_SIZE fuel i j
  | .push_back i value => w.on i (fun v st => SocowVector.push_back SMALL_SIZE fuel v value st)
  | .pop_back i => w.on i (SocowVector.pop_back SMALL_SIZE fuel)
  | .insert i pos value =>
    w.on i (fun v st =>
      if pos ≤ v.size_ then drop_iterator (SocowVector.insert SMALL_SIZE fuel v pos value st) else .stuck)
  | .erase i first last =>
    w.on i (fun v st =>
      if first ≤ last ∧ last ≤ v.size_ then drop_iterator (SocowVector.erase SMALL_SIZE fuel v first last st)
      else .stuck)
  | .erase_one i pos =>
    w.on i (fun v st =>
      if pos < v.size_ then drop_iterator (SocowVector.erase_one SMALL_SIZE fuel v pos st) else .stuck)
  | .clear i => w.on i (SocowVector.clear SMALL_SIZE fuel)
  | .clear_bool i save_capacity => w.on i (SocowVector.clear_bool SMALL_SIZE fuel save_capacity)
  | .hard_clear i => w.on i (SocowVector.hard_clear SMALL_SIZE fuel)
  | .reserve i n =>
    w.on i (fun v st =>
      if n ≤ max_capacity then SocowVector.reserve SMALL_SIZE fuel v n st else .stuck)
  | .shrink_to_fit i => w.on i (SocowVector.shrink_to_fit SMALL_SIZE fuel)
  | .access i _ => w.on i (SocowVector.data SMALL_SIZE fuel)
  | .write i k value => w.on i (fun v st => SocowVector.write SMALL_SIZE fuel v k value st)

/-- The iterator returned by `insert` and `erase` on container `i`: the array it points into
(the value of `data()` in the return statement) and its distance from `begin()`; `none` for the
other operations and for a call that does not return. -/
def Op.iterator (SMALL_SIZE fuel : Nat) (w : World α) : Op α → Option (Addr × Nat)
  | .insert i pos value =>
    match w.objs[i]? with
    | some v =>
      if pos ≤ v.size_ then
        match SocowVector.insert SMALL_SIZE fuel v pos value w.st with
        | .ok (v1, npos, _) => some (if !v1.allocated_ then .small i else .heap v1.buf_, npos)
        | _ => none
      else none
    | none => none
  | .erase i first last =>
    match w.objs[i]? with
    | some v =>
      if first ≤ last ∧ last ≤ v.size_ then
        match SocowVector.erase SMALL_SIZE fuel v first last w.st with
        | .ok (v1, npos, _) => some (if !v1.allocated_ then .small i else .heap v1.buf_, npos)
        | _ => none
      else none
    | none => none
  | .erase_one i pos =>
    match w.objs[i]? with
    | some v =>
      if pos < v.size_ then
        match SocowVector.erase_one SMALL_SIZE fuel v pos w.st with
        | .ok (v1, npos, _) => some (if !v1.allocated_ then .small i else .heap v1.buf_, npos)
        | _ => none
      else none
    | none => none
  | _ => none

/-- The empty program: no container, no buffer, an element type that never throws. -/
def World.init : World α := ⟨⟨[], none, 0, 0, 0⟩, []⟩

/-- The operation `op` returns normally and leaves the program in state `w1`: that is its
outcome for every sufficiently large recursion budget. -/
def Op.returns (SMALL_SIZE : Nat) (op : Op α) (w w1 : World α) : Prop :=
  ∃ N, ∀ fuel, N ≤ fuel → op.run SMALL_SIZE fuel w = .ok w1

/-- The operation `op` leaves by an exception, with the program in state `w1`. -/
def Op.throws (SMALL_SIZE : Nat) (op : Op α) (w w1 : World α) : Prop :=
  ∃ N, ∀ fuel, N ≤ fuel → op.run SMALL_SIZE fuel w = .threw w1

/-- The operation `op` returns the iterator `it`. -/
def Op.yields (SMALL_SIZE : Nat) (op : Op α) (w : World α) (it : Addr × Nat) : Prop :=
  ∃ N, ∀ fuel, N ≤ fuel → op.iterator SMALL_SIZE fuel w = some it

/-- The states a program reaches by public operations that return normally. -/
inductive Reachable (SMALL_SIZE : Nat) : World α → Prop where
  | init : Reachable SMALL_SIZE World.init
  | step {w w1 : World α} (op : Op α) :
      Reachable SMALL_SIZE w → op.returns SMALL_SIZE w w1 → Reachable SMALL_SIZE w1

/-! ### Observations on a container of a program -/

/-- Container `i` of the program (a default-constructed one if there is none). -/
def World.obj (w : World α) (i : Nat) : socow_vector α := (w.objs[i]?).getD default_ctor

/-- Value of `objs[i].size()`. -/
def World.size (w : World α) (i : Nat) : Nat := SocowVector.size (w.obj i)

/-- Value of `objs[i].capacity()`. -/
def World.capacity (SMALL_SIZE : Nat) (w : World α) (i : Nat) : Nat :=
  SocowVector.capacity SMALL_SIZE (w.obj i) w.st.heap

/-- The element sequence of `objs[i]`. -/
def World.elems (w : World α) (i : Nat) : List α := SocowVector.elems (w.obj i) w.st.heap

/-- Value of the const `objs[i].data()` (lines 208-213). -/
def World.data (w : World α) (i : Nat) : Addr :=
  if !(w.obj i).allocated_ then .small i else .heap (w.obj i).buf_

/-- Whether `objs[i]` is heap-backed (`allocated_`). -/
def World.allocated (w : World α) (i : Nat) : Bool := (w.obj i).allocated_

/-- The `ref_count_` of the buffer at address `p`. -/
def World.ref_count (w : World α) (p : Nat) : Nat := (w.st.heap.getBuf p).ref_count_

/-- Value of `objs[i].sharing()` (lines 65-67). -/
def World.sharing (w : World α) (i : Nat) : Bool := SocowVector.sharing (w.obj i) w.st.heap

/-! ## Notions used in the statements -/

/-- The next `n` element copy constructions all succeed, for an element type whose throwing
copy construction is `throw_at` and which has seen `copies` copy constructions so far. -/
def passes (throw_at : Option Nat) (copies n : Nat) : Prop :=
  ∀ N, throw_at = some N → ¬ (copies < N ∧ N ≤ copies + n)

/-- A container is well-formed in the heap `h`: an inline container has `size_` constructed
inline elements and `size_ ≤ SMALL_SIZE`; a heap-backed one points at a live buffer with a
positive reference count, more than `SMALL_SIZE` slots and exactly `size_` constructed
elements, and has no constructed inline element. -/
def valid (SMALL_SIZE : Nat) (v : socow_vector α) (h : Heap α) : Prop :=
  if v.allocated_ then
    match h.lookup v.buf_ with
    | some b =>
      v.small_buf_ = [] ∧ 0 < b.ref_count_ ∧ b.data_.length = v.size_ ∧
        v.size_ ≤ b.capacity_ ∧ SMALL_SIZE < b.capacity_
    | none => False
  else v.small_buf_.length = v.size_ ∧ v.size_ ≤ SMALL_SIZE

/-- The heap after `v` has given up its reference: the buffer is destroyed if `v` was its only
owner, and loses one reference otherwise. -/
def release_heap (v : socow_vector α) (h : Heap α) : Heap α :=
  if v.allocated_ then
    match h.lookup v.buf_ with
    | some b =>
      if b.ref_count_ ≤ 1 then h.set v.buf_ none
      else h.set v.buf_ (some ⟨b.capacity_, b.ref_count_ - 1, b.data_⟩)
    | none => h
  else h

/-- Number of elements destroyed when `v` gives up its storage. -/
def release_dtors (v : socow_vector α) (h : Heap α) : Nat :=
  if sharing v h then 0 else v.size_

/-- The heap after one more container references the buffer at `p`. -/
def retain_heap (p : Nat) (h : Heap α) : Heap α :=
  match h.lookup p with
  | some b => h.set p (some ⟨b.capacity_, b.ref_count_ + 1, b.data_⟩)
  | none => h

/-- A container with data members `allocated_ = a` and `buf_ = p` is the only owner of its
array: it is inline, or its buffer has reference count 1. -/
def exclusive (a : Bool) (p : Nat) (h : Heap α) : Prop :=
  a = true → ∃ c d, h.lookup p = some ⟨c, 1, d⟩

/-- The inline elements of such a container after its array has been rewritten in place to
hold `d`. -/
def keep (a : Bool) (sm d : List α) : List α := if a then sm else d

/-- The heap after such a container has rewritten its array in place to hold `d`. -/
def put_heap (a : Bool) (p : Nat) (d : List α) (h : Heap α) : Heap α :=
  if a then h.set p (some ⟨(h.getBuf p).capacity_, (h.getBuf p).ref_count_, d⟩) else h

/-- Whether the container `v` references the buffer at address `p`. -/
def holds (v : socow_vector α) (p : Nat) : Bool := v.allocated_ && decide (v.buf_ = p)

/-- Number of containers of `objs` that reference the buffer at address `p`. -/
def refs (objs : List (socow_vector α)) (p : Nat) : Nat := objs.countP (fun v => holds v p)

/-- Well-formedness of a heap together with the containers of a program: every container is
well-formed, and the reference count of every live buffer is positive and equals the number
of containers that reference it. -/
structure HInv (SMALL_SIZE : Nat) (h : Heap α) (objs : List (socow_vector α)) : Prop where
  valid : ∀ (j : Nat) (u : socow_vector α), objs[j]? = some u → valid SMALL_SIZE u h
  counted : ∀ (p : Nat) (b : buffer α), h.lookup p = some b →
    b.ref_count_ = refs objs p ∧ 0 < b.ref_count_

/-- Well-formedness of a program state whose element type never throws. -/
structure Inv (SMALL_SIZE : Nat) (w : World α) : Prop where
  hinv : HInv SMALL_SIZE w.st.heap w.objs
  nothrow : w.st.throw_at = none

/-- The container `o` reads the same array contents and the same capacity in `h1` as in `h`. -/
def same_view (o : socow_vector α) (h h1 : Heap α) : Prop :=
  (h1.getBuf o.buf_).data_ = (h.getBuf o.buf_).data_ ∧
    (h1.getBuf o.buf_).capacity_ = (h.getBuf o.buf_).capacity_

/-- What an operation on container `i` guarantees about the rest of the program: the new
state is well-formed, no container appears or disappears, and every other container keeps its
data members and reads the same array contents and capacity from its buffer. -/
structure Step (SMALL_SIZE : Nat) (w w1 : World α) (i : Nat) : Prop where
  inv : Inv SMALL_SIZE w1
  length : w1.objs.length = w.objs.length
  frame_obj : ∀ (j : Nat), j ≠ i → w1.objs[j]? = w.objs[j]?
  frame_view : ∀ (j : Nat) (o : socow_vector α), j ≠ i → w.objs[j]? = some o →
    o.allocated_ = true → same_view o w.st.heap w1.st.heap

/-- The conditions under which a public operation is called within its contract on the program
`w`: the containers it names exist, iterators and indices are in range, `pop_back` is not
called on an empty container, a container that grows out of its inline storage has
`SMALL_SIZE ≥ 1` (the doubled capacity of an inline container is `SMALL_SIZE * 2`), and
`reserve` is asked for at most `max_capacity` elements. -/
def Op.pre (SMALL_SIZE : Nat) (w : World α) : Op α → Prop
  | .construct => True
  | .copy_construct src => src < w.objs.length
  | .destroy i => i < w.objs.length
  | .assign i j => i < w.objs.length ∧ j < w.objs.length
  | .swap i j => i < w.objs.length ∧ j < w.objs.length
  | .push_back i _ => i < w.objs.length ∧ (1 ≤ SMALL_SIZE ∨ w.allocated i = true)
  | .pop_back i => i < w.objs.length ∧ w.size i ≠ 0
  | .insert i pos _ =>
    i < w.objs.length ∧ pos ≤ w.size i ∧ (1 ≤ SMALL_SIZE ∨ w.allocated i = true)
  | .erase i first last => i < w.objs.length ∧ first ≤ last ∧ last ≤ w.size i
  | .erase_one i pos => i < w.objs.length ∧ pos < w.size i
  | .clear i => i < w.objs.length
  | .clear_bool i _ => i < w.objs.length
  | .hard_clear i => i < w.objs.length
  | .reserve i n => i < w.objs.length ∧ n ≤ max_capacity
  | .shrink_to_fit i => i < w.objs.length
  | .access i _ => i < w.objs.length
  | .write i k _ => i < w.objs.length ∧ k < w.size i

/-- The container that an operation on a single container works on; `none` for the
constructors and for `swap`, which works on two. -/
def Op.target : Op α → Option Nat
  | .construct => none
  | .copy_construct _ => none
  | .swap _ _ => none
  | .destroy i => some i
  | .assign i _ => some i
  | .push_back i _ => some i
  | .pop_back i => some i
  | .insert i _ _ => some i
  | .erase i _ _ => some i
  | .erase_one i _ => some i
  | .clear i => some i
  | .clear_bool i _ => some i
  | .hard_clear i => some i
  | .reserve i _ => some i
  | .shrink_to_fit i => some i
  | .access i _ => some i
  | .write i _ _ => some i

/-- The container `a` has the data members of `b`, up to the pointer of an inline container,
which is not in use. -/
def same_as (a b : socow_vector α) : Prop :=
  a.size_ = b.size_ ∧ a.allocated_ = b.allocated_ ∧ a.small_buf_ = b.small_buf_ ∧
    (b.allocated_ = true → a.buf_ = b.buf_)

/-- The program `w` continued with an element type whose copy construction number `T`
(counted from the start of the program) throws. -/
def World.arm (w : World α) (T : Nat) : World α :=
  ⟨⟨w.st.heap, some T, w.st.copies, w.st.swaps, w.st.dtors⟩, w.objs⟩

/-- The state of the example program. -/
def demo : World Nat :=
  ⟨⟨[some ⟨2, 2, [5, 6]⟩], none, 4, 0, 1⟩,
    [⟨2, true, 0, []⟩, ⟨2, true, 0, []⟩, ⟨1, false, 0, [9]⟩]⟩

/-- The state of a second example program, with `SMALL_SIZE = 1`: container 0 receives 5,
reserves 3 slots (which moves it to a buffer of capacity 3), and container 1 is a copy of
container 0, so that both share a buffer with spare capacity. -/
def demo_spare : World Nat :=
  ⟨⟨[some ⟨3, 2, [5]⟩], none, 2, 0, 1⟩, [⟨1, true, 0, []⟩, ⟨1, true, 0, []⟩]⟩

/-! ## Heap lemmas -/

theorem Heap.lookup_lt {h : Heap α} {p : Nat} {b : buffer α} (hb : h.lookup p = some b) :
    p < h.length := by
  unfold Heap.lookup at hb
  by_contra hlt
  rw [List.getElem?_eq_none (by omega)] at hb
  simp at hb

theorem Heap.getElem_of_lookup {h : Heap α} {p : Nat} {b : buffer α} (hb : h.lookup p = some b) :
    h[p]? = some (some b) := by
  unfold Heap.lookup at hb
  cases hq : h[p]? with
  | none => simp [hq] at hb
  | some o => cases o with
    | none => simp [hq] at hb
    | some c => simp [hq] at hb; simp [hb]

theorem Heap.getBuf_of_lookup {h : Heap α} {p : Nat} {b : buffer α} (hb : h.lookup p = some b) :
    h.getBuf p = b := by
  simp [Heap.getBuf, hb]

theorem Heap.live_of_lookup {h : Heap α} {p : Nat} {b : buffer α} (hb : h.lookup p = some b) :
    h.live p = true := by
  simp [Heap.live, hb]

theorem Heap.lookup_set_eq {h : Heap α} {p : Nat} (x : Option (buffer α)) (hp : p < h.length) :
    Heap.lookup (h.set p x) p = x := by
  simp [Heap.lookup, List.getElem?_set_self, hp]

theorem Heap.lookup_set_ne {h : Heap α} {p q : Nat} (x : Option (buffer α)) (hne : p ≠ q) :
    Heap.lookup (h.set p x) q = h.lookup q := by
  simp [Heap.lookup, List.getElem?_set_ne hne]

theorem Heap.lookup_append_left {h : Heap α} {p : Nat} (l : Heap α) (hp : p < h.length) :
    Heap.lookup (h ++ l) p = h.lookup p := by
  simp [Heap.lookup, List.getElem?_append_left hp]

theorem Heap.lookup_append_new (h : Heap α) (x : Option (buffer α)) :
    Heap.lookup (h ++ [x]) h.length = x := by
  simp [Heap.lookup]

theorem Heap.lookup_length (h : Heap α) : h.lookup h.length = none := by
  simp [Heap.lookup]

theorem Heap.set_append_new (h : Heap α) (x y : Option (buffer α)) :
    (h ++ [x]).set h.length y = h ++ [y] := by
  simp [List.set_append]

theorem Heap.set_append_left {h : Heap α} {p : Nat} (l : Heap α) (x : Option (buffer α))
    (hp : p < h.length) : (h ++ l).set p x = h.set p x ++ l := by
  simp [List.set_append, hp]


theorem Heap.set_lookup_self {h : Heap α} {p : Nat} {b : buffer α} (hb : h.lookup p = some b) :
    h.set p (some b) = h := by
  apply List.ext_getElem?
  intro i
  by_cases hi : p = i
  · subst hi
    rw [List.getElem?_set_self (Heap.lookup_lt hb), Heap.getElem_of_lookup hb]
  · rw [List.getElem?_set_ne hi]

theorem Heap.set_set (h : Heap α) (p : Nat) (x y : Option (buffer α)) :
    (h.set p x).set p y = h.set p y := List.set_set x y h p

theorem Heap.length_set (h : Heap α) (p : Nat) (x : Option (buffer α)) :
    (h.set p x).length = h.length := List.length_set h p x

theorem Heap.lookup_append_new' {h : Heap α} {n : Nat} (x : Option (buffer α))
    (hl : h.length = n) : Heap.lookup (h ++ [x]) n = x := by
  subst hl; exact Heap.lookup_append_new h x

theorem Heap.set_append_new' {h : Heap α} {n : Nat} (x y : Option (buffer α))
    (hl : h.length = n) : (h ++ [x]).set n y = h ++ [y] := by
  subst hl; exact Heap.set_append_new h x y
/-! ## Element-level primitives

Lemmas about calls are stated for objects and states in constructor form, so that they can be
chained by rewriting. -/

theorem passes_none (c n : Nat) : passes none c n := by
  intro N h; cases h

theorem passes_zero (t : Option Nat) (c : Nat) : passes t c 0 := by
  intro N _ h; omega

theorem passes_add {t : Option Nat} {c n m : Nat} (h : passes t c (n + m)) :
    passes t c n ∧ passes t (c + n) m := by
  constructor
  · intro N hN hc; exact h N hN (by omega)
  · intro N hN hc; exact h N hN (by omega)

theorem passes_mono {t : Option Nat} {c n m : Nat} (h : passes t c n) (hm : m ≤ n) :
    passes t c m := by
  intro N hN hc; exact h N hN (by omega)

theorem charge_copies_ok {n : Nat} {h : Heap α} {t : Option Nat} {cp sw dt : Nat}
    (hp : passes t cp n) :
    charge_copies n (⟨h, t, cp, sw, dt⟩ : St α) = .ok ⟨h, t, cp + n, sw, dt⟩ := by
  unfold charge_copies
  cases t with
  | none => rfl
  | some N =>
    have := hp N rfl
    simp [this]

theorem uninitialized_copy_n_ok {src dst : List α} {src_off n dst_off cap : Nat} {h : Heap α}
    {t : Option Nat} {cp sw dt : Nat}
    (hsrc : src_off + n ≤ src.length) (hdst : dst.length = dst_off) (hcap : dst_off + n ≤ cap)
    (hp : passes t cp n) :
    uninitialized_copy_n src src_off n dst dst_off cap ⟨h, t, cp, sw, dt⟩ =
      .ok (dst ++ (src.drop src_off).take n, ⟨h, t, cp + n, sw, dt⟩) := by
  unfold uninitialized_copy_n
  rw [if_pos ⟨hsrc, hdst, hcap⟩, charge_copies_ok hp]

theorem construct_at_ok {dst : List α} {idx cap : Nat} (value : α) {h : Heap α}
    {t : Option Nat} {cp sw dt : Nat}
    (hdst : dst.length = idx) (hcap : idx < cap) (hp : passes t cp 1) :
    construct_at dst idx value cap ⟨h, t, cp, sw, dt⟩ =
      .ok (dst ++ [value], ⟨h, t, cp + 1, sw, dt⟩) := by
  unfold construct_at
  rw [if_pos ⟨hdst, hcap⟩, charge_copies_ok hp]

theorem std_swap_ok {h : Heap α} {t : Option Nat} {cp sw dt : Nat} (hp : passes t cp 1) :
    std_swap (⟨h, t, cp, sw, dt⟩ : St α) = .ok ⟨h, t, cp + 1, sw + 1, dt + 1⟩ := by
  unfold std_swap
  rw [charge_copies_ok hp]

theorem swap_small_buffers_loop_spec (k : Nat) :
    ∀ (xa xb ya yb : List α) (h : Heap α) (t : Option Nat) (cp sw dt : Nat),
      xa.length = ya.length → k ≤ xb.length → k ≤ yb.length → passes t cp k →
      swap_small_buffers_loop k xa.length (xa ++ xb) (ya ++ yb) ⟨h, t, cp, sw, dt⟩ =
        .ok (xa ++ (yb.take k ++ xb.drop k), ya ++ (xb.take k ++ yb.drop k),
          ⟨h, t, cp + k, sw + k, dt + k⟩) := by
  induction k with
  | zero => intro xa xb ya yb h t cp sw dt _ _ _ _; simp [swap_small_buffers_loop]
  | succ k ih =>
    intro xa xb ya yb h t cp sw dt hlen hx hy hp
    cases xb with
    | nil => simp at hx
    | cons u xb =>
      cases yb with
      | nil => simp at hy
      | cons w yb =>
        simp only [List.length_cons, Nat.add_le_add_iff_right] at hx hy
        have h1 : (xa ++ u :: xb)[xa.length]? = some u := by
          rw [List.getElem?_append_right (le_refl _)]; simp
        have h2 : (ya ++ w :: yb)[xa.length]? = some w := by
          rw [hlen, List.getElem?_append_right (le_refl _)]; simp
        have h3 : (xa ++ u :: xb).set xa.length w = (xa ++ [w]) ++ xb := by simp
        have h4 : (ya ++ w :: yb).set xa.length u = (ya ++ [u]) ++ yb := by rw [hlen]; simp
        have hl : xa.length + 1 = (xa ++ [w]).length := by simp
        have hp1 : passes t cp 1 := passes_mono hp (by omega)
        have hp2 : passes t (cp + 1) k := (passes_add (Nat.add_comm k 1 ▸ hp)).2
        simp only [swap_small_buffers_loop, std_swap_across, h1, h2, h3, h4, std_swap_ok hp1]
        rw [hl, ih (xa ++ [w]) xb (ya ++ [u]) yb h t _ _ _ (by simp [hlen]) hx hy hp2]
        simp [Nat.add_assoc, Nat.add_comm 1 k]

theorem swap_small_buffers_spec (n m p q : Nat) (a b : Bool) (x y : List α) (k : Nat)
    (h : Heap α) (t : Option Nat) (cp sw dt : Nat)
    (hv : k ≤ x.length) (ho : k ≤ y.length) (hp : passes t cp k) :
    swap_small_buffers ⟨n, a, p, x⟩ ⟨m, b, q, y⟩ k ⟨h, t, cp, sw, dt⟩ =
      .ok (⟨n, a, p, y.take k ++ x.drop k⟩, ⟨m, b, q, x.take k ++ y.drop k⟩,
        ⟨h, t, cp + k, sw + k, dt + k⟩) := by
  have := swap_small_buffers_loop_spec k [] x [] y h t cp sw dt rfl hv ho hp
  simp only [List.length_nil, List.nil_append] at this
  simp [swap_small_buffers, this]

/-! ## Reading a container -/

theorem data_const_small (n p : Nat) (d : List α) (h : Heap α) :
    data_const ⟨n, false, p, d⟩ h = d := by
  simp [data_const]

theorem data_const_heap {p : Nat} {h : Heap α} {b : buffer α} (n : Nat) (sm : List α)
    (hb : h.lookup p = some b) : data_const ⟨n, true, p, sm⟩ h = b.data_ := by
  simp [data_const, Heap.getBuf_of_lookup hb]

theorem capacity_small (S n p : Nat) (d : List α) (h : Heap α) :
    capacity S ⟨n, false, p, d⟩ h = S := by
  simp [capacity]

theorem capacity_heap {p : Nat} {h : Heap α} {b : buffer α} (S n : Nat) (sm : List α)
    (hb : h.lookup p = some b) : capacity S ⟨n, true, p, sm⟩ h = b.capacity_ := by
  simp [capacity, Heap.getBuf_of_lookup hb]

theorem sharing_small (n p : Nat) (d : List α) (h : Heap α) :
    sharing ⟨n, false, p, d⟩ h = false := by
  simp [sharing]

theorem sharing_heap {p : Nat} {h : Heap α} {b : buffer α} (n : Nat) (sm : List α)
    (hb : h.lookup p = some b) :
    sharing ⟨n, true, p, sm⟩ h = decide (1 < b.ref_count_) := by
  simp [sharing, Heap.getBuf_of_lookup hb]

theorem data_const_append {v : socow_vector α} {h : Heap α} (l : Heap α)
    (hv : v.allocated_ = true → v.buf_ < h.length) :
    data_const v (h ++ l) = data_const v h := by
  unfold data_const
  cases ha : v.allocated_ with
  | false => simp
  | true => simp [Heap.getBuf, Heap.lookup_append_left l (hv ha)]

/-! ## The private constructor -/

theorem ctor_small {S : Nat} {other : socow_vector α} {new_capacity copy_size : Nat}
    (share_buf : Bool) {h : Heap α} {t : Option Nat} {cp sw dt : Nat}
    (hcap : new_capacity ≤ S)
    (hn : copy_size ≤ (data_const other h).length) (hS : copy_size ≤ S)
    (hp : passes t cp copy_size) :
    ctor S other new_capacity copy_size share_buf ⟨h, t, cp, sw, dt⟩ =
      .ok (⟨copy_size, false, 0, (data_const other h).take copy_size⟩,
        ⟨h, t, cp + copy_size, sw, dt⟩) := by
  unfold ctor
  have h1 : decide (new_capacity > S) = false := by simp; omega
  simp only [h1]
  rw [uninitialized_copy_n_ok]
  · simp
  · simpa using hn
  · rfl
  · simpa using hS
  · exact hp

theorem ctor_share {S : Nat} (n p : Nat) (a : Bool) (sm : List α) {new_capacity : Nat}
    (copy_size : Nat) {h : Heap α} (t : Option Nat) (cp sw dt : Nat) {c r : Nat} {d : List α}
    (hcap : S < new_capacity) (hb : h.lookup p = some ⟨c, r, d⟩) :
    ctor S ⟨n, a, p, sm⟩ new_capacity copy_size true ⟨h, t, cp, sw, dt⟩ =
      .ok (⟨copy_size, true, p, []⟩, ⟨h.set p (some ⟨c, r + 1, d⟩), t, cp, sw, dt⟩) := by
  unfold ctor
  have h1 : decide (new_capacity > S) = true := by simpa using hcap
  simp [h1, add_ref, hb]

theorem ctor_fresh {S : Nat} {other : socow_vector α} {new_capacity copy_size : Nat}
    {h : Heap α} {t : Option Nat} {cp sw dt : Nat} (hcap : S < new_capacity)
    (hn : copy_size ≤ (data_const other h).length) (hle : copy_size ≤ new_capacity)
    (hv : other.allocated_ = true → other.buf_ < h.length)
    (hp : passes t cp copy_size) :
    ctor S other new_capacity copy_size false ⟨h, t, cp, sw, dt⟩ =
      .ok (⟨copy_size, true, h.length, []⟩,
        ⟨h ++ [some ⟨new_capacity, 1, (data_const other h).take copy_size⟩], t,
          cp + copy_size, sw, dt⟩) := by
  unfold ctor
  have h1 : decide (new_capacity > S) = true := by simpa using hcap
  simp only [h1, make_new_buffer, data_const_append _ hv, Bool.not_true, Bool.false_eq_true,
    if_false]
  rw [uninitialized_copy_n_ok]
  · simp [Heap.set_append_new]
  · simpa using hn
  · rfl
  · simpa using hle
  · exact hp

theorem copy_ctor_heap {S : Nat} (n p : Nat) (sm : List α) {h : Heap α} (t : Option Nat)
    (cp sw dt : Nat) {c r : Nat} {d : List α} (hb : h.lookup p = some ⟨c, r, d⟩) (hc : S < c) :
    copy_ctor S ⟨n, true, p, sm⟩ ⟨h, t, cp, sw, dt⟩ =
      .ok (⟨n, true, p, []⟩, ⟨h.set p (some ⟨c, r + 1, d⟩), t, cp, sw, dt⟩) := by
  unfold copy_ctor
  rw [capacity_heap S n sm hb]
  exact ctor_share n p true sm n t cp sw dt hc hb

theorem copy_ctor_small {S : Nat} (n p : Nat) {d : List α} (h : Heap α) {t : Option Nat}
    {cp : Nat} (sw dt : Nat) (hlen : d.length = n) (hn : n ≤ S) (hp : passes t cp n) :
    copy_ctor S ⟨n, false, p, d⟩ ⟨h, t, cp, sw, dt⟩ =
      .ok (⟨n, false, 0, d⟩, ⟨h, t, cp + n, sw, dt⟩) := by
  unfold copy_ctor
  rw [capacity_small, ctor_small true (le_refl _) (by simp [data_const, size, hlen])
    (by simpa [size]) (by simpa [size] using hp)]
  simp [data_const, size, ← hlen]

/-! ## The core: calls that work in place -/

theorem unshare_idle {S fuel : Nat} {v : socow_vector α} {st : St α} (hf : 1 ≤ fuel)
    (hs : sharing v st.heap = false) : unshare S fuel v st = .ok (v, st) := by
  obtain ⟨n, rfl⟩ : ∃ n, fuel = n + 1 := ⟨fuel - 1, by omega⟩
  simp [unshare, hs]

theorem data_idle {S fuel : Nat} {v : socow_vector α} {st : St α} (hf : 2 ≤ fuel)
    (hs : sharing v st.heap = false) : data S fuel v st = .ok (v, st) := by
  obtain ⟨n, rfl⟩ : ∃ n, fuel = n + 1 := ⟨fuel - 1, by omega⟩
  unfold data
  split
  · rfl
  · exact unshare_idle (by omega) hs

theorem data_small {S fuel : Nat} (n p : Nat) (d : List α) (st : St α) (hf : 2 ≤ fuel) :
    data S fuel ⟨n, false, p, d⟩ st = .ok (⟨n, false, p, d⟩, st) :=
  data_idle hf (sharing_small _ _ _ _)

theorem data_heap {S fuel : Nat} (n p : Nat) (sm : List α) {h : Heap α} (t : Option Nat)
    (cp sw dt : Nat) {c : Nat} {d : List α} (hb : h.lookup p = some ⟨c, 1, d⟩)
    (hf : 2 ≤ fuel) :
    data S fuel ⟨n, true, p, sm⟩ ⟨h, t, cp, sw, dt⟩ =
      .ok (⟨n, true, p, sm⟩, ⟨h, t, cp, sw, dt⟩) :=
  data_idle hf (by rw [sharing_heap n sm hb]; simp)

theorem pop_back_small {S fuel : Nat} (k p : Nat) {d : List α} (h : Heap α) (t : Option Nat)
    (cp sw dt : Nat) (hlen : d.length = k + 1) (hf : 3 ≤ fuel) :
    pop_back S fuel ⟨k + 1, false, p, d⟩ ⟨h, t, cp, sw, dt⟩ =
      .ok (⟨k, false, p, d.dropLast⟩, ⟨h, t, cp, sw, dt + 1⟩) := by
  obtain ⟨n, rfl⟩ : ∃ n, fuel = n + 1 := ⟨fuel - 1, by omega⟩
  simp only [pop_back, size, sharing_small]
  rw [data_small _ _ _ _ (by omega)]
  simp [destroy_at, data_const, put_data, size, hlen]

theorem pop_back_heap {S fuel : Nat} (k p : Nat) (sm : List α) {h : Heap α} (t : Option Nat)
    (cp sw dt : Nat) {c : Nat} {d : List α} (hb : h.lookup p = some ⟨c, 1, d⟩)
    (hlen : d.length = k + 1) (hf : 3 ≤ fuel) :
    pop_back S fuel ⟨k + 1, true, p, sm⟩ ⟨h, t, cp, sw, dt⟩ =
      .ok (⟨k, true, p, sm⟩, ⟨h.set p (some ⟨c, 1, d.dropLast⟩), t, cp, sw, dt + 1⟩) := by
  obtain ⟨n, rfl⟩ : ∃ n, fuel = n + 1 := ⟨fuel - 1, by omega⟩
  have hs : sharing (⟨k + 1, true, p, sm⟩ : socow_vector α) h = false := by
    rw [sharing_heap _ _ hb]; simp
  simp only [pop_back, size, hs]
  rw [data_heap _ _ _ _ _ _ _ hb (by omega)]
  simp [destroy_at, data_const, put_data, size, hlen, Heap.getBuf_of_lookup hb, hb]

theorem clear_loop_small {S : Nat} (k : Nat) :
    ∀ (fuel p : Nat) (d : List α) (h : Heap α) (t : Option Nat) (cp sw dt : Nat),
      d.length = k → k + 3 ≤ fuel →
      clear_loop S fuel ⟨k, false, p, d⟩ ⟨h, t, cp, sw, dt⟩ =
        .ok (⟨0, false, p, []⟩, ⟨h, t, cp, sw, dt + k⟩) := by
  induction k with
  | zero =>
    intro fuel p d h t cp sw dt hlen hf
    obtain ⟨n, rfl⟩ : ∃ n, fuel = n + 1 := ⟨fuel - 1, by omega⟩
    have : d = [] := List.length_eq_zero.mp hlen
    simp [clear_loop, size, this]
  | succ k ih =>
    intro fuel p d h t cp sw dt hlen hf
    obtain ⟨n, rfl⟩ : ∃ n, fuel = n + 1 := ⟨fuel - 1, by omega⟩
    simp only [clear_loop, size]
    rw [pop_back_small k p h t cp sw dt hlen (by omega)]
    simp only [Nat.add_one_ne_zero, ne_eq, not_false_eq_true, if_true]
    rw [ih n p d.dropLast h t cp sw (dt + 1) (by simp [hlen]) (by omega)]
    simp [Nat.add_assoc, Nat.add_comm 1 k]

theorem clear_loop_heap {S : Nat} (k : Nat) :
    ∀ (fuel p c : Nat) (sm d : List α) (h : Heap α) (t : Option Nat) (cp sw dt : Nat),
      h.lookup p = some ⟨c, 1, d⟩ → d.length = k → k + 3 ≤ fuel →
      clear_loop S fuel ⟨k, true, p, sm⟩ ⟨h, t, cp, sw, dt⟩ =
        .ok (⟨0, true, p, sm⟩, ⟨h.set p (some ⟨c, 1, []⟩), t, cp, sw, dt + k⟩) := by
  induction k with
  | zero =>
    intro fuel p c sm d h t cp sw dt hb hlen hf
    obtain ⟨n, rfl⟩ : ∃ n, fuel = n + 1 := ⟨fuel - 1, by omega⟩
    have hd : d = [] := List.length_eq_zero.mp hlen
    subst hd
    simp [clear_loop, size, Heap.set_lookup_self hb]
  | succ k ih =>
    intro fuel p c sm d h t cp sw dt hb hlen hf
    obtain ⟨n, rfl⟩ : ∃ n, fuel = n + 1 := ⟨fuel - 1, by omega⟩
    simp only [clear_loop, size]
    rw [pop_back_heap k p sm t cp sw dt hb hlen (by omega)]
    simp only [Nat.add_one_ne_zero, ne_eq, not_false_eq_true, if_true]
    rw [ih n p c sm d.dropLast _ t cp sw (dt + 1) (Heap.lookup_set_eq _ (Heap.lookup_lt hb))
      (by simp [hlen]) (by omega)]
    simp [Nat.add_assoc, Nat.add_comm 1 k, Heap.set_set]

/-! ## The core: releasing a buffer -/

theorem release_ref_shared {S fuel : Nat} (n p : Nat) (a : Bool) (sm : List α) {h : Heap α}
    (t : Option Nat) (cp sw dt : Nat) {c r : Nat} {d : List α}
    (hb : h.lookup p = some ⟨c, r + 2, d⟩) (hf : 1 ≤ fuel) :
    release_ref S fuel ⟨n, a, p, sm⟩ ⟨h, t, cp, sw, dt⟩ =
      .ok (⟨n, false, p, sm⟩, ⟨h.set p (some ⟨c, r + 1, d⟩), t, cp, sw, dt⟩) := by
  obtain ⟨m, rfl⟩ : ∃ m, fuel = m + 1 := ⟨fuel - 1, by omega⟩
  simp [release_ref, hb]

theorem clear_bool_idle {S fuel : Nat} (b : Bool) (v : socow_vector α) (st : St α)
    (hs : sharing v st.heap = false) (hf : 1 ≤ fuel) :
    clear_bool S fuel b v st = clear_loop S (fuel - 1) v st := by
  obtain ⟨m, rfl⟩ : ∃ m, fuel = m + 1 := ⟨fuel - 1, by omega⟩
  simp [clear_bool, hs]

theorem release_ref_last {S fuel : Nat} (p : Nat) (a : Bool) (sm : List α) {h : Heap α}
    (t : Option Nat) (cp sw dt : Nat) {c : Nat} (hb : h.lookup p = some ⟨c, 1, []⟩)
    (hf : 3 ≤ fuel) :
    release_ref S fuel ⟨0, a, p, sm⟩ ⟨h, t, cp, sw, dt⟩ =
      .ok (⟨0, false, p, sm⟩, ⟨h.set p none, t, cp, sw, dt⟩) := by
  obtain ⟨m, rfl⟩ : ∃ m, fuel = m + 1 := ⟨fuel - 1, by omega⟩
  simp only [release_ref, hb]
  rw [clear_bool_idle _ _ _ (sharing_small _ _ _ _) (by omega)]
  obtain ⟨k, rfl⟩ : ∃ k, m = k + 2 := ⟨m - 2, by omega⟩
  simp [clear_loop, size, destroy_buffer, Heap.live, Heap.lookup_set_eq _ (Heap.lookup_lt hb),
    Heap.set_set]

theorem clear_bool_shared {S fuel : Nat} (save_capacity : Bool) (n p : Nat) (sm : List α)
    {h : Heap α} (t : Option Nat) (cp sw dt : Nat) {c r : Nat} {d : List α}
    (hb : h.lookup p = some ⟨c, r + 2, d⟩) (hf : 2 ≤ fuel) :
    clear_bool S fuel save_capacity ⟨n, true, p, sm⟩ ⟨h, t, cp, sw, dt⟩ =
      .ok (if save_capacity then
          (⟨0, true, h.length, sm⟩,
            ⟨h.set p (some ⟨c, r + 1, d⟩) ++ [some ⟨c, 1, []⟩], t, cp, sw, dt⟩)
        else (⟨0, false, p, sm⟩, ⟨h.set p (some ⟨c, r + 1, d⟩), t, cp, sw, dt⟩)) := by
  obtain ⟨m, rfl⟩ : ∃ m, fuel = m + 1 := ⟨fuel - 1, by omega⟩
  have hs : sharing (⟨n, true, p, sm⟩ : socow_vector α) h = true := by
    rw [sharing_heap _ _ hb]; simp
  simp only [clear_bool, hs]
  rw [release_ref_shared n p true sm t cp sw dt hb (by omega)]
  cases save_capacity <;>
    simp [make_new_buffer, capacity, Heap.getBuf, Heap.lookup_set_eq _ (Heap.lookup_lt hb)]

theorem hard_clear_small {S fuel : Nat} (k p : Nat) {d : List α} (h : Heap α) (t : Option Nat)
    (cp sw dt : Nat) (hlen : d.length = k) (hf : k + 5 ≤ fuel) :
    hard_clear S fuel ⟨k, false, p, d⟩ ⟨h, t, cp, sw, dt⟩ =
      .ok (⟨0, false, p, []⟩, ⟨h, t, cp, sw, dt + k⟩) := by
  obtain ⟨m, rfl⟩ : ∃ m, fuel = m + 1 := ⟨fuel - 1, by omega⟩
  simp only [hard_clear]
  rw [clear_bool_idle _ _ _ (sharing_small _ _ _ _) (by omega),
    clear_loop_small k _ p d h t cp sw dt hlen (by omega)]
  simp

theorem hard_clear_shared {S fuel : Nat} (n p : Nat) (sm : List α) {h : Heap α}
    (t : Option Nat) (cp sw dt : Nat) {c r : Nat} {d : List α}
    (hb : h.lookup p = some ⟨c, r + 2, d⟩) (hf : 3 ≤ fuel) :
    hard_clear S fuel ⟨n, true, p, sm⟩ ⟨h, t, cp, sw, dt⟩ =
      .ok (⟨0, false, p, sm⟩, ⟨h.set p (some ⟨c, r + 1, d⟩), t, cp, sw, dt⟩) := by
  obtain ⟨m, rfl⟩ : ∃ m, fuel = m + 1 := ⟨fuel - 1, by omega⟩
  simp only [hard_clear]
  rw [clear_bool_shared false n p sm t cp sw dt hb (by omega)]
  simp

theorem hard_clear_last {S fuel : Nat} (k p : Nat) (sm : List α) {h : Heap α}
    (t : Option Nat) (cp sw dt : Nat) {c : Nat} {d : List α}
    (hb : h.lookup p = some ⟨c, 1, d⟩) (hlen : d.length = k) (hf : k + 5 ≤ fuel) :
    hard_clear S fuel ⟨k, true, p, sm⟩ ⟨h, t, cp, sw, dt⟩ =
      .ok (⟨0, false, p, sm⟩, ⟨h.set p none, t, cp, sw, dt + k⟩) := by
  obtain ⟨m, rfl⟩ : ∃ m, fuel = m + 1 := ⟨fuel - 1, by omega⟩
  have hs : sharing (⟨k, true, p, sm⟩ : socow_vector α) h = false := by
    rw [sharing_heap _ _ hb]; simp
  simp only [hard_clear]
  rw [clear_bool_idle _ _ _ hs (by omega), clear_loop_heap k _ p c sm d h t cp sw dt hb hlen
    (by omega)]
  simp only [if_true]
  rw [release_ref_last p true sm t cp sw (dt + k) (Heap.lookup_set_eq _ (Heap.lookup_lt hb))
    (by omega)]
  simp [Res.noexcept, Heap.set_set]

theorem valid_small {S n p : Nat} {d : List α} {h : Heap α} :
    valid S ⟨n, false, p, d⟩ h ↔ d.length = n ∧ n ≤ S := by
  simp [valid]

theorem valid_heap {S n p : Nat} {sm : List α} {h : Heap α} :
    valid S ⟨n, true, p, sm⟩ h ↔
      ∃ c r d, h.lookup p = some ⟨c, r + 1, d⟩ ∧ sm = [] ∧ d.length = n ∧ n ≤ c ∧ S < c := by
  unfold valid
  simp only [if_true]
  constructor
  · intro hv
    cases hb : h.lookup p with
    | none => simp [hb] at hv
    | some b =>
      obtain ⟨c, r, d⟩ := b
      simp only [hb] at hv
      obtain ⟨h1, h2, h3, h4, h5⟩ := hv
      exact ⟨c, r - 1, d,
        by simp only [Option.some.injEq, buffer.mk.injEq, and_true, true_and]; omega,
        h1, h3, h4, h5⟩
  · rintro ⟨c, r, d, hb, h1, h3, h4, h5⟩
    simp only [hb]
    exact ⟨h1, by omega, h3, h4, h5⟩

/-- The destructor on a well-formed container. -/
theorem hard_clear_spec {S fuel : Nat} {v : socow_vector α} {h : Heap α} (t : Option Nat)
    (cp sw dt : Nat) (hv : valid S v h) (hf : v.size_ + 5 ≤ fuel) :
    hard_clear S fuel v ⟨h, t, cp, sw, dt⟩ =
      .ok (⟨0, false, v.buf_, []⟩,
        ⟨release_heap v h, t, cp, sw, dt + release_dtors v h⟩) := by
  obtain ⟨n, a, p, sm⟩ := v
  cases a with
  | false =>
    rw [valid_small] at hv
    rw [hard_clear_small n p h t cp sw dt hv.1 hf]
    simp [release_heap, release_dtors, sharing]
  | true =>
    rw [valid_heap] at hv
    obtain ⟨c, r, d, hb, rfl, hlen, -, -⟩ := hv
    cases r with
    | zero =>
      rw [hard_clear_last n p [] t cp sw dt hb hlen hf]
      simp [release_heap, release_dtors, sharing, hb, Heap.getBuf_of_lookup hb]
    | succ r =>
      rw [hard_clear_shared n p [] t cp sw dt hb (by omega)]
      simp [release_heap, release_dtors, sharing, hb, Heap.getBuf_of_lookup hb]

/-! ## Copy assignment -/

theorem assign_from_heap {S n : Nat} {v v1 : socow_vector α} {st : St α} {h1 : Heap α}
    {t1 : Option Nat} {cp1 sw1 dt1 : Nat} (k q : Nat) (sm : List α) {c r : Nat} {d : List α}
    (hhc : hard_clear S n v st = .ok (v1, ⟨h1, t1, cp1, sw1, dt1⟩))
    (ho : h1.lookup q = some ⟨c, r, d⟩) :
    assign S (n + 1) v ⟨k, true, q, sm⟩ st =
      .ok (⟨k, true, q, v1.small_buf_⟩, ⟨h1.set q (some ⟨c, r + 1, d⟩), t1, cp1, sw1, dt1⟩) := by
  simp [assign, hhc, add_ref, ho, size]

theorem suffix_try_copy_small_ok {S fuel : Nat} (n p : Nat) (o backup : socow_vector α)
    {h : Heap α} {t : Option Nat} {cp : Nat} (sw dt : Nat)
    (hlen : o.size_ ≤ (data_const o h).length) (hS : o.size_ ≤ S)
    (hp : passes t cp o.size_) (hf : 1 ≤ fuel) :
    suffix_try_copy_small S fuel ⟨n, false, p, []⟩ o backup 0 ⟨h, t, cp, sw, dt⟩ =
      .ok (⟨n, false, p, (data_const o h).take o.size_⟩, backup,
        ⟨h, t, cp + o.size_, sw, dt⟩) := by
  obtain ⟨m, rfl⟩ : ∃ m, fuel = m + 1 := ⟨fuel - 1, by omega⟩
  simp only [suffix_try_copy_small, size, Nat.sub_zero]
  rw [uninitialized_copy_n_ok]
  · simp
  · simpa using hlen
  · rfl
  · simpa using hS
  · exact hp

/-- Copy assignment to a heap-backed container from an inline one. -/
theorem assign_heap_from_small {S fuel : Nat} (n p k q : Nat) {d od : List α} {h : Heap α}
    {t : Option Nat} {cp : Nat} (sw dt : Nat)
    {c r : Nat} (hb : h.lookup p = some ⟨c, r + 1, d⟩) (hc : S < c)
    (hlen : d.length = n) (hnc : n ≤ c) (holen : od.length = k) (hk : k ≤ S)
    (hp : passes t cp k) (hf : n + 6 ≤ fuel) :
    assign S fuel ⟨n, true, p, []⟩ ⟨k, false, q, od⟩ ⟨h, t, cp, sw, dt⟩ =
      .ok (⟨k, false, p, od⟩,
        ⟨release_heap ⟨n, true, p, []⟩ h, t, cp + k, sw,
          dt + release_dtors ⟨n, true, p, ([] : List α)⟩ h⟩) := by
  obtain ⟨m, rfl⟩ : ∃ m, fuel = m + 1 := ⟨fuel - 1, by omega⟩
  have hlt := Heap.lookup_lt hb
  simp only [assign, Bool.false_eq_true, if_false, if_true]
  rw [copy_ctor_heap n p [] t cp sw dt hb hc]
  simp only []
  rw [hard_clear_shared n p [] t cp sw dt (Heap.lookup_set_eq _ hlt) (by omega)]
  simp only []
  rw [suffix_try_copy_small_ok 0 p ⟨k, false, q, od⟩ _ sw dt (by simp [data_const, holen]) hk hp
    (by omega)]
  simp only [Heap.set_set]
  rw [hard_clear_spec t _ sw dt
    (valid_heap.mpr ⟨c, r, d, Heap.lookup_set_eq _ hlt, rfl, hlen, hnc, hc⟩)
    (by simp; omega)]
  simp only [release_heap, release_dtors, sharing, Heap.lookup_set_eq _ hlt, hb,
    Heap.getBuf_of_lookup hb, Heap.getBuf, Heap.set_set, data_const, size, if_true]
  have : od.take k = od := by rw [← holen]; simp
  simp [this]

/-- Copy assignment between inline containers, the target being the shorter one. -/
theorem assign_small_grow {S fuel : Nat} (n p k q : Nat) {d od : List α} (h : Heap α)
    {t : Option Nat} {cp : Nat} (sw dt : Nat)
    (hlen : d.length = n) (holen : od.length = k) (hnk : n < k) (hk : k ≤ S)
    (hp : passes t cp (k + n)) (hf : n + 6 ≤ fuel) :
    assign S fuel ⟨n, false, p, d⟩ ⟨k, false, q, od⟩ ⟨h, t, cp, sw, dt⟩ =
      .ok (⟨k, false, p, od⟩, ⟨h, t, cp + k + n, sw + n, dt + n + n⟩) := by
  obtain ⟨m, rfl⟩ : ∃ m, fuel = m + 1 := ⟨fuel - 1, by omega⟩
  have hp3 := passes_add hp
  have hp2 := passes_add (show passes t cp (n + (k - n)) by
    rw [Nat.add_sub_cancel' hnk.le]; exact hp3.1)
  have hp4 : passes t (cp + n + (k - n)) n := by
    rw [Nat.add_assoc, Nat.add_sub_cancel' hnk.le]; exact hp3.2
  simp only [assign, Bool.false_eq_true, if_false, size, hnk, if_true, capacity_small]
  rw [ctor_small false (le_refl _) (by simp [data_const, holen]; omega) (by omega) hp2.1]
  simp only [data_const_small]
  rw [uninitialized_copy_n_ok (by omega) hlen (by omega) hp2.2]
  simp only []
  rw [swap_small_buffers_spec _ _ _ _ _ _ _ _ n h t _ sw dt (by simp [hlen])
    (by simp [holen]; omega) hp4]
  simp only []
  rw [hard_clear_small n 0 h t _ _ _ (by simp [hlen, holen]) (by omega)]
  have e1 : List.take n (List.take n od) ++ List.drop n (d ++ List.take (k - n) (List.drop n od))
      = od := by
    have e0 : List.take (k - n) (List.drop n od) = List.drop n od :=
      List.take_of_length_le (by simp [holen])
    rw [List.take_take, Nat.min_self, List.drop_left' hlen, e0, List.take_append_drop]
  simp only [e1]
  simp only [Res.ok.injEq, Prod.mk.injEq, St.mk.injEq, true_and, and_true]
  omega

/-- Copy assignment between inline containers, the target being at least as long. -/
theorem assign_small_shrink {S fuel : Nat} (n p k q : Nat) {d od : List α} (h : Heap α)
    {t : Option Nat} {cp : Nat} (sw dt : Nat)
    (hlen : d.length = n) (holen : od.length = k) (hnk : k ≤ n) (hn : n ≤ S)
    (hp : passes t cp (k + k)) (hf : n + 6 ≤ fuel) :
    assign S fuel ⟨n, false, p, d⟩ ⟨k, false, q, od⟩ ⟨h, t, cp, sw, dt⟩ =
      .ok (⟨k, false, p, od⟩, ⟨h, t, cp + k + k, sw + k, dt + n + k⟩) := by
  obtain ⟨m, rfl⟩ : ∃ m, fuel = m + 1 := ⟨fuel - 1, by omega⟩
  have hnk' : ¬ n < k := by omega
  have hp2 := passes_add hp
  simp only [assign, Bool.false_eq_true, if_false, size, hnk']
  rw [copy_ctor_small k q h sw dt holen (by omega) hp2.1]
  simp only []
  rw [swap_small_buffers_spec _ _ _ _ _ _ _ _ k h t _ sw dt (by omega) (by omega) hp2.2]
  simp only [destroy_n]
  have e1 : (List.take k od ++ List.drop k d) = od ++ d.drop k := by
    rw [List.take_of_length_le (by omega)]
  have e2 : k + (n - k) = (od ++ d.drop k).length := by simp [hlen, holen]
  simp only [e1, e2, if_true]
  rw [hard_clear_small k 0 h t _ _ _ (by simp [hlen, holen]; omega) (by omega)]
  simp only [← holen, List.take_left']
  simp only [holen, Res.ok.injEq, Prod.mk.injEq, St.mk.injEq, true_and, and_true]
  omega

theorem retain_heap_eq {h : Heap α} {p c r : Nat} {d : List α}
    (hb : h.lookup p = some ⟨c, r, d⟩) : retain_heap p h = h.set p (some ⟨c, r + 1, d⟩) := by
  simp [retain_heap, hb]

theorem release_heap_small (n p : Nat) (d : List α) (h : Heap α) :
    release_heap ⟨n, false, p, d⟩ h = h := by
  simp [release_heap]

theorem release_heap_shared {h : Heap α} {p c r : Nat} {d : List α} (n : Nat) (sm : List α)
    (hb : h.lookup p = some ⟨c, r + 2, d⟩) :
    release_heap ⟨n, true, p, sm⟩ h = h.set p (some ⟨c, r + 1, d⟩) := by
  simp [release_heap, hb]

theorem release_heap_last {h : Heap α} {p c : Nat} {d : List α} (n : Nat) (sm : List α)
    (hb : h.lookup p = some ⟨c, 1, d⟩) :
    release_heap ⟨n, true, p, sm⟩ h = h.set p none := by
  simp [release_heap, hb]

theorem release_dtors_small (n p : Nat) (d : List α) (h : Heap α) :
    release_dtors ⟨n, false, p, d⟩ h = n := by
  simp [release_dtors, sharing]

theorem release_dtors_shared {h : Heap α} {p c r : Nat} {d : List α} (n : Nat) (sm : List α)
    (hb : h.lookup p = some ⟨c, r + 2, d⟩) :
    release_dtors ⟨n, true, p, sm⟩ h = 0 := by
  simp [release_dtors, sharing_heap n sm hb]

theorem release_dtors_last {h : Heap α} {p c : Nat} {d : List α} (n : Nat) (sm : List α)
    (hb : h.lookup p = some ⟨c, 1, d⟩) :
    release_dtors ⟨n, true, p, sm⟩ h = n := by
  simp [release_dtors, sharing_heap n sm hb]

/-- After `v` has given up its reference, the buffer of another well-formed container `o` is
still alive, provided the buffer is shared when `v` and `o` point at the same one. -/
theorem lookup_release_heap {S : Nat} {v o : socow_vector α} {h : Heap α}
    (hv : valid S v h) (ho : valid S o h) (hoa : o.allocated_ = true)
    (hsh : v.allocated_ = true → v.buf_ = o.buf_ → sharing v h = true) :
    ∃ c r d, (release_heap v h).lookup o.buf_ = some ⟨c, r + 1, d⟩ ∧
      c = (h.getBuf o.buf_).capacity_ ∧ d = (h.getBuf o.buf_).data_ ∧
      r + 1 = (h.getBuf o.buf_).ref_count_ - (if v.allocated_ ∧ v.buf_ = o.buf_ then 1 else 0) := by
  obtain ⟨n, a, p, sm⟩ := v
  obtain ⟨k, oa, q, osm⟩ := o
  simp only at hoa hsh
  subst hoa
  rw [valid_heap] at ho
  obtain ⟨c, r, d, hb, -, -, -, -⟩ := ho
  cases a with
  | false =>
    exact ⟨c, r, d, by simp [release_heap, hb], by simp [Heap.getBuf_of_lookup hb]⟩
  | true =>
    rw [valid_heap] at hv
    obtain ⟨c', r', d', hb', -, -, -, -⟩ := hv
    by_cases hpq : p = q
    · subst hpq
      have hs := hsh rfl rfl
      rw [sharing_heap n sm hb] at hs
      simp only [decide_eq_true_eq] at hs
      obtain ⟨r2, rfl⟩ : ∃ r2, r = r2 + 1 := ⟨r - 1, by omega⟩
      refine ⟨c, r2, d, ?_, ?_⟩
      · rw [release_heap_shared n sm hb, Heap.lookup_set_eq _ (Heap.lookup_lt hb)]
      · simp [Heap.getBuf_of_lookup hb]
    · refine ⟨c, r, d, ?_, ?_⟩
      · cases r' with
        | zero => rw [release_heap_last n sm hb', Heap.lookup_set_ne _ hpq, hb]
        | succ r' => rw [release_heap_shared n sm hb', Heap.lookup_set_ne _ hpq, hb]
      · simp [Heap.getBuf_of_lookup hb, hpq]

/-- Copy assignment `v = o` between two different well-formed containers: `v` gives up its
storage and then either shares the buffer of `o` or holds a copy of the inline elements of
`o`. -/
theorem assign_spec {S fuel : Nat} {v o : socow_vector α} {h : Heap α} {t : Option Nat}
    {cp : Nat} (sw dt : Nat) (hv : valid S v h) (ho : valid S o h)
    (hsh : v.allocated_ = true → o.allocated_ = true → v.buf_ = o.buf_ → sharing v h = true)
    (hp : o.allocated_ = false →
      passes t cp (o.size_ + (if v.allocated_ then 0 else min v.size_ o.size_)))
    (hf : v.size_ + 6 ≤ fuel) :
    assign S fuel v o ⟨h, t, cp, sw, dt⟩ =
      .ok (if o.allocated_ then
          (⟨o.size_, true, o.buf_, []⟩,
            ⟨retain_heap o.buf_ (release_heap v h), t, cp, sw, dt + release_dtors v h⟩)
        else
          (⟨o.size_, false, v.buf_, o.small_buf_⟩,
            ⟨release_heap v h, t,
              cp + o.size_ + (if v.allocated_ then 0 else min v.size_ o.size_),
              sw + (if v.allocated_ then 0 else min v.size_ o.size_),
              dt + release_dtors v h + (if v.allocated_ then 0 else min v.size_ o.size_)⟩)) := by
  obtain ⟨m, rfl⟩ : ∃ m, fuel = m + 1 := ⟨fuel - 1, by omega⟩
  cases hoa : o.allocated_ with
  | true =>
    obtain ⟨c, r, d, hb, -⟩ := lookup_release_heap hv ho hoa (fun h1 h2 => hsh h1 hoa h2)
    obtain ⟨k, oa, q, osm⟩ := o
    simp only at hoa hb
    subst hoa
    rw [assign_from_heap k q osm (hard_clear_spec t cp sw dt hv (by omega)) hb,
      retain_heap_eq hb]
    simp
  | false =>
    obtain ⟨k, oa, q, od⟩ := o
    simp only at hoa hp
    subst hoa
    rw [valid_small] at ho
    obtain ⟨n, a, p, sm⟩ := v
    simp only at hf
    cases a with
    | true =>
      have hv' := hv
      rw [valid_heap] at hv'
      obtain ⟨c, r, d, hb, rfl, hlen, hnc, hc⟩ := hv'
      rw [assign_heap_from_small n p k q sw dt hb hc hlen hnc ho.1 ho.2 (by simpa using hp rfl)
        hf]
      simp
    | false =>
      rw [valid_small] at hv
      by_cases hnk : n < k
      · have hp' := hp rfl
        simp only [Bool.false_eq_true, if_false, Nat.min_eq_left hnk.le] at hp'
        rw [assign_small_grow n p k q h sw dt hv.1 ho.1 hnk ho.2 hp' hf]
        simp [release_heap_small, release_dtors_small, Nat.min_eq_left hnk.le]
      · have hp' := hp rfl
        simp only [Bool.false_eq_true, if_false, Nat.min_eq_right (Nat.le_of_not_lt hnk)] at hp'
        rw [assign_small_shrink n p k q h sw dt hv.1 ho.1 (by omega) hv.2 hp' hf]
        simp [release_heap_small, release_dtors_small, Nat.min_eq_right (Nat.le_of_not_lt hnk)]

/-! ## Swap -/

theorem swap_redirect {S n : Nat} {v o : socow_vector α} {st : St α} {v1 o1 : socow_vector α}
    {st1 : St α} (hgt : o.size_ < v.size_) (h : swap S n o v st = .ok (o1, v1, st1)) :
    swap S (n + 1) v o st = .ok (v1, o1, st1) := by
  simp [swap, size, hgt, h]

theorem swap_small_small_le {S fuel : Nat} (n p k q : Nat) {d od : List α} (h : Heap α)
    {t : Option Nat} {cp : Nat} (sw dt : Nat) (hlen : d.length = n) (holen : od.length = k)
    (hnk : n ≤ k) (hk : k ≤ S) (hp : passes t cp ((k - n) + n)) (hf : 1 ≤ fuel) :
    swap S fuel ⟨n, false, p, d⟩ ⟨k, false, q, od⟩ ⟨h, t, cp, sw, dt⟩ =
      .ok (⟨k, false, p, od⟩, ⟨n, false, q, d⟩,
        ⟨h, t, cp + (k - n) + n, sw + n, dt + n + (k - n)⟩) := by
  obtain ⟨m, rfl⟩ : ∃ m, fuel = m + 1 := ⟨fuel - 1, by omega⟩
  have hgt : ¬ n > k := by omega
  have hp2 := passes_add hp
  simp only [swap, size, hgt, if_false, Bool.not_false, Bool.and_self, if_true]
  rw [uninitialized_copy_n_ok (by omega) hlen (by omega) hp2.1]
  simp only []
  have e0 : List.take (k - n) (List.drop n od) = List.drop n od :=
    List.take_of_length_le (by simp [holen])
  rw [e0, swap_small_buffers_spec _ _ _ _ _ _ _ _ n h t _ sw dt (by simp [hlen])
    (by simp [holen]; omega) hp2.2]
  have e1 : List.take n od ++ List.drop n (d ++ List.drop n od) = od := by
    rw [List.drop_left' hlen, List.take_append_drop]
  have e2 : List.take n (d ++ List.drop n od) = d := List.take_left' hlen
  have e3 : n + (k - n) = (d ++ List.drop n od).length := by simp [hlen, holen]
  simp only [destroy_n, e1, e2, e3, if_true, List.take_left' hlen]

theorem swap_small_small {S fuel : Nat} (n p k q : Nat) {d od : List α} (h : Heap α)
    {t : Option Nat} {cp : Nat} (sw dt : Nat) (hlen : d.length = n) (holen : od.length = k)
    (hn : n ≤ S) (hk : k ≤ S) (hp : passes t cp (max n k)) (hf : 2 ≤ fuel) :
    swap S fuel ⟨n, false, p, d⟩ ⟨k, false, q, od⟩ ⟨h, t, cp, sw, dt⟩ =
      .ok (⟨k, false, p, od⟩, ⟨n, false, q, d⟩,
        ⟨h, t, cp + max n k, sw + min n k, dt + max n k⟩) := by
  by_cases hnk : n ≤ k
  · rw [swap_small_small_le n p k q h sw dt hlen holen hnk hk
      (by rw [Nat.sub_add_cancel hnk]; rwa [Nat.max_eq_right hnk] at hp) (by omega)]
    simp only [Res.ok.injEq, Prod.mk.injEq, St.mk.injEq, true_and, and_true]
    omega
  · have hkn : k ≤ n := by omega
    obtain ⟨m, rfl⟩ : ∃ m, fuel = m + 1 := ⟨fuel - 1, by omega⟩
    rw [swap_redirect (by simp only []; omega)
      (swap_small_small_le k q n p h sw dt holen hlen hkn hn
        (by rw [Nat.sub_add_cancel hkn]; rwa [Nat.max_eq_left hkn] at hp) (by omega))]
    simp only [Res.ok.injEq, Prod.mk.injEq, St.mk.injEq, true_and, and_true]
    omega

theorem swap_heap_heap_le {S fuel : Nat} (n p k q : Nat) {h : Heap α} (t : Option Nat)
    (cp sw dt : Nat) {ca ra cb rb : Nat} {da db : List α}
    (ha : h.lookup p = some ⟨ca, ra + 1, da⟩) (hb : h.lookup q = some ⟨cb, rb + 1, db⟩)
    (hSb : S < cb) (hnk : n ≤ k) (hf : 5 ≤ fuel) :
    swap S fuel ⟨n, true, p, []⟩ ⟨k, true, q, []⟩ ⟨h, t, cp, sw, dt⟩ =
      .ok (⟨k, true, q, []⟩, ⟨n, true, p, []⟩, ⟨h, t, cp, sw, dt⟩) := by
  obtain ⟨m, rfl⟩ : ∃ m, fuel = m + 1 := ⟨fuel - 1, by omega⟩
  obtain ⟨m, rfl⟩ : ∃ m', m = m' + 1 := ⟨m - 1, by omega⟩
  have hgt : ¬ n > k := by omega
  have hp := Heap.lookup_lt ha
  have hq := Heap.lookup_lt hb
  simp only [swap, size, hgt, if_false, Bool.not_true, Bool.and_self, Bool.false_eq_true]
  rw [copy_ctor_heap k q [] t cp sw dt hb hSb]
  simp only []
  rw [assign_from_heap n p []
    (hard_clear_shared k q [] t cp sw dt (Heap.lookup_set_eq _ hq) (by omega))
    (show Heap.lookup ((h.set q (some ⟨cb, rb + 1 + 1, db⟩)).set q (some ⟨cb, rb + 1, db⟩)) p
      = some ⟨ca, ra + 1, da⟩ by rw [Heap.set_set, Heap.set_lookup_self hb, ha])]
  simp only [Heap.set_set, Heap.set_lookup_self hb]
  rw [assign_from_heap k q []
    (hard_clear_shared n p [] t cp sw dt (Heap.lookup_set_eq _ hp) (by omega))
    (show Heap.lookup ((h.set p (some ⟨ca, ra + 1 + 1, da⟩)).set p (some ⟨ca, ra + 1, da⟩)) q
      = some ⟨cb, rb + 1, db⟩ by rw [Heap.set_set, Heap.set_lookup_self ha, hb])]
  simp only [Heap.set_set, Heap.set_lookup_self ha]
  rw [hard_clear_shared k q [] t cp sw dt (Heap.lookup_set_eq _ hq) (by omega)]
  simp only [Heap.set_set, Heap.set_lookup_self hb]

/-- Swapping two heap-backed containers exchanges the buffer pointers and the sizes and leaves
the heap and the element counters as they were. -/
theorem swap_heap_heap {S fuel : Nat} (n p k q : Nat) {h : Heap α} (t : Option Nat)
    (cp sw dt : Nat) {ca ra cb rb : Nat} {da db : List α}
    (ha : h.lookup p = some ⟨ca, ra + 1, da⟩) (hb : h.lookup q = some ⟨cb, rb + 1, db⟩)
    (hSa : S < ca) (hSb : S < cb) (hf : 6 ≤ fuel) :
    swap S fuel ⟨n, true, p, []⟩ ⟨k, true, q, []⟩ ⟨h, t, cp, sw, dt⟩ =
      .ok (⟨k, true, q, []⟩, ⟨n, true, p, []⟩, ⟨h, t, cp, sw, dt⟩) := by
  by_cases hnk : n ≤ k
  · exact swap_heap_heap_le n p k q t cp sw dt ha hb hSb hnk (by omega)
  · obtain ⟨m, rfl⟩ : ∃ m, fuel = m + 1 := ⟨fuel - 1, by omega⟩
    exact swap_redirect (by simp only []; omega)
      (swap_heap_heap_le k q n p t cp sw dt hb ha hSa (by omega) (by omega))

theorem swap_small_heap_le {S fuel : Nat} (n p k q : Nat) {d : List α} {h : Heap α}
    {t : Option Nat} {cp : Nat} (sw dt : Nat) {c r : Nat} {bd : List α}
    (hb : h.lookup q = some ⟨c, r + 1, bd⟩) (hc : S < c) (hblen : bd.length = k) (hkc : k ≤ c)
    (hlen : d.length = n) (hn : n ≤ S) (hnk : n ≤ k) (hp : passes t cp n)
    (hf : k + 7 ≤ fuel) :
    swap S fuel ⟨n, false, p, d⟩ ⟨k, true, q, []⟩ ⟨h, t, cp, sw, dt⟩ =
      .ok (⟨k, true, q, []⟩, ⟨n, false, q, d⟩, ⟨h, t, cp + n, sw, dt + n⟩) := by
  obtain ⟨m, rfl⟩ : ∃ m, fuel = m + 1 := ⟨fuel - 1, by omega⟩
  obtain ⟨m, rfl⟩ : ∃ m', m = m' + 1 := ⟨m - 1, by omega⟩
  have hgt : ¬ n > k := by omega
  have hq := Heap.lookup_lt hb
  simp only [swap, size, hgt, if_false, Bool.not_true, Bool.and_false, Bool.false_eq_true]
  rw [copy_ctor_heap k q [] t cp sw dt hb hc]
  simp only []
  rw [assign_heap_from_small k q n p sw dt (Heap.lookup_set_eq _ hq) hc hblen hkc hlen hn hp
    (by omega)]
  simp only [release_heap_shared k [] (Heap.lookup_set_eq _ hq),
    release_dtors_shared k [] (Heap.lookup_set_eq _ hq), Heap.set_set,
    Heap.set_lookup_self hb]
  rw [assign_from_heap k q [] (hard_clear_small n p h t _ sw _ hlen (by omega)) hb]
  simp only []
  rw [hard_clear_shared k q [] t _ sw _ (Heap.lookup_set_eq _ hq) (by omega)]
  simp only [Heap.set_set, Heap.set_lookup_self hb, Nat.add_zero]

theorem swap_heap_small_le {S fuel : Nat} (n p k q : Nat) {od : List α} {h : Heap α}
    {t : Option Nat} {cp : Nat} (sw dt : Nat) {c r : Nat} {ad : List α}
    (ha : h.lookup p = some ⟨c, r + 1, ad⟩) (hc : S < c) (halen : ad.length = n)
    (hnc : n ≤ c) (holen : od.length = k) (hk : k ≤ S) (hnk : n ≤ k)
    (hp : passes t cp (k + k)) (hf : k + 7 ≤ fuel) :
    swap S fuel ⟨n, true, p, []⟩ ⟨k, false, q, od⟩ ⟨h, t, cp, sw, dt⟩ =
      .ok (⟨k, false, p, od⟩, ⟨n, true, p, []⟩, ⟨h, t, cp + k + k, sw, dt + k + k⟩) := by
  obtain ⟨m, rfl⟩ : ∃ m, fuel = m + 1 := ⟨fuel - 1, by omega⟩
  obtain ⟨m, rfl⟩ : ∃ m', m = m' + 1 := ⟨m - 1, by omega⟩
  have hgt : ¬ n > k := by omega
  have hp' := Heap.lookup_lt ha
  have hp2 := passes_add hp
  simp only [swap, size, hgt, if_false, Bool.not_true, Bool.false_and, Bool.false_eq_true]
  rw [copy_ctor_small k q h sw dt holen hk hp2.1]
  simp only []
  rw [assign_from_heap n p [] (hard_clear_small k q h t _ sw _ holen (by omega)) ha]
  simp only []
  rw [assign_heap_from_small n p k 0 sw _ (Heap.lookup_set_eq _ hp') hc halen hnc holen hk
    hp2.2 (by omega)]
  simp only [release_heap_shared n [] (Heap.lookup_set_eq _ hp'),
    release_dtors_shared n [] (Heap.lookup_set_eq _ hp'), Heap.set_set,
    Heap.set_lookup_self ha]
  rw [hard_clear_small k 0 h t _ sw _ holen (by omega)]
  simp only [Nat.add_zero]

/-- Swapping an inline container with a heap-backed one. -/
theorem swap_small_heap {S fuel : Nat} (n p k q : Nat) {d : List α} {h : Heap α}
    {t : Option Nat} {cp : Nat} (sw dt : Nat) {c r : Nat} {bd : List α}
    (hb : h.lookup q = some ⟨c, r + 1, bd⟩) (hc : S < c) (hblen : bd.length = k) (hkc : k ≤ c)
    (hlen : d.length = n) (hn : n ≤ S) (hp : passes t cp (n + n)) (hf : n + k + 8 ≤ fuel) :
    swap S fuel ⟨n, false, p, d⟩ ⟨k, true, q, []⟩ ⟨h, t, cp, sw, dt⟩ =
      .ok (⟨k, true, q, []⟩, ⟨n, false, q, d⟩,
        ⟨h, t, cp + (if n ≤ k then n else n + n), sw, dt + (if n ≤ k then n else n + n)⟩) := by
  by_cases hnk : n ≤ k
  · rw [swap_small_heap_le n p k q sw dt hb hc hblen hkc hlen hn hnk (passes_mono hp (by omega))
      (by omega)]
    simp [hnk]
  · obtain ⟨m, rfl⟩ : ∃ m, fuel = m + 1 := ⟨fuel - 1, by omega⟩
    rw [swap_redirect (by simp only []; omega)
      (swap_heap_small_le k q n p sw dt hb hc hblen hkc hlen hn (by omega) hp (by omega))]
    simp [hnk, Nat.add_assoc]

/-- Swapping a heap-backed container with an inline one. -/
theorem swap_heap_small {S fuel : Nat} (n p k q : Nat) {od : List α} {h : Heap α}
    {t : Option Nat} {cp : Nat} (sw dt : Nat) {c r : Nat} {ad : List α}
    (ha : h.lookup p = some ⟨c, r + 1, ad⟩) (hc : S < c) (halen : ad.length = n)
    (hnc : n ≤ c) (holen : od.length = k) (hk : k ≤ S)
    (hp : passes t cp (k + k)) (hf : n + k + 8 ≤ fuel) :
    swap S fuel ⟨n, true, p, []⟩ ⟨k, false, q, od⟩ ⟨h, t, cp, sw, dt⟩ =
      .ok (⟨k, false, p, od⟩, ⟨n, true, p, []⟩,
        ⟨h, t, cp + (if n ≤ k then k + k else k), sw,
          dt + (if n ≤ k then k + k else k)⟩) := by
  by_cases hnk : n ≤ k
  · rw [swap_heap_small_le n p k q sw dt ha hc halen hnc holen hk hnk hp (by omega)]
    simp [hnk, Nat.add_assoc]
  · obtain ⟨m, rfl⟩ : ∃ m, fuel = m + 1 := ⟨fuel - 1, by omega⟩
    rw [swap_redirect (by simp only []; omega)
      (swap_small_heap_le k q n p sw dt ha hc halen hnc holen hk (by omega)
        (passes_mono hp (by omega)) (by omega))]
    simp [hnk]

/-! ## Privatisation -/

theorem unshare_shared {S fuel : Nat} (n p : Nat) {h : Heap α} {t : Option Nat} {cp : Nat}
    (sw dt : Nat) {c r : Nat} {d : List α} (hb : h.lookup p = some ⟨c, r + 2, d⟩) (hc : S < c)
    (hlen : d.length = n) (hnc : n ≤ c) (hp : passes t cp n) (hf : 7 ≤ fuel) :
    unshare S fuel ⟨n, true, p, []⟩ ⟨h, t, cp, sw, dt⟩ =
      .ok (⟨n, true, h.length, []⟩,
        ⟨h.set p (some ⟨c, r + 1, d⟩) ++ [some ⟨c, 1, d⟩], t, cp + n, sw, dt⟩) := by
  obtain ⟨m, rfl⟩ : ∃ m, fuel = m + 1 := ⟨fuel - 1, by omega⟩
  have hlt := Heap.lookup_lt hb
  have hs : sharing (⟨n, true, p, []⟩ : socow_vector α) h = true := by
    rw [sharing_heap _ _ hb]; simp
  simp only [unshare, hs, size, capacity_heap S n [] hb, Bool.not_true, Bool.false_eq_true,
    if_false]
  rw [ctor_fresh hc (by rw [data_const_heap n [] hb]; simp [hlen]) hnc (fun _ => hlt) hp]
  simp only [data_const_heap n [] hb]
  have e : d.take n = d := by rw [← hlen]; simp
  rw [e, swap_heap_heap n p n h.length t _ sw dt
    (show Heap.lookup (h ++ [some ⟨c, 1, d⟩]) p = some ⟨c, (r + 1) + 1, d⟩ by
      rw [Heap.lookup_append_left _ hlt, hb])
    (show Heap.lookup (h ++ [some ⟨c, 1, d⟩]) h.length = some ⟨c, 0 + 1, d⟩ by
      rw [Heap.lookup_append_new])
    hc hc (by omega)]
  simp only []
  rw [hard_clear_shared n p [] t _ sw dt
    (show Heap.lookup (h ++ [some ⟨c, 1, d⟩]) p = some ⟨c, r + 2, d⟩ by
      rw [Heap.lookup_append_left _ hlt, hb]) (by omega)]
  simp only [Heap.set_append_left _ _ hlt]

theorem data_shared {S fuel : Nat} (n p : Nat) {h : Heap α} {t : Option Nat} {cp : Nat}
    (sw dt : Nat) {c r : Nat} {d : List α} (hb : h.lookup p = some ⟨c, r + 2, d⟩) (hc : S < c)
    (hlen : d.length = n) (hnc : n ≤ c) (hp : passes t cp n) (hf : 8 ≤ fuel) :
    data S fuel ⟨n, true, p, []⟩ ⟨h, t, cp, sw, dt⟩ =
      .ok (⟨n, true, h.length, []⟩,
        ⟨h.set p (some ⟨c, r + 1, d⟩) ++ [some ⟨c, 1, d⟩], t, cp + n, sw, dt⟩) := by
  obtain ⟨m, rfl⟩ : ∃ m, fuel = m + 1 := ⟨fuel - 1, by omega⟩
  simp only [data, Bool.not_true, Bool.false_eq_true, if_false]
  exact unshare_shared n p sw dt hb hc hlen hnc hp (by omega)

theorem pop_back_shared {S fuel : Nat} (n p : Nat) {h : Heap α} {t : Option Nat} {cp : Nat}
    (sw dt : Nat) {c r : Nat} {d : List α} (hb : h.lookup p = some ⟨c, r + 2, d⟩) (hc : S < c)
    (hlen : d.length = n + 1) (hnc : n + 1 ≤ c) (hp : passes t cp n) (hf : 8 ≤ fuel) :
    pop_back S fuel ⟨n + 1, true, p, []⟩ ⟨h, t, cp, sw, dt⟩ =
      .ok (⟨n, true, h.length, []⟩,
        ⟨h.set p (some ⟨c, r + 1, d⟩) ++ [some ⟨c, 1, d.dropLast⟩], t, cp + n, sw, dt⟩) := by
  obtain ⟨m, rfl⟩ : ∃ m, fuel = m + 1 := ⟨fuel - 1, by omega⟩
  have hlt := Heap.lookup_lt hb
  have hs : sharing (⟨n + 1, true, p, []⟩ : socow_vector α) h = true := by
    rw [sharing_heap _ _ hb]; simp
  simp only [pop_back, hs, size, capacity_heap S (n + 1) [] hb, Nat.add_one_ne_zero, if_false,
    if_true, Nat.add_sub_cancel]
  rw [ctor_fresh hc (by rw [data_const_heap (n + 1) [] hb]; simp [hlen]) (by omega)
    (fun _ => hlt) hp]
  simp only [data_const_heap (n + 1) [] hb]
  have e : d.take n = d.dropLast := by rw [List.dropLast_eq_take, hlen]; rfl
  rw [e, swap_heap_heap (n + 1) p n h.length t _ sw dt
    (show Heap.lookup (h ++ [some ⟨c, 1, d.dropLast⟩]) p = some ⟨c, (r + 1) + 1, d⟩ by
      rw [Heap.lookup_append_left _ hlt, hb])
    (show Heap.lookup (h ++ [some ⟨c, 1, d.dropLast⟩]) h.length = some ⟨c, 0 + 1, d.dropLast⟩ by
      rw [Heap.lookup_append_new])
    hc hc (by omega)]
  simp only []
  rw [hard_clear_shared (n + 1) p [] t _ sw dt
    (show Heap.lookup (h ++ [some ⟨c, 1, d.dropLast⟩]) p = some ⟨c, r + 2, d⟩ by
      rw [Heap.lookup_append_left _ hlt, hb]) (by omega)]
  simp only [Heap.set_append_left _ _ hlt]

/-! ## Well-formedness in a grown heap -/

theorem length_release_heap (v : socow_vector α) (h : Heap α) :
    (release_heap v h).length = h.length := by
  unfold release_heap
  split
  · split
    · split <;> simp
    · rfl
  · rfl

theorem release_heap_append {v : socow_vector α} {h : Heap α} (l : Heap α)
    (hv : v.allocated_ = true → v.buf_ < h.length) :
    release_heap v (h ++ l) = release_heap v h ++ l := by
  unfold release_heap
  cases ha : v.allocated_ with
  | false => simp
  | true =>
    have hlt := hv ha
    simp only [if_true, Heap.lookup_append_left l hlt]
    cases h.lookup v.buf_ with
    | none => rfl
    | some b =>
      simp only []
      by_cases hr : b.ref_count_ ≤ 1 <;> simp [hr, Heap.set_append_left _ _ hlt]

theorem sharing_append {v : socow_vector α} {h : Heap α} (l : Heap α)
    (hv : v.allocated_ = true → v.buf_ < h.length) :
    sharing v (h ++ l) = sharing v h := by
  unfold sharing
  cases ha : v.allocated_ with
  | false => simp
  | true => simp [Heap.getBuf, Heap.lookup_append_left l (hv ha)]

theorem release_dtors_append {v : socow_vector α} {h : Heap α} (l : Heap α)
    (hv : v.allocated_ = true → v.buf_ < h.length) :
    release_dtors v (h ++ l) = release_dtors v h := by
  simp [release_dtors, sharing_append l hv]

theorem valid_lt {S : Nat} {v : socow_vector α} {h : Heap α} (hv : valid S v h) :
    v.allocated_ = true → v.buf_ < h.length := by
  intro ha
  unfold valid at hv
  simp only [ha, if_true] at hv
  cases hb : h.lookup v.buf_ with
  | none => simp [hb] at hv
  | some b => exact Heap.lookup_lt hb

theorem valid_append {S : Nat} {v : socow_vector α} {h : Heap α} (l : Heap α)
    (hv : valid S v h) : valid S v (h ++ l) := by
  have hlt := valid_lt hv
  unfold valid at hv ⊢
  cases ha : v.allocated_ with
  | false => simpa [ha] using hv
  | true =>
    simp only [ha, if_true] at hv ⊢
    rwa [Heap.lookup_append_left l (hlt ha)]

theorem valid_size_le {S : Nat} {v : socow_vector α} {h : Heap α} (hv : valid S v h) :
    v.size_ ≤ capacity S v h ∧ (data_const v h).length = v.size_ ∧ S ≤ capacity S v h := by
  obtain ⟨n, a, p, sm⟩ := v
  cases a with
  | false =>
    rw [valid_small] at hv
    simp [capacity, data_const, hv.1, hv.2]
  | true =>
    rw [valid_heap] at hv
    obtain ⟨c, r, d, hb, -, hlen, hnc, hc⟩ := hv
    simp [capacity, data_const, Heap.getBuf_of_lookup hb, hlen, hnc, hc.le]

/-! ## push_back -/

theorem push_back_small {S fuel : Nat} (n p : Nat) {d : List α} (x : α) (h : Heap α)
    {t : Option Nat} {cp : Nat} (sw dt : Nat) (hlen : d.length = n) (hn : n < S)
    (hp : passes t cp 1) (hf : 3 ≤ fuel) :
    push_back S fuel ⟨n, false, p, d⟩ x ⟨h, t, cp, sw, dt⟩ =
      .ok (⟨n + 1, false, p, d ++ [x]⟩, ⟨h, t, cp + 1, sw, dt⟩) := by
  obtain ⟨m, rfl⟩ : ∃ m, fuel = m + 1 := ⟨fuel - 1, by omega⟩
  have hne : ¬ n = S := by omega
  simp only [push_back, size, capacity_small, sharing_small, hne, decide_False, Bool.or_false,
    Bool.false_eq_true, if_false]
  rw [data_small n p d _ (by omega)]
  simp only [data_const_small, capacity_small]
  rw [construct_at_ok x hlen hn hp]
  simp [put_data]

theorem push_back_heap {S fuel : Nat} (n p : Nat) (sm : List α) (x : α) {h : Heap α}
    {t : Option Nat} {cp : Nat} (sw dt : Nat) {c : Nat} {d : List α}
    (hb : h.lookup p = some ⟨c, 1, d⟩) (hlen : d.length = n) (hn : n < c)
    (hp : passes t cp 1) (hf : 3 ≤ fuel) :
    push_back S fuel ⟨n, true, p, sm⟩ x ⟨h, t, cp, sw, dt⟩ =
      .ok (⟨n + 1, true, p, sm⟩, ⟨h.set p (some ⟨c, 1, d ++ [x]⟩), t, cp + 1, sw, dt⟩) := by
  obtain ⟨m, rfl⟩ : ∃ m, fuel = m + 1 := ⟨fuel - 1, by omega⟩
  have hne : ¬ n = c := by omega
  have hs : sharing (⟨n, true, p, sm⟩ : socow_vector α) h = false := by
    rw [sharing_heap _ _ hb]; simp
  simp only [push_back, size, capacity_heap S n sm hb, hs, hne, decide_False, Bool.or_false,
    Bool.false_eq_true, if_false]
  rw [data_heap n p sm t cp sw dt hb (by omega)]
  simp only [data_const_heap n sm hb, capacity_heap S n sm hb]
  rw [construct_at_ok x hlen hn hp]
  simp [put_data, hb]

theorem valid_cap_lt {S : Nat} {v : socow_vector α} {h : Heap α} (hv : valid S v h)
    (ha : v.allocated_ = true) : S < capacity S v h := by
  obtain ⟨n, a, p, sm⟩ := v
  simp only at ha; subst ha
  rw [valid_heap] at hv
  obtain ⟨c, r, d, hb, -, -, -, hc⟩ := hv
  rw [capacity_heap S n sm hb]; exact hc

theorem sharing_allocated {v : socow_vector α} {h : Heap α} (hs : sharing v h = true) :
    v.allocated_ = true := by
  unfold sharing at hs
  simp only [Bool.and_eq_true] at hs
  exact hs.1

/-- A `push_back` on a full or shared container builds the new contents in a fresh buffer and
gives up the old storage. -/
theorem push_back_rebuild {S fuel : Nat} {v : socow_vector α} {h : Heap α} {t : Option Nat}
    {cp : Nat} (sw dt : Nat) (x : α) (hS : 1 ≤ S ∨ v.allocated_ = true) (hv : valid S v h)
    (hfs : (decide (v.size_ = capacity S v h) || sharing v h) = true)
    (hp : passes t cp (v.size_ + 1)) (hf : v.size_ + 8 ≤ fuel) :
    push_back S fuel v x ⟨h, t, cp, sw, dt⟩ =
      .ok (⟨v.size_ + 1, true, h.length, []⟩,
        ⟨release_heap v h ++
            [some ⟨if v.size_ = capacity S v h then capacity S v h * 2 else capacity S v h, 1,
              data_const v h ++ [x]⟩],
          t, cp + v.size_ + 1, sw, dt + release_dtors v h⟩) := by
  obtain ⟨m, rfl⟩ : ∃ m, fuel = m + 1 := ⟨fuel - 1, by omega⟩
  obtain ⟨hnc, hdl, hSc⟩ := valid_size_le hv
  have hlt := valid_lt hv
  have hp2 := passes_add hp
  have hrl := length_release_heap v h
  generalize hnc' : (if v.size_ = capacity S v h then capacity S v h * 2 else capacity S v h)
    = nc
  have hc1 : 1 ≤ capacity S v h := by
    rcases hS with hS | hS
    · omega
    · have := valid_cap_lt hv hS; omega
  have hSnc : S < nc := by
    subst hnc'
    split
    · omega
    · rename_i hne
      have hs : sharing v h = true := by simpa [hne] using hfs
      exact valid_cap_lt hv (sharing_allocated hs)
  have hnnc : v.size_ < nc := by
    subst hnc'
    split <;> omega
  simp only [push_back, size, hfs, if_true, hnc']
  rw [ctor_fresh hSnc (by omega) (by omega) hlt hp2.1]
  have e : (data_const v h).take v.size_ = data_const v h := by rw [← hdl]; simp
  simp only [e]
  rw [push_back_heap v.size_ h.length [] x sw dt (Heap.lookup_append_new _ _) hdl hnnc hp2.2
    (by omega)]
  simp only [Heap.set_append_new]
  rw [assign_spec sw dt (valid_append _ hv)
    (valid_heap.mpr ⟨nc, 0, data_const v h ++ [x], Heap.lookup_append_new _ _, rfl,
      by simp [hdl], by omega, hSnc⟩)
    (fun ha _ hb => by have := hlt ha; simp only at hb; omega)
    (fun hf => by simp at hf) (by omega)]
  simp only [if_true, release_heap_append _ hlt, release_dtors_append _ hlt]
  rw [retain_heap_eq (Heap.lookup_append_new' _ hrl), Heap.set_append_new' _ _ hrl]
  rw [hard_clear_shared (v.size_ + 1) h.length [] t _ sw _
    (show Heap.lookup (release_heap v h ++ [some ⟨nc, 1 + 1, data_const v h ++ [x]⟩]) h.length
      = some ⟨nc, 0 + 2, data_const v h ++ [x]⟩ from Heap.lookup_append_new' _ hrl) (by omega)]
  simp only [Heap.set_append_new' _ _ hrl, Nat.zero_add]

/-! ## Counting references -/

theorem refs_nil (p : Nat) : refs ([] : List (socow_vector α)) p = 0 := rfl

theorem refs_cons (v : socow_vector α) (objs : List (socow_vector α)) (p : Nat) :
    refs (v :: objs) p = refs objs p + (if holds v p then 1 else 0) := by
  simp [refs, List.countP_cons]

theorem refs_append (objs : List (socow_vector α)) (v : socow_vector α) (p : Nat) :
    refs (objs ++ [v]) p = refs objs p + (if holds v p then 1 else 0) := by
  simp [refs, List.countP_append, List.countP_cons]

theorem refs_set {objs : List (socow_vector α)} {i : Nat} {v : socow_vector α}
    (v1 : socow_vector α) (p : Nat) (hi : objs[i]? = some v) :
    refs (objs.set i v1) p + (if holds v p then 1 else 0) =
      refs objs p + (if holds v1 p then 1 else 0) := by
  induction objs generalizing i with
  | nil => simp at hi
  | cons u objs ih =>
    cases i with
    | zero =>
      simp only [List.getElem?_cons_zero, Option.some.injEq] at hi
      subst hi
      simp only [List.set_cons_zero, refs_cons]
      omega
    | succ i =>
      simp only [List.getElem?_cons_succ] at hi
      have := ih hi
      simp only [List.set_cons_succ, refs_cons]
      omega

theorem holds_small (n p q : Nat) (d : List α) : holds ⟨n, false, p, d⟩ q = false := by
  simp [holds]

theorem holds_heap (n p q : Nat) (d : List α) : holds ⟨n, true, p, d⟩ q = decide (p = q) := by
  simp [holds]

theorem holds_iff {v : socow_vector α} {p : Nat} :
    holds v p = true ↔ v.allocated_ = true ∧ v.buf_ = p := by
  simp only [holds, Bool.and_eq_true, decide_eq_true_eq]

theorem refs_pos {objs : List (socow_vector α)} {i p : Nat} {v : socow_vector α}
    (hi : objs[i]? = some v) (hv : holds v p = true) : 0 < refs objs p := by
  have := refs_set ⟨0, false, 0, []⟩ p hi
  rw [hv, holds_small] at this
  simp only [if_true, Bool.false_eq_true, if_false] at this
  omega

theorem refs_two {objs : List (socow_vector α)} {i j p : Nat} {v o : socow_vector α}
    (hij : i ≠ j) (hi : objs[i]? = some v) (hj : objs[j]? = some o)
    (hv : holds v p = true) (ho : holds o p = true) : 2 ≤ refs objs p := by
  have h1 := refs_set ⟨0, false, 0, []⟩ p hi
  have h2 : (objs.set i ⟨0, false, 0, []⟩)[j]? = some o := by
    rw [List.getElem?_set_ne hij]; exact hj
  have h3 := refs_pos h2 ho
  rw [hv, holds_small] at h1
  simp only [if_true, Bool.false_eq_true, if_false] at h1
  omega

/-- Two different containers that point at the same buffer share it. -/
theorem sharing_of_same {S : Nat} {h : Heap α} {objs : List (socow_vector α)}
    (hinv : HInv S h objs) {i j : Nat} {v o : socow_vector α} (hij : i ≠ j)
    (hi : objs[i]? = some v) (hj : objs[j]? = some o) (hva : v.allocated_ = true)
    (hoa : o.allocated_ = true) (hpq : v.buf_ = o.buf_) : sharing v h = true := by
  have hv := hinv.valid i v hi
  cases hb : h.lookup v.buf_ with
  | none => simp [valid, hva, hb] at hv
  | some b =>
    have h2 := refs_two hij hi hj (holds_iff.mpr ⟨hva, rfl⟩) (holds_iff.mpr ⟨hoa, hpq.symm⟩)
    have h3 := (hinv.counted _ b hb).1
    simp only [sharing, hva, Heap.getBuf_of_lookup hb, Bool.true_and, decide_eq_true_eq]
    omega

/-! ## Steps that preserve well-formedness -/

theorem valid_of_not_allocated {S : Nat} {u : socow_vector α} {h : Heap α} (h1 : Heap α)
    (hu : valid S u h) (ha : u.allocated_ = false) : valid S u h1 := by
  unfold valid at hu ⊢
  simpa [ha] using hu

theorem getElem?_set_cases {objs : List (socow_vector α)} {i j : Nat} {v1 u : socow_vector α}
    (hj : (objs.set i v1)[j]? = some u) :
    (j = i ∧ u = v1) ∨ (j ≠ i ∧ objs[j]? = some u) := by
  by_cases hji : i = j
  · subst hji
    left
    have hlt : i < (objs.set i v1).length := by
      by_contra hc
      rw [List.getElem?_eq_none (by omega)] at hj
      cases hj
    rw [List.length_set] at hlt
    rw [List.getElem?_set_self hlt] at hj
    exact ⟨rfl, (Option.some.inj hj).symm⟩
  · right
    rw [List.getElem?_set_ne hji] at hj
    exact ⟨fun h => hji h.symm, hj⟩

theorem refs_eq_zero {objs : List (socow_vector α)} {p : Nat}
    (hno : ∀ (j : Nat) (u : socow_vector α), objs[j]? = some u → holds u p = false) :
    refs objs p = 0 := by
  induction objs with
  | nil => rfl
  | cons v objs ih =>
    rw [refs_cons, hno 0 v (by simp), ih (fun j u hj => hno (j + 1) u (by simpa using hj))]
    simp

/-- Giving up the storage of container `i`. -/
theorem hinv_release {S : Nat} {h : Heap α} {objs : List (socow_vector α)} {i : Nat}
    {v : socow_vector α} (b : Nat) (hinv : HInv S h objs) (hi : objs[i]? = some v) :
    HInv S (release_heap v h) (objs.set i ⟨0, false, b, []⟩) := by
  constructor
  · intro j u hj
    rcases getElem?_set_cases hj with ⟨-, rfl⟩ | ⟨hji, hj'⟩
    · simp [valid]
    · have hu := hinv.valid j u hj'
      cases hua : u.allocated_ with
      | false => exact valid_of_not_allocated _ hu hua
      | true =>
        obtain ⟨c, r, d, hb, hc, hd, -⟩ := lookup_release_heap (hinv.valid i v hi) hu hua
          (fun hva hpq => sharing_of_same hinv (fun e => hji e.symm) hi hj' hva hua hpq)
        unfold valid at hu ⊢
        simp only [hua, if_true] at hu ⊢
        cases hb0 : h.lookup u.buf_ with
        | none => simp [hb0] at hu
        | some b0 =>
          simp only [hb0] at hu
          simp only [hb, Heap.getBuf_of_lookup hb0] at hc hd ⊢
          subst hc hd
          exact ⟨hu.1, by omega, hu.2.2⟩
  · intro p b' hb'
    have hv := hinv.valid i v hi
    obtain ⟨n, a, pv, sm⟩ := v
    cases a with
    | false =>
      rw [release_heap_small] at hb'
      have := refs_set ⟨0, false, b, []⟩ p hi
      simp only [holds_small, Bool.false_eq_true, if_false, Nat.add_zero] at this
      rw [this]
      exact hinv.counted p b' hb'
    | true =>
      rw [valid_heap] at hv
      obtain ⟨c, r, d, hb, -, -, -, -⟩ := hv
      have hcnt := hinv.counted pv _ hb
      have hset := refs_set ⟨0, false, b, []⟩ p hi
      simp only [holds_small, holds_heap, Bool.false_eq_true, if_false, Nat.add_zero,
        decide_eq_true_eq] at hset
      by_cases hp : pv = p
      · subst hp
        simp only [if_true] at hset
        cases r with
        | zero =>
          rw [release_heap_last n sm hb, Heap.lookup_set_eq _ (Heap.lookup_lt hb)] at hb'
          cases hb'
        | succ r =>
          rw [release_heap_shared n sm hb, Heap.lookup_set_eq _ (Heap.lookup_lt hb)] at hb'
          cases hb'
          simp only at hcnt ⊢
          omega
      · simp only [hp, if_false, Nat.add_zero] at hset
        rw [hset]
        apply hinv.counted p b'
        cases r with
        | zero => rwa [release_heap_last n sm hb, Heap.lookup_set_ne _ hp] at hb'
        | succ r => rwa [release_heap_shared n sm hb, Heap.lookup_set_ne _ hp] at hb'

/-- Another container keeps its view when container `i` gives up its storage. -/
theorem frame_release {S : Nat} {h : Heap α} {objs : List (socow_vector α)} {i j : Nat}
    {v o : socow_vector α} (hinv : HInv S h objs) (hi : objs[i]? = some v)
    (hj : objs[j]? = some o) (hji : j ≠ i) (hoa : o.allocated_ = true) :
    same_view o h (release_heap v h) := by
  obtain ⟨c, r, d, hb, hc, hd, -⟩ := lookup_release_heap (hinv.valid i v hi)
    (hinv.valid j o hj) hoa
    (fun hva hpq => sharing_of_same hinv (fun e => hji e.symm) hi hj hva hoa hpq)
  simp [same_view, Heap.getBuf_of_lookup hb, hc, hd]

/-- Container `i`, currently without storage, gets a fresh buffer holding `d`. -/
theorem hinv_fresh {S : Nat} {h : Heap α} {objs : List (socow_vector α)} {i : Nat}
    {v : socow_vector α} (cap : Nat) (d : List α) (hinv : HInv S h objs)
    (hi : objs[i]? = some v) (hva : v.allocated_ = false) (hcap : S < cap)
    (hd : d.length ≤ cap) :
    HInv S (h ++ [some ⟨cap, 1, d⟩]) (objs.set i ⟨d.length, true, h.length, []⟩) := by
  constructor
  · intro j u hj
    rcases getElem?_set_cases hj with ⟨-, rfl⟩ | ⟨hji, hj'⟩
    · exact valid_heap.mpr ⟨cap, 0, d, Heap.lookup_append_new _ _, rfl, rfl, hd, hcap⟩
    · exact valid_append _ (hinv.valid j u hj')
  · intro p b' hb'
    have hset := refs_set ⟨d.length, true, h.length, []⟩ p hi
    have hvp : holds v p = false := by simp [holds, hva]
    simp only [hvp, holds_heap, Bool.false_eq_true, if_false, Nat.add_zero,
      decide_eq_true_eq] at hset
    by_cases hp : h.length = p
    · subst hp
      rw [Heap.lookup_append_new] at hb'
      cases hb'
      have hz : refs objs h.length = 0 := by
        apply refs_eq_zero
        intro j u hj
        cases hh : holds u h.length with
        | false => rfl
        | true =>
          have := valid_lt (hinv.valid j u hj) (holds_iff.mp hh).1
          rw [(holds_iff.mp hh).2] at this
          omega
      simp only [if_true, hz] at hset
      simp [hset]
    · simp only [hp, if_false, Nat.add_zero] at hset
      rw [hset]
      apply hinv.counted p b'
      have hlt : p < h.length := by
        have := Heap.lookup_lt hb'
        simp only [List.length_append, List.length_singleton] at this
        omega
      rwa [Heap.lookup_append_left _ hlt] at hb'

theorem same_view_append {o : socow_vector α} {h : Heap α} (l : Heap α)
    (hlt : o.buf_ < h.length) : same_view o h (h ++ l) := by
  simp [same_view, Heap.getBuf, Heap.lookup_append_left l hlt]

/-- Container `i`, currently without storage, starts to share the buffer of container `j`. -/
theorem hinv_share {S : Nat} {h : Heap α} {objs : List (socow_vector α)} {i j : Nat}
    {v o : socow_vector α} (hinv : HInv S h objs) (hi : objs[i]? = some v)
    (hva : v.allocated_ = false) (hj : objs[j]? = some o) (hoa : o.allocated_ = true) :
    HInv S (retain_heap o.buf_ h) (objs.set i ⟨o.size_, true, o.buf_, []⟩) := by
  have ho := hinv.valid j o hj
  obtain ⟨k, oa, q, osm⟩ := o
  simp only at hoa; subst hoa
  rw [valid_heap] at ho
  obtain ⟨c, r, d, hb, -, hlen, hkc, hc⟩ := ho
  have hq := Heap.lookup_lt hb
  simp only [retain_heap_eq hb]
  constructor
  · intro l u hl
    rcases getElem?_set_cases hl with ⟨-, rfl⟩ | ⟨hli, hl'⟩
    · exact valid_heap.mpr ⟨c, r + 1, d, Heap.lookup_set_eq _ hq, rfl, hlen, hkc, hc⟩
    · have hu := hinv.valid l u hl'
      cases hua : u.allocated_ with
      | false => exact valid_of_not_allocated _ hu hua
      | true =>
        obtain ⟨m, ua, q', usm⟩ := u
        simp only at hua; subst hua
        rw [valid_heap] at hu ⊢
        obtain ⟨c', r', d', hb', e1, e2, e3, e4⟩ := hu
        by_cases hp : q = q'
        · subst hp
          rw [hb] at hb'
          cases hb'
          exact ⟨c, r + 1, d, Heap.lookup_set_eq _ hq, e1, e2, e3, e4⟩
        · exact ⟨c', r', d', by rw [Heap.lookup_set_ne _ hp]; exact hb', e1, e2, e3, e4⟩
  · intro p b' hb'
    have hset := refs_set ⟨k, true, q, []⟩ p hi
    have hvp : holds v p = false := by simp [holds, hva]
    simp only [hvp, holds_heap, Bool.false_eq_true, if_false, Nat.add_zero,
      decide_eq_true_eq] at hset
    by_cases hp : q = p
    · subst hp
      rw [Heap.lookup_set_eq _ hq] at hb'
      cases hb'
      have := hinv.counted q _ hb
      simp only [if_true] at hset
      simp only at this ⊢
      omega
    · simp only [hp, if_false, Nat.add_zero] at hset
      rw [hset]
      apply hinv.counted p b'
      rwa [Heap.lookup_set_ne _ hp] at hb'

theorem same_view_retain (o : socow_vector α) (p : Nat) (h : Heap α) :
    same_view o h (retain_heap p h) := by
  unfold retain_heap
  cases hb : h.lookup p with
  | none => simp [same_view]
  | some b =>
    by_cases hp : p = o.buf_
    · subst hp
      simp [same_view, Heap.getBuf, Heap.lookup_set_eq _ (Heap.lookup_lt hb), hb]
    · simp [same_view, Heap.getBuf, Heap.lookup_set_ne _ hp]

/-- Container `i`, currently without storage, gets the inline elements `d`. -/
theorem hinv_small {S : Nat} {h : Heap α} {objs : List (socow_vector α)} {i : Nat}
    {v : socow_vector α} (b : Nat) (d : List α) (hinv : HInv S h objs)
    (hi : objs[i]? = some v) (hva : v.allocated_ = false) (hd : d.length ≤ S) :
    HInv S h (objs.set i ⟨d.length, false, b, d⟩) := by
  constructor
  · intro j u hj
    rcases getElem?_set_cases hj with ⟨-, rfl⟩ | ⟨hji, hj'⟩
    · exact valid_small.mpr ⟨rfl, hd⟩
    · exact hinv.valid j u hj'
  · intro p b' hb'
    have hset := refs_set ⟨d.length, false, b, d⟩ p hi
    have hvp : holds v p = false := by simp [holds, hva]
    simp only [hvp, holds_small, Bool.false_eq_true, if_false, Nat.add_zero] at hset
    rw [hset]
    exact hinv.counted p b' hb'

/-- The sole owner `i` of a buffer rewrites its array in place. -/
theorem hinv_put {S : Nat} {h : Heap α} {objs : List (socow_vector α)} {i n p c : Nat}
    {sm d0 : List α} (d : List α) (hinv : HInv S h objs)
    (hi : objs[i]? = some ⟨n, true, p, sm⟩) (hb : h.lookup p = some ⟨c, 1, d0⟩)
    (hd : d.length ≤ c) :
    HInv S (h.set p (some ⟨c, 1, d⟩)) (objs.set i ⟨d.length, true, p, []⟩) := by
  have hv := hinv.valid i _ hi
  rw [valid_heap] at hv
  obtain ⟨c', r, d', hb2, -, -, -, hc⟩ := hv
  rw [hb] at hb2
  cases hb2
  have hp := Heap.lookup_lt hb
  have hcnt := hinv.counted p _ hb
  constructor
  · intro j u hj
    rcases getElem?_set_cases hj with ⟨-, rfl⟩ | ⟨hji, hj'⟩
    · exact valid_heap.mpr ⟨c, 0, d, Heap.lookup_set_eq _ hp, rfl, rfl, hd, hc⟩
    · have hu := hinv.valid j u hj'
      cases hua : u.allocated_ with
      | false => exact valid_of_not_allocated _ hu hua
      | true =>
        have hne : p ≠ u.buf_ := by
          intro e
          have := refs_two hji hj' hi (holds_iff.mpr ⟨hua, e.symm⟩) (holds_iff.mpr ⟨rfl, rfl⟩)
          simp only at hcnt
          omega
        unfold valid at hu ⊢
        simp only [hua, if_true] at hu ⊢
        rwa [Heap.lookup_set_ne _ hne]
  · intro q b' hb'
    have hset := refs_set ⟨d.length, true, p, []⟩ q hi
    simp only [holds_heap] at hset
    have hr : refs (objs.set i ⟨d.length, true, p, []⟩) q = refs objs q := by omega
    rw [hr]
    by_cases hq : p = q
    · subst hq
      rw [Heap.lookup_set_eq _ hp] at hb'
      cases hb'
      exact hcnt
    · rw [Heap.lookup_set_ne _ hq] at hb'
      exact hinv.counted q b' hb'

/-- Another container keeps its view when the sole owner of a buffer rewrites it. -/
theorem frame_put {S : Nat} {h : Heap α} {objs : List (socow_vector α)} {i j n p c : Nat}
    {sm d0 : List α} {o : socow_vector α} (x : Option (buffer α)) (hinv : HInv S h objs)
    (hi : objs[i]? = some ⟨n, true, p, sm⟩) (hb : h.lookup p = some ⟨c, 1, d0⟩)
    (hj : objs[j]? = some o) (hji : j ≠ i) (hoa : o.allocated_ = true) :
    same_view o h (h.set p x) := by
  have hcnt := hinv.counted p _ hb
  have hne : p ≠ o.buf_ := by
    intro e
    have := refs_two hji hj hi (holds_iff.mpr ⟨hoa, e.symm⟩) (holds_iff.mpr ⟨rfl, rfl⟩)
    simp only at hcnt
    omega
  simp [same_view, Heap.getBuf, Heap.lookup_set_ne _ hne]

/-- A new inline container. -/
theorem hinv_new {S : Nat} {h : Heap α} {objs : List (socow_vector α)} {v : socow_vector α}
    (hinv : HInv S h objs) (hv : valid S v h) (hva : v.allocated_ = false) :
    HInv S h (objs ++ [v]) := by
  constructor
  · intro j u hj
    by_cases hlt : j < objs.length
    · rw [List.getElem?_append_left hlt] at hj
      exact hinv.valid j u hj
    · rw [List.getElem?_append_right (by omega)] at hj
      cases hjj : j - objs.length with
      | zero => simp [hjj] at hj; subst hj; exact hv
      | succ k => simp [hjj] at hj
  · intro p b' hb'
    have hvp : holds v p = false := by simp [holds, hva]
    rw [refs_append, hvp]
    simpa using hinv.counted p b' hb'

/-- A buffer that was allocated and destroyed again. -/
theorem hinv_dead {S : Nat} {h : Heap α} {objs : List (socow_vector α)}
    (hinv : HInv S h objs) : HInv S (h ++ [none]) objs := by
  constructor
  · intro j u hj
    exact valid_append _ (hinv.valid j u hj)
  · intro p b' hb'
    apply hinv.counted p b'
    by_cases hlt : p < h.length
    · rwa [Heap.lookup_append_left _ hlt] at hb'
    · have := Heap.lookup_lt hb'
      simp only [List.length_append, List.length_singleton] at this
      have hp : p = h.length := by omega
      subst hp
      rw [Heap.lookup_append_new] at hb'
      cases hb'

/-- Two containers exchange their storage. -/
theorem hinv_exchange {S : Nat} {h : Heap α} {objs : List (socow_vector α)} {i j : Nat}
    {a b a1 b1 : socow_vector α} (hinv : HInv S h objs) (hij : i ≠ j)
    (hi : objs[i]? = some a) (hj : objs[j]? = some b) (ha1 : valid S a1 h)
    (hb1 : valid S b1 h) (h1 : ∀ p, holds a1 p = holds b p) (h2 : ∀ p, holds b1 p = holds a p) :
    HInv S h ((objs.set i a1).set j b1) := by
  have hj2 : (objs.set i a1)[j]? = some b := by rw [List.getElem?_set_ne hij]; exact hj
  constructor
  · intro l u hl
    rcases getElem?_set_cases hl with ⟨-, rfl⟩ | ⟨hlj, hl'⟩
    · exact hb1
    · rcases getElem?_set_cases hl' with ⟨-, rfl⟩ | ⟨hli, hl''⟩
      · exact ha1
      · exact hinv.valid l u hl''
  · intro p b' hb'
    have e1 := refs_set a1 p hi
    have e2 := refs_set b1 p hj2
    rw [h1 p] at e1
    rw [h2 p] at e2
    have hr : refs ((objs.set i a1).set j b1) p = refs objs p := by omega
    rw [hr]
    exact hinv.counted p b' hb'

/-! ## Operations on a program -/

theorem on_ok {w : World α} {i : Nat} {v v1 : socow_vector α} {st1 : St α}
    {f : socow_vector α → St α → Res (socow_vector α × St α) (socow_vector α × St α)}
    (hi : w.objs[i]? = some v) (hf : f v w.st = .ok (v1, st1)) :
    w.on i f = .ok ⟨st1, w.objs.set i v1⟩ := by
  simp [World.on, hi, hf]

theorem on_none {w : World α} {i : Nat}
    (f : socow_vector α → St α → Res (socow_vector α × St α) (socow_vector α × St α))
    (hi : w.objs[i]? = none) : w.on i f = .stuck := by
  simp [World.on, hi]

theorem on_eq_ok {w w1 : World α} {i : Nat}
    {f : socow_vector α → St α → Res (socow_vector α × St α) (socow_vector α × St α)}
    (h : w.on i f = .ok w1) :
    ∃ v v1 st1, w.objs[i]? = some v ∧ f v w.st = .ok (v1, st1) ∧ w1 = ⟨st1, w.objs.set i v1⟩ := by
  unfold World.on at h
  cases hi : w.objs[i]? with
  | none => simp [hi] at h
  | some v =>
    simp only [hi] at h
    cases hf : f v w.st with
    | ok r => obtain ⟨v1, st1⟩ := r; simp only [hf] at h; cases h; exact ⟨v, v1, st1, rfl, hf, rfl⟩
    | threw e => simp [hf] at h
    | stuck => simp [hf] at h

theorem returns_unique {S : Nat} {op : Op α} {w w1 w2 : World α}
    (h1 : op.returns S w w1) (h2 : op.returns S w w2) : w1 = w2 := by
  obtain ⟨N1, h1⟩ := h1
  obtain ⟨N2, h2⟩ := h2
  have e1 := h1 (max N1 N2) (le_max_left _ _)
  have e2 := h2 (max N1 N2) (le_max_right _ _)
  rw [e1] at e2
  exact Res.ok.inj e2

theorem obj_eq {w : World α} {i : Nat} {v : socow_vector α} (hi : w.objs[i]? = some v) :
    w.obj i = v := by
  simp [World.obj, hi]

theorem obj_mk (st : St α) {objs : List (socow_vector α)} {i : Nat} {v : socow_vector α}
    (hi : objs[i]? = some v) : (World.mk st objs).obj i = v := by
  simp [World.obj, hi]

theorem obj_set (st : St α) {objs : List (socow_vector α)} {i : Nat} (v1 : socow_vector α)
    (hi : i < objs.length) : (World.mk st (objs.set i v1)).obj i = v1 := by
  simp [World.obj, List.getElem?_set_self hi]

theorem lt_of_getElem? {objs : List (socow_vector α)} {i : Nat} {v : socow_vector α}
    (hi : objs[i]? = some v) : i < objs.length := by
  by_contra hc
  rw [List.getElem?_eq_none (by omega)] at hi
  cases hi

theorem elems_of_valid {S : Nat} {v : socow_vector α} {h : Heap α} (hv : valid S v h) :
    elems v h = data_const v h := by
  unfold elems size
  rw [← (valid_size_le hv).2.1]
  simp

theorem same_view_refl (o : socow_vector α) (h : Heap α) : same_view o h h := ⟨rfl, rfl⟩

theorem same_view_trans {o : socow_vector α} {h h1 h2 : Heap α} (h12 : same_view o h h1)
    (h23 : same_view o h1 h2) : same_view o h h2 :=
  ⟨h23.1.trans h12.1, h23.2.trans h12.2⟩

/-- Container `i` gives up its storage and gets a fresh buffer holding `d`. -/
theorem step_rebuild {S : Nat} {h : Heap α} {objs : List (socow_vector α)} {i : Nat}
    {v : socow_vector α} (cp sw dt cp1 sw1 dt1 nc : Nat) (d : List α)
    (hH : HInv S h objs) (hi : objs[i]? = some v) (hnc : S < nc) (hd : d.length ≤ nc) :
    let w : World α := ⟨⟨h, none, cp, sw, dt⟩, objs⟩
    let w1 : World α := ⟨⟨release_heap v h ++ [some ⟨nc, 1, d⟩], none, cp1, sw1, dt1⟩,
      objs.set i ⟨d.length, true, h.length, []⟩⟩
    Step S w w1 i ∧ w1.elems i = d ∧ w1.capacity S i = nc ∧ w1.size i = d.length ∧
      w1.data i = .heap h.length := by
  intro w w1
  have hilt := lt_of_getElem? hi
  have h1 := hinv_release 0 hH hi
  have h2 := hinv_fresh nc d h1 (List.getElem?_set_self hilt) rfl hnc hd
  rw [List.set_set, length_release_heap] at h2
  have hlk : Heap.lookup (release_heap v h ++ [some ⟨nc, 1, d⟩]) h.length = some ⟨nc, 1, d⟩ :=
    Heap.lookup_append_new' _ (length_release_heap v h)
  refine ⟨⟨⟨h2, rfl⟩, List.length_set _ _ _, fun j hji => List.getElem?_set_ne
    (fun e => hji e.symm), fun j o hji hj hoa => ?_⟩, ?_, ?_, ?_, ?_⟩
  · exact same_view_trans (frame_release hH hi hj hji hoa)
      (same_view_append _ (by rw [length_release_heap]; exact valid_lt (hH.valid j o hj) hoa))
  · simp only [w1, World.elems, obj_set _ _ hilt, elems, data_const_heap _ _ hlk, size]
    simp
  · simp only [w1, World.capacity, obj_set _ _ hilt, capacity_heap _ _ _ hlk]
  · simp only [w1, World.size, obj_set _ _ hilt, size]
  · simp only [w1, World.data, obj_set _ _ hilt]
    simp

/-- Container `i` gives up its storage and gets the inline elements `d`. -/
theorem step_small {S : Nat} {h : Heap α} {objs : List (socow_vector α)} {i : Nat}
    {v : socow_vector α} (cp sw dt cp1 sw1 dt1 b : Nat) (d : List α)
    (hH : HInv S h objs) (hi : objs[i]? = some v) (hd : d.length ≤ S) :
    let w : World α := ⟨⟨h, none, cp, sw, dt⟩, objs⟩
    let w1 : World α := ⟨⟨release_heap v h, none, cp1, sw1, dt1⟩,
      objs.set i ⟨d.length, false, b, d⟩⟩
    Step S w w1 i ∧ w1.elems i = d ∧ w1.capacity S i = S ∧ w1.size i = d.length ∧
      w1.data i = .small i := by
  intro w w1
  have hilt := lt_of_getElem? hi
  have h1 := hinv_release 0 hH hi
  have h2 := hinv_small b d h1 (List.getElem?_set_self hilt) rfl hd
  rw [List.set_set] at h2
  refine ⟨⟨⟨h2, rfl⟩, List.length_set _ _ _, fun j hji => List.getElem?_set_ne
    (fun e => hji e.symm), fun j o hji hj hoa => frame_release hH hi hj hji hoa⟩, ?_, ?_, ?_, ?_⟩
  · simp only [w1, World.elems, obj_set _ _ hilt, elems, data_const_small, size]
    simp
  · simp only [w1, World.capacity, obj_set _ _ hilt, capacity_small]
  · simp only [w1, World.size, obj_set _ _ hilt, size]
  · simp only [w1, World.data, obj_set _ _ hilt]
    simp

/-- Container `i` gives up its storage and starts to share the buffer of container `j`. -/
theorem step_share {S : Nat} {h : Heap α} {objs : List (socow_vector α)} {i j : Nat}
    {v o : socow_vector α} (cp sw dt cp1 sw1 dt1 : Nat)
    (hH : HInv S h objs) (hi : objs[i]? = some v) (hj : objs[j]? = some o) (hij : i ≠ j)
    (hoa : o.allocated_ = true) :
    let w : World α := ⟨⟨h, none, cp, sw, dt⟩, objs⟩
    let w1 : World α := ⟨⟨retain_heap o.buf_ (release_heap v h), none, cp1, sw1, dt1⟩,
      objs.set i ⟨o.size_, true, o.buf_, []⟩⟩
    Step S w w1 i ∧ w1.elems i = w.elems j ∧ w1.capacity S i = w.capacity S j ∧
      w1.size i = w.size j ∧ w1.data i = w.data j ∧ same_view o h w1.st.heap := by
  intro w w1
  have hilt := lt_of_getElem? hi
  have h1 := hinv_release 0 hH hi
  have hj1 : (objs.set i ⟨0, false, 0, []⟩)[j]? = some o := by
    rw [List.getElem?_set_ne hij]; exact hj
  have h2 := hinv_share h1 (List.getElem?_set_self hilt) rfl hj1 hoa
  rw [List.set_set] at h2
  have hsv : same_view o h (retain_heap o.buf_ (release_heap v h)) :=
    same_view_trans (frame_release hH hi hj (fun e => hij e.symm) hoa) (same_view_retain _ _ _)
  refine ⟨⟨⟨h2, rfl⟩, List.length_set _ _ _, fun k hki => List.getElem?_set_ne
    (fun e => hki e.symm), fun k u hki hk hua => ?_⟩, ?_, ?_, ?_, ?_, hsv⟩
  · exact same_view_trans (frame_release hH hi hk hki hua) (same_view_retain _ _ _)
  · simp only [w1, w, World.elems, obj_set _ _ hilt, obj_mk _ hj, elems, data_const, size, hoa,
      Bool.not_true, Bool.false_eq_true, if_false, hsv.1]
  · simp only [w1, w, World.capacity, obj_set _ _ hilt, obj_mk _ hj, capacity, hoa,
      Bool.not_true, Bool.false_eq_true, if_false, hsv.2]
  · simp only [w1, w, World.size, obj_set _ _ hilt, obj_mk _ hj, size]
  · simp only [w1, w, World.data, obj_set _ _ hilt, obj_mk _ hj, hoa]
    simp

/-- The sole owner `i` of a buffer rewrites its array in place. -/
theorem step_put {S : Nat} {h : Heap α} {objs : List (socow_vector α)} {i n p c : Nat}
    {sm d0 : List α} (cp sw dt cp1 sw1 dt1 : Nat) (d : List α) (hH : HInv S h objs)
    (hi : objs[i]? = some ⟨n, true, p, sm⟩) (hb : h.lookup p = some ⟨c, 1, d0⟩)
    (hd : d.length ≤ c) :
    let w : World α := ⟨⟨h, none, cp, sw, dt⟩, objs⟩
    let w1 : World α := ⟨⟨h.set p (some ⟨c, 1, d⟩), none, cp1, sw1, dt1⟩,
      objs.set i ⟨d.length, true, p, []⟩⟩
    Step S w w1 i ∧ w1.elems i = d ∧ w1.capacity S i = w.capacity S i ∧
      w1.size i = d.length ∧ w1.data i = w.data i := by
  intro w w1
  have hilt := lt_of_getElem? hi
  have h2 := hinv_put d hH hi hb hd
  have hlk := Heap.lookup_set_eq (some (⟨c, 1, d⟩ : buffer α)) (Heap.lookup_lt hb)
  refine ⟨⟨⟨h2, rfl⟩, List.length_set _ _ _, fun j hji => List.getElem?_set_ne
    (fun e => hji e.symm), fun j o hji hj hoa => frame_put _ hH hi hb hj hji hoa⟩, ?_, ?_, ?_, ?_⟩
  · simp only [w1, World.elems, obj_set _ _ hilt, elems, data_const_heap _ _ hlk, size]
    simp
  · simp only [w1, w, World.capacity, obj_set _ _ hilt, obj_mk _ hi, capacity_heap _ _ _ hlk,
      capacity_heap _ _ _ hb]
  · simp only [w1, World.size, obj_set _ _ hilt, size]
  · simp only [w1, w, World.data, obj_set _ _ hilt, obj_mk _ hi]

/-! ## push_back on a program -/

theorem not_sharing_ref {S n p : Nat} {sm : List α} {h : Heap α}
    (hv : valid S ⟨n, true, p, sm⟩ h) (hs : sharing ⟨n, true, p, sm⟩ h = false) :
    ∃ c d, h.lookup p = some ⟨c, 1, d⟩ ∧ sm = [] ∧ d.length = n ∧ n ≤ c ∧ S < c := by
  rw [valid_heap] at hv
  obtain ⟨c, r, d, hb, e1, e2, e3, e4⟩ := hv
  rw [sharing_heap _ _ hb] at hs
  simp only [decide_eq_false_iff_not, not_lt] at hs
  have hr : r = 0 := by omega
  subst hr
  exact ⟨c, d, hb, e1, e2, e3, e4⟩

/-- A `push_back` that returns: the new state, and what it guarantees. -/
theorem push_back_step {S : Nat} {w : World α} {i : Nat} {v : socow_vector α} (x : α)
    (hinv : Inv S w) (hi : w.objs[i]? = some v)
    (hS : 1 ≤ S ∨ v.allocated_ = true) :
    ∃ w1, (Op.push_back i x).returns S w w1 ∧ Step S w w1 i ∧
      w1.elems i = w.elems i ++ [x] ∧
      w1.capacity S i =
        (if w.size i = w.capacity S i then w.capacity S i * 2 else w.capacity S i) ∧
      w1.size i = w.size i + 1 := by
  obtain ⟨⟨h, t, cp, sw, dt⟩, objs⟩ := w
  have hnt : t = none := hinv.nothrow
  subst hnt
  have hH : HInv S h objs := hinv.hinv
  simp only at hi
  have hv := hH.valid i v hi
  obtain ⟨hnc, hdl, hSc⟩ := valid_size_le hv
  have hel : (World.mk (St.mk h none cp sw dt) objs).elems i = data_const v h := by
    simp only [World.elems, obj_mk _ hi, elems_of_valid hv]
  have hcap : (World.mk (St.mk h none cp sw dt) objs).capacity S i = capacity S v h := by
    simp only [World.capacity, obj_mk _ hi]
  have hsz : (World.mk (St.mk h none cp sw dt) objs).size i = v.size_ := by
    simp only [World.size, obj_mk _ hi, size]
  rw [hel, hcap, hsz]
  by_cases hfs : (decide (v.size_ = capacity S v h) || sharing v h) = true
  · -- the replacement is built in a fresh buffer
    generalize hnc' : (if v.size_ = capacity S v h then capacity S v h * 2
      else capacity S v h) = nc
    have hc1 : 1 ≤ capacity S v h := by
      rcases hS with hS | hS
      · omega
      · have := valid_cap_lt hv hS; omega
    have hSnc : S < nc := by
      subst hnc'
      split
      · omega
      · rename_i hne
        have hs : sharing v h = true := by simpa [hne] using hfs
        exact valid_cap_lt hv (sharing_allocated hs)
    have hnnc : v.size_ < nc := by
      subst hnc'
      split <;> omega
    obtain ⟨hst, h1, h2, h3, -⟩ := step_rebuild cp sw dt (cp + v.size_ + 1) sw
      (dt + release_dtors v h) nc (data_const v h ++ [x]) hH hi hSnc
      (by simp only [List.length_append, List.length_singleton]; omega)
    simp only [List.length_append, List.length_singleton, hdl] at hst h1 h2 h3
    refine ⟨_, ⟨v.size_ + 8, fun fuel hf => ?_⟩, hst, h1, h2, h3⟩
    simp only [Op.run]
    refine on_ok hi ?_
    rw [push_back_rebuild sw dt x hS hv hfs (passes_none _ _) hf, hnc']
  · -- the element is constructed in place
    simp only [Bool.or_eq_true, decide_eq_true_eq, not_or, Bool.not_eq_true] at hfs
    obtain ⟨hne, hns⟩ := hfs
    rw [if_neg hne]
    obtain ⟨n, a, p, sm⟩ := v
    simp only at hne hnc hdl ⊢
    cases a with
    | false =>
      rw [valid_small] at hv
      rw [capacity_small] at hne hnc ⊢
      rw [data_const_small] at hdl ⊢
      obtain ⟨hst, h1, h2, h3, -⟩ := step_small cp sw dt (cp + 1) sw dt p (sm ++ [x]) hH hi
        (by simp only [List.length_append, List.length_singleton]; omega)
      rw [release_heap_small] at hst h1 h2 h3
      simp only [List.length_append, List.length_singleton, hdl] at hst h1 h2 h3
      refine ⟨_, ⟨3, fun fuel hf => ?_⟩, hst, h1, h2, h3⟩
      simp only [Op.run]
      exact on_ok hi (push_back_small n p x h sw dt hdl (by omega) (passes_none _ _) hf)
    | true =>
      obtain ⟨c, d, hb, rfl, hlen, hnc2, hc⟩ := not_sharing_ref hv hns
      rw [capacity_heap S n [] hb] at hne hnc ⊢
      rw [data_const_heap n [] hb] at hdl ⊢
      simp only at hne hnc hdl ⊢
      obtain ⟨hst, h1, h2, h3, -⟩ := step_put cp sw dt (cp + 1) sw dt (d ++ [x]) hH hi hb
        (by simp only [List.length_append, List.length_singleton]; omega)
      simp only [List.length_append, List.length_singleton, hdl] at hst h1 h2 h3
      refine ⟨_, ⟨3, fun fuel hf => ?_⟩, hst, h1, ?_, h3⟩
      · simp only [Op.run]
        exact on_ok hi (push_back_heap n p [] x sw dt hb hdl (by omega) (passes_none _ _) hf)
      · rw [h2]
        simp only [World.capacity, obj_mk _ hi, capacity_heap S n [] hb]

/-! ## Work in place, for either storage mode -/

theorem exclusive_small (p : Nat) (h : Heap α) : exclusive false p h := by
  intro h; cases h

theorem exclusive_heap {p c : Nat} {d : List α} {h : Heap α}
    (hb : h.lookup p = some ⟨c, 1, d⟩) : exclusive true p h := fun _ => ⟨c, d, hb⟩

theorem sharing_excl {a : Bool} {p : Nat} {h : Heap α} (hx : exclusive a p h) (n : Nat)
    (sm : List α) : sharing ⟨n, a, p, sm⟩ h = false := by
  cases a with
  | false => exact sharing_small _ _ _ _
  | true =>
    obtain ⟨c, d, hb⟩ := hx rfl
    rw [sharing_heap _ _ hb]; simp

theorem data_excl {S fuel : Nat} {a : Bool} {p : Nat} {h : Heap α} (hx : exclusive a p h)
    (n : Nat) (sm : List α) (t : Option Nat) (cp sw dt : Nat) (hf : 2 ≤ fuel) :
    data S fuel ⟨n, a, p, sm⟩ ⟨h, t, cp, sw, dt⟩ = .ok (⟨n, a, p, sm⟩, ⟨h, t, cp, sw, dt⟩) :=
  data_idle hf (sharing_excl hx n sm)

theorem put_data_excl {a : Bool} {p : Nat} {h : Heap α} (hx : exclusive a p h) (n : Nat)
    (sm d : List α) (t : Option Nat) (cp sw dt : Nat) :
    put_data ⟨n, a, p, sm⟩ d ⟨h, t, cp, sw, dt⟩ =
      some (⟨n, a, p, keep a sm d⟩, ⟨put_heap a p d h, t, cp, sw, dt⟩) := by
  cases a with
  | false => simp [put_data, keep, put_heap]
  | true =>
    obtain ⟨c, d0, hb⟩ := hx rfl
    simp [put_data, keep, put_heap, hb, Heap.getBuf_of_lookup hb]

theorem exclusive_put {a : Bool} {p : Nat} {h : Heap α} (hx : exclusive a p h) (d : List α) :
    exclusive a p (put_heap a p d h) := by
  intro ha
  subst ha
  obtain ⟨c, d0, hb⟩ := hx rfl
  exact ⟨c, d, by simp [put_heap, Heap.getBuf_of_lookup hb,
    Heap.lookup_set_eq _ (Heap.lookup_lt hb)]⟩

theorem data_const_put {a : Bool} {p : Nat} {h : Heap α} (hx : exclusive a p h) (n : Nat)
    (sm d : List α) : data_const ⟨n, a, p, keep a sm d⟩ (put_heap a p d h) = d := by
  cases a with
  | false => simp [data_const, keep]
  | true =>
    obtain ⟨c, d0, hb⟩ := hx rfl
    simp [data_const, put_heap, Heap.getBuf, Heap.lookup_set_eq _ (Heap.lookup_lt hb)]

theorem capacity_put {S : Nat} {a : Bool} {p : Nat} {h : Heap α} (hx : exclusive a p h)
    (n m : Nat) (sm sm1 d : List α) :
    capacity S ⟨n, a, p, sm⟩ (put_heap a p d h) = capacity S ⟨m, a, p, sm1⟩ h := by
  cases a with
  | false => simp [capacity]
  | true =>
    obtain ⟨c, d0, hb⟩ := hx rfl
    simp [capacity, put_heap, Heap.getBuf, Heap.lookup_set_eq _ (Heap.lookup_lt hb)]

theorem keep_keep (a : Bool) (sm d d1 : List α) : keep a (keep a sm d) d1 = keep a sm d1 := by
  cases a <;> rfl

theorem put_heap_put_heap {a : Bool} {p : Nat} {h : Heap α} (hx : exclusive a p h)
    (d d1 : List α) : put_heap a p d1 (put_heap a p d h) = put_heap a p d1 h := by
  cases a with
  | false => rfl
  | true =>
    obtain ⟨c, d0, hb⟩ := hx rfl
    simp [put_heap, Heap.getBuf, Heap.lookup_set_eq _ (Heap.lookup_lt hb), Heap.set_set]

theorem put_heap_self {a : Bool} {p : Nat} {h : Heap α} (hx : exclusive a p h) (n : Nat)
    (sm : List α) : put_heap a p (data_const ⟨n, a, p, sm⟩ h) h = h := by
  cases a with
  | false => rfl
  | true =>
    obtain ⟨c, d0, hb⟩ := hx rfl
    simp only [put_heap, if_true, data_const_heap n sm hb, Heap.getBuf_of_lookup hb]
    exact Heap.set_lookup_self hb

theorem keep_self (a : Bool) (n p : Nat) (sm : List α) (h : Heap α) :
    keep a sm (data_const ⟨n, a, p, sm⟩ h) = sm := by
  cases a <;> simp [keep, data_const]

theorem data_const_size (n m : Nat) (a : Bool) (p : Nat) (sm : List α) (h : Heap α) :
    data_const ⟨n, a, p, sm⟩ h = data_const ⟨m, a, p, sm⟩ h := rfl

theorem capacity_size (S n m : Nat) (a : Bool) (p : Nat) (sm sm1 : List α) (h : Heap α) :
    capacity S ⟨n, a, p, sm⟩ h = capacity S ⟨m, a, p, sm1⟩ h := rfl

/-- A `pop_back` on a non-shared container. -/
theorem pop_back_excl {S fuel : Nat} {a : Bool} {p : Nat} {h : Heap α}
    (hx : exclusive a p h) (k : Nat) (sm : List α) (t : Option Nat) (cp sw dt : Nat)
    (hlen : (data_const ⟨k + 1, a, p, sm⟩ h).length = k + 1) (hf : 3 ≤ fuel) :
    pop_back S fuel ⟨k + 1, a, p, sm⟩ ⟨h, t, cp, sw, dt⟩ =
      .ok (⟨k, a, p, keep a sm (data_const ⟨k + 1, a, p, sm⟩ h).dropLast⟩,
        ⟨put_heap a p (data_const ⟨k + 1, a, p, sm⟩ h).dropLast h, t, cp, sw, dt + 1⟩) := by
  cases a with
  | false =>
    rw [data_const_small] at hlen ⊢
    rw [pop_back_small k p h t cp sw dt hlen hf]
    simp [keep, put_heap]
  | true =>
    obtain ⟨c, d0, hb⟩ := hx rfl
    rw [data_const_heap _ _ hb] at hlen ⊢
    rw [pop_back_heap k p sm t cp sw dt hb hlen hf]
    simp [keep, put_heap, Heap.getBuf_of_lookup hb]

/-- A `push_back` on a non-shared container with spare capacity. -/
theorem push_back_excl {S fuel : Nat} {a : Bool} {p : Nat} {h : Heap α}
    (hx : exclusive a p h) (n : Nat) (sm : List α) (x : α) {t : Option Nat} {cp : Nat}
    (sw dt : Nat) (hlen : (data_const ⟨n, a, p, sm⟩ h).length = n)
    (hn : n < capacity S ⟨n, a, p, sm⟩ h) (hp : passes t cp 1) (hf : 3 ≤ fuel) :
    push_back S fuel ⟨n, a, p, sm⟩ x ⟨h, t, cp, sw, dt⟩ =
      .ok (⟨n + 1, a, p, keep a sm (data_const ⟨n, a, p, sm⟩ h ++ [x])⟩,
        ⟨put_heap a p (data_const ⟨n, a, p, sm⟩ h ++ [x]) h, t, cp + 1, sw, dt⟩) := by
  cases a with
  | false =>
    rw [data_const_small] at hlen ⊢
    rw [capacity_small] at hn
    rw [push_back_small n p x h sw dt hlen hn hp hf]
    simp [keep, put_heap]
  | true =>
    obtain ⟨c, d0, hb⟩ := hx rfl
    rw [data_const_heap _ _ hb] at hlen ⊢
    rw [capacity_heap _ _ _ hb] at hn
    rw [push_back_heap n p sm x sw dt hb hlen hn hp hf]
    simp [keep, put_heap, Heap.getBuf_of_lookup hb]

/-- One exchange of two elements of a non-shared container. -/
theorem swap_elements_excl {S n : Nat} {a : Bool} {p : Nat} {h : Heap α}
    (hx : exclusive a p h) (k : Nat) (sm : List α) (i j : Nat) (t : Option Nat)
    (cp sw dt : Nat) {u w : α} (hi : (data_const ⟨k, a, p, sm⟩ h)[i]? = some u)
    (hj : (data_const ⟨k, a, p, sm⟩ h)[j]? = some w) (hp : passes t cp 1) (hf : 2 ≤ n) :
    swap_elements S n ⟨k, a, p, sm⟩ i j ⟨h, t, cp, sw, dt⟩ =
      .ok (⟨k, a, p, keep a sm (((data_const ⟨k, a, p, sm⟩ h).set i w).set j u)⟩,
        ⟨put_heap a p (((data_const ⟨k, a, p, sm⟩ h).set i w).set j u) h, t, cp + 1, sw + 1,
          dt + 1⟩) := by
  unfold swap_elements
  rw [data_excl hx k sm t cp sw dt hf]
  simp only []
  rw [data_excl hx k sm t cp sw dt hf]
  simp only [std_swap_within, hi, hj, std_swap_ok hp]
  rw [put_data_excl hx]

/-! ## The loops of insert and erase -/

theorem set_mid (A : List α) (u w : α) (B : List α) :
    (A ++ u :: B).set A.length w = A ++ w :: B := by
  simp

theorem getElem?_mid (A : List α) (u : α) (B : List α) :
    (A ++ u :: B)[A.length]? = some u := by
  rw [List.getElem?_append_right (le_refl _)]; simp

/-- The loop of `insert` carries the new last element down to index `npos`. -/
theorem insert_loop_excl {S : Nat} {a : Bool} {p : Nat} (k : Nat) (x : α) (B : List α) :
    ∀ (fuel : Nat) (A C : List α) (h : Heap α) (sm : List α) (t : Option Nat)
      (cp sw dt : Nat), exclusive a p h → passes t cp B.length →
      data_const ⟨k, a, p, sm⟩ h = A ++ (B ++ x :: C) → B.length + 3 ≤ fuel →
      insert_loop S fuel ⟨k, a, p, sm⟩ (A.length + B.length) A.length ⟨h, t, cp, sw, dt⟩ =
        .ok (⟨k, a, p, keep a sm (A ++ x :: (B ++ C))⟩,
          ⟨put_heap a p (A ++ x :: (B ++ C)) h, t, cp + B.length, sw + B.length,
            dt + B.length⟩) := by
  induction B using List.reverseRecOn with
  | nil =>
    intro fuel A C h sm t cp sw dt hx _ hd hf
    obtain ⟨m, rfl⟩ : ∃ m, fuel = m + 1 := ⟨fuel - 1, by omega⟩
    simp only [List.nil_append] at hd
    simp only [insert_loop, List.length_nil, Nat.add_zero, gt_iff_lt, Nat.lt_irrefl, if_false,
      List.nil_append, ← hd, put_heap_self hx, keep_self]
  | append_singleton B y ih =>
    intro fuel A C h sm t cp sw dt hx hp hd hf
    obtain ⟨m, rfl⟩ : ∃ m, fuel = m + 1 := ⟨fuel - 1, by omega⟩
    simp only [List.length_append, List.length_singleton] at hf hp ⊢
    have hp1 : passes t cp 1 := passes_mono hp (by omega)
    have hp2 : passes t (cp + 1) B.length := (passes_add (Nat.add_comm B.length 1 ▸ hp)).2
    have hgt : A.length + (B.length + 1) > A.length := by omega
    have e1 : A ++ (B ++ [y] ++ x :: C) = (A ++ B ++ [y]) ++ x :: C := by simp
    have e2 : A ++ (B ++ [y] ++ x :: C) = (A ++ B) ++ y :: x :: C := by simp
    have hi1 : (data_const ⟨k, a, p, sm⟩ h)[A.length + (B.length + 1)]? = some x := by
      rw [hd, e1]
      have := getElem?_mid (A ++ B ++ [y]) x C
      simpa [Nat.add_assoc] using this
    have hi2 : (data_const ⟨k, a, p, sm⟩ h)[A.length + (B.length + 1) - 1]? = some y := by
      rw [hd, e2]
      have := getElem?_mid (A ++ B) y (x :: C)
      simpa [Nat.add_assoc] using this
    simp only [insert_loop, hgt, if_true]
    rw [swap_elements_excl hx k sm _ _ t cp sw dt hi1 hi2 hp1 (by omega)]
    simp only []
    have e3 : ((data_const ⟨k, a, p, sm⟩ h).set (A.length + (B.length + 1)) y).set
        (A.length + (B.length + 1) - 1) x = A ++ (B ++ x :: (y :: C)) := by
      rw [hd, e1]
      have s1 := set_mid (A ++ B ++ [y]) x y C
      simp only [List.length_append, List.length_singleton, Nat.add_assoc] at s1
      rw [s1]
      have s2 := set_mid (A ++ B) y x (y :: C)
      simp only [List.length_append] at s2
      have e4 : A ++ B ++ [y] ++ y :: C = (A ++ B) ++ y :: y :: C := by simp
      rw [e4, show A.length + (B.length + 1) - 1 = A.length + B.length by omega, s2]
      simp
    rw [e3]
    have := ih m A (y :: C) (put_heap a p (A ++ (B ++ x :: (y :: C))) h)
      (keep a sm (A ++ (B ++ x :: (y :: C)))) t (cp + 1) (sw + 1) (dt + 1)
      (exclusive_put hx _) hp2 (data_const_put hx k sm _) (by omega)
    rw [show A.length + (B.length + 1) - 1 = A.length + B.length by omega, this]
    simp only [keep_keep, put_heap_put_heap hx, List.append_assoc, List.singleton_append,
      Nat.add_assoc, Nat.add_comm 1 B.length]

/-- The first loop of `erase` moves the tail `T` over the erased elements `E`. -/
theorem erase_shift_loop_excl {S : Nat} {a : Bool} {p : Nat} (T : List α) :
    ∀ (fuel : Nat) (A E : List α) (h : Heap α) (sm : List α) (t : Option Nat)
      (cp sw dt : Nat), exclusive a p h → passes t cp T.length → E ≠ [] →
      data_const ⟨A.length + E.length + T.length, a, p, sm⟩ h = A ++ (E ++ T) →
      T.length + 3 ≤ fuel →
      ∃ E1, E1.length = E.length ∧
        erase_shift_loop S fuel ⟨A.length + E.length + T.length, a, p, sm⟩
            (A.length + E.length) E.length ⟨h, t, cp, sw, dt⟩ =
          .ok (⟨A.length + E.length + T.length, a, p, keep a sm (A ++ (T ++ E1))⟩,
            ⟨put_heap a p (A ++ (T ++ E1)) h, t, cp + T.length, sw + T.length,
              dt + T.length⟩) := by
  induction T with
  | nil =>
    intro fuel A E h sm t cp sw dt hx _ hne hd hf
    obtain ⟨m, rfl⟩ : ∃ m, fuel = m + 1 := ⟨fuel - 1, by omega⟩
    refine ⟨E, rfl, ?_⟩
    simp only [List.append_nil] at hd
    simp only [erase_shift_loop, size, List.length_nil, Nat.add_zero, Nat.lt_irrefl, if_false,
      List.nil_append, ← hd, put_heap_self hx, keep_self]
  | cons y T ih =>
    intro fuel A E h sm t cp sw dt hx hp hne hd hf
    obtain ⟨m, rfl⟩ : ∃ m, fuel = m + 1 := ⟨fuel - 1, by omega⟩
    obtain ⟨e, E', rfl⟩ := List.exists_cons_of_ne_nil hne
    simp only [List.length_cons] at hf hd hp ⊢
    have hp1 : passes t cp 1 := passes_mono hp (by omega)
    have hp2 : passes t (cp + 1) T.length := (passes_add (Nat.add_comm T.length 1 ▸ hp)).2
    have hlt : A.length + (E'.length + 1) < A.length + (E'.length + 1) + (T.length + 1) := by
      omega
    have e1 : A ++ (e :: E' ++ y :: T) = (A ++ e :: E') ++ y :: T := by simp
    have hi1 : (data_const ⟨A.length + (E'.length + 1) + (T.length + 1), a, p, sm⟩ h)[
        A.length + (E'.length + 1)]? = some y := by
      rw [hd, e1]
      have := getElem?_mid (A ++ e :: E') y T
      simpa [Nat.add_assoc] using this
    have hi2 : (data_const ⟨A.length + (E'.length + 1) + (T.length + 1), a, p, sm⟩ h)[
        A.length + (E'.length + 1) - (E'.length + 1)]? = some e := by
      rw [hd, Nat.add_sub_cancel]
      exact getElem?_mid A e (E' ++ y :: T)
    simp only [erase_shift_loop, size, hlt, if_true]
    rw [swap_elements_excl hx _ sm _ _ t cp sw dt hi1 hi2 hp1 (by omega)]
    simp only []
    have e3 : ((data_const ⟨A.length + (E'.length + 1) + (T.length + 1), a, p, sm⟩ h).set
        (A.length + (E'.length + 1)) e).set (A.length + (E'.length + 1) - (E'.length + 1)) y =
        (A ++ [y]) ++ ((E' ++ [e]) ++ T) := by
      rw [hd, e1]
      have s1 := set_mid (A ++ e :: E') y e T
      simp only [List.length_append, List.length_cons] at s1
      rw [s1, Nat.add_sub_cancel]
      have e4 : A ++ e :: E' ++ e :: T = A ++ e :: (E' ++ e :: T) := by simp
      rw [e4, set_mid]
      simp
    rw [e3]
    have hl1 : (A ++ [y]).length = A.length + 1 := by simp
    have hl2 : (E' ++ [e]).length = E'.length + 1 := by simp
    obtain ⟨E1, hE1, heq⟩ := ih m (A ++ [y]) (E' ++ [e])
      (put_heap a p ((A ++ [y]) ++ ((E' ++ [e]) ++ T)) h)
      (keep a sm ((A ++ [y]) ++ ((E' ++ [e]) ++ T))) t (cp + 1) (sw + 1) (dt + 1)
      (exclusive_put hx _) hp2 (by simp) (by
        rw [data_const_size _ (A.length + (E'.length + 1) + (T.length + 1))]
        exact data_const_put hx _ sm _) (by omega)
    refine ⟨E1, by rw [hE1, hl2], ?_⟩
    rw [hl1, hl2] at heq
    have hsz : A.length + 1 + (E'.length + 1) + T.length
        = A.length + (E'.length + 1) + (T.length + 1) := by omega
    have hidx : A.length + 1 + (E'.length + 1) = A.length + (E'.length + 1) + 1 := by omega
    rw [hsz, hidx] at heq
    rw [heq]
    have hsw : ∀ c : Nat, c + 1 + T.length = c + (T.length + 1) := fun c => by omega
    simp only [keep_keep, put_heap_put_heap hx, List.append_assoc, List.singleton_append,
      List.cons_append, List.nil_append, hsw]

/-- The second loop of `erase` pops the elements `R` that are left at the end. -/
theorem erase_pop_loop_excl {S : Nat} {a : Bool} {p : Nat} (R : List α) :
    ∀ (fuel i k : Nat) (L : List α) (h : Heap α) (sm : List α) (t : Option Nat)
      (cp sw dt : Nat), exclusive a p h → i + R.length = k →
      data_const ⟨L.length + R.length, a, p, sm⟩ h = L ++ R → R.length + 4 ≤ fuel →
      erase_pop_loop S fuel ⟨L.length + R.length, a, p, sm⟩ i k ⟨h, t, cp, sw, dt⟩ =
        .ok (⟨L.length, a, p, keep a sm L⟩,
          ⟨put_heap a p L h, t, cp, sw, dt + R.length⟩) := by
  induction R using List.reverseRecOn with
  | nil =>
    intro fuel i k L h sm t cp sw dt hx hik hd hf
    obtain ⟨m, rfl⟩ : ∃ m, fuel = m + 1 := ⟨fuel - 1, by omega⟩
    simp only [List.length_nil, Nat.add_zero, List.append_nil] at hik hd ⊢
    subst hik
    have e1 : keep a sm L = sm := by
      have := keep_self a L.length p sm h
      rwa [hd] at this
    have e2 : put_heap a p L h = h := by
      have := put_heap_self hx L.length sm
      rwa [hd] at this
    simp only [erase_pop_loop, Nat.lt_irrefl, if_false, e1, e2]
  | append_singleton R z ih =>
    intro fuel i k L h sm t cp sw dt hx hik hd hf
    obtain ⟨m, rfl⟩ : ∃ m, fuel = m + 1 := ⟨fuel - 1, by omega⟩
    simp only [List.length_append, List.length_singleton] at hik hd hf ⊢
    have hlt : i < k := by omega
    simp only [erase_pop_loop, hlt, if_true]
    have hsz : L.length + (R.length + 1) = (L.length + R.length) + 1 := by omega
    rw [hsz] at hd ⊢
    rw [pop_back_excl hx (L.length + R.length) sm t cp sw dt (by rw [hd]; simp; omega)
      (by omega)]
    simp only []
    have e1 : (data_const ⟨L.length + R.length + 1, a, p, sm⟩ h).dropLast = L ++ R := by
      rw [hd, ← List.append_assoc, List.dropLast_concat]
    rw [e1]
    rw [ih m (i + 1) k L (put_heap a p (L ++ R) h) (keep a sm (L ++ R)) t cp sw (dt + 1)
      (exclusive_put hx _) (by omega) (data_const_put hx _ sm _) (by omega)]
    have hdt : dt + 1 + R.length = dt + (R.length + 1) := by omega
    rw [keep_keep, put_heap_put_heap hx, hdt]

/-! ## Building a replacement and installing it -/

theorem data_const_put_other {o : socow_vector α} {a : Bool} {p : Nat} (d : List α)
    (h : Heap α) (hne : o.allocated_ = true → a = true → o.buf_ ≠ p) :
    data_const o (put_heap a p d h) = data_const o h := by
  cases a with
  | false => rfl
  | true =>
    cases hoa : o.allocated_ with
    | false => simp [data_const, hoa]
    | true =>
      have := hne hoa rfl
      simp [data_const, hoa, put_heap, Heap.getBuf, Heap.lookup_set_ne _ (Ne.symm this)]

/-- The loop of `push_back_range` appends the elements `X` of `other` to a non-shared
container with enough spare capacity. -/
theorem push_back_range_excl {S : Nat} {a : Bool} {p : Nat} (o : socow_vector α)
    (hne : o.allocated_ = true → a = true → o.buf_ ≠ p) (X : List α) :
    ∀ (fuel m : Nat) (sm P Q : List α) (h : Heap α) (t : Option Nat) (cp sw dt : Nat),
      exclusive a p h → data_const o h = P ++ (X ++ Q) →
      (data_const ⟨m, a, p, sm⟩ h).length = m →
      m + X.length ≤ capacity S ⟨m, a, p, sm⟩ h → passes t cp X.length →
      X.length + 4 ≤ fuel →
      push_back_range S fuel ⟨m, a, p, sm⟩ o P.length (P.length + X.length)
          ⟨h, t, cp, sw, dt⟩ =
        .ok (⟨m + X.length, a, p, keep a sm (data_const ⟨m, a, p, sm⟩ h ++ X)⟩,
          ⟨put_heap a p (data_const ⟨m, a, p, sm⟩ h ++ X) h, t, cp + X.length, sw, dt⟩) := by
  induction X with
  | nil =>
    intro fuel m sm P Q h t cp sw dt hx hsrc hlen hcap hp hf
    obtain ⟨k, rfl⟩ : ∃ k, fuel = k + 1 := ⟨fuel - 1, by omega⟩
    simp only [push_back_range, List.length_nil, Nat.add_zero, Nat.lt_irrefl, if_false,
      List.append_nil, put_heap_self hx, keep_self]
  | cons x X ih =>
    intro fuel m sm P Q h t cp sw dt hx hsrc hlen hcap hp hf
    obtain ⟨k, rfl⟩ : ∃ k, fuel = k + 1 := ⟨fuel - 1, by omega⟩
    simp only [List.length_cons] at hcap hp hf ⊢
    have hlt : P.length < P.length + (X.length + 1) := by omega
    have hrd : (data_const o h)[P.length]? = some x := by
      rw [hsrc]; exact getElem?_mid P x (X ++ Q)
    have hp2 := passes_add (show passes t cp (1 + X.length) by rwa [Nat.add_comm])
    simp only [push_back_range, hlt, if_true, hrd]
    rw [push_back_excl hx m sm x sw dt hlen (by omega) hp2.1 (by omega)]
    simp only []
    have hl : (P ++ [x]).length = P.length + 1 := by simp
    have := ih k (m + 1) (keep a sm (data_const ⟨m, a, p, sm⟩ h ++ [x])) (P ++ [x]) Q
      (put_heap a p (data_const ⟨m, a, p, sm⟩ h ++ [x]) h) t (cp + 1) sw dt
      (exclusive_put hx _) (by rw [data_const_put_other _ _ hne, hsrc]; simp)
      (by rw [data_const_put hx]; simp [hlen])
      (by rw [capacity_put hx (m + 1) m _ sm]; omega) hp2.2 (by omega)
    rw [hl, data_const_put hx] at this
    rw [show P.length + (X.length + 1) = P.length + 1 + X.length by omega, this]
    have e1 : m + 1 + X.length = m + (X.length + 1) := by omega
    have e2 : cp + 1 + X.length = cp + (X.length + 1) := by omega
    simp only [keep_keep, put_heap_put_heap hx, List.append_assoc, List.singleton_append, e1,
      e2]

/-- Copy assignment from a temporary that owns a fresh buffer. -/
theorem assign_fresh {S fuel : Nat} {v : socow_vector α} {h : Heap α} (k nc : Nat)
    (d : List α) (t : Option Nat) (cp sw dt : Nat) (hv : valid S v h) (hd : d.length = k)
    (hk : k ≤ nc) (hnc : S < nc) (hf : v.size_ + 6 ≤ fuel) :
    assign S fuel v ⟨k, true, h.length, []⟩ ⟨h ++ [some ⟨nc, 1, d⟩], t, cp, sw, dt⟩ =
      .ok (⟨k, true, h.length, []⟩,
        ⟨release_heap v h ++ [some ⟨nc, 2, d⟩], t, cp, sw, dt + release_dtors v h⟩) := by
  have hlt := valid_lt hv
  have hrl := length_release_heap v h
  rw [assign_spec sw dt (valid_append _ hv)
    (valid_heap.mpr ⟨nc, 0, d, Heap.lookup_append_new _ _, rfl, hd, hk, hnc⟩)
    (fun ha _ hb => by have := hlt ha; simp only at hb; omega)
    (fun hf => by simp at hf) hf]
  simp only [if_true, release_heap_append _ hlt, release_dtors_append _ hlt]
  rw [retain_heap_eq (Heap.lookup_append_new' _ hrl), Heap.set_append_new' _ _ hrl]

/-- The destructor of a temporary whose fresh buffer has been taken over. -/
theorem hard_clear_fresh {S fuel : Nat} (v : socow_vector α) (h : Heap α) (k nc : Nat)
    (d : List α) (t : Option Nat) (cp sw dt : Nat) (hf : 3 ≤ fuel) :
    hard_clear S fuel ⟨k, true, h.length, []⟩
        ⟨release_heap v h ++ [some ⟨nc, 2, d⟩], t, cp, sw, dt⟩ =
      .ok (⟨0, false, h.length, []⟩,
        ⟨release_heap v h ++ [some ⟨nc, 1, d⟩], t, cp, sw, dt⟩) := by
  have hrl := length_release_heap v h
  rw [hard_clear_shared k h.length [] t cp sw dt
    (show Heap.lookup (release_heap v h ++ [some ⟨nc, 2, d⟩]) h.length = some ⟨nc, 0 + 2, d⟩
      from Heap.lookup_append_new' _ hrl) hf]
  simp only [Heap.set_append_new' _ _ hrl, Nat.zero_add]

/-- Swapping with a temporary that owns a fresh buffer, followed by the destructor of the
temporary. -/
theorem swap_fresh {S fuel : Nat} (n p k nc : Nat) {h : Heap α} (d : List α) (t : Option Nat)
    (cp sw dt : Nat) (hv : valid S ⟨n, true, p, []⟩ h) (hnc : S < nc) (hf : 6 ≤ fuel) :
    swap S fuel ⟨n, true, p, []⟩ ⟨k, true, h.length, []⟩
        ⟨h ++ [some ⟨nc, 1, d⟩], t, cp, sw, dt⟩ =
      .ok (⟨k, true, h.length, []⟩, ⟨n, true, p, []⟩,
        ⟨h ++ [some ⟨nc, 1, d⟩], t, cp, sw, dt⟩) := by
  have hv' := hv
  rw [valid_heap] at hv'
  obtain ⟨c, r, d0, hb, -, -, -, hc⟩ := hv'
  exact swap_heap_heap n p k h.length t cp sw dt
    (show Heap.lookup (h ++ [some ⟨nc, 1, d⟩]) p = some ⟨c, r + 1, d0⟩ by
      rw [Heap.lookup_append_left _ (Heap.lookup_lt hb), hb])
    (show Heap.lookup (h ++ [some ⟨nc, 1, d⟩]) h.length = some ⟨nc, 0 + 1, d⟩ from
      Heap.lookup_append_new _ _) hc hnc hf

theorem hard_clear_old {S fuel : Nat} {v : socow_vector α} {h : Heap α} (l : Heap α)
    (t : Option Nat) (cp sw dt : Nat) (hv : valid S v h) (hf : v.size_ + 5 ≤ fuel) :
    hard_clear S fuel v ⟨h ++ l, t, cp, sw, dt⟩ =
      .ok (⟨0, false, v.buf_, []⟩,
        ⟨release_heap v h ++ l, t, cp, sw, dt + release_dtors v h⟩) := by
  rw [hard_clear_spec t cp sw dt (valid_append l hv) hf, release_heap_append _ (valid_lt hv),
    release_dtors_append _ (valid_lt hv)]

/-! ## insert -/

theorem put_heap_fresh (h : Heap α) (nc r : Nat) (d d1 : List α) :
    put_heap true h.length d1 (h ++ [some ⟨nc, r, d⟩]) = h ++ [some ⟨nc, r, d1⟩] := by
  simp [put_heap, Heap.getBuf, Heap.lookup_append_new, Heap.set_append_new]

theorem new_capacity_facts {S : Nat} {v : socow_vector α} {h : Heap α}
    (hS : 1 ≤ S ∨ v.allocated_ = true) (hv : valid S v h)
    (hfs : (sharing v h || decide (v.size_ = capacity S v h)) = true) :
    S < (if v.size_ = capacity S v h then capacity S v h * 2 else capacity S v h) ∧
      v.size_ < (if v.size_ = capacity S v h then capacity S v h * 2 else capacity S v h) := by
  obtain ⟨hnc, hdl, hSc⟩ := valid_size_le hv
  have hc1 : 1 ≤ capacity S v h := by
    rcases hS with hS | hS
    · omega
    · have := valid_cap_lt hv hS; omega
  split
  · omega
  · rename_i hne
    have hs : sharing v h = true := by simpa [hne] using hfs
    have := valid_cap_lt hv (sharing_allocated hs)
    omega

/-- An `insert` into a full or shared container builds the new contents in a fresh buffer. -/
theorem insert_rebuild {S fuel : Nat} {v : socow_vector α} {h : Heap α} {t : Option Nat}
    {cp : Nat} (sw dt npos : Nat) (x : α) (hS : 1 ≤ S ∨ v.allocated_ = true)
    (hv : valid S v h)
    (hfs : (sharing v h || decide (v.size_ = capacity S v h)) = true)
    (hnp : npos ≤ v.size_) (hp : passes t cp (v.size_ + 1)) (hf : v.size_ + 9 ≤ fuel) :
    insert S fuel v npos x ⟨h, t, cp, sw, dt⟩ =
      .ok (⟨v.size_ + 1, true, h.length, []⟩, npos,
        ⟨release_heap v h ++
            [some ⟨if v.size_ = capacity S v h then capacity S v h * 2 else capacity S v h, 1,
              (data_const v h).take npos ++ x :: (data_const v h).drop npos⟩],
          t, cp + v.size_ + 1, sw, dt + release_dtors v h⟩) := by
  obtain ⟨m, rfl⟩ : ∃ m, fuel = m + 1 := ⟨fuel - 1, by omega⟩
  obtain ⟨hnc, hdl, hSc⟩ := valid_size_le hv
  obtain ⟨hSnc, hnnc⟩ := new_capacity_facts hS hv hfs
  have hlt := valid_lt hv
  generalize hnc' : (if v.size_ = capacity S v h then capacity S v h * 2
    else capacity S v h) = nc at hSnc hnnc ⊢
  have hp1 : passes t cp (npos + (1 + (v.size_ - npos))) := by
    rw [show npos + (1 + (v.size_ - npos)) = v.size_ + 1 by omega]; exact hp
  have hp2 := passes_add hp1
  have hp3 := passes_add hp2.2
  have hPl : ((data_const v h).take npos).length = npos := by
    rw [List.length_take, hdl]; omega
  have hXl : ((data_const v h).drop npos).length = v.size_ - npos := by
    rw [List.length_drop, hdl]
  simp only [insert, size, hfs, if_true, hnc']
  rw [ctor_fresh hSnc (by omega) (by omega) hlt hp2.1]
  simp only []
  rw [push_back_heap npos h.length [] x sw dt (Heap.lookup_append_new _ _) hPl (by omega)
    hp3.1 (by omega)]
  simp only [Res.bind, Heap.set_append_new]
  have key := push_back_range_excl (S := S) (a := true) (p := h.length) v
    (fun ha _ => Nat.ne_of_lt (hlt ha)) ((data_const v h).drop npos) m (npos + 1) []
    ((data_const v h).take npos) []
    (h ++ [some ⟨nc, 1, (data_const v h).take npos ++ [x]⟩]) t (cp + npos + 1) sw dt
    (exclusive_heap (Heap.lookup_append_new _ _))
    (by rw [data_const_append _ hlt]; simp)
    (by rw [data_const_heap _ _ (Heap.lookup_append_new _ _)]; simp [hPl])
    (by rw [capacity_heap _ _ _ (Heap.lookup_append_new _ _), hXl]; simp only []; omega)
    (by rw [hXl]; exact hp3.2) (by rw [hXl]; omega)
  rw [hPl, hXl, show npos + (v.size_ - npos) = v.size_ by omega,
    data_const_heap _ _ (Heap.lookup_append_new _ _), put_heap_fresh] at key
  simp only [keep] at key
  rw [key]
  simp only [if_true]
  rw [assign_fresh _ nc _ t _ sw dt hv (by simp [hPl, hXl]; omega) (by omega) hSnc (by omega)]
  simp only []
  rw [hard_clear_fresh v h _ nc _ t _ sw _ (by omega)]
  simp only []
  rw [data_heap _ _ [] t _ sw _ (Heap.lookup_append_new' _ (length_release_heap v h))
    (by omega)]
  simp only [List.append_assoc, List.singleton_append, Res.ok.injEq, Prod.mk.injEq,
    socow_vector.mk.injEq, St.mk.injEq, and_true, true_and]
  omega

/-- An `insert` into a non-shared container with spare capacity works in place. -/
theorem insert_inplace {S fuel : Nat} {a : Bool} {p : Nat} {h : Heap α} (n : Nat)
    (sm : List α) (npos : Nat) (x : α) {t : Option Nat} {cp : Nat} (sw dt : Nat)
    (hx : exclusive a p h) (hlen : (data_const ⟨n, a, p, sm⟩ h).length = n)
    (hn : n < capacity S ⟨n, a, p, sm⟩ h) (hnp : npos ≤ n)
    (hp : passes t cp (1 + (n - npos))) (hf : n + 5 ≤ fuel) :
    insert S fuel ⟨n, a, p, sm⟩ npos x ⟨h, t, cp, sw, dt⟩ =
      .ok (⟨n + 1, a, p,
          keep a sm ((data_const ⟨n, a, p, sm⟩ h).take npos ++
            x :: (data_const ⟨n, a, p, sm⟩ h).drop npos)⟩, npos,
        ⟨put_heap a p ((data_const ⟨n, a, p, sm⟩ h).take npos ++
            x :: (data_const ⟨n, a, p, sm⟩ h).drop npos) h,
          t, cp + 1 + (n - npos), sw + (n - npos), dt + (n - npos)⟩) := by
  obtain ⟨m, rfl⟩ : ∃ m, fuel = m + 1 := ⟨fuel - 1, by omega⟩
  have hp2 := passes_add hp
  have hfs : (sharing ⟨n, a, p, sm⟩ h || decide (n = capacity S ⟨n, a, p, sm⟩ h)) = false := by
    rw [sharing_excl hx]; simp; omega
  generalize hD : data_const ⟨n, a, p, sm⟩ h = D at hlen ⊢
  have hPl : (D.take npos).length = npos := by rw [List.length_take, hlen]; omega
  have hXl : (D.drop npos).length = n - npos := by rw [List.length_drop, hlen]
  simp only [insert, size, hfs, Bool.false_eq_true, if_false]
  rw [push_back_excl hx n sm x sw dt (by rw [hD]; exact hlen) hn hp2.1 (by omega), hD]
  simp only [Nat.add_sub_cancel]
  have key := insert_loop_excl (S := S) (n + 1) x (D.drop npos) m (D.take npos) []
    (put_heap a p (D ++ [x]) h) (keep a sm (D ++ [x])) t (cp + 1) sw dt (exclusive_put hx _)
    (by rw [hXl]; exact hp2.2)
    (by rw [data_const_put hx]; simp [← List.append_assoc]) (by rw [hXl]; omega)
  rw [hPl, hXl, show npos + (n - npos) = n by omega] at key
  rw [key]
  simp only [keep_keep, put_heap_put_heap hx, List.append_nil]
  rw [data_excl (exclusive_put hx _) _ _ t _ _ _ (by omega)]

/-! ## erase -/

/-- An `erase` of a non-empty range from a shared container builds the new contents in a
fresh buffer. -/
theorem erase_rebuild {S fuel : Nat} {v : socow_vector α} {h : Heap α} {t : Option Nat}
    {cp : Nat} (sw dt first last : Nat) (hv : valid S v h) (hs : sharing v h = true)
    (hfl : first < last) (hln : last ≤ v.size_)
    (hp : passes t cp (first + (v.size_ - last))) (hf : v.size_ + 9 ≤ fuel) :
    erase S fuel v first last ⟨h, t, cp, sw, dt⟩ =
      .ok (⟨first + (v.size_ - last), true, h.length, []⟩, first,
        ⟨release_heap v h ++
            [some ⟨capacity S v h, 1,
              (data_const v h).take first ++ (data_const v h).drop last⟩],
          t, cp + (first + (v.size_ - last)), sw, dt + release_dtors v h⟩) := by
  obtain ⟨m, rfl⟩ : ∃ m, fuel = m + 1 := ⟨fuel - 1, by omega⟩
  obtain ⟨hnc, hdl, hSc⟩ := valid_size_le hv
  have hSnc := valid_cap_lt hv (sharing_allocated hs)
  have hlt := valid_lt hv
  generalize hnc' : capacity S v h = nc at hSnc hnc ⊢
  have hp2 := passes_add hp
  have hAl : ((data_const v h).take first).length = first := by
    rw [List.length_take, hdl]; omega
  have hPl : ((data_const v h).take last).length = last := by
    rw [List.length_take, hdl]; omega
  have hXl : ((data_const v h).drop last).length = v.size_ - last := by
    rw [List.length_drop, hdl]
  have hnl : ¬ last < first := by omega
  have hne : last - first ≠ 0 := by omega
  simp only [erase, size, hs, if_true, hnc', hnl, if_false, hne, ne_eq, not_false_eq_true]
  rw [ctor_fresh hSnc (by omega) (by omega) hlt hp2.1]
  simp only []
  have key := push_back_range_excl (S := S) (a := true) (p := h.length) v
    (fun ha _ => Nat.ne_of_lt (hlt ha)) ((data_const v h).drop last) m first []
    ((data_const v h).take last) []
    (h ++ [some ⟨nc, 1, (data_const v h).take first⟩]) t (cp + first) sw dt
    (exclusive_heap (Heap.lookup_append_new _ _))
    (by rw [data_const_append _ hlt]; simp)
    (by rw [data_const_heap _ _ (Heap.lookup_append_new _ _)]; simp [hAl])
    (by rw [capacity_heap _ _ _ (Heap.lookup_append_new _ _), hXl]; simp only []; omega)
    (by rw [hXl]; exact hp2.2) (by rw [hXl]; omega)
  rw [hPl, hXl, show last + (v.size_ - last) = v.size_ by omega,
    data_const_heap _ _ (Heap.lookup_append_new _ _), put_heap_fresh] at key
  simp only [keep] at key
  rw [key]
  simp only [if_true]
  rw [assign_fresh _ nc _ t _ sw dt hv (by simp [hAl, hXl]) (by omega) hSnc (by omega)]
  simp only []
  rw [hard_clear_fresh v h _ nc _ t _ sw _ (by omega)]
  simp only []
  rw [data_heap _ _ [] t _ sw _ (Heap.lookup_append_new' _ (length_release_heap v h))
    (by omega)]
  simp only [Nat.add_assoc]

/-- An `erase` of a non-empty range from a non-shared container works in place. -/
theorem erase_inplace {S fuel : Nat} {a : Bool} {p : Nat} {h : Heap α} (sm A E T : List α)
    (t : Option Nat) (cp sw dt : Nat) (hx : exclusive a p h) (hne : E ≠ [])
    (hd : data_const ⟨A.length + E.length + T.length, a, p, sm⟩ h = A ++ (E ++ T))
    (hp : passes t cp T.length) (hf : T.length + E.length + 6 ≤ fuel) :
    erase S fuel ⟨A.length + E.length + T.length, a, p, sm⟩ A.length (A.length + E.length)
        ⟨h, t, cp, sw, dt⟩ =
      .ok (⟨A.length + T.length, a, p, keep a sm (A ++ T)⟩, A.length,
        ⟨put_heap a p (A ++ T) h, t, cp + T.length, sw + T.length,
          dt + T.length + E.length⟩) := by
  obtain ⟨m, rfl⟩ : ∃ m, fuel = m + 1 := ⟨fuel - 1, by omega⟩
  have hEl : E.length ≠ 0 := by
    intro e; exact hne (List.length_eq_zero.mp e)
  have hnl : ¬ A.length + E.length < A.length := by omega
  simp only [erase, hnl, if_false, Nat.add_sub_cancel_left, hEl, ne_eq, not_false_eq_true,
    if_true, sharing_excl hx, Bool.false_eq_true]
  obtain ⟨E1, hE1, heq⟩ := erase_shift_loop_excl (S := S) T m A E h sm t cp sw dt hx hp hne hd
    (by omega)
  rw [heq]
  simp only []
  have hsz : A.length + E.length + T.length = (A ++ T).length + E1.length := by
    simp [hE1]; omega
  have key := erase_pop_loop_excl (S := S) E1 m 0 E.length (A ++ T)
    (put_heap a p (A ++ (T ++ E1)) h) (keep a sm (A ++ (T ++ E1))) t (cp + T.length)
    (sw + T.length) (dt + T.length) (exclusive_put hx _) (by omega)
    (by rw [data_const_put hx]; simp) (by omega)
  rw [← hsz] at key
  rw [key]
  simp only [keep_keep, put_heap_put_heap hx]
  rw [data_excl (exclusive_put hx _) _ _ t _ _ _ (by omega)]
  simp [hE1]

/-- An `erase` of an empty range from a non-shared container changes nothing. -/
theorem erase_empty_excl {S fuel : Nat} {a : Bool} {p : Nat} {h : Heap α} (n : Nat)
    (sm : List α) (first : Nat) (t : Option Nat) (cp sw dt : Nat) (hx : exclusive a p h)
    (hf : 3 ≤ fuel) :
    erase S fuel ⟨n, a, p, sm⟩ first first ⟨h, t, cp, sw, dt⟩ =
      .ok (⟨n, a, p, sm⟩, first, ⟨h, t, cp, sw, dt⟩) := by
  obtain ⟨m, rfl⟩ : ∃ m, fuel = m + 1 := ⟨fuel - 1, by omega⟩
  simp only [erase, Nat.lt_irrefl, if_false, Nat.sub_self, ne_eq, not_true_eq_false]
  rw [data_excl hx n sm t cp sw dt (by omega)]

/-- An `erase` of an empty range from a shared container still takes a private copy, in the
non-const `data()` of its return statement. -/
theorem erase_empty_shared {S fuel : Nat} (n p first : Nat) {h : Heap α} {t : Option Nat}
    {cp : Nat} (sw dt : Nat) {c r : Nat} {d : List α} (hb : h.lookup p = some ⟨c, r + 2, d⟩)
    (hc : S < c) (hlen : d.length = n) (hnc : n ≤ c) (hp : passes t cp n) (hf : 9 ≤ fuel) :
    erase S fuel ⟨n, true, p, []⟩ first first ⟨h, t, cp, sw, dt⟩ =
      .ok (⟨n, true, h.length, []⟩, first,
        ⟨h.set p (some ⟨c, r + 1, d⟩) ++ [some ⟨c, 1, d⟩], t, cp + n, sw, dt⟩) := by
  obtain ⟨m, rfl⟩ : ∃ m, fuel = m + 1 := ⟨fuel - 1, by omega⟩
  simp only [erase, Nat.lt_irrefl, if_false, Nat.sub_self, ne_eq, not_true_eq_false]
  rw [data_shared n p sw dt hb hc hlen hnc hp (by omega)]

/-! ## reserve, shrink_to_fit, clear and element writes -/

/-- Moving the elements of a heap-backed container into its inline array. -/
theorem move_to_small_spec {S fuel : Nat} (n p : Nat) {h : Heap α} {t : Option Nat}
    {cp : Nat} (sw dt : Nat) (hv : valid S ⟨n, true, p, []⟩ h) (hn : n ≤ S)
    (hp : passes t cp n) (hf : n + 6 ≤ fuel) :
    move_to_small S fuel ⟨n, true, p, []⟩ ⟨h, t, cp, sw, dt⟩ =
      .ok (⟨n, false, p, data_const ⟨n, true, p, []⟩ h⟩,
        ⟨release_heap ⟨n, true, p, []⟩ h, t, cp + n, sw,
          dt + release_dtors ⟨n, true, p, ([] : List α)⟩ h⟩) := by
  have hv' := hv
  rw [valid_heap] at hv'
  obtain ⟨c, r, d, hb, -, hlen, hnc, hc⟩ := hv'
  have hlt := Heap.lookup_lt hb
  unfold move_to_small
  rw [copy_ctor_heap n p [] t cp sw dt hb hc]
  simp only []
  rw [hard_clear_shared n p [] t cp sw dt (Heap.lookup_set_eq _ hlt) (by omega)]
  simp only [Heap.set_set, Heap.set_lookup_self hb]
  rw [suffix_try_copy_small_ok 0 p ⟨n, true, p, []⟩ ⟨n, true, p, []⟩ sw dt
    (by rw [data_const_heap _ _ hb]; simp [hlen]) hn hp (by omega)]
  simp only []
  rw [hard_clear_spec t _ sw dt hv (by simp only []; omega)]
  have e : d.take n = d := by rw [← hlen]; simp
  simp only [size, data_const_heap _ _ hb, e]

theorem reserve_idle {S fuel : Nat} (v : socow_vector α) (k : Nat) (st : St α)
    (hc : (decide (k > capacity S v st.heap) ||
      (decide (k > size v) && sharing v st.heap)) = false) (hf : 1 ≤ fuel) :
    reserve S fuel v k st = .ok (v, st) := by
  obtain ⟨m, rfl⟩ : ∃ m, fuel = m + 1 := ⟨fuel - 1, by omega⟩
  simp [reserve, hc]

/-- A `reserve` that has to act and asks for more than the inline capacity builds a fresh
buffer of exactly the requested capacity. -/
theorem reserve_rebuild {S fuel : Nat} {v : socow_vector α} {h : Heap α} {t : Option Nat}
    {cp : Nat} (sw dt k : Nat) (hv : valid S v h)
    (hc : (decide (k > capacity S v h) || (decide (k > size v) && sharing v h)) = true)
    (hk : S < k) (hp : passes t cp v.size_) (hf : v.size_ + 7 ≤ fuel) :
    reserve S fuel v k ⟨h, t, cp, sw, dt⟩ =
      .ok (⟨v.size_, true, h.length, []⟩,
        ⟨release_heap v h ++ [some ⟨k, 1, data_const v h⟩], t, cp + v.size_, sw,
          dt + release_dtors v h⟩) := by
  obtain ⟨m, rfl⟩ : ∃ m, fuel = m + 1 := ⟨fuel - 1, by omega⟩
  obtain ⟨hnc, hdl, hSc⟩ := valid_size_le hv
  have hnk : v.size_ ≤ k := by
    simp only [size, gt_iff_lt, Bool.or_eq_true, decide_eq_true_eq, Bool.and_eq_true] at hc
    rcases hc with hc | hc <;> omega
  have hks : ¬ k ≤ S := by omega
  simp only [size] at hc
  simp only [reserve, size, hc, if_true, hks, if_false]
  rw [ctor_fresh hk (by omega) hnk (valid_lt hv) hp]
  have e : (data_const v h).take v.size_ = data_const v h := by rw [← hdl]; simp
  simp only [e]
  rw [assign_fresh _ k _ t _ sw dt hv hdl hnk hk (by omega)]
  simp only []
  rw [hard_clear_fresh v h _ k _ t _ sw _ (by omega)]

/-- A `reserve` on a shared container that asks for no more than the inline capacity moves
the elements into the inline array. -/
theorem reserve_small {S fuel : Nat} (n p : Nat) {h : Heap α} {t : Option Nat} {cp : Nat}
    (sw dt k : Nat) (hv : valid S ⟨n, true, p, []⟩ h)
    (hs : sharing ⟨n, true, p, []⟩ h = true) (hnk : n < k) (hk : k ≤ S) (hp : passes t cp n)
    (hf : n + 7 ≤ fuel) :
    reserve S fuel ⟨n, true, p, []⟩ k ⟨h, t, cp, sw, dt⟩ =
      .ok (⟨n, false, p, data_const ⟨n, true, p, []⟩ h⟩,
        ⟨release_heap ⟨n, true, p, []⟩ h, t, cp + n, sw,
          dt + release_dtors ⟨n, true, p, ([] : List α)⟩ h⟩) := by
  obtain ⟨m, rfl⟩ : ∃ m, fuel = m + 1 := ⟨fuel - 1, by omega⟩
  have hc : (decide (k > capacity S ⟨n, true, p, []⟩ h) ||
      (decide (k > n) && sharing ⟨n, true, p, []⟩ h)) = true := by
    simp [hs, hnk]
  simp only [reserve, size, hc, if_true, hk]
  exact move_to_small_spec n p sw dt hv (by omega) hp (by omega)

theorem shrink_to_fit_idle {S fuel : Nat} (v : socow_vector α) (st : St α)
    (hc : (v.allocated_ && decide (capacity S v st.heap > size v)) = false) (hf : 1 ≤ fuel) :
    shrink_to_fit S fuel v st = .ok (v, st) := by
  obtain ⟨m, rfl⟩ : ∃ m, fuel = m + 1 := ⟨fuel - 1, by omega⟩
  simp [shrink_to_fit, hc]

/-- A `shrink_to_fit` of a heap-backed container with spare capacity and more elements than
the inline array can hold builds a fresh buffer of capacity `size()`. -/
theorem shrink_to_fit_rebuild {S fuel : Nat} (n p : Nat) {h : Heap α} {t : Option Nat}
    {cp : Nat} (sw dt : Nat) (hv : valid S ⟨n, true, p, []⟩ h)
    (hc : n < capacity S ⟨n, true, p, []⟩ h) (hn : S < n) (hp : passes t cp n)
    (hf : n + 7 ≤ fuel) :
    shrink_to_fit S fuel ⟨n, true, p, []⟩ ⟨h, t, cp, sw, dt⟩ =
      .ok (⟨n, true, h.length, []⟩,
        ⟨release_heap ⟨n, true, p, []⟩ h ++ [some ⟨n, 1, data_const ⟨n, true, p, []⟩ h⟩], t,
          cp + n, sw, dt + release_dtors ⟨n, true, p, ([] : List α)⟩ h⟩) := by
  obtain ⟨m, rfl⟩ : ∃ m, fuel = m + 1 := ⟨fuel - 1, by omega⟩
  obtain ⟨hnc, hdl, hSc⟩ := valid_size_le hv
  simp only at hdl
  have hcc : (true && decide (capacity S ⟨n, true, p, []⟩ h > n)) = true := by simp [hc]
  have hns : ¬ n ≤ S := by omega
  simp only [shrink_to_fit, size, hcc, if_true, hns, if_false]
  rw [ctor_fresh hn (by omega) (le_refl _) (valid_lt hv) hp]
  have e : (data_const ⟨n, true, p, []⟩ h).take n = data_const ⟨n, true, p, []⟩ h :=
    List.take_of_length_le (by omega)
  simp only [e]
  rw [swap_fresh n p n n _ t _ sw dt hv hn (by omega)]
  simp only []
  rw [hard_clear_old _ t _ sw dt hv (by simp only []; omega)]

/-- A `shrink_to_fit` of a heap-backed container with spare capacity whose elements fit the
inline array moves them there. -/
theorem shrink_to_fit_small {S fuel : Nat} (n p : Nat) {h : Heap α} {t : Option Nat}
    {cp : Nat} (sw dt : Nat) (hv : valid S ⟨n, true, p, []⟩ h)
    (hc : n < capacity S ⟨n, true, p, []⟩ h) (hn : n ≤ S) (hp : passes t cp n)
    (hf : n + 7 ≤ fuel) :
    shrink_to_fit S fuel ⟨n, true, p, []⟩ ⟨h, t, cp, sw, dt⟩ =
      .ok (⟨n, false, p, data_const ⟨n, true, p, []⟩ h⟩,
        ⟨release_heap ⟨n, true, p, []⟩ h, t, cp + n, sw,
          dt + release_dtors ⟨n, true, p, ([] : List α)⟩ h⟩) := by
  obtain ⟨m, rfl⟩ : ∃ m, fuel = m + 1 := ⟨fuel - 1, by omega⟩
  have hcc : (true && decide (capacity S ⟨n, true, p, []⟩ h > n)) = true := by simp [hc]
  simp only [shrink_to_fit, size, hcc, if_true, hn]
  exact move_to_small_spec n p sw dt hv hn hp (by omega)

/-- The loop of `clear(bool)` on a non-shared container destroys all elements in place. -/
theorem clear_loop_excl {S fuel : Nat} {a : Bool} {p : Nat} {h : Heap α}
    (hx : exclusive a p h) (n : Nat) (sm : List α) (t : Option Nat) (cp sw dt : Nat)
    (hlen : (data_const ⟨n, a, p, sm⟩ h).length = n) (hf : n + 3 ≤ fuel) :
    clear_loop S fuel ⟨n, a, p, sm⟩ ⟨h, t, cp, sw, dt⟩ =
      .ok (⟨0, a, p, keep a sm []⟩, ⟨put_heap a p [] h, t, cp, sw, dt + n⟩) := by
  cases a with
  | false =>
    rw [data_const_small] at hlen
    rw [clear_loop_small n fuel p sm h t cp sw dt hlen hf]
    simp [keep, put_heap]
  | true =>
    obtain ⟨c, d, hb⟩ := hx rfl
    rw [data_const_heap _ _ hb] at hlen
    rw [clear_loop_heap n fuel p c sm d h t cp sw dt hb hlen hf]
    simp [keep, put_heap, Heap.getBuf_of_lookup hb]

theorem clear_bool_excl {S fuel : Nat} {a : Bool} {p : Nat} {h : Heap α}
    (hx : exclusive a p h) (b : Bool) (n : Nat) (sm : List α) (t : Option Nat)
    (cp sw dt : Nat) (hlen : (data_const ⟨n, a, p, sm⟩ h).length = n) (hf : n + 4 ≤ fuel) :
    clear_bool S fuel b ⟨n, a, p, sm⟩ ⟨h, t, cp, sw, dt⟩ =
      .ok (⟨0, a, p, keep a sm []⟩, ⟨put_heap a p [] h, t, cp, sw, dt + n⟩) := by
  rw [clear_bool_idle b _ _ (sharing_excl hx n sm) (by omega)]
  exact clear_loop_excl hx n sm t cp sw dt hlen (by omega)

theorem clear_excl {S fuel : Nat} {a : Bool} {p : Nat} {h : Heap α}
    (hx : exclusive a p h) (n : Nat) (sm : List α) (t : Option Nat)
    (cp sw dt : Nat) (hlen : (data_const ⟨n, a, p, sm⟩ h).length = n) (hf : n + 5 ≤ fuel) :
    clear S fuel ⟨n, a, p, sm⟩ ⟨h, t, cp, sw, dt⟩ =
      .ok (⟨0, a, p, keep a sm []⟩, ⟨put_heap a p [] h, t, cp, sw, dt + n⟩) := by
  obtain ⟨m, rfl⟩ : ∃ m, fuel = m + 1 := ⟨fuel - 1, by omega⟩
  simp only [clear]
  rw [clear_bool_excl hx true n sm t cp sw dt hlen (by omega)]
  rfl

/-- Function `clear()` on a shared container: the reference is released and a fresh empty
buffer with the capacity of the old one is attached. -/
theorem clear_shared {S fuel : Nat} (n p : Nat) (sm : List α) {h : Heap α} (t : Option Nat)
    (cp sw dt : Nat) {c r : Nat} {d : List α} (hb : h.lookup p = some ⟨c, r + 2, d⟩)
    (hf : 3 ≤ fuel) :
    clear S fuel ⟨n, true, p, sm⟩ ⟨h, t, cp, sw, dt⟩ =
      .ok (⟨0, true, h.length, sm⟩,
        ⟨h.set p (some ⟨c, r + 1, d⟩) ++ [some ⟨c, 1, []⟩], t, cp, sw, dt⟩) := by
  obtain ⟨m, rfl⟩ : ∃ m, fuel = m + 1 := ⟨fuel - 1, by omega⟩
  simp only [clear]
  rw [clear_bool_shared true n p sm t cp sw dt hb (by omega)]
  rfl

/-- The assignment `v[k] = value` on a non-shared container. -/
theorem write_excl {S fuel : Nat} {a : Bool} {p : Nat} {h : Heap α} (hx : exclusive a p h)
    (n : Nat) (sm : List α) (k : Nat) (x : α) (t : Option Nat) (cp sw dt : Nat)
    (hk : k < (data_const ⟨n, a, p, sm⟩ h).length) (hf : 2 ≤ fuel) :
    write S fuel ⟨n, a, p, sm⟩ k x ⟨h, t, cp, sw, dt⟩ =
      .ok (⟨n, a, p, keep a sm ((data_const ⟨n, a, p, sm⟩ h).set k x)⟩,
        ⟨put_heap a p ((data_const ⟨n, a, p, sm⟩ h).set k x) h, t, cp, sw, dt⟩) := by
  unfold write
  rw [data_excl hx n sm t cp sw dt hf]
  simp only [hk, if_true]
  rw [put_data_excl hx]
  rfl

/-- The assignment `v[k] = value` on a shared container writes to a private copy. -/
theorem write_shared {S fuel : Nat} (n p k : Nat) (x : α) {h : Heap α} {t : Option Nat}
    {cp : Nat} (sw dt : Nat) {c r : Nat} {d : List α} (hb : h.lookup p = some ⟨c, r + 2, d⟩)
    (hc : S < c) (hlen : d.length = n) (hnc : n ≤ c) (hk : k < n) (hp : passes t cp n)
    (hf : 8 ≤ fuel) :
    write S fuel ⟨n, true, p, []⟩ k x ⟨h, t, cp, sw, dt⟩ =
      .ok (⟨n, true, h.length, []⟩,
        ⟨h.set p (some ⟨c, r + 1, d⟩) ++ [some ⟨c, 1, d.set k x⟩], t, cp + n, sw, dt⟩) := by
  unfold write
  rw [data_shared n p sw dt hb hc hlen hnc hp hf]
  have hl : (h.set p (some ⟨c, r + 1, d⟩)).length = h.length := Heap.length_set _ _ _
  have hlk : Heap.lookup (h.set p (some ⟨c, r + 1, d⟩) ++ [some ⟨c, 1, d⟩]) h.length
      = some ⟨c, 1, d⟩ := Heap.lookup_append_new' _ hl
  simp only [data_const_heap _ _ hlk, hlen, hk, if_true, put_data, hlk, Bool.not_true,
    Bool.false_eq_true, if_false, Heap.set_append_new' _ _ hl]
  rfl

/-! ## Single-container operations on a program -/

/-- A non-shared container `i` rewrites its array in place. -/
theorem step_inplace {S : Nat} {h : Heap α} {objs : List (socow_vector α)} {i n : Nat}
    {a : Bool} {p : Nat} {sm : List α} (cp sw dt cp1 sw1 dt1 : Nat) (d : List α)
    (hH : HInv S h objs) (hi : objs[i]? = some ⟨n, a, p, sm⟩) (hx : exclusive a p h)
    (hd : d.length ≤ capacity S ⟨n, a, p, sm⟩ h) :
    let w : World α := ⟨⟨h, none, cp, sw, dt⟩, objs⟩
    let w1 : World α := ⟨⟨put_heap a p d h, none, cp1, sw1, dt1⟩,
      objs.set i ⟨d.length, a, p, keep a sm d⟩⟩
    Step S w w1 i ∧ w1.elems i = d ∧ w1.capacity S i = w.capacity S i ∧
      w1.size i = d.length ∧ w1.data i = w.data i := by
  have hv := hH.valid i _ hi
  cases a with
  | false =>
    rw [capacity_small] at hd
    obtain ⟨h1, h2, h3, h4, h5⟩ := step_small cp sw dt cp1 sw1 dt1 p d hH hi hd
    rw [release_heap_small] at h1 h2 h3 h4 h5
    simp only [put_heap, keep, Bool.false_eq_true, if_false]
    refine ⟨h1, h2, ?_, h4, ?_⟩
    · rw [h3]; simp only [World.capacity, obj_mk _ hi, capacity_small]
    · rw [h5]; simp [World.data, obj_mk _ hi]
  | true =>
    obtain ⟨c, d0, hb⟩ := hx rfl
    rw [valid_heap] at hv
    obtain ⟨-, -, -, -, rfl, -, -, -⟩ := hv
    rw [capacity_heap _ _ _ hb] at hd
    have := step_put cp sw dt cp1 sw1 dt1 d hH hi hb hd
    simpa only [put_heap, keep, if_true, Heap.getBuf_of_lookup hb] using this

/-- What the observers of the program report about container `i`. -/
theorem obs (S : Nat) (st : St α) {objs : List (socow_vector α)} {i : Nat}
    {v : socow_vector α} (hi : objs[i]? = some v) :
    (World.mk st objs).elems i = elems v st.heap ∧ (World.mk st objs).size i = v.size_ ∧
      (World.mk st objs).capacity S i = capacity S v st.heap ∧
      (World.mk st objs).data i = (if !v.allocated_ then .small i else .heap v.buf_) ∧
      (World.mk st objs).allocated i = v.allocated_ := by
  simp [World.elems, World.size, World.capacity, World.data, World.allocated, obj_mk _ hi, size]

theorem Inv.unfold {S : Nat} {w : World α} (hinv : Inv S w) :
    ∃ h cp sw dt objs, w = ⟨⟨h, none, cp, sw, dt⟩, objs⟩ ∧ HInv S h objs := by
  obtain ⟨⟨h, t, cp, sw, dt⟩, objs⟩ := w
  have hnt : t = none := hinv.nothrow
  subst hnt
  exact ⟨h, cp, sw, dt, objs, rfl, hinv.hinv⟩

/-- A `pop_back` on a non-empty container. -/
theorem pop_back_step {S : Nat} {w : World α} {i : Nat} {v : socow_vector α}
    (hinv : Inv S w) (hi : w.objs[i]? = some v) (hne : v.size_ ≠ 0) :
    ∃ w1, (Op.pop_back i).returns S w w1 ∧ Step S w w1 i ∧
      w1.elems i = (w.elems i).dropLast ∧ w1.capacity S i = w.capacity S i ∧
      w1.size i = w.size i - 1 ∧
      (sharing v w.st.heap = true →
        w1.data i = .heap w.st.heap.length ∧ w1.ref_count w.st.heap.length = 1) ∧
      (sharing v w.st.heap = false → w1.data i = w.data i) := by
  obtain ⟨h, cp, sw, dt, objs, rfl, hH⟩ := hinv.unfold
  simp only at hi ⊢
  obtain ⟨e1, e2, e3, e4, -⟩ := obs S ⟨h, none, cp, sw, dt⟩ hi
  rw [e1, e2, e3, e4]
  simp only
  have hv := hH.valid i v hi
  rw [elems_of_valid hv]
  obtain ⟨n, a, p, sm⟩ := v
  simp only at hne ⊢
  obtain ⟨k, rfl⟩ : ∃ k, n = k + 1 := ⟨n - 1, by omega⟩
  obtain ⟨hnc, hdl, hSc⟩ := valid_size_le hv
  simp only at hnc hdl
  cases hs : sharing ⟨k + 1, a, p, sm⟩ h with
  | true =>
    have ha := sharing_allocated hs
    simp only at ha; subst ha
    have hv' := hv
    rw [valid_heap] at hv'
    obtain ⟨c, r, d, hb, rfl, hlen, hkc, hc⟩ := hv'
    rw [sharing_heap _ _ hb] at hs
    simp only [decide_eq_true_eq] at hs
    obtain ⟨r, rfl⟩ : ∃ r', r = r' + 1 := ⟨r - 1, by omega⟩
    obtain ⟨hst, h1, h2, h3, h4⟩ := step_rebuild cp sw dt (cp + k) sw dt c d.dropLast hH hi hc
      (by simp [hlen]; omega)
    rw [release_heap_shared _ _ hb] at hst h1 h2 h3 h4
    refine ⟨_, ⟨8, fun fuel hf => ?_⟩, hst, ?_, ?_, ?_, fun _ => ⟨?_, ?_⟩, fun hh => by cases hh⟩
    · simp only [Op.run]
      refine on_ok hi ?_
      rw [pop_back_shared k p sw dt hb hc hlen hkc (passes_none _ _) hf]
      simp [hlen]
    · simpa [hlen, data_const_heap _ _ hb] using h1
    · simpa [hlen, capacity_heap _ _ _ hb] using h2
    · simpa [hlen] using h3
    · simpa [hlen] using h4
    · simp [World.ref_count, Heap.getBuf,
        Heap.lookup_append_new' _ (Heap.length_set h p _)]
  | false =>
    have hx : exclusive a p h := by
      intro ha; subst ha
      obtain ⟨c, d, hb, -⟩ := not_sharing_ref hv hs
      exact ⟨c, d, hb⟩
    obtain ⟨hst, h1, h2, h3, h4⟩ := step_inplace cp sw dt cp sw (dt + 1)
      (data_const ⟨k + 1, a, p, sm⟩ h).dropLast hH hi hx (by simp [hdl]; omega)
    simp only [List.length_dropLast, hdl, Nat.add_sub_cancel] at hst h1 h2 h3 h4
    refine ⟨_, ⟨3, fun fuel hf => ?_⟩, hst, h1, ?_, h3, (fun hh => by cases hh), fun _ => ?_⟩
    · simp only [Op.run]
      exact on_ok hi (pop_back_excl hx k sm none cp sw dt hdl hf)
    · rw [h2]; exact e3
    · rw [h4]; exact e4

/-! ## Accessors, element writes and clearing on a program -/

theorem set_same {objs : List (socow_vector α)} {i : Nat} {v : socow_vector α}
    (hi : objs[i]? = some v) : objs.set i v = objs := by
  apply List.ext_getElem?
  intro j
  by_cases hji : i = j
  · subst hji; rw [List.getElem?_set_self (lt_of_getElem? hi), hi]
  · rw [List.getElem?_set_ne hji]

theorem step_refl {S : Nat} {w : World α} (hinv : Inv S w) (i : Nat) : Step S w w i :=
  ⟨hinv, rfl, fun _ _ => rfl, fun _ o _ _ _ => same_view_refl o _⟩

/-- A well-formed container is the sole owner of its array, or shares a buffer. -/
theorem valid_split {S : Nat} {v : socow_vector α} {h : Heap α} (hv : valid S v h) :
    (sharing v h = false ∧ exclusive v.allocated_ v.buf_ h) ∨
      (sharing v h = true ∧ ∃ c r d, v = ⟨d.length, true, v.buf_, []⟩ ∧
        h.lookup v.buf_ = some ⟨c, r + 2, d⟩ ∧ d.length ≤ c ∧ S < c) := by
  obtain ⟨n, a, p, sm⟩ := v
  cases hs : sharing ⟨n, a, p, sm⟩ h with
  | false =>
    refine Or.inl ⟨rfl, ?_⟩
    intro ha
    simp only at ha; subst ha
    obtain ⟨c, d, hb, -⟩ := not_sharing_ref hv hs
    exact ⟨c, d, hb⟩
  | true =>
    have ha := sharing_allocated hs
    simp only at ha; subst ha
    rw [valid_heap] at hv
    obtain ⟨c, r, d, hb, rfl, hlen, hkc, hc⟩ := hv
    rw [sharing_heap _ _ hb] at hs
    simp only [decide_eq_true_eq] at hs
    obtain ⟨r, rfl⟩ : ∃ r', r = r' + 1 := ⟨r - 1, by omega⟩
    subst hlen
    exact Or.inr ⟨rfl, c, r, d, rfl, hb, hkc, hc⟩

/-- A call of a non-const accessor. -/
theorem access_step {S : Nat} {w : World α} {i : Nat} {v : socow_vector α} (acc : Accessor)
    (hinv : Inv S w) (hi : w.objs[i]? = some v) :
    ∃ w1, (Op.access i acc).returns S w w1 ∧ Step S w w1 i ∧
      w1.elems i = w.elems i ∧ w1.capacity S i = w.capacity S i ∧ w1.size i = w.size i ∧
      (sharing v w.st.heap = true →
        w1.data i = .heap w.st.heap.length ∧ w1.ref_count w.st.heap.length = 1) ∧
      (sharing v w.st.heap = false → w1 = w) := by
  obtain ⟨h, cp, sw, dt, objs, rfl, hH⟩ := hinv.unfold
  simp only at hi ⊢
  obtain ⟨e1, e2, e3, e4, -⟩ := obs S ⟨h, none, cp, sw, dt⟩ hi
  have hv := hH.valid i v hi
  rcases valid_split hv with ⟨hs, hx⟩ | ⟨hs, c, r, d, hveq, hb, hdc, hc⟩
  · have hrun : (Op.access i acc).returns S ⟨⟨h, none, cp, sw, dt⟩, objs⟩
        ⟨⟨h, none, cp, sw, dt⟩, objs⟩ := by
      refine ⟨2, fun fuel hf => ?_⟩
      simp only [Op.run]
      have hd : data S fuel v ⟨h, none, cp, sw, dt⟩ = .ok (v, ⟨h, none, cp, sw, dt⟩) :=
        data_idle hf hs
      conv_rhs => rw [← set_same hi]
      exact on_ok hi hd
    exact ⟨_, hrun, step_refl hinv i, rfl, rfl, rfl,
      (fun hh => by rw [hs] at hh; cases hh), fun _ => rfl⟩
  · rw [e1, e2, e3, elems_of_valid hv]
    generalize v.buf_ = p at hveq hb
    subst hveq
    obtain ⟨hst, h1, h2, h3, h4⟩ := step_rebuild cp sw dt (cp + d.length) sw dt c d hH hi hc hdc
    rw [release_heap_shared _ _ hb] at hst h1 h2 h3 h4
    refine ⟨_, ⟨8, fun fuel hf => ?_⟩, hst, ?_, ?_, h3, fun _ => ⟨h4, ?_⟩,
      fun hh => by rw [hs] at hh; cases hh⟩
    · simp only [Op.run]
      exact on_ok hi (data_shared d.length p sw dt hb hc rfl hdc (passes_none _ _) hf)
    · rw [h1, data_const_heap _ _ hb]
    · rw [h2, capacity_heap _ _ _ hb]
    · simp [World.ref_count, Heap.getBuf, Heap.lookup_append_new' _ (Heap.length_set h p _)]

/-- The assignment `v[k] = x` with `k < size()`. -/
theorem write_step {S : Nat} {w : World α} {i : Nat} {v : socow_vector α} (k : Nat) (x : α)
    (hinv : Inv S w) (hi : w.objs[i]? = some v) (hk : k < v.size_) :
    ∃ w1, (Op.write i k x).returns S w w1 ∧ Step S w w1 i ∧
      w1.elems i = (w.elems i).set k x ∧ w1.capacity S i = w.capacity S i ∧
      w1.size i = w.size i := by
  obtain ⟨h, cp, sw, dt, objs, rfl, hH⟩ := hinv.unfold
  simp only at hi ⊢
  obtain ⟨e1, e2, e3, e4, -⟩ := obs S ⟨h, none, cp, sw, dt⟩ hi
  have hv := hH.valid i v hi
  obtain ⟨hnc, hdl, hSc⟩ := valid_size_le hv
  rw [e1, e2, e3, elems_of_valid hv]
  rcases valid_split hv with ⟨hs, hx⟩ | ⟨hs, c, r, d, hveq, hb, hdc, hc⟩
  · obtain ⟨n, a, p, sm⟩ := v
    simp only at hk hx hnc hdl ⊢
    obtain ⟨hst, h1, h2, h3, h4⟩ := step_inplace cp sw dt cp sw dt
      ((data_const ⟨n, a, p, sm⟩ h).set k x) hH hi hx (by simp [hdl]; omega)
    simp only [List.length_set, hdl] at hst h1 h2 h3 h4
    refine ⟨_, ⟨2, fun fuel hf => ?_⟩, hst, h1, ?_, h3⟩
    · simp only [Op.run]
      exact on_ok hi (write_excl hx n sm k x none cp sw dt (by omega) hf)
    · rw [h2]; exact e3
  · generalize v.buf_ = p at hveq hb
    subst hveq
    simp only at hk
    obtain ⟨hst, h1, h2, h3, h4⟩ := step_rebuild cp sw dt (cp + d.length) sw dt c (d.set k x)
      hH hi hc (by simp; omega)
    rw [release_heap_shared _ _ hb] at hst h1 h2 h3 h4
    simp only [List.length_set] at hst h1 h2 h3 h4
    refine ⟨_, ⟨8, fun fuel hf => ?_⟩, hst, ?_, ?_, h3⟩
    · simp only [Op.run]
      exact on_ok hi (write_shared d.length p k x sw dt hb hc rfl hdc hk (passes_none _ _) hf)
    · rw [h1, data_const_heap _ _ hb]
    · rw [h2, capacity_heap _ _ _ hb]

/-- A call of `clear()`. -/
theorem clear_step {S : Nat} {w : World α} {i : Nat} {v : socow_vector α}
    (hinv : Inv S w) (hi : w.objs[i]? = some v) :
    ∃ w1, (Op.clear i).returns S w w1 ∧ Step S w w1 i ∧
      w1.elems i = [] ∧ w1.capacity S i = w.capacity S i ∧ w1.size i = 0 := by
  obtain ⟨h, cp, sw, dt, objs, rfl, hH⟩ := hinv.unfold
  simp only at hi ⊢
  obtain ⟨e1, e2, e3, e4, -⟩ := obs S ⟨h, none, cp, sw, dt⟩ hi
  have hv := hH.valid i v hi
  obtain ⟨hnc, hdl, hSc⟩ := valid_size_le hv
  rw [e3]
  rcases valid_split hv with ⟨hs, hx⟩ | ⟨hs, c, r, d, hveq, hb, hdc, hc⟩
  · obtain ⟨n, a, p, sm⟩ := v
    simp only at hx hnc hdl ⊢
    obtain ⟨hst, h1, h2, h3, h4⟩ := step_inplace cp sw dt cp sw (dt + n) [] hH hi hx
      (by simp)
    simp only [List.length_nil] at hst h1 h2 h3 h4
    refine ⟨_, ⟨n + 5, fun fuel hf => ?_⟩, hst, h1, ?_, h3⟩
    · simp only [Op.run]
      exact on_ok hi (clear_excl hx n sm none cp sw dt hdl hf)
    · rw [h2]; exact e3
  · generalize v.buf_ = p at hveq hb
    subst hveq
    obtain ⟨hst, h1, h2, h3, h4⟩ := step_rebuild cp sw dt cp sw dt c [] hH hi hc (by simp)
    rw [release_heap_shared _ _ hb] at hst h1 h2 h3 h4
    simp only [List.length_nil] at hst h1 h2 h3 h4
    refine ⟨_, ⟨3, fun fuel hf => ?_⟩, hst, h1, ?_, h3⟩
    · simp only [Op.run]
      exact on_ok hi (clear_shared d.length p [] none cp sw dt hb hf)
    · rw [h2, capacity_heap _ _ _ hb]

/-- A call of `clear(save_capacity)`. -/
theorem clear_bool_step {S : Nat} {w : World α} {i : Nat} {v : socow_vector α} (b : Bool)
    (hinv : Inv S w) (hi : w.objs[i]? = some v) :
    ∃ w1, (Op.clear_bool i b).returns S w w1 ∧ Step S w w1 i ∧
      w1.elems i = [] ∧ w1.size i = 0 ∧
      w1.capacity S i =
        (if sharing v w.st.heap = true ∧ b = false then S else w.capacity S i) := by
  obtain ⟨h, cp, sw, dt, objs, rfl, hH⟩ := hinv.unfold
  simp only at hi ⊢
  obtain ⟨e1, e2, e3, e4, -⟩ := obs S ⟨h, none, cp, sw, dt⟩ hi
  have hv := hH.valid i v hi
  obtain ⟨hnc, hdl, hSc⟩ := valid_size_le hv
  rw [e3]
  rcases valid_split hv with ⟨hs, hx⟩ | ⟨hs, c, r, d, hveq, hb, hdc, hc⟩
  · obtain ⟨n, a, p, sm⟩ := v
    simp only at hx hnc hdl hs ⊢
    obtain ⟨hst, h1, h2, h3, h4⟩ := step_inplace cp sw dt cp sw (dt + n) [] hH hi hx
      (by simp)
    simp only [List.length_nil] at hst h1 h2 h3 h4
    refine ⟨_, ⟨n + 4, fun fuel hf => ?_⟩, hst, h1, h3, ?_⟩
    · simp only [Op.run]
      exact on_ok hi (clear_bool_excl hx b n sm none cp sw dt hdl hf)
    · rw [h2, hs]; simp only [Bool.false_eq_true, false_and, if_false]; exact e3
  · generalize v.buf_ = p at hveq hb
    subst hveq
    rw [hs]
    cases b with
    | true =>
      obtain ⟨hst, h1, h2, h3, h4⟩ := step_rebuild cp sw dt cp sw dt c [] hH hi hc (by simp)
      rw [release_heap_shared _ _ hb] at hst h1 h2 h3 h4
      simp only [List.length_nil] at hst h1 h2 h3 h4
      refine ⟨_, ⟨2, fun fuel hf => ?_⟩, hst, h1, h3, ?_⟩
      · simp only [Op.run]
        refine on_ok hi ?_
        rw [clear_bool_shared true d.length p [] none cp sw dt hb hf]
        simp
      · rw [h2, capacity_heap _ _ _ hb]; simp
    | false =>
      obtain ⟨hst, h1, h2, h3, h4⟩ := step_small cp sw dt cp sw dt p [] hH hi (by simp)
      rw [release_heap_shared _ _ hb] at hst h1 h2 h3 h4
      simp only [List.length_nil] at hst h1 h2 h3 h4
      refine ⟨_, ⟨2, fun fuel hf => ?_⟩, hst, h1, h3, ?_⟩
      · simp only [Op.run]
        refine on_ok hi ?_
        rw [clear_bool_shared false d.length p [] none cp sw dt hb hf]
        simp
      · rw [h2]; simp

/-- A call of `hard_clear()`. -/
theorem hard_clear_step {S : Nat} {w : World α} {i : Nat} {v : socow_vector α}
    (hinv : Inv S w) (hi : w.objs[i]? = some v) :
    ∃ w1, (Op.hard_clear i).returns S w w1 ∧ Step S w w1 i ∧
      w1.elems i = [] ∧ w1.size i = 0 ∧ w1.capacity S i = S := by
  obtain ⟨h, cp, sw, dt, objs, rfl, hH⟩ := hinv.unfold
  simp only at hi ⊢
  have hv := hH.valid i v hi
  obtain ⟨hst, h1, h2, h3, h4⟩ := step_small cp sw dt cp sw (dt + release_dtors v h) v.buf_ []
    hH hi (by simp)
  simp only [List.length_nil] at hst h1 h2 h3 h4
  refine ⟨_, ⟨v.size_ + 5, fun fuel hf => ?_⟩, hst, h1, h3, h2⟩
  simp only [Op.run]
  exact on_ok hi (hard_clear_spec none cp sw dt hv hf)

/-- The destruction of a container. -/
theorem destroy_step {S : Nat} {w : World α} {i : Nat} {v : socow_vector α}
    (hinv : Inv S w) (hi : w.objs[i]? = some v) :
    ∃ w1, (Op.destroy i).returns S w w1 ∧ Step S w w1 i ∧
      w1.elems i = [] ∧ w1.size i = 0 ∧ w1.capacity S i = S := by
  obtain ⟨h, cp, sw, dt, objs, rfl, hH⟩ := hinv.unfold
  simp only at hi ⊢
  have hv := hH.valid i v hi
  obtain ⟨hst, h1, h2, h3, h4⟩ := step_small cp sw dt cp sw (dt + release_dtors v h) v.buf_ []
    hH hi (by simp)
  simp only [List.length_nil] at hst h1 h2 h3 h4
  refine ⟨_, ⟨v.size_ + 5, fun fuel hf => ?_⟩, hst, h1, h3, h2⟩
  simp only [Op.run]
  exact on_ok hi (hard_clear_spec none cp sw dt hv hf)

/-! ## reserve and shrink_to_fit on a program -/

/-- A call of `reserve(k)` for at most `max_capacity` elements. -/
theorem reserve_step {S : Nat} {w : World α} {i : Nat} {v : socow_vector α} (k : Nat)
    (hinv : Inv S w) (hi : w.objs[i]? = some v) (hmax : k ≤ max_capacity) :
    ∃ w1, (Op.reserve i k).returns S w w1 ∧ Step S w w1 i ∧
      w1.elems i = w.elems i ∧ w1.size i = w.size i ∧
      w1.capacity S i =
        (if k > w.capacity S i ∨ (k > w.size i ∧ sharing v w.st.heap = true) then
          (if k ≤ S then S else k)
        else w.capacity S i) := by
  obtain ⟨h, cp, sw, dt, objs, rfl, hH⟩ := hinv.unfold
  simp only at hi ⊢
  obtain ⟨e1, e2, e3, e4, -⟩ := obs S ⟨h, none, cp, sw, dt⟩ hi
  have hv := hH.valid i v hi
  obtain ⟨hnc, hdl, hSc⟩ := valid_size_le hv
  rw [e1, e2, e3, elems_of_valid hv]
  simp only
  cases hc : (decide (k > capacity S v h) || (decide (k > size v) && sharing v h)) with
  | false =>
    have hc' := hc
    simp only [size, Bool.or_eq_false_iff, decide_eq_false_iff_not, Bool.and_eq_false_imp,
      decide_eq_true_eq] at hc'
    have hrun : (Op.reserve i k).returns S ⟨⟨h, none, cp, sw, dt⟩, objs⟩
        ⟨⟨h, none, cp, sw, dt⟩, objs⟩ := by
      refine ⟨1, fun fuel hf => ?_⟩
      simp only [Op.run, if_pos hmax]
      conv_rhs => rw [← set_same hi]
      exact on_ok hi (reserve_idle v k ⟨h, none, cp, sw, dt⟩ hc hf)
    refine ⟨_, hrun, step_refl hinv i, ?_, e2, ?_⟩
    · rw [e1, elems_of_valid hv]
    · rw [e3, if_neg]
      rintro (h1 | ⟨h1, h2⟩)
      · exact hc'.1 h1
      · have := hc'.2 h1; rw [h2] at this; cases this
  | true =>
    have hc' := hc
    simp only [size, Bool.or_eq_true, decide_eq_true_eq, Bool.and_eq_true] at hc'
    rw [if_pos hc']
    by_cases hk : k ≤ S
    · rw [if_pos hk]
      have hsh : k > v.size_ ∧ sharing v h = true := by
        rcases hc' with h1 | h1
        · omega
        · exact h1
      rcases valid_split hv with ⟨hs, hx⟩ | ⟨hs, c, r, d, hveq, hb, hdc, hc2⟩
      · rw [hs] at hsh; cases hsh.2
      · generalize v.buf_ = p at hveq hb
        subst hveq
        simp only at hsh hc
        obtain ⟨hst, h1, h2, h3, h4⟩ := step_small cp sw dt (cp + d.length) sw
          (dt + release_dtors ⟨d.length, true, p, ([] : List α)⟩ h) p d hH hi (by omega)
        refine ⟨_, ⟨d.length + 7, fun fuel hf => ?_⟩, hst, ?_, h3, h2⟩
        · simp only [Op.run, if_pos hmax]
          refine on_ok hi ?_
          rw [reserve_small d.length p sw dt k hv hs hsh.1 hk (passes_none _ _) hf,
            data_const_heap _ _ hb]
        · rw [h1, data_const_heap _ _ hb]
    · rw [if_neg hk]
      have hdk : (data_const v h).length ≤ k := by
        rcases hc' with h1 | h1 <;> omega
      obtain ⟨hst, h1, h2, h3, h4⟩ := step_rebuild cp sw dt (cp + v.size_) sw
        (dt + release_dtors v h) k (data_const v h) hH hi (by omega) hdk
      simp only [hdl] at hst h1 h2 h3 h4
      refine ⟨_, ⟨v.size_ + 7, fun fuel hf => ?_⟩, hst, h1, h3, h2⟩
      simp only [Op.run, if_pos hmax]
      exact on_ok hi (reserve_rebuild sw dt k hv hc (by omega) (passes_none _ _) hf)

/-- A call of `shrink_to_fit()`. -/
theorem shrink_to_fit_step {S : Nat} {w : World α} {i : Nat} {v : socow_vector α}
    (hinv : Inv S w) (hi : w.objs[i]? = some v) :
    ∃ w1, (Op.shrink_to_fit i).returns S w w1 ∧ Step S w w1 i ∧
      w1.elems i = w.elems i ∧ w1.size i = w.size i ∧
      w1.capacity S i =
        (if v.allocated_ = true ∧ w.capacity S i > w.size i then
          (if w.size i ≤ S then S else w.size i)
        else w.capacity S i) := by
  obtain ⟨h, cp, sw, dt, objs, rfl, hH⟩ := hinv.unfold
  simp only at hi ⊢
  obtain ⟨e1, e2, e3, e4, -⟩ := obs S ⟨h, none, cp, sw, dt⟩ hi
  have hv := hH.valid i v hi
  obtain ⟨hnc, hdl, hSc⟩ := valid_size_le hv
  rw [e1, e2, e3, elems_of_valid hv]
  simp only
  cases hc : (v.allocated_ && decide (capacity S v h > size v)) with
  | false =>
    have hc' := hc
    simp only [size, Bool.and_eq_false_imp, decide_eq_false_iff_not] at hc'
    have hrun : (Op.shrink_to_fit i).returns S ⟨⟨h, none, cp, sw, dt⟩, objs⟩
        ⟨⟨h, none, cp, sw, dt⟩, objs⟩ := by
      refine ⟨1, fun fuel hf => ?_⟩
      simp only [Op.run]
      conv_rhs => rw [← set_same hi]
      exact on_ok hi (shrink_to_fit_idle v ⟨h, none, cp, sw, dt⟩ hc hf)
    refine ⟨_, hrun, step_refl hinv i, ?_, e2, ?_⟩
    · rw [e1, elems_of_valid hv]
    · rw [e3, if_neg]
      rintro ⟨h1, h2⟩
      exact hc' h1 h2
  | true =>
    have hc' := hc
    simp only [size, Bool.and_eq_true, decide_eq_true_eq] at hc'
    rw [if_pos hc']
    obtain ⟨n, a, p, sm⟩ := v
    simp only at hc' hnc hdl ⊢
    obtain ⟨ha, hlt⟩ := hc'
    subst ha
    have hsm : sm = [] := by
      rw [valid_heap] at hv
      obtain ⟨_, _, _, -, e, -⟩ := hv
      exact e
    subst hsm
    by_cases hn : n ≤ S
    · rw [if_pos hn]
      obtain ⟨hst, h1, h2, h3, h4⟩ := step_small cp sw dt (cp + n) sw
        (dt + release_dtors ⟨n, true, p, ([] : List α)⟩ h) p (data_const ⟨n, true, p, []⟩ h)
        hH hi (by omega)
      simp only [hdl] at hst h1 h2 h3 h4
      refine ⟨_, ⟨n + 7, fun fuel hf => ?_⟩, hst, h1, h3, h2⟩
      simp only [Op.run]
      exact on_ok hi (shrink_to_fit_small n p sw dt hv hlt hn (passes_none _ _) hf)
    · rw [if_neg hn]
      obtain ⟨hst, h1, h2, h3, h4⟩ := step_rebuild cp sw dt (cp + n) sw
        (dt + release_dtors ⟨n, true, p, ([] : List α)⟩ h) n (data_const ⟨n, true, p, []⟩ h)
        hH hi (by omega) (by omega)
      simp only [hdl] at hst h1 h2 h3 h4
      refine ⟨_, ⟨n + 7, fun fuel hf => ?_⟩, hst, h1, h3, h2⟩
      simp only [Op.run]
      exact on_ok hi (shrink_to_fit_rebuild n p sw dt hv hlt (by omega) (passes_none _ _) hf)

/-! ## insert and erase on a program -/

theorem insert_run {S fuel : Nat} {st st1 : St α} {objs : List (socow_vector α)}
    {i pos k : Nat} {x : α} {v v1 : socow_vector α} (hi : objs[i]? = some v)
    (hpos : pos ≤ v.size_) (hr : insert S fuel v pos x st = .ok (v1, k, st1)) :
    (Op.insert i pos x).run S fuel ⟨st, objs⟩ = .ok ⟨st1, objs.set i v1⟩ ∧
      (Op.insert i pos x).iterator S fuel ⟨st, objs⟩ =
        some ((World.mk st1 (objs.set i v1)).data i, k) := by
  constructor
  · simp only [Op.run]
    refine on_ok hi ?_
    simp only [if_pos hpos, hr, drop_iterator]
  · simp only [Op.iterator, hi, if_pos hpos, hr, World.data, obj_set _ _ (lt_of_getElem? hi)]

theorem erase_run {S fuel : Nat} {st st1 : St α} {objs : List (socow_vector α)}
    {i first last k : Nat} {v v1 : socow_vector α} (hi : objs[i]? = some v)
    (hfl : first ≤ last ∧ last ≤ v.size_)
    (hr : erase S fuel v first last st = .ok (v1, k, st1)) :
    (Op.erase i first last).run S fuel ⟨st, objs⟩ = .ok ⟨st1, objs.set i v1⟩ ∧
      (Op.erase i first last).iterator S fuel ⟨st, objs⟩ =
        some ((World.mk st1 (objs.set i v1)).data i, k) := by
  constructor
  · simp only [Op.run]
    refine on_ok hi ?_
    simp only [if_pos hfl, hr, drop_iterator]
  · simp only [Op.iterator, hi, if_pos hfl, hr, World.data, obj_set _ _ (lt_of_getElem? hi)]

theorem erase_one_run {S fuel : Nat} {st st1 : St α} {objs : List (socow_vector α)}
    {i pos k : Nat} {v v1 : socow_vector α} (hi : objs[i]? = some v)
    (hpos : pos < v.size_)
    (hr : erase S fuel v pos (pos + 1) st = .ok (v1, k, st1)) :
    (Op.erase_one i pos).run S fuel ⟨st, objs⟩ = .ok ⟨st1, objs.set i v1⟩ ∧
      (Op.erase_one i pos).iterator S fuel ⟨st, objs⟩ =
        some ((World.mk st1 (objs.set i v1)).data i, k) := by
  constructor
  · simp only [Op.run]
    refine on_ok hi ?_
    simp only [if_pos hpos, erase_one, hr, drop_iterator]
  · simp only [Op.iterator, hi, if_pos hpos, erase_one, hr, World.data,
      obj_set _ _ (lt_of_getElem? hi)]

/-- Both the state after an operation and the iterator it returns are known for every large
enough recursion budget. -/
theorem returns_yields {S : Nat} {op : Op α} {w w1 : World α} {it : Addr × Nat} (N : Nat)
    (h : ∀ fuel, N ≤ fuel → op.run S fuel w = .ok w1 ∧ op.iterator S fuel w = some it) :
    op.returns S w w1 ∧ op.yields S w it :=
  ⟨⟨N, fun fuel hf => (h fuel hf).1⟩, ⟨N, fun fuel hf => (h fuel hf).2⟩⟩

/-- A call of `insert(begin() + pos, x)` with `pos ≤ size()`. -/
theorem insert_step {S : Nat} {w : World α} {i : Nat} {v : socow_vector α} (pos : Nat) (x : α)
    (hinv : Inv S w) (hi : w.objs[i]? = some v) (hS : 1 ≤ S ∨ v.allocated_ = true)
    (hpos : pos ≤ v.size_) :
    ∃ w1, (Op.insert i pos x).returns S w w1 ∧ Step S w w1 i ∧
      w1.elems i = (w.elems i).take pos ++ x :: (w.elems i).drop pos ∧
      w1.capacity S i =
        (if w.size i = w.capacity S i then w.capacity S i * 2 else w.capacity S i) ∧
      w1.size i = w.size i + 1 ∧ (Op.insert i pos x).yields S w (w1.data i, pos) := by
  obtain ⟨h, cp, sw, dt, objs, rfl, hH⟩ := hinv.unfold
  simp only at hi ⊢
  obtain ⟨e1, e2, e3, e4, -⟩ := obs S ⟨h, none, cp, sw, dt⟩ hi
  have hv := hH.valid i v hi
  obtain ⟨hnc, hdl, hSc⟩ := valid_size_le hv
  rw [e1, e2, e3, elems_of_valid hv]
  simp only
  have hlen : ((data_const v h).take pos ++ x :: (data_const v h).drop pos).length
      = v.size_ + 1 := by
    simp only [List.length_append, List.length_take, List.length_cons, List.length_drop, hdl]
    omega
  by_cases hfs : (sharing v h || decide (v.size_ = capacity S v h)) = true
  · obtain ⟨hSnc, hnnc⟩ := new_capacity_facts hS hv hfs
    obtain ⟨hst, h1, h2, h3, h4⟩ := step_rebuild cp sw dt (cp + v.size_ + 1) sw
      (dt + release_dtors v h) _ ((data_const v h).take pos ++ x :: (data_const v h).drop pos)
      hH hi hSnc (by rw [hlen]; omega)
    rw [hlen] at hst h1 h2 h3 h4
    obtain ⟨r1, r2⟩ := returns_yields (v.size_ + 9) (fun fuel hf =>
      insert_run hi hpos (insert_rebuild sw dt pos x hS hv hfs hpos (passes_none _ _) hf))
    exact ⟨_, r1, hst, h1, h2, h3, r2⟩
  · simp only [Bool.or_eq_true, decide_eq_true_eq, not_or, Bool.not_eq_true] at hfs
    obtain ⟨hns, hne⟩ := hfs
    rw [if_neg hne]
    have hx : exclusive v.allocated_ v.buf_ h := by
      rcases valid_split hv with ⟨-, hx⟩ | ⟨hs, -⟩
      · exact hx
      · rw [hns] at hs; cases hs
    obtain ⟨n, a, p, sm⟩ := v
    simp only at hx hnc hdl hpos hne hlen ⊢
    have hn : n < capacity S ⟨n, a, p, sm⟩ h := by omega
    obtain ⟨hst, h1, h2, h3, h4⟩ := step_inplace cp sw dt (cp + 1 + (n - pos)) (sw + (n - pos))
      (dt + (n - pos))
      ((data_const ⟨n, a, p, sm⟩ h).take pos ++ x :: (data_const ⟨n, a, p, sm⟩ h).drop pos)
      hH hi hx (by rw [hlen]; omega)
    rw [hlen] at hst h1 h2 h3 h4
    obtain ⟨r1, r2⟩ := returns_yields (n + 5) (fun fuel hf =>
      insert_run hi hpos (insert_inplace n sm pos x sw dt hx hdl hn hpos
        (passes_none _ _) hf))
    refine ⟨_, r1, hst, h1, ?_, h3, r2⟩
    rw [h2]; exact e3

/-- The member function `erase(first, last)` on container `i` of a program, for a valid
range. -/
theorem erase_world {S : Nat} {h : Heap α} {cp sw dt : Nat} {objs : List (socow_vector α)}
    {i : Nat} {v : socow_vector α} (first last : Nat) (hH : HInv S h objs)
    (hi : objs[i]? = some v) (hfl : first ≤ last) (hln : last ≤ v.size_) :
    ∃ v1 st1 N, (∀ fuel, N ≤ fuel →
        erase S fuel v first last ⟨h, none, cp, sw, dt⟩ = .ok (v1, first, st1)) ∧
      Step S ⟨⟨h, none, cp, sw, dt⟩, objs⟩ ⟨st1, objs.set i v1⟩ i ∧
      (World.mk st1 (objs.set i v1)).elems i =
        (data_const v h).take first ++ (data_const v h).drop last ∧
      (World.mk st1 (objs.set i v1)).capacity S i = capacity S v h ∧
      (World.mk st1 (objs.set i v1)).size i = v.size_ - (last - first) := by
  have hinv : Inv S ⟨⟨h, none, cp, sw, dt⟩, objs⟩ := ⟨hH, rfl⟩
  obtain ⟨e1, e2, e3, e4, -⟩ := obs S ⟨h, none, cp, sw, dt⟩ hi
  have hv := hH.valid i v hi
  obtain ⟨hnc, hdl, hSc⟩ := valid_size_le hv
  have hlen : ((data_const v h).take first ++ (data_const v h).drop last).length
      = first + (v.size_ - last) := by
    simp only [List.length_append, List.length_take, List.length_drop, hdl]
    omega
  rcases valid_split hv with ⟨hs, hx⟩ | ⟨hs, c, r, d, hveq, hb, hdc, hc⟩
  · obtain ⟨n, a, p, sm⟩ := v
    simp only at hx hnc hdl hln hlen e1 e2 e3 ⊢
    rcases Nat.eq_or_lt_of_le hfl with heq | hlt
    · subst heq
      refine ⟨⟨n, a, p, sm⟩, ⟨h, none, cp, sw, dt⟩, 3, fun fuel hf =>
        erase_empty_excl n sm first none cp sw dt hx hf, ?_, ?_, ?_, ?_⟩
      · rw [set_same hi]; exact step_refl hinv i
      · rw [set_same hi, e1, elems_of_valid hv, List.take_append_drop]
      · rw [set_same hi, e3]
      · rw [set_same hi, e2]; simp
    · obtain ⟨A, E, T, hd, hA, hE⟩ : ∃ A E T : List α,
          data_const ⟨n, a, p, sm⟩ h = A ++ (E ++ T) ∧ A.length = first ∧
            E.length = last - first := by
        refine ⟨(data_const ⟨n, a, p, sm⟩ h).take first,
          ((data_const ⟨n, a, p, sm⟩ h).drop first).take (last - first),
          ((data_const ⟨n, a, p, sm⟩ h).drop first).drop (last - first), ?_, ?_, ?_⟩
        · rw [List.take_append_drop, List.take_append_drop]
        · simp only [List.length_take, hdl]; omega
        · simp only [List.length_take, List.length_drop, hdl]; omega
      have hn : n = A.length + E.length + T.length := by
        rw [← hdl, hd]; simp only [List.length_append]; omega
      have hlast : last = A.length + E.length := by omega
      subst hn hlast
      subst hA
      have hne : E ≠ [] := by
        intro e; subst e; simp at hlt
      have htk : (A ++ (E ++ T)).take A.length ++ (A ++ (E ++ T)).drop (A.length + E.length)
          = A ++ T := by
        rw [List.take_left, ← List.append_assoc, ← List.length_append, List.drop_left]
      rw [hd, htk]
      obtain ⟨hst, h1, h2, h3, h4⟩ := step_inplace cp sw dt (cp + T.length) (sw + T.length)
        (dt + T.length + E.length) (A ++ T) hH hi hx
        (by simp only [List.length_append]; omega)
      refine ⟨_, _, _,
        fun fuel hf => erase_inplace sm A E T none cp sw dt hx hne hd (passes_none _ _) hf,
        ?_, ?_, ?_, ?_⟩
      · simpa only [List.length_append] using hst
      · simpa only [List.length_append] using h1
      · rw [← e3]; simpa only [List.length_append] using h2
      · have := h3
        simp only [List.length_append] at this ⊢
        rw [this]; omega
  · generalize v.buf_ = p at hveq hb
    subst hveq
    simp only at hln hlen hdl ⊢
    rw [data_const_heap _ _ hb] at hlen ⊢
    rw [capacity_heap _ _ _ hb]
    simp only at hlen ⊢
    rcases Nat.eq_or_lt_of_le hfl with heq | hlt
    · subst heq
      obtain ⟨hst, h1, h2, h3, h4⟩ := step_rebuild cp sw dt (cp + d.length) sw dt c d hH hi hc
        hdc
      rw [release_heap_shared _ _ hb] at hst h1 h2 h3 h4
      refine ⟨_, _, 9, fun fuel hf =>
        erase_empty_shared d.length p first sw dt hb hc rfl hdc (passes_none _ _) hf,
        hst, ?_, h2, ?_⟩
      · rw [h1, List.take_append_drop]
      · rw [h3]; simp
    · obtain ⟨hst, h1, h2, h3, h4⟩ := step_rebuild cp sw dt (cp + (first + (d.length - last)))
        sw (dt + release_dtors ⟨d.length, true, p, ([] : List α)⟩ h) c
        (d.take first ++ d.drop last) hH hi hc (by rw [hlen]; omega)
      rw [hlen] at hst h1 h2 h3
      have hr : ∀ fuel, d.length + 9 ≤ fuel → _ := fun fuel hf =>
        @erase_rebuild α S fuel _ _ _ _ sw dt first last hv hs hlt hln (passes_none cp _) hf
      simp only [data_const_heap _ _ hb, capacity_heap _ _ _ hb] at hr
      refine ⟨_, _, d.length + 9, hr, hst, h1, h2, ?_⟩
      rw [h3]; omega

/-- A call of `erase(begin() + first, begin() + last)` with a valid range. -/
theorem erase_step {S : Nat} {w : World α} {i : Nat} {v : socow_vector α} (first last : Nat)
    (hinv : Inv S w) (hi : w.objs[i]? = some v) (hfl : first ≤ last) (hln : last ≤ v.size_) :
    ∃ w1, (Op.erase i first last).returns S w w1 ∧ Step S w w1 i ∧
      w1.elems i = (w.elems i).take first ++ (w.elems i).drop last ∧
      w1.capacity S i = w.capacity S i ∧ w1.size i = w.size i - (last - first) ∧
      (Op.erase i first last).yields S w (w1.data i, first) := by
  obtain ⟨h, cp, sw, dt, objs, rfl, hH⟩ := hinv.unfold
  simp only at hi ⊢
  obtain ⟨e1, e2, e3, e4, -⟩ := obs S ⟨h, none, cp, sw, dt⟩ hi
  rw [e1, e2, e3, elems_of_valid (hH.valid i v hi)]
  obtain ⟨v1, st1, N, hr, hst, h1, h2, h3⟩ := erase_world first last hH hi hfl hln
  obtain ⟨r1, r2⟩ := returns_yields N (fun fuel hf => erase_run hi ⟨hfl, hln⟩ (hr fuel hf))
  exact ⟨_, r1, hst, h1, h2, h3, r2⟩

/-- A call of `erase(begin() + pos)` with `pos < size()`. -/
theorem erase_one_step {S : Nat} {w : World α} {i : Nat} {v : socow_vector α} (pos : Nat)
    (hinv : Inv S w) (hi : w.objs[i]? = some v) (hpos : pos < v.size_) :
    ∃ w1, (Op.erase_one i pos).returns S w w1 ∧ Step S w w1 i ∧
      w1.elems i = (w.elems i).take pos ++ (w.elems i).drop (pos + 1) ∧
      w1.capacity S i = w.capacity S i ∧ w1.size i = w.size i - 1 ∧
      (Op.erase_one i pos).yields S w (w1.data i, pos) := by
  obtain ⟨h, cp, sw, dt, objs, rfl, hH⟩ := hinv.unfold
  simp only at hi ⊢
  obtain ⟨e1, e2, e3, e4, -⟩ := obs S ⟨h, none, cp, sw, dt⟩ hi
  rw [e1, e2, e3, elems_of_valid (hH.valid i v hi)]
  obtain ⟨v1, st1, N, hr, hst, h1, h2, h3⟩ :=
    erase_world pos (pos + 1) hH hi (Nat.le_succ pos) hpos
  obtain ⟨r1, r2⟩ := returns_yields N (fun fuel hf => erase_one_run hi hpos (hr fuel hf))
  refine ⟨_, r1, hst, h1, h2, ?_, r2⟩
  rw [h3]; simp

/-! ## Copy assignment on a program -/

/-- What `Step` says about a container other than the one operated on: all its observations
are unchanged. -/
theorem step_frame {S : Nat} {w w1 : World α} {i j : Nat} (hst : Step S w w1 i)
    (hji : j ≠ i) :
    w1.elems j = w.elems j ∧ w1.size j = w.size j ∧ w1.capacity S j = w.capacity S j ∧
      w1.data j = w.data j ∧ w1.allocated j = w.allocated j := by
  have hobj : w1.obj j = w.obj j := by
    simp only [World.obj, hst.frame_obj j hji]
  simp only [World.elems, World.size, World.capacity, World.data, World.allocated, hobj,
    and_true]
  constructor
  · cases ho : w.objs[j]? with
    | none => simp [World.obj, ho, default_ctor, elems, data_const]
    | some o =>
      rw [obj_eq ho]
      cases ha : o.allocated_ with
      | false => simp [elems, data_const, ha]
      | true =>
        have := (hst.frame_view j o hji ho ha).1
        simp [elems, data_const, ha, this]
  · cases ho : w.objs[j]? with
    | none => simp [World.obj, ho, default_ctor, capacity]
    | some o =>
      rw [obj_eq ho]
      cases ha : o.allocated_ with
      | false => simp [capacity, ha]
      | true =>
        have := (hst.frame_view j o hji ho ha).2
        simp [capacity, ha, this]

/-- A copy assignment `objs[i] = objs[j]` between two different containers. -/
theorem assign_step {S : Nat} {w : World α} {i j : Nat} {v o : socow_vector α}
    (hinv : Inv S w) (hi : w.objs[i]? = some v) (hj : w.objs[j]? = some o) (hij : i ≠ j) :
    ∃ w1, (Op.assign i j).returns S w w1 ∧ Step S w w1 i ∧
      w1.elems i = w.elems j ∧ w1.size i = w.size j ∧ w1.capacity S i = w.capacity S j ∧
      w1.allocated i = w.allocated j ∧
      (o.allocated_ = true → w1.data i = w.data j ∧ w1.st.copies = w.st.copies ∧
        w1.ref_count o.buf_ + (if v.allocated_ = true ∧ v.buf_ = o.buf_ then 1 else 0) =
          w.ref_count o.buf_ + 1) := by
  obtain ⟨h, cp, sw, dt, objs, rfl, hH⟩ := hinv.unfold
  simp only at hi hj ⊢
  have hv := hH.valid i v hi
  have ho := hH.valid j o hj
  have hilt := lt_of_getElem? hi
  have hsh : v.allocated_ = true → o.allocated_ = true → v.buf_ = o.buf_ →
      sharing v h = true := fun h1 h2 h3 => sharing_of_same hH hij hi hj h1 h2 h3
  have hrun : ∀ fuel, v.size_ + 6 ≤ fuel → ∀ v1 st1,
      assign S fuel v o ⟨h, none, cp, sw, dt⟩ = .ok (v1, st1) →
      (Op.assign i j).run S fuel ⟨⟨h, none, cp, sw, dt⟩, objs⟩ = .ok ⟨st1, objs.set i v1⟩ := by
    intro fuel _ v1 st1 hr
    simp only [Op.run, World.assign, if_neg hij, hj]
    exact on_ok hi hr
  have hsp := fun fuel (hf : v.size_ + 6 ≤ fuel) =>
    @assign_spec α S fuel v o h none cp sw dt hv ho hsh (fun _ => passes_none _ _) hf
  obtain ⟨f1, f2, f3, f4, f5⟩ := obs S ⟨h, none, cp, sw, dt⟩ hj
  cases hoa : o.allocated_ with
  | true =>
    simp only [hoa, if_true] at hsp
    obtain ⟨hst, h1, h2, h3, h4, h5⟩ := step_share cp sw dt cp sw (dt + release_dtors v h) hH hi
      hj hij hoa
    refine ⟨_, ⟨v.size_ + 6, fun fuel hf => hrun fuel hf _ _ (hsp fuel hf)⟩, hst, h1, h3, h2,
      ?_, fun _ => ⟨h4, rfl, ?_⟩⟩
    · rw [f5, hoa]; simp only [World.allocated, obj_set _ _ hilt]
    · obtain ⟨c, r, d, hb, -, -, hr⟩ := lookup_release_heap hv ho hoa
        (fun h1 h3 => hsh h1 hoa h3)
      have hpos : 0 < (h.getBuf o.buf_).ref_count_ := by
        have ho' := ho
        obtain ⟨n', a', p', sm'⟩ := o
        simp only at hoa; subst hoa
        rw [valid_heap] at ho'
        obtain ⟨c', r', d', hb', -⟩ := ho'
        simp only [Heap.getBuf, hb']
        simp
      simp only [World.ref_count, retain_heap_eq hb, Heap.getBuf,
        Heap.lookup_set_eq _ (Heap.lookup_lt hb), Option.getD_some]
      simp only [Heap.getBuf] at hr hpos
      split at hr <;> rename_i hc
      · rw [if_pos hc]; omega
      · rw [if_neg hc]; omega
  | false =>
    simp only [hoa, Bool.false_eq_true, if_false] at hsp
    have hol : o.small_buf_.length = o.size_ ∧ o.size_ ≤ S := by
      obtain ⟨n', a', p', sm'⟩ := o
      simp only at hoa; subst hoa
      exact valid_small.1 ho
    obtain ⟨hst, h1, h2, h3, h4⟩ := step_small cp sw dt
      (cp + o.size_ + (if v.allocated_ then 0 else min v.size_ o.size_))
      (sw + (if v.allocated_ then 0 else min v.size_ o.size_))
      (dt + release_dtors v h + (if v.allocated_ then 0 else min v.size_ o.size_)) v.buf_
      o.small_buf_ hH hi (by omega)
    rw [hol.1] at hst h1 h2 h3 h4
    refine ⟨_, ⟨v.size_ + 6, fun fuel hf => hrun fuel hf _ _ (hsp fuel hf)⟩, hst, ?_, ?_, ?_,
      ?_, fun hh => by cases hh⟩
    · rw [h1, f1, elems, data_const, hoa, size, ← hol.1]; simp
    · rw [h3, f2]
    · rw [h2, f3, capacity, hoa]; simp
    · rw [f5, hoa]; simp only [World.allocated, obj_set _ _ hilt]

/-- The self-assignment `objs[i] = objs[i]`. -/
theorem assign_self {S : Nat} (w : World α) {i : Nat} (hi : i < w.objs.length) :
    (Op.assign i i).returns S w w :=
  ⟨0, fun fuel _ => by simp only [Op.run, World.assign, if_true, if_pos hi]⟩

/-! ## swap on a program -/

theorem same_as_obs {S : Nat} {a b : socow_vector α} (hab : same_as a b) (h : Heap α) :
    (valid S b h → valid S a h) ∧ (∀ p, holds a p = holds b p) ∧
      elems a h = elems b h ∧ capacity S a h = capacity S b h := by
  obtain ⟨n, x, p, sm⟩ := a
  obtain ⟨n', x', p', sm'⟩ := b
  obtain ⟨h1, h2, h3, h4⟩ := hab
  simp only at h1 h2 h3 h4
  subst h1 h2 h3
  cases x with
  | false =>
    refine ⟨fun hv => ?_, fun q => ?_, ?_, ?_⟩
    · rw [valid_small] at hv ⊢; exact hv
    · rw [holds_small, holds_small]
    · simp [elems, data_const, size]
    · simp [capacity]
  | true =>
    have := h4 rfl
    subst this
    exact ⟨id, fun _ => rfl, rfl, rfl⟩

/-- Containers `i` and `j` exchange their data members; the heap is untouched. -/
theorem step_exchange {S : Nat} {h : Heap α} {objs : List (socow_vector α)} {i j : Nat}
    {v o a1 b1 : socow_vector α} (cp sw dt cp1 sw1 dt1 : Nat) (hH : HInv S h objs)
    (hij : i ≠ j) (hi : objs[i]? = some v) (hj : objs[j]? = some o) (ha : same_as a1 o)
    (hb : same_as b1 v) :
    let w : World α := ⟨⟨h, none, cp, sw, dt⟩, objs⟩
    let w1 : World α := ⟨⟨h, none, cp1, sw1, dt1⟩, (objs.set i a1).set j b1⟩
    Inv S w1 ∧ w1.elems i = w.elems j ∧ w1.elems j = w.elems i ∧
      w1.size i = w.size j ∧ w1.size j = w.size i ∧
      w1.capacity S i = w.capacity S j ∧ w1.capacity S j = w.capacity S i ∧
      w1.allocated i = w.allocated j ∧ w1.allocated j = w.allocated i := by
  intro w w1
  have hilt := lt_of_getElem? hi
  have hjlt := lt_of_getElem? hj
  obtain ⟨va, ha2, ha3, ha4⟩ := @same_as_obs α S a1 o ha h
  obtain ⟨vb, hb2, hb3, hb4⟩ := @same_as_obs α S b1 v hb h
  have hinv1 := hinv_exchange hH hij hi hj (va (hH.valid j o hj)) (vb (hH.valid i v hi)) ha2 hb2
  have oi : w1.obj i = a1 := by
    simp only [w1, World.obj, List.getElem?_set_ne (fun e => hij e.symm),
      List.getElem?_set_self hilt, Option.getD_some]
  have oj : w1.obj j = b1 := by
    have : j < (objs.set i a1).length := by rw [List.length_set]; exact hjlt
    simp only [w1, World.obj, List.getElem?_set_self this, Option.getD_some]
  have oi0 : w.obj i = v := obj_mk _ hi
  have oj0 : w.obj j = o := obj_mk _ hj
  refine ⟨⟨hinv1, rfl⟩, ?_, ?_, ?_, ?_, ?_, ?_, ?_, ?_⟩
  · simp only [World.elems, oi, oj0]; exact ha3
  · simp only [World.elems, oj, oi0]; exact hb3
  · simp only [World.size, oi, oj0, size]; exact ha.1
  · simp only [World.size, oj, oi0, size]; exact hb.1
  · simp only [World.capacity, oi, oj0]; exact ha4
  · simp only [World.capacity, oj, oi0]; exact hb4
  · simp only [World.allocated, oi, oj0]; exact ha.2.1
  · simp only [World.allocated, oj, oi0]; exact hb.2.1

/-- The member function `swap` on two well-formed containers that are different objects. -/
theorem swap_spec {S : Nat} {v o : socow_vector α} {h : Heap α} (cp sw dt : Nat)
    (hv : valid S v h) (ho : valid S o h) :
    ∃ a1 b1 cp1 sw1 dt1, same_as a1 o ∧ same_as b1 v ∧
      ∀ fuel, v.size_ + o.size_ + 8 ≤ fuel →
        swap S fuel v o ⟨h, none, cp, sw, dt⟩ = .ok (a1, b1, ⟨h, none, cp1, sw1, dt1⟩) := by
  obtain ⟨n, a, p, sm⟩ := v
  obtain ⟨k, b, q, od⟩ := o
  cases a <;> cases b
  · rw [valid_small] at hv ho
    exact ⟨⟨k, false, p, od⟩, ⟨n, false, q, sm⟩, _, _, _,
      ⟨rfl, rfl, rfl, fun hh => by cases hh⟩,
      ⟨rfl, rfl, rfl, fun hh => by cases hh⟩, fun fuel hf =>
      swap_small_small n p k q h sw dt hv.1 ho.1 hv.2 ho.2 (passes_none _ _) (by omega)⟩
  · rw [valid_small] at hv
    rw [valid_heap] at ho
    obtain ⟨c, r, d, hb, rfl, hlen, hkc, hc⟩ := ho
    exact ⟨⟨k, true, q, []⟩, ⟨n, false, q, sm⟩, _, _, _, ⟨rfl, rfl, rfl, fun _ => rfl⟩,
      ⟨rfl, rfl, rfl, fun hh => by cases hh⟩, fun fuel hf =>
      swap_small_heap n p k q sw dt hb hc hlen hkc hv.1 hv.2 (passes_none _ _) hf⟩
  · rw [valid_small] at ho
    rw [valid_heap] at hv
    obtain ⟨c, r, d, hb, rfl, hlen, hkc, hc⟩ := hv
    exact ⟨⟨k, false, p, od⟩, ⟨n, true, p, []⟩, _, _, _,
      ⟨rfl, rfl, rfl, fun hh => by cases hh⟩,
      ⟨rfl, rfl, rfl, fun _ => rfl⟩, fun fuel hf =>
      swap_heap_small n p k q sw dt hb hc hlen hkc ho.1 ho.2 (passes_none _ _) hf⟩
  · rw [valid_heap] at hv ho
    obtain ⟨c, r, d, hb, rfl, hlen, hkc, hc⟩ := hv
    obtain ⟨c', r', d', hb', rfl, hlen', hkc', hc'⟩ := ho
    exact ⟨⟨k, true, q, []⟩, ⟨n, true, p, []⟩, _, _, _, ⟨rfl, rfl, rfl, fun _ => rfl⟩,
      ⟨rfl, rfl, rfl, fun _ => rfl⟩, fun fuel hf =>
      swap_heap_heap n p k q none cp sw dt hb hb' hc hc' (by omega)⟩

/-- A call `objs[i].swap(objs[j])` on two different containers. -/
theorem swap_step {S : Nat} {w : World α} {i j : Nat} {v o : socow_vector α}
    (hinv : Inv S w) (hi : w.objs[i]? = some v) (hj : w.objs[j]? = some o) (hij : i ≠ j) :
    ∃ w1, (Op.swap i j).returns S w w1 ∧ Inv S w1 ∧
      w1.elems i = w.elems j ∧ w1.elems j = w.elems i ∧
      w1.size i = w.size j ∧ w1.size j = w.size i ∧
      w1.capacity S i = w.capacity S j ∧ w1.capacity S j = w.capacity S i ∧
      w1.allocated i = w.allocated j ∧ w1.allocated j = w.allocated i := by
  obtain ⟨h, cp, sw, dt, objs, rfl, hH⟩ := hinv.unfold
  simp only at hi hj ⊢
  obtain ⟨a1, b1, cp1, sw1, dt1, ha, hb, hr⟩ :=
    swap_spec cp sw dt (hH.valid i v hi) (hH.valid j o hj)
  refine ⟨_, ⟨v.size_ + o.size_ + 8, fun fuel hf => ?_⟩,
    step_exchange cp sw dt cp1 sw1 dt1 hH hij hi hj ha hb⟩
  simp only [Op.run, World.swap, if_neg hij, hi, hj, hr fuel hf]

/-- The call `objs[i].swap(objs[i])`. -/
theorem swap_self {S : Nat} (w : World α) {i : Nat} (hi : i < w.objs.length) :
    (Op.swap i i).returns S w w :=
  ⟨0, fun fuel _ => by simp only [Op.run, World.swap, if_true, if_pos hi]⟩

/-! ## Construction on a program -/

theorem valid_default (S : Nat) (h : Heap α) : valid S (default_ctor : socow_vector α) h := by
  simp [default_ctor, valid_small]

theorem set_last (objs : List (socow_vector α)) (x y : socow_vector α) :
    (objs ++ [x]).set objs.length y = objs ++ [y] := by
  induction objs with
  | nil => rfl
  | cons a l ih => simp only [List.cons_append, List.length_cons, List.set_cons_succ, ih]

theorem getElem?_last (objs : List (socow_vector α)) (x : socow_vector α) :
    (objs ++ [x])[objs.length]? = some x := by
  simp

theorem obj_append {st st1 : St α} {objs : List (socow_vector α)} {j : Nat}
    (x : socow_vector α) (hj : j < objs.length) :
    (World.mk st1 (objs ++ [x])).obj j = (World.mk st objs).obj j := by
  simp only [World.obj, List.getElem?_append_left hj]

/-- The default constructor. -/
theorem construct_step {S : Nat} {w : World α} (hinv : Inv S w) :
    ∃ w1, (Op.construct).returns S w w1 ∧ Inv S w1 ∧ w1.st = w.st ∧
      w1.objs = w.objs ++ [default_ctor] ∧ w1.elems w.objs.length = [] ∧
      w1.size w.objs.length = 0 ∧ w1.capacity S w.objs.length = S := by
  obtain ⟨h, cp, sw, dt, objs, rfl, hH⟩ := hinv.unfold
  refine ⟨⟨⟨h, none, cp, sw, dt⟩, objs ++ [default_ctor]⟩, ⟨0, fun fuel _ => rfl⟩,
    ⟨hinv_new hH (valid_default S h) rfl, rfl⟩, rfl, rfl, ?_, ?_, ?_⟩
  · simp [World.elems, World.obj, default_ctor, elems, data_const, size]
  · simp [World.size, World.obj, default_ctor, size]
  · simp [World.capacity, World.obj, default_ctor, capacity]

/-- The copy constructor, with source `objs[j]`; the new container is the last one. -/
theorem copy_construct_step {S : Nat} {w : World α} {j : Nat} {o : socow_vector α}
    (hinv : Inv S w) (hj : w.objs[j]? = some o) :
    ∃ w1, (Op.copy_construct j).returns S w w1 ∧ Inv S w1 ∧
      w1.objs.length = w.objs.length + 1 ∧
      (∀ k, k < w.objs.length → w1.objs[k]? = w.objs[k]?) ∧
      (∀ k, k < w.objs.length → w1.elems k = w.elems k ∧ w1.size k = w.size k ∧
        w1.capacity S k = w.capacity S k ∧ w1.data k = w.data k) ∧
      w1.elems w.objs.length = w.elems j ∧ w1.size w.objs.length = w.size j ∧
      w1.capacity S w.objs.length = w.capacity S j ∧
      w1.allocated w.objs.length = w.allocated j ∧
      (o.allocated_ = true → w1.data w.objs.length = w.data j ∧ w1.st.copies = w.st.copies ∧
        w1.ref_count o.buf_ = w.ref_count o.buf_ + 1) ∧
      (o.allocated_ = false → w1.data w.objs.length = .small w.objs.length ∧
        w1.st.copies = w.st.copies + w.size j) := by
  obtain ⟨h, cp, sw, dt, objs, rfl, hH⟩ := hinv.unfold
  simp only at hj ⊢
  have ho := hH.valid j o hj
  have hjlt := lt_of_getElem? hj
  have hjne : objs.length ≠ j := by omega
  have hH' : HInv S h (objs ++ [default_ctor]) := hinv_new hH (valid_default S h) rfl
  have hj' : (objs ++ [default_ctor])[j]? = some o := by
    rw [List.getElem?_append_left hjlt]; exact hj
  have hn' := getElem?_last objs (default_ctor : socow_vector α)
  have hrel : release_heap (default_ctor : socow_vector α) h = h := release_heap_small 0 0 [] h
  have hw : ∀ (cp' sw' dt' k : Nat), k < objs.length →
      (World.mk ⟨h, none, cp', sw', dt'⟩ (objs ++ [default_ctor])).elems k
        = (World.mk ⟨h, none, cp, sw, dt⟩ objs).elems k ∧
      (World.mk ⟨h, none, cp', sw', dt'⟩ (objs ++ [default_ctor])).size k
        = (World.mk ⟨h, none, cp, sw, dt⟩ objs).size k ∧
      (World.mk ⟨h, none, cp', sw', dt'⟩ (objs ++ [default_ctor])).capacity S k
        = (World.mk ⟨h, none, cp, sw, dt⟩ objs).capacity S k ∧
      (World.mk ⟨h, none, cp', sw', dt'⟩ (objs ++ [default_ctor])).data k
        = (World.mk ⟨h, none, cp, sw, dt⟩ objs).data k ∧
      (World.mk ⟨h, none, cp', sw', dt'⟩ (objs ++ [default_ctor])).allocated k
        = (World.mk ⟨h, none, cp, sw, dt⟩ objs).allocated k := by
    intro cp' sw' dt' k hk
    simp only [World.elems, World.size, World.capacity, World.data, World.allocated,
      World.obj, List.getElem?_append_left hk, and_self]
  obtain ⟨f1, f2, f3, f4, f5⟩ := hw cp sw dt j hjlt
  have hframe : ∀ {w1 : World α}, Step S ⟨⟨h, none, cp, sw, dt⟩, objs ++ [default_ctor]⟩ w1
      objs.length → ∀ k, k < objs.length →
      w1.objs[k]? = objs[k]? ∧ w1.elems k = (World.mk ⟨h, none, cp, sw, dt⟩ objs).elems k ∧
        w1.size k = (World.mk ⟨h, none, cp, sw, dt⟩ objs).size k ∧
        w1.capacity S k = (World.mk ⟨h, none, cp, sw, dt⟩ objs).capacity S k ∧
        w1.data k = (World.mk ⟨h, none, cp, sw, dt⟩ objs).data k := by
    intro w1 hst k hk
    obtain ⟨g1, g2, g3, g4, g5⟩ := hw cp sw dt k hk
    obtain ⟨s1, s2, s3, s4, s5⟩ := @step_frame α S _ _ _ k hst (by omega)
    refine ⟨?_, s1.trans g1, s2.trans g2, s3.trans g3, s4.trans g4⟩
    rw [hst.frame_obj k (by omega)]
    exact List.getElem?_append_left hk
  cases hoa : o.allocated_ with
  | true =>
    obtain ⟨hst, h1, h2, h3, h4, h5⟩ := step_share cp sw dt cp sw dt hH' hn' hj' hjne hoa
    simp only [hrel, set_last] at hst h1 h2 h3 h4
    obtain ⟨n, a, p, sm⟩ := o
    simp only at hoa; subst hoa
    have ho' := ho
    rw [valid_heap] at ho'
    obtain ⟨c, r, d, hb, rfl, hlen, hkc, hc⟩ := ho'
    simp only [retain_heap_eq hb] at hst h1 h2 h3 h4 ⊢
    refine ⟨_, ⟨0, fun fuel _ => ?_⟩, hst.inv, ?_, fun k hk => (hframe hst k hk).1,
      fun k hk => (hframe hst k hk).2, h1.trans f1, h3.trans f2, h2.trans f3, ?_,
      fun _ => ⟨h4.trans f4, rfl, ?_⟩, fun hh => by cases hh⟩
    · simp only [Op.run, hj, copy_ctor_heap n p [] none cp sw dt hb hc]
    · simp
    · simp [World.allocated, World.obj, hj]
    · simp [World.ref_count, Heap.getBuf, hb, Heap.lookup_set_eq _ (Heap.lookup_lt hb)]
  | false =>
    obtain ⟨n, a, p, sm⟩ := o
    simp only at hoa; subst hoa
    have ho' := ho
    rw [valid_small] at ho'
    obtain ⟨hst, h1, h2, h3, h4⟩ := step_small cp sw dt (cp + n) sw dt 0 sm hH' hn'
      (by omega)
    simp only [hrel, set_last] at hst h1 h2 h3 h4
    rw [ho'.1] at hst h2 h3 h4
    have e1 : (World.mk ⟨h, none, cp, sw, dt⟩ objs).elems j = sm := by
      simp [World.elems, World.obj, hj, elems, data_const, size, ← ho'.1]
    have e2 : (World.mk ⟨h, none, cp, sw, dt⟩ objs).size j = n := by
      simp [World.size, World.obj, hj, size]
    have e3 : (World.mk ⟨h, none, cp, sw, dt⟩ objs).capacity S j = S := by
      simp [World.capacity, World.obj, hj, capacity]
    refine ⟨_, ⟨0, fun fuel _ => ?_⟩, hst.inv, ?_, fun k hk => (hframe hst k hk).1,
      fun k hk => (hframe hst k hk).2, ?_, h3.trans e2.symm, h2.trans e3.symm, ?_,
      (fun hh => by cases hh), fun _ => ⟨h4, ?_⟩⟩
    · simp only [Op.run, hj, copy_ctor_small n p h sw dt ho'.1 ho'.2 (passes_none _ _)]
    · simp
    · rw [e1]
      simp [World.elems, World.obj, elems, data_const, size, ← ho'.1]
    · simp [World.allocated, World.obj, hj]
    · rw [e2]

/-! ## Calls that never return -/

/-- With `SMALL_SIZE = 0` a `push_back` on an inline container recurses for ever: the
replacement container, of capacity `0 * 2`, is inline and full again. -/
theorem push_back_zero (x : α) : ∀ (fuel : Nat) (v : socow_vector α) (st : St α),
    v.allocated_ = false → v.size_ = 0 → push_back 0 fuel v x st = .stuck := by
  intro fuel
  induction fuel with
  | zero => intro v st _ _; rfl
  | succ n ih =>
    intro v st ha hn
    obtain ⟨k, a, p, sm⟩ := v
    obtain ⟨h, t, cp, sw, dt⟩ := st
    simp only at ha hn
    subst ha hn
    have hc : ctor 0 ⟨0, false, p, sm⟩ 0 0 false ⟨h, t, cp, sw, dt⟩ =
        .ok (⟨0, false, 0, (data_const ⟨0, false, p, sm⟩ h).take 0⟩, ⟨h, t, cp + 0, sw, dt⟩) :=
      ctor_small false (Nat.le_refl 0) (Nat.zero_le _) (Nat.le_refl 0) (passes_zero _ _)
    simp only [push_back, size, capacity_small, decide_True, Bool.true_or, if_true,
      Nat.zero_mul, hc]
    rw [ih _ _ rfl rfl]

theorem insert_zero (x : α) (fuel : Nat) (v : socow_vector α) (st : St α)
    (ha : v.allocated_ = false) (hn : v.size_ = 0) :
    insert 0 fuel v 0 x st = .stuck := by
  cases fuel with
  | zero => rfl
  | succ n =>
    obtain ⟨k, a, p, sm⟩ := v
    obtain ⟨h, t, cp, sw, dt⟩ := st
    simp only at ha hn
    subst ha hn
    have hc : ctor 0 ⟨0, false, p, sm⟩ 0 0 false ⟨h, t, cp, sw, dt⟩ =
        .ok (⟨0, false, 0, (data_const ⟨0, false, p, sm⟩ h).take 0⟩, ⟨h, t, cp + 0, sw, dt⟩) :=
      ctor_small false (Nat.le_refl 0) (Nat.zero_le _) (Nat.le_refl 0) (passes_zero _ _)
    simp only [insert, size, capacity_small, decide_True, Bool.or_true, if_true,
      Nat.zero_mul, hc]
    rw [push_back_zero x n _ _ rfl rfl]
    rfl

theorem pop_back_empty (S fuel : Nat) (v : socow_vector α) (st : St α) (hn : v.size_ = 0) :
    pop_back S fuel v st = .stuck := by
  cases fuel with
  | zero => rfl
  | succ n => simp only [pop_back, size, hn, if_true]

/-! ## Every reachable state is well-formed -/

theorem exists_obj {objs : List (socow_vector α)} {i : Nat} (hi : i < objs.length) :
    ∃ v, objs[i]? = some v := ⟨objs[i], List.getElem?_eq_getElem hi⟩

/-- An operation called within its contract returns, and leaves a well-formed state. -/
theorem pre_step {S : Nat} {w : World α} (hinv : Inv S w) (op : Op α) (hpre : op.pre S w) :
    ∃ w1, op.returns S w w1 ∧ Inv S w1 := by
  cases op with
  | construct =>
    obtain ⟨w1, h1, h2, -⟩ := construct_step hinv
    exact ⟨w1, h1, h2⟩
  | copy_construct src =>
    obtain ⟨o, hj⟩ := exists_obj (show src < w.objs.length from hpre)
    obtain ⟨w1, h1, h2, -⟩ := copy_construct_step hinv hj
    exact ⟨w1, h1, h2⟩
  | destroy i =>
    obtain ⟨v, hi⟩ := exists_obj (show i < w.objs.length from hpre)
    obtain ⟨w1, h1, h2, -⟩ := destroy_step hinv hi
    exact ⟨w1, h1, h2.inv⟩
  | assign i j =>
    obtain ⟨v, hi⟩ := exists_obj (show i < w.objs.length from hpre.1)
    obtain ⟨o, hj⟩ := exists_obj (show j < w.objs.length from hpre.2)
    by_cases hij : i = j
    · subst hij
      exact ⟨w, assign_self w hpre.1, hinv⟩
    · obtain ⟨w1, h1, h2, -⟩ := assign_step hinv hi hj hij
      exact ⟨w1, h1, h2.inv⟩
  | swap i j =>
    obtain ⟨v, hi⟩ := exists_obj (show i < w.objs.length from hpre.1)
    obtain ⟨o, hj⟩ := exists_obj (show j < w.objs.length from hpre.2)
    by_cases hij : i = j
    · subst hij
      exact ⟨w, swap_self w hpre.1, hinv⟩
    · obtain ⟨w1, h1, h2, -⟩ := swap_step hinv hi hj hij
      exact ⟨w1, h1, h2⟩
  | push_back i x =>
    obtain ⟨v, hi⟩ := exists_obj (show i < w.objs.length from hpre.1)
    have hS : 1 ≤ S ∨ v.allocated_ = true := by
      have := hpre.2
      rwa [World.allocated, obj_eq hi] at this
    obtain ⟨w1, h1, h2, -⟩ := push_back_step x hinv hi hS
    exact ⟨w1, h1, h2.inv⟩
  | pop_back i =>
    obtain ⟨v, hi⟩ := exists_obj (show i < w.objs.length from hpre.1)
    have hne : v.size_ ≠ 0 := by
      have := hpre.2
      rwa [World.size, obj_eq hi] at this
    obtain ⟨w1, h1, h2, -⟩ := pop_back_step hinv hi hne
    exact ⟨w1, h1, h2.inv⟩
  | insert i pos x =>
    obtain ⟨v, hi⟩ := exists_obj (show i < w.objs.length from hpre.1)
    have hp := hpre.2
    rw [World.allocated, World.size, obj_eq hi] at hp
    obtain ⟨w1, h1, h2, -⟩ := insert_step pos x hinv hi hp.2 hp.1
    exact ⟨w1, h1, h2.inv⟩
  | erase i first last =>
    obtain ⟨v, hi⟩ := exists_obj (show i < w.objs.length from hpre.1)
    have hp := hpre.2
    rw [World.size, obj_eq hi] at hp
    obtain ⟨w1, h1, h2, -⟩ := erase_step first last hinv hi hp.1 hp.2
    exact ⟨w1, h1, h2.inv⟩
  | erase_one i pos =>
    obtain ⟨v, hi⟩ := exists_obj (show i < w.objs.length from hpre.1)
    have hp := hpre.2
    rw [World.size, obj_eq hi] at hp
    obtain ⟨w1, h1, h2, -⟩ := erase_one_step pos hinv hi hp
    exact ⟨w1, h1, h2.inv⟩
  | clear i =>
    obtain ⟨v, hi⟩ := exists_obj (show i < w.objs.length from hpre)
    obtain ⟨w1, h1, h2, -⟩ := clear_step hinv hi
    exact ⟨w1, h1, h2.inv⟩
  | clear_bool i b =>
    obtain ⟨v, hi⟩ := exists_obj (show i < w.objs.length from hpre)
    obtain ⟨w1, h1, h2, -⟩ := clear_bool_step b hinv hi
    exact ⟨w1, h1, h2.inv⟩
  | hard_clear i =>
    obtain ⟨v, hi⟩ := exists_obj (show i < w.objs.length from hpre)
    obtain ⟨w1, h1, h2, -⟩ := hard_clear_step hinv hi
    exact ⟨w1, h1, h2.inv⟩
  | reserve i k =>
    obtain ⟨v, hi⟩ := exists_obj (show i < w.objs.length from hpre.1)
    obtain ⟨w1, h1, h2, -⟩ := reserve_step k hinv hi hpre.2
    exact ⟨w1, h1, h2.inv⟩
  | shrink_to_fit i =>
    obtain ⟨v, hi⟩ := exists_obj (show i < w.objs.length from hpre)
    obtain ⟨w1, h1, h2, -⟩ := shrink_to_fit_step hinv hi
    exact ⟨w1, h1, h2.inv⟩
  | access i acc =>
    obtain ⟨v, hi⟩ := exists_obj (show i < w.objs.length from hpre)
    obtain ⟨w1, h1, h2, -⟩ := access_step acc hinv hi
    exact ⟨w1, h1, h2.inv⟩
  | write i k x =>
    obtain ⟨v, hi⟩ := exists_obj (show i < w.objs.length from hpre.1)
    have hp := hpre.2
    rw [World.size, obj_eq hi] at hp
    obtain ⟨w1, h1, h2, -⟩ := write_step k x hinv hi hp
    exact ⟨w1, h1, h2.inv⟩

theorem on_returns {w w1 : World α} {i : Nat}
    {f : Nat → socow_vector α → St α → Res (socow_vector α × St α) (socow_vector α × St α)}
    (hr : ∃ N, ∀ fuel, N ≤ fuel → w.on i (f fuel) = .ok w1) :
    ∃ v, w.objs[i]? = some v ∧ i < w.objs.length ∧
      ∃ N, ∀ fuel, N ≤ fuel → ∃ v1 st1, f fuel v w.st = .ok (v1, st1) := by
  obtain ⟨N, hN⟩ := hr
  obtain ⟨v, -, -, hi, -, -⟩ := on_eq_ok (hN N (Nat.le_refl N))
  refine ⟨v, hi, lt_of_getElem? hi, N, fun fuel hf => ?_⟩
  obtain ⟨v', v1, st1, hi', hf', -⟩ := on_eq_ok (hN fuel hf)
  rw [hi] at hi'
  cases hi'
  exact ⟨v1, st1, hf'⟩

theorem write_outside {S fuel : Nat} {v : socow_vector α} {h : Heap α} (k : Nat) (x : α)
    (cp sw dt : Nat) (hv : valid S v h) (hk : v.size_ ≤ k) (hf : 8 ≤ fuel) :
    write S fuel v k x ⟨h, none, cp, sw, dt⟩ = .stuck := by
  obtain ⟨-, hdl, -⟩ := valid_size_le hv
  rcases valid_split hv with ⟨hs, hx⟩ | ⟨hs, c, r, d, hveq, hb, hdc, hc⟩
  · have hd : data S fuel v ⟨h, none, cp, sw, dt⟩ = .ok (v, ⟨h, none, cp, sw, dt⟩) :=
      data_idle (by omega) hs
    simp only [write, hd, hdl]
    rw [if_neg (by omega)]
  · generalize v.buf_ = p at hveq hb
    subst hveq
    simp only at hk
    simp only [write, data_shared d.length p sw dt hb hc rfl hdc (passes_none _ _) hf,
      data_const_heap _ _ (Heap.lookup_append_new' _ (Heap.length_set h p _))]
    rw [if_neg (by omega)]

/-- An operation that returns was called within its contract. -/
theorem returns_pre {S : Nat} {w w1 : World α} (hinv : Inv S w) {op : Op α}
    (hr : op.returns S w w1) : op.pre S w := by
  obtain ⟨h, cp, sw, dt, objs, rfl, hH⟩ := hinv.unfold
  cases op with
  | construct => trivial
  | copy_construct src =>
    obtain ⟨N, hN⟩ := hr
    have := hN N (Nat.le_refl N)
    simp only [Op.run] at this
    cases hj : objs[src]? with
    | none => simp [hj] at this
    | some o => exact lt_of_getElem? hj
  | destroy i =>
    obtain ⟨v, hi, hlt, -⟩ := on_returns hr
    exact hlt
  | assign i j =>
    obtain ⟨N, hN⟩ := hr
    have := hN N (Nat.le_refl N)
    simp only [Op.run, World.assign] at this
    by_cases hij : i = j
    · subst hij
      simp only [if_true] at this
      by_cases hi : i < objs.length
      · exact ⟨hi, hi⟩
      · simp [hi] at this
    · simp only [if_neg hij] at this
      cases hj : objs[j]? with
      | none => simp [hj] at this
      | some o =>
        simp only [hj] at this
        obtain ⟨v, -, -, hi, -⟩ := on_eq_ok this
        exact ⟨lt_of_getElem? hi, lt_of_getElem? hj⟩
  | swap i j =>
    obtain ⟨N, hN⟩ := hr
    have := hN N (Nat.le_refl N)
    simp only [Op.run, World.swap] at this
    by_cases hij : i = j
    · subst hij
      simp only [if_true] at this
      by_cases hi : i < objs.length
      · exact ⟨hi, hi⟩
      · simp [hi] at this
    · simp only [if_neg hij] at this
      cases hi : objs[i]? with
      | none => simp [hi] at this
      | some v =>
        cases hj : objs[j]? with
        | none => simp [hi, hj] at this
        | some o => exact ⟨lt_of_getElem? hi, lt_of_getElem? hj⟩
  | push_back i x =>
    obtain ⟨v, hi, hlt, N, hN⟩ := on_returns hr
    refine ⟨hlt, ?_⟩
    rw [World.allocated, obj_eq hi]
    by_contra hc
    simp only [not_or, not_le, Nat.lt_one_iff, Bool.not_eq_true] at hc
    obtain ⟨hS, ha⟩ := hc
    subst hS
    have hv := hH.valid i v hi
    have hn : v.size_ = 0 := by
      have := (valid_size_le hv).1
      simp only [capacity, ha, Bool.not_false, if_true] at this
      omega
    obtain ⟨v1, st1, h1⟩ := hN N (Nat.le_refl N)
    rw [push_back_zero x N v _ ha hn] at h1
    cases h1
  | pop_back i =>
    obtain ⟨v, hi, hlt, N, hN⟩ := on_returns hr
    refine ⟨hlt, ?_⟩
    rw [World.size, obj_eq hi]
    intro hn
    obtain ⟨v1, st1, h1⟩ := hN N (Nat.le_refl N)
    rw [pop_back_empty S N v _ hn] at h1
    cases h1
  | insert i pos x =>
    obtain ⟨v, hi, hlt, N, hN⟩ := @on_returns α _ _ i (fun fuel v st =>
      if pos ≤ v.size_ then drop_iterator (insert S fuel v pos x st) else .stuck) hr
    rw [Op.pre, World.allocated, World.size, obj_eq hi, size]
    obtain ⟨v1, st1, h1⟩ := hN N (Nat.le_refl N)
    by_cases hpos : pos ≤ v.size_
    · refine ⟨hlt, hpos, ?_⟩
      by_contra hc
      simp only [not_or, not_le, Nat.lt_one_iff, Bool.not_eq_true] at hc
      obtain ⟨hS, ha⟩ := hc
      subst hS
      have hv := hH.valid i v hi
      have hn : v.size_ = 0 := by
        have := (valid_size_le hv).1
        simp only [capacity, ha, Bool.not_false, if_true] at this
        omega
      have hp0 : pos = 0 := by omega
      subst hp0
      simp only [if_pos hpos, insert_zero x N v _ ha hn, drop_iterator] at h1
      cases h1
    · simp only [if_neg hpos] at h1
      cases h1
  | erase i first last =>
    obtain ⟨v, hi, hlt, N, hN⟩ := @on_returns α _ _ i (fun fuel v st =>
      if first ≤ last ∧ last ≤ v.size_ then drop_iterator (erase S fuel v first last st)
      else .stuck) hr
    rw [Op.pre, World.size, obj_eq hi, size]
    obtain ⟨v1, st1, h1⟩ := hN N (Nat.le_refl N)
    by_cases hfl : first ≤ last ∧ last ≤ v.size_
    · exact ⟨hlt, hfl⟩
    · simp only [if_neg hfl] at h1
      cases h1
  | erase_one i pos =>
    obtain ⟨v, hi, hlt, N, hN⟩ := @on_returns α _ _ i (fun fuel v st =>
      if pos < v.size_ then drop_iterator (erase_one S fuel v pos st) else .stuck) hr
    rw [Op.pre, World.size, obj_eq hi, size]
    obtain ⟨v1, st1, h1⟩ := hN N (Nat.le_refl N)
    by_cases hpos : pos < v.size_
    · exact ⟨hlt, hpos⟩
    · simp only [if_neg hpos] at h1
      cases h1
  | clear i =>
    obtain ⟨v, hi, hlt, -⟩ := on_returns hr
    exact hlt
  | clear_bool i b =>
    obtain ⟨v, hi, hlt, -⟩ := on_returns hr
    exact hlt
  | hard_clear i =>
    obtain ⟨v, hi, hlt, -⟩ := on_returns hr
    exact hlt
  | reserve i k =>
    obtain ⟨v, hi, hlt, N, hN⟩ :=
      @on_returns α _ _ i (fun fuel v st =>
        if k ≤ max_capacity then SocowVector.reserve S fuel v k st else .stuck) hr
    refine ⟨hlt, ?_⟩
    by_contra hk
    obtain ⟨v1, st1, h1⟩ := hN N (Nat.le_refl N)
    simp only [if_neg hk] at h1
    cases h1
  | shrink_to_fit i =>
    obtain ⟨v, hi, hlt, -⟩ := on_returns hr
    exact hlt
  | access i acc =>
    obtain ⟨v, hi, hlt, -⟩ := on_returns hr
    exact hlt
  | write i k x =>
    obtain ⟨v, hi, hlt, N, hN⟩ := on_returns hr
    rw [Op.pre, World.size, obj_eq hi, size]
    refine ⟨hlt, ?_⟩
    by_contra hk
    obtain ⟨v1, st1, h1⟩ := hN (N + 8) (by omega)
    rw [write_outside k x cp sw dt (hH.valid i v hi) (by omega) (by omega)] at h1
    cases h1

/-- A public operation that returns leaves a well-formed state. -/
theorem inv_step {S : Nat} {w w1 : World α} (hinv : Inv S w) {op : Op α}
    (hr : op.returns S w w1) : Inv S w1 := by
  obtain ⟨w2, h1, h2⟩ := pre_step hinv op (returns_pre hinv hr)
  rw [returns_unique hr h1]
  exact h2

theorem inv_init (S : Nat) : Inv S (World.init : World α) := by
  refine ⟨⟨fun j u hj => ?_, fun p b hb => ?_⟩, rfl⟩
  · simp [World.init] at hj
  · simp [World.init, Heap.lookup] at hb

/-- Every reachable state is well-formed. -/
theorem reachable_inv {S : Nat} {w : World α} (hr : Reachable S w) : Inv S w := by
  induction hr with
  | init => exact inv_init S
  | step op _ hret ih => exact inv_step ih hret

/-! ## Operations on one container leave the others alone -/

/-- An operation on the single container `i`, called within its contract, returns and
satisfies `Step`. -/
theorem target_step {S : Nat} {w : World α} (hinv : Inv S w) (op : Op α) {i : Nat}
    (ht : op.target = some i) (hpre : op.pre S w) :
    ∃ w1, op.returns S w w1 ∧ Step S w w1 i := by
  cases op with
  | construct => cases ht
  | copy_construct src => cases ht
  | swap a b => cases ht
  | destroy a =>
    cases ht
    obtain ⟨v, hi⟩ := exists_obj (show i < w.objs.length from hpre)
    obtain ⟨w1, h1, h2, -⟩ := destroy_step hinv hi
    exact ⟨w1, h1, h2⟩
  | assign a j =>
    cases ht
    obtain ⟨v, hi⟩ := exists_obj (show i < w.objs.length from hpre.1)
    obtain ⟨o, hj⟩ := exists_obj (show j < w.objs.length from hpre.2)
    by_cases hij : i = j
    · subst hij
      exact ⟨w, assign_self w hpre.1, step_refl hinv i⟩
    · obtain ⟨w1, h1, h2, -⟩ := assign_step hinv hi hj hij
      exact ⟨w1, h1, h2⟩
  | push_back a x =>
    cases ht
    obtain ⟨v, hi⟩ := exists_obj (show i < w.objs.length from hpre.1)
    have hS : 1 ≤ S ∨ v.allocated_ = true := by
      have := hpre.2
      rwa [World.allocated, obj_eq hi] at this
    obtain ⟨w1, h1, h2, -⟩ := push_back_step x hinv hi hS
    exact ⟨w1, h1, h2⟩
  | pop_back a =>
    cases ht
    obtain ⟨v, hi⟩ := exists_obj (show i < w.objs.length from hpre.1)
    have hne : v.size_ ≠ 0 := by
      have := hpre.2
      rwa [World.size, obj_eq hi] at this
    obtain ⟨w1, h1, h2, -⟩ := pop_back_step hinv hi hne
    exact ⟨w1, h1, h2⟩
  | insert a pos x =>
    cases ht
    obtain ⟨v, hi⟩ := exists_obj (show i < w.objs.length from hpre.1)
    have hp := hpre.2
    rw [World.allocated, World.size, obj_eq hi] at hp
    obtain ⟨w1, h1, h2, -⟩ := insert_step pos x hinv hi hp.2 hp.1
    exact ⟨w1, h1, h2⟩
  | erase a first last =>
    cases ht
    obtain ⟨v, hi⟩ := exists_obj (show i < w.objs.length from hpre.1)
    have hp := hpre.2
    rw [World.size, obj_eq hi] at hp
    obtain ⟨w1, h1, h2, -⟩ := erase_step first last hinv hi hp.1 hp.2
    exact ⟨w1, h1, h2⟩
  | erase_one a pos =>
    cases ht
    obtain ⟨v, hi⟩ := exists_obj (show i < w.objs.length from hpre.1)
    have hp := hpre.2
    rw [World.size, obj_eq hi] at hp
    obtain ⟨w1, h1, h2, -⟩ := erase_one_step pos hinv hi hp
    exact ⟨w1, h1, h2⟩
  | clear a =>
    cases ht
    obtain ⟨v, hi⟩ := exists_obj (show i < w.objs.length from hpre)
    obtain ⟨w1, h1, h2, -⟩ := clear_step hinv hi
    exact ⟨w1, h1, h2⟩
  | clear_bool a b =>
    cases ht
    obtain ⟨v, hi⟩ := exists_obj (show i < w.objs.length from hpre)
    obtain ⟨w1, h1, h2, -⟩ := clear_bool_step b hinv hi
    exact ⟨w1, h1, h2⟩
  | hard_clear a =>
    cases ht
    obtain ⟨v, hi⟩ := exists_obj (show i < w.objs.length from hpre)
    obtain ⟨w1, h1, h2, -⟩ := hard_clear_step hinv hi
    exact ⟨w1, h1, h2⟩
  | reserve a k =>
    cases ht
    obtain ⟨v, hi⟩ := exists_obj (show i < w.objs.length from hpre.1)
    obtain ⟨w1, h1, h2, -⟩ := reserve_step k hinv hi hpre.2
    exact ⟨w1, h1, h2⟩
  | shrink_to_fit a =>
    cases ht
    obtain ⟨v, hi⟩ := exists_obj (show i < w.objs.length from hpre)
    obtain ⟨w1, h1, h2, -⟩ := shrink_to_fit_step hinv hi
    exact ⟨w1, h1, h2⟩
  | access a acc =>
    cases ht
    obtain ⟨v, hi⟩ := exists_obj (show i < w.objs.length from hpre)
    obtain ⟨w1, h1, h2, -⟩ := access_step acc hinv hi
    exact ⟨w1, h1, h2⟩
  | write a k x =>
    cases ht
    obtain ⟨v, hi⟩ := exists_obj (show i < w.objs.length from hpre.1)
    have hp := hpre.2
    rw [World.size, obj_eq hi] at hp
    obtain ⟨w1, h1, h2, -⟩ := write_step k x hinv hi hp
    exact ⟨w1, h1, h2⟩

theorem inv_size_le {S : Nat} {w : World α} (hinv : Inv S w) (i : Nat) :
    w.size i ≤ w.capacity S i := by
  cases hi : w.objs[i]? with
  | none => simp [World.size, World.capacity, World.obj, hi, default_ctor, size, capacity]
  | some v =>
    rw [World.size, World.capacity, obj_eq hi]
    exact (valid_size_le (hinv.hinv.valid i v hi)).1

/-! ## The example program is reachable -/

theorem demo_reachable : Reachable 1 demo := by
  have s1 : (Op.construct).returns 1 (World.init : World Nat)
      ⟨⟨[], none, 0, 0, 0⟩, [⟨0, false, 0, []⟩]⟩ := ⟨0, fun fuel _ => rfl⟩
  have s2 : (Op.push_back 0 5).returns 1
      (⟨⟨[], none, 0, 0, 0⟩, [⟨0, false, 0, []⟩]⟩ : World Nat)
      ⟨⟨[], none, 1, 0, 0⟩, [⟨1, false, 0, [5]⟩]⟩ := by
    refine ⟨3, fun fuel hf => ?_⟩
    simp only [Op.run]
    exact on_ok rfl (push_back_small 0 0 5 [] 0 0 rfl (by decide) (passes_none _ _) hf)
  have s3 : (Op.push_back 0 6).returns 1
      (⟨⟨[], none, 1, 0, 0⟩, [⟨1, false, 0, [5]⟩]⟩ : World Nat)
      ⟨⟨[some ⟨2, 1, [5, 6]⟩], none, 3, 0, 1⟩, [⟨2, true, 0, []⟩]⟩ := by
    refine ⟨9, fun fuel hf => ?_⟩
    simp only [Op.run]
    exact on_ok rfl (@push_back_rebuild Nat 1 fuel ⟨1, false, 0, [5]⟩ [] none 1 0 0 6
      (Or.inl (Nat.le_refl 1)) (valid_small.2 ⟨rfl, Nat.le_refl 1⟩) rfl (passes_none _ _) hf)
  have s4 : (Op.copy_construct 0).returns 1
      (⟨⟨[some ⟨2, 1, [5, 6]⟩], none, 3, 0, 1⟩, [⟨2, true, 0, []⟩]⟩ : World Nat)
      ⟨⟨[some ⟨2, 2, [5, 6]⟩], none, 3, 0, 1⟩, [⟨2, true, 0, []⟩, ⟨2, true, 0, []⟩]⟩ := by
    refine ⟨0, fun fuel _ => ?_⟩
    have := @copy_ctor_heap Nat 1 2 0 [] [some ⟨2, 1, [5, 6]⟩] none 3 0 1 2 1 [5, 6] rfl
      (by decide)
    simp only [Op.run, List.getElem?_cons_zero, this]
    rfl
  have s5 : (Op.construct).returns 1
      (⟨⟨[some ⟨2, 2, [5, 6]⟩], none, 3, 0, 1⟩,
        [⟨2, true, 0, []⟩, ⟨2, true, 0, []⟩]⟩ : World Nat)
      ⟨⟨[some ⟨2, 2, [5, 6]⟩], none, 3, 0, 1⟩,
        [⟨2, true, 0, []⟩, ⟨2, true, 0, []⟩, ⟨0, false, 0, []⟩]⟩ := ⟨0, fun fuel _ => rfl⟩
  have s6 : (Op.push_back 2 9).returns 1
      (⟨⟨[some ⟨2, 2, [5, 6]⟩], none, 3, 0, 1⟩,
        [⟨2, true, 0, []⟩, ⟨2, true, 0, []⟩, ⟨0, false, 0, []⟩]⟩ : World Nat) demo := by
    refine ⟨3, fun fuel hf => ?_⟩
    simp only [Op.run]
    exact on_ok rfl (push_back_small 0 0 9 _ 0 1 rfl (by decide) (passes_none _ _) hf)
  exact .step _ (.step _ (.step _ (.step _ (.step _ (.step _ .init s1) s2) s3) s4) s5) s6

/-! ## Calls that leave by an exception

The element type throws in its copy construction number `T`; `cp` copy constructions have
happened so far. -/

theorem passes_of_lt {T cp n : Nat} (h : cp + n < T) : passes (some T) cp n := by
  intro N hN hc
  cases hN
  omega

theorem passes_of_le {T cp n : Nat} (h : T ≤ cp) : passes (some T) cp n := by
  intro N hN hc
  cases hN
  omega

theorem charge_copies_threw {n T cp : Nat} (h : Heap α) (sw dt : Nat) (h1 : cp < T)
    (h2 : T ≤ cp + n) :
    charge_copies n (⟨h, some T, cp, sw, dt⟩ : St α) =
      .threw ⟨h, some T, T, sw, dt + (T - cp - 1)⟩ := by
  simp [charge_copies, h1, h2]

theorem std_swap_threw (h : Heap α) (cp sw dt : Nat) :
    std_swap (⟨h, some (cp + 1), cp, sw, dt⟩ : St α) =
      .threw ⟨h, some (cp + 1), cp + 1, sw + 1, dt⟩ := by
  unfold std_swap
  rw [charge_copies_threw h (sw + 1) dt (Nat.lt_succ_self cp) (Nat.le_refl _)]
  simp

/-- One exchange of two elements of a non-shared container that throws. -/
theorem swap_elements_excl_threw {S n : Nat} {a : Bool} {p : Nat} {h : Heap α}
    (hx : exclusive a p h) (k : Nat) (sm : List α) (i j : Nat) (cp sw dt : Nat) {u w : α}
    (hi : (data_const ⟨k, a, p, sm⟩ h)[i]? = some u)
    (hj : (data_const ⟨k, a, p, sm⟩ h)[j]? = some w) (hf : 2 ≤ n) :
    swap_elements S n ⟨k, a, p, sm⟩ i j ⟨h, some (cp + 1), cp, sw, dt⟩ =
      .threw (⟨k, a, p, sm⟩, ⟨h, some (cp + 1), cp + 1, sw + 1, dt⟩) := by
  unfold swap_elements
  rw [data_excl hx k sm _ cp sw dt hf]
  simp only []
  rw [data_excl hx k sm _ cp sw dt hf]
  simp only [std_swap_within, hi, hj, std_swap_threw]

/-- An in-place `insert` whose first exchange throws: the container keeps the element that
`push_back` has appended. -/
theorem insert_inplace_threw_first {S fuel : Nat} {a : Bool} {p : Nat} {h : Heap α} (n : Nat)
    (sm : List α) (npos : Nat) (x : α) (cp sw dt : Nat)
    (hx : exclusive a p h) (hlen : (data_const ⟨n, a, p, sm⟩ h).length = n)
    (hn : n < capacity S ⟨n, a, p, sm⟩ h) (hnp : npos < n) (hf : n + 5 ≤ fuel) :
    insert S fuel ⟨n, a, p, sm⟩ npos x ⟨h, some (cp + 1 + 1), cp, sw, dt⟩ =
      .threw (⟨n + 1, a, p, keep a sm (data_const ⟨n, a, p, sm⟩ h ++ [x])⟩,
        ⟨put_heap a p (data_const ⟨n, a, p, sm⟩ h ++ [x]) h, some (cp + 1 + 1), cp + 1 + 1,
          sw + 1, dt⟩) := by
  obtain ⟨m, rfl⟩ : ∃ m, fuel = m + 1 := ⟨fuel - 1, by omega⟩
  obtain ⟨m, rfl⟩ : ∃ m', m = m' + 1 := ⟨m - 1, by omega⟩
  have hfs : (sharing ⟨n, a, p, sm⟩ h || decide (n = capacity S ⟨n, a, p, sm⟩ h)) = false := by
    rw [sharing_excl hx]; simp; omega
  generalize hD : data_const ⟨n, a, p, sm⟩ h = D at hlen ⊢
  simp only [insert, size, hfs, Bool.false_eq_true, if_false]
  rw [push_back_excl hx n sm x sw dt (by rw [hD]; exact hlen) hn (passes_of_lt (by omega))
    (by omega), hD]
  simp only [Nat.add_sub_cancel, insert_loop, gt_iff_lt, hnp, if_true]
  have hi : (data_const ⟨n + 1, a, p, keep a sm (D ++ [x])⟩ (put_heap a p (D ++ [x]) h))[n]?
      = some x := by
    rw [data_const_put hx, ← hlen]
    exact getElem?_mid D x []
  have hlt : n - 1 < D.length := by omega
  have hj : (data_const ⟨n + 1, a, p, keep a sm (D ++ [x])⟩ (put_heap a p (D ++ [x]) h))[n - 1]?
      = some D[n - 1] := by
    rw [data_const_put hx, List.getElem?_append_left hlt, List.getElem?_eq_getElem hlt]
  rw [swap_elements_excl_threw (exclusive_put hx _) (n + 1) _ n (n - 1) (cp + 1) sw dt hi hj
    (by omega)]

/-- A program in which `insert` throws inside a `std::swap`.  With `SMALL_SIZE = 2`, a
container holds the element 5 inline; the element type throws in its third copy construction.
The call `insert(begin(), 7)` copy-constructs 7 behind 5 and then throws in the copy
construction of the temporary of `std::swap`: the container is left with the elements 5
and 7. -/
theorem insert_throws_in_swap :
    Reachable 2 (⟨⟨[], none, 1, 0, 0⟩, [⟨1, false, 0, [5]⟩]⟩ : World Nat) ∧
      (Op.insert 0 0 7).throws 2
        (World.arm (⟨⟨[], none, 1, 0, 0⟩, [⟨1, false, 0, [5]⟩]⟩ : World Nat) 3)
        ⟨⟨[], some 3, 3, 1, 0⟩, [⟨2, false, 0, [5, 7]⟩]⟩ ∧
      (World.mk ⟨[], none, 1, 0, 0⟩ [⟨1, false, 0, [5]⟩] : World Nat).elems 0 = [5] ∧
      (World.mk ⟨[], some 3, 3, 1, 0⟩ [⟨2, false, 0, [5, 7]⟩] : World Nat).elems 0 = [5, 7] := by
  have s1 : (Op.construct).returns 2 (World.init : World Nat)
      ⟨⟨[], none, 0, 0, 0⟩, [⟨0, false, 0, []⟩]⟩ := ⟨0, fun fuel _ => rfl⟩
  have s2 : (Op.push_back 0 5).returns 2
      (⟨⟨[], none, 0, 0, 0⟩, [⟨0, false, 0, []⟩]⟩ : World Nat)
      ⟨⟨[], none, 1, 0, 0⟩, [⟨1, false, 0, [5]⟩]⟩ := by
    refine ⟨3, fun fuel hf => ?_⟩
    simp only [Op.run]
    exact on_ok rfl (push_back_small 0 0 5 [] 0 0 rfl (by decide) (passes_none _ _) hf)
  refine ⟨.step _ (.step _ .init s1) s2, ⟨6, fun fuel hf => ?_⟩, rfl, rfl⟩
  have := @insert_inplace_threw_first Nat 2 fuel false 0 [] 1 [5] 0 7 1 0 0
    (exclusive_small 0 []) rfl (by decide) (by decide) hf
  simp only [Op.run, World.arm, World.on, List.getElem?_cons_zero, Nat.zero_le, if_true, this,
    drop_iterator]
  rfl

/-! ## Storage after an operation -/

/-- Container `i` after it has been given a fresh buffer: it is heap-backed and the only
owner of that buffer. -/
theorem fresh_obs {objs : List (socow_vector α)} {i : Nat} (hi : i < objs.length)
    (h0 : Heap α) (t : Option Nat) (cp sw dt m nc : Nat) (d : List α) :
    let w1 : World α := ⟨⟨h0 ++ [some ⟨nc, 1, d⟩], t, cp, sw, dt⟩,
      objs.set i ⟨m, true, h0.length, []⟩⟩
    w1.sharing i = false ∧ w1.allocated i = true ∧ w1.ref_count h0.length = 1 := by
  intro w1
  have hlk := Heap.lookup_append_new h0 (⟨nc, 1, d⟩ : buffer α)
  refine ⟨?_, ?_, ?_⟩
  · simp only [w1, World.sharing, obj_set _ _ hi, sharing_heap _ _ hlk]
    simp
  · simp only [w1, World.allocated, obj_set _ _ hi]
  · simp only [w1, World.ref_count, Heap.getBuf, hlk, Option.getD_some]

/-- Container `i` after it has become inline. -/
theorem inline_obs {objs : List (socow_vector α)} {i : Nat} (hi : i < objs.length)
    (st : St α) (m b : Nat) (d : List α) :
    let w1 : World α := ⟨st, objs.set i ⟨m, false, b, d⟩⟩
    w1.sharing i = false ∧ w1.allocated i = false := by
  intro w1
  refine ⟨?_, ?_⟩
  · simp only [w1, World.sharing, obj_set _ _ hi, sharing_small]
  · simp only [w1, World.allocated, obj_set _ _ hi]

/-- The buffer at `p` after one of several owners has released it and a new buffer has been
allocated: one reference less, the same elements, and the new address is another one. -/
theorem released_obs {h : Heap α} {p c r : Nat} {d : List α}
    (hb : h.lookup p = some ⟨c, r + 2, d⟩) (x : Option (buffer α)) :
    (Heap.getBuf (h.set p (some ⟨c, r + 1, d⟩) ++ [x]) p).ref_count_ + 1 =
        (h.getBuf p).ref_count_ ∧
      (Heap.getBuf (h.set p (some ⟨c, r + 1, d⟩) ++ [x]) p).data_ = (h.getBuf p).data_ ∧
      p ≠ h.length ∧ h.lookup h.length = none := by
  have hlt := Heap.lookup_lt hb
  have e : Heap.lookup (h.set p (some ⟨c, r + 1, d⟩) ++ [x]) p = some ⟨c, r + 1, d⟩ := by
    rw [Heap.lookup_append_left _ (by rw [Heap.length_set]; exact hlt),
      Heap.lookup_set_eq _ hlt]
  refine ⟨?_, ?_, Nat.ne_of_lt hlt, ?_⟩
  · simp only [Heap.getBuf, e, hb, Option.getD_some]
  · simp only [Heap.getBuf, e, hb, Option.getD_some]
  · simp [Heap.lookup]

/-- A call of `clear()`, with what becomes of the storage. -/
theorem clear_storage {S : Nat} {w : World α} {i : Nat} {v : socow_vector α}
    (hinv : Inv S w) (hi : w.objs[i]? = some v) :
    ∃ w1, (Op.clear i).returns S w w1 ∧ Step S w w1 i ∧
      w1.elems i = [] ∧ w1.capacity S i = w.capacity S i ∧ w1.size i = 0 ∧
      (sharing v w.st.heap = false → w1.data i = w.data i) ∧
      (sharing v w.st.heap = true →
        w1.data i = .heap w.st.heap.length ∧ w.st.heap.lookup w.st.heap.length = none ∧
        v.buf_ ≠ w.st.heap.length ∧ w1.ref_count w.st.heap.length = 1 ∧
        w1.ref_count v.buf_ + 1 = w.ref_count v.buf_) := by
  obtain ⟨h, cp, sw, dt, objs, rfl, hH⟩ := hinv.unfold
  simp only at hi ⊢
  obtain ⟨e1, e2, e3, e4, -⟩ := obs S ⟨h, none, cp, sw, dt⟩ hi
  have hv := hH.valid i v hi
  have hilt := lt_of_getElem? hi
  obtain ⟨hnc, hdl, hSc⟩ := valid_size_le hv
  rw [e3]
  rcases valid_split hv with ⟨hs, hx⟩ | ⟨hs, c, r, d, hveq, hb, hdc, hc⟩
  · obtain ⟨n, a, p, sm⟩ := v
    simp only at hx hnc hdl hs ⊢
    obtain ⟨hst, h1, h2, h3, h4⟩ := step_inplace cp sw dt cp sw (dt + n) [] hH hi hx
      (by simp)
    simp only [List.length_nil] at hst h1 h2 h3 h4
    refine ⟨_, ⟨n + 5, fun fuel hf => ?_⟩, hst, h1, ?_, h3, fun _ => h4,
      fun hh => by rw [hs] at hh; cases hh⟩
    · simp only [Op.run]
      exact on_ok hi (clear_excl hx n sm none cp sw dt hdl hf)
    · rw [h2]; exact e3
  · generalize v.buf_ = p at hveq hb
    subst hveq
    obtain ⟨hst, h1, h2, h3, h4⟩ := step_rebuild cp sw dt cp sw dt c [] hH hi hc (by simp)
    rw [release_heap_shared _ _ hb] at hst h1 h2 h3 h4
    simp only [List.length_nil] at hst h1 h2 h3 h4
    obtain ⟨r1, r2, r3, r4⟩ := released_obs hb (some (⟨c, 1, []⟩ : buffer α))
    have f3 := (fresh_obs hilt (h.set p (some ⟨c, r + 1, d⟩)) none cp sw dt 0 c
      ([] : List α)).2.2
    rw [Heap.length_set] at f3
    refine ⟨_, ⟨3, fun fuel hf => ?_⟩, hst, h1, ?_, h3,
      (fun hh => by rw [hs] at hh; cases hh), fun _ => ⟨h4, r4, r3, f3, r1⟩⟩
    · simp only [Op.run]
      exact on_ok hi (clear_shared d.length p [] none cp sw dt hb hf)
    · rw [h2, capacity_heap _ _ _ hb]

/-- A call of a non-const accessor, with what becomes of the storage. -/
theorem access_storage {S : Nat} {w : World α} {i : Nat} {v : socow_vector α}
    (acc : Accessor) (hinv : Inv S w) (hi : w.objs[i]? = some v) :
    ∃ w1, (Op.access i acc).returns S w w1 ∧ Step S w w1 i ∧
      w1.elems i = w.elems i ∧ w1.capacity S i = w.capacity S i ∧ w1.size i = w.size i ∧
      (sharing v w.st.heap = false → w1 = w) ∧
      (sharing v w.st.heap = true →
        w1.data i = .heap w.st.heap.length ∧ w.st.heap.lookup w.st.heap.length = none ∧
        v.buf_ ≠ w.st.heap.length ∧ w1.ref_count w.st.heap.length = 1 ∧
        w1.ref_count v.buf_ + 1 = w.ref_count v.buf_) := by
  obtain ⟨w1, h1, h2, h3, h4, h5, h6, h7⟩ := access_step acc hinv hi
  refine ⟨w1, h1, h2, h3, h4, h5, h7, fun hs => ?_⟩
  obtain ⟨g1, g2⟩ := h6 hs
  obtain ⟨h, cp, sw, dt, objs, rfl, hH⟩ := hinv.unfold
  simp only at hi hs g1 g2 ⊢
  have hv := hH.valid i v hi
  rcases valid_split hv with ⟨hs', -⟩ | ⟨-, c, r, d, hveq, hb, hdc, hc⟩
  · rw [hs'] at hs; cases hs
  · obtain ⟨r1, r2, r3, r4⟩ := released_obs hb (some (⟨c, 1, d⟩ : buffer α))
    refine ⟨g1, r4, r3, g2, ?_⟩
    -- the state after the call is the one computed by `data_shared`
    have hrun : (Op.access i acc).returns S ⟨⟨h, none, cp, sw, dt⟩, objs⟩
        ⟨⟨h.set v.buf_ (some ⟨c, r + 1, d⟩) ++ [some ⟨c, 1, d⟩], none, cp + d.length, sw, dt⟩,
          objs.set i ⟨d.length, true, h.length, []⟩⟩ := by
      refine ⟨8, fun fuel hf => ?_⟩
      simp only [Op.run]
      refine on_ok hi ?_
      rw [hveq]
      exact data_shared d.length v.buf_ sw dt hb hc rfl hdc (passes_none _ _) hf
    rw [returns_unique h1 hrun]
    exact r1

/-- A call of `reserve(k)`, with what becomes of the storage. -/
theorem reserve_storage {S : Nat} {w : World α} {i : Nat} {v : socow_vector α} (k : Nat)
    (hinv : Inv S w) (hi : w.objs[i]? = some v) (hmax : k ≤ max_capacity) :
    ∃ w1, (Op.reserve i k).returns S w w1 ∧ Step S w w1 i ∧
      w1.elems i = w.elems i ∧ w1.size i = w.size i ∧
      ((k > w.capacity S i ∨ (k > w.size i ∧ sharing v w.st.heap = true)) →
        w1.sharing i = false ∧
        (S < k → w1.allocated i = true ∧ w1.capacity S i = k) ∧
        (k ≤ S → w1.allocated i = false ∧ w1.capacity S i = S)) ∧
      (¬ (k > w.capacity S i ∨ (k > w.size i ∧ sharing v w.st.heap = true)) → w1 = w) := by
  obtain ⟨h, cp, sw, dt, objs, rfl, hH⟩ := hinv.unfold
  simp only at hi ⊢
  obtain ⟨e1, e2, e3, e4, -⟩ := obs S ⟨h, none, cp, sw, dt⟩ hi
  have hv := hH.valid i v hi
  have hilt := lt_of_getElem? hi
  obtain ⟨hnc, hdl, hSc⟩ := valid_size_le hv
  rw [e1, e2, e3, elems_of_valid hv]
  simp only
  cases hc : (decide (k > capacity S v h) || (decide (k > size v) && sharing v h)) with
  | false =>
    have hc' := hc
    simp only [size, Bool.or_eq_false_iff, decide_eq_false_iff_not, Bool.and_eq_false_imp,
      decide_eq_true_eq] at hc'
    have hncond : ¬ (k > capacity S v h ∨ (k > v.size_ ∧ sharing v h = true)) := by
      rintro (h1 | ⟨h1, h2⟩)
      · exact hc'.1 h1
      · have := hc'.2 h1; rw [h2] at this; cases this
    have hrun : (Op.reserve i k).returns S ⟨⟨h, none, cp, sw, dt⟩, objs⟩
        ⟨⟨h, none, cp, sw, dt⟩, objs⟩ := by
      refine ⟨1, fun fuel hf => ?_⟩
      simp only [Op.run, if_pos hmax]
      conv_rhs => rw [← set_same hi]
      exact on_ok hi (reserve_idle v k ⟨h, none, cp, sw, dt⟩ hc hf)
    refine ⟨_, hrun, step_refl hinv i, ?_, e2, fun hh => absurd hh hncond, fun _ => rfl⟩
    rw [e1, elems_of_valid hv]
  | true =>
    have hc' := hc
    simp only [size, Bool.or_eq_true, decide_eq_true_eq, Bool.and_eq_true] at hc'
    by_cases hk : k ≤ S
    · have hsh : k > v.size_ ∧ sharing v h = true := by
        rcases hc' with h1 | h1
        · omega
        · exact h1
      rcases valid_split hv with ⟨hs, hx⟩ | ⟨hs, c, r, d, hveq, hb, hdc, hc2⟩
      · rw [hs] at hsh; cases hsh.2
      · generalize v.buf_ = p at hveq hb
        subst hveq
        simp only at hsh hc
        obtain ⟨hst, h1, h2, h3, h4⟩ := step_small cp sw dt (cp + d.length) sw
          (dt + release_dtors ⟨d.length, true, p, ([] : List α)⟩ h) p d hH hi (by omega)
        obtain ⟨g1, g2⟩ := inline_obs hilt
          (⟨release_heap ⟨d.length, true, p, ([] : List α)⟩ h, none, cp + d.length, sw,
            dt + release_dtors ⟨d.length, true, p, ([] : List α)⟩ h⟩ : St α) d.length p d
        refine ⟨_, ⟨d.length + 7, fun fuel hf => ?_⟩, hst, ?_, h3,
          fun _ => ⟨g1, fun hlt => absurd hk (by omega), fun _ => ⟨g2, h2⟩⟩,
          fun hh => absurd hc' hh⟩
        · simp only [Op.run, if_pos hmax]
          refine on_ok hi ?_
          rw [reserve_small d.length p sw dt k hv hs hsh.1 hk (passes_none _ _) hf,
            data_const_heap _ _ hb]
        · rw [h1, data_const_heap _ _ hb]
    · have hdk : (data_const v h).length ≤ k := by
        rcases hc' with h1 | h1 <;> omega
      obtain ⟨hst, h1, h2, h3, h4⟩ := step_rebuild cp sw dt (cp + v.size_) sw
        (dt + release_dtors v h) k (data_const v h) hH hi (by omega) hdk
      obtain ⟨g1, g2, g3⟩ := fresh_obs hilt (release_heap v h) none (cp + v.size_) sw
        (dt + release_dtors v h) (data_const v h).length k (data_const v h)
      rw [length_release_heap] at g1 g2 g3
      simp only [hdl] at hst h1 h2 h3 h4 g1 g2 g3
      refine ⟨_, ⟨v.size_ + 7, fun fuel hf => ?_⟩, hst, h1, h3,
        fun _ => ⟨g1, fun _ => ⟨g2, h2⟩, fun hle => absurd hle hk⟩, fun hh => absurd hc' hh⟩
      simp only [Op.run, if_pos hmax]
      exact on_ok hi (reserve_rebuild sw dt k hv hc (by omega) (passes_none _ _) hf)

/-- After `shrink_to_fit()` the capacity is the larger of `size()` and `SMALL_SIZE`, and the
container is heap-backed exactly if its size exceeds `SMALL_SIZE`. -/
theorem shrink_to_fit_capacity {S : Nat} {w : World α} {i : Nat} {v : socow_vector α}
    (hinv : Inv S w) (hi : w.objs[i]? = some v) :
    ∃ w1, (Op.shrink_to_fit i).returns S w w1 ∧ Step S w w1 i ∧
      w1.elems i = w.elems i ∧ w1.size i = w.size i ∧
      w1.capacity S i = max (w.size i) S ∧
      (w1.allocated i = true ↔ S < w.size i) := by
  obtain ⟨w1, h1, hst, h3, h4, h5⟩ := shrink_to_fit_step hinv hi
  have hv := hinv.hinv.valid i v hi
  obtain ⟨hnc, hdl, hSc⟩ := valid_size_le hv
  have e2 : w.size i = v.size_ := by rw [World.size, obj_eq hi, size]
  have e3 : w.capacity S i = capacity S v w.st.heap := by rw [World.capacity, obj_eq hi]
  have hcap : w1.capacity S i = max (w.size i) S := by
    rw [h5, e2, e3]
    split
    · rename_i hc
      split <;> omega
    · rename_i hc
      cases ha : v.allocated_ with
      | false =>
        simp only [capacity, ha, Bool.not_false, if_true] at hnc ⊢
        omega
      | true =>
        have := valid_cap_lt hv ha
        simp only [ha, true_and, not_lt] at hc
        omega
  refine ⟨w1, h1, hst, h3, h4, hcap, ?_⟩
  -- the mode after the call is read off the capacity
  obtain ⟨u, hu⟩ := exists_obj (show i < w1.objs.length by
    rw [hst.length]; exact lt_of_getElem? hi)
  have hvu := hst.inv.hinv.valid i u hu
  have c1 : w1.capacity S i = capacity S u w1.st.heap := by rw [World.capacity, obj_eq hu]
  have s1 : w1.size i = u.size_ := by rw [World.size, obj_eq hu, size]
  rw [World.allocated, obj_eq hu]
  constructor
  · intro ha
    have := valid_cap_lt hvu ha
    have := (valid_size_le hvu).1
    omega
  · intro hlt
    cases ha : u.allocated_ with
    | true => rfl
    | false =>
      have := (valid_size_le hvu).1
      simp only [capacity, ha, Bool.not_false, if_true] at this
      omega

/-- A `swap` of two different heap-backed containers exchanges their data members and touches
neither the heap nor an element. -/
theorem swap_heap_step {S : Nat} {w : World α} {i j : Nat} {v o : socow_vector α}
    (hinv : Inv S w) (hi : w.objs[i]? = some v) (hj : w.objs[j]? = some o) (hij : i ≠ j)
    (hva : v.allocated_ = true) (hoa : o.allocated_ = true) :
    ∃ w1, (Op.swap i j).returns S w w1 ∧ w1.st = w.st ∧
      w1.data i = w.data j ∧ w1.data j = w.data i := by
  obtain ⟨h, cp, sw, dt, objs, rfl, hH⟩ := hinv.unfold
  simp only at hi hj ⊢
  have hv := hH.valid i v hi
  have ho := hH.valid j o hj
  have hilt := lt_of_getElem? hi
  have hjlt := lt_of_getElem? hj
  obtain ⟨n, a, p, sm⟩ := v
  obtain ⟨k, b, q, od⟩ := o
  simp only at hva hoa
  subst hva hoa
  rw [valid_heap] at hv ho
  obtain ⟨c, r, d, hb, rfl, hlen, hkc, hc⟩ := hv
  obtain ⟨c', r', d', hb', rfl, hlen', hkc', hc'⟩ := ho
  refine ⟨⟨⟨h, none, cp, sw, dt⟩, (objs.set i ⟨k, true, q, []⟩).set j ⟨n, true, p, []⟩⟩,
    ⟨6, fun fuel hf => ?_⟩, rfl, ?_, ?_⟩
  · simp only [Op.run, World.swap, if_neg hij, hi, hj,
      swap_heap_heap n p k q none cp sw dt hb hb' hc hc' hf]
  · simp only [World.data, World.obj, List.getElem?_set_ne (fun e => hij e.symm),
      List.getElem?_set_self hilt, hj, Option.getD_some]
    simp
  · have : j < (objs.set i ⟨k, true, q, []⟩).length := by rw [List.length_set]; exact hjlt
    simp only [World.data, World.obj, List.getElem?_set_self this, hi, Option.getD_some]
    simp

/-- An `erase` of an empty range, with what becomes of the storage: nothing changes for a
container that does not share its buffer, and a container that does is given a buffer of
its own by the non-const `data()` of the return statement. -/
theorem erase_empty_storage {S : Nat} {w : World α} {i : Nat} {v : socow_vector α}
    (pos : Nat) (hinv : Inv S w) (hi : w.objs[i]? = some v) (hpos : pos ≤ v.size_) :
    ∃ w1, (Op.erase i pos pos).returns S w w1 ∧ Step S w w1 i ∧
      w1.elems i = w.elems i ∧ w1.size i = w.size i ∧ w1.capacity S i = w.capacity S i ∧
      (Op.erase i pos pos).yields S w (w1.data i, pos) ∧
      (sharing v w.st.heap = false → w1 = w) ∧
      (sharing v w.st.heap = true →
        w1.data i = .heap w.st.heap.length ∧ w.st.heap.lookup w.st.heap.length = none ∧
        v.buf_ ≠ w.st.heap.length ∧ w1.ref_count w.st.heap.length = 1 ∧
        w1.ref_count v.buf_ + 1 = w.ref_count v.buf_) := by
  obtain ⟨h, cp, sw, dt, objs, rfl, hH⟩ := hinv.unfold
  simp only at hi ⊢
  obtain ⟨e1, e2, e3, e4, -⟩ := obs S ⟨h, none, cp, sw, dt⟩ hi
  have hv := hH.valid i v hi
  have hilt := lt_of_getElem? hi
  rcases valid_split hv with ⟨hs, hx⟩ | ⟨hs, c, r, d, hveq, hb, hdc, hc⟩
  · obtain ⟨n, a, p, sm⟩ := v
    simp only at hx hs hpos ⊢
    obtain ⟨r1, r2⟩ := returns_yields 3 (fun fuel hf =>
      erase_run hi ⟨Nat.le_refl pos, hpos⟩
        (erase_empty_excl n sm pos none cp sw dt hx hf))
    rw [set_same hi] at r1 r2
    exact ⟨_, r1, step_refl hinv i, rfl, rfl, rfl, r2, fun _ => rfl,
      fun hh => by rw [hs] at hh; cases hh⟩
  · generalize v.buf_ = p at hveq hb
    subst hveq
    simp only at hpos
    rw [e1, e2, e3, elems_of_valid hv]
    obtain ⟨hst, h1, h2, h3, h4⟩ := step_rebuild cp sw dt (cp + d.length) sw dt c d hH hi hc hdc
    rw [release_heap_shared _ _ hb] at hst h1 h2 h3 h4
    obtain ⟨r1, r2⟩ := returns_yields 9 (fun fuel hf =>
      erase_run hi ⟨Nat.le_refl pos, hpos⟩
        (erase_empty_shared d.length p pos sw dt hb hc rfl hdc (passes_none _ _) hf))
    obtain ⟨g1, g2, g3, g4⟩ := released_obs hb (some (⟨c, 1, d⟩ : buffer α))
    have f3 := (fresh_obs hilt (h.set p (some ⟨c, r + 1, d⟩)) none (cp + d.length) sw dt
      d.length c d).2.2
    rw [Heap.length_set] at f3
    refine ⟨_, r1, hst, ?_, h3, ?_, r2, (fun hh => by rw [hs] at hh; cases hh),
      fun _ => ⟨h4, g4, g3, f3, g1⟩⟩
    · rw [h1, data_const_heap _ _ hb]
    · rw [h2, capacity_heap _ _ _ hb]

/-- The destruction of a heap-backed container: the last owner destroys the elements of the
buffer and the buffer; any other owner only gives up its reference. -/
theorem destroy_storage {S : Nat} {w : World α} {i : Nat} {v : socow_vector α}
    (hinv : Inv S w) (hi : w.objs[i]? = some v) (hva : v.allocated_ = true) :
    ∃ w1, (Op.destroy i).returns S w w1 ∧ Step S w w1 i ∧
      (w.ref_count v.buf_ = 1 →
        w1.st.heap.lookup v.buf_ = none ∧ w1.st.dtors = w.st.dtors + v.size_) ∧
      (1 < w.ref_count v.buf_ →
        w1.st.heap.live v.buf_ = true ∧ w1.ref_count v.buf_ + 1 = w.ref_count v.buf_ ∧
        w1.st.dtors = w.st.dtors) := by
  obtain ⟨h, cp, sw, dt, objs, rfl, hH⟩ := hinv.unfold
  simp only at hi ⊢
  have hv := hH.valid i v hi
  obtain ⟨hst, -, -, -, -⟩ := step_small cp sw dt cp sw (dt + release_dtors v h) v.buf_ []
    hH hi (by simp)
  simp only [List.length_nil] at hst
  have hrun : (Op.destroy i).returns S ⟨⟨h, none, cp, sw, dt⟩, objs⟩
      ⟨⟨release_heap v h, none, cp, sw, dt + release_dtors v h⟩,
        objs.set i ⟨0, false, v.buf_, []⟩⟩ := by
    refine ⟨v.size_ + 5, fun fuel hf => ?_⟩
    simp only [Op.run]
    exact on_ok hi (hard_clear_spec none cp sw dt hv hf)
  refine ⟨_, hrun, hst, ?_, ?_⟩
  all_goals
    obtain ⟨n, a, p, sm⟩ := v
    simp only at hva
    subst hva
    rw [valid_heap] at hv
    obtain ⟨c, r, d, hb, rfl, hlen, hkc, hc⟩ := hv
    have hlt := Heap.lookup_lt hb
    simp only [World.ref_count, Heap.getBuf, hb, Option.getD_some]
    intro hr
  · have : r = 0 := by omega
    subst this
    rw [release_heap_last _ _ hb, release_dtors_last _ _ hb]
    exact ⟨Heap.lookup_set_eq _ hlt, rfl⟩
  · obtain ⟨r, rfl⟩ : ∃ r', r = r' + 1 := ⟨r - 1, by omega⟩
    rw [release_heap_shared _ _ hb, release_dtors_shared _ _ hb]
    simp only [Heap.live, Heap.lookup_set_eq _ hlt, Option.isSome_some, Option.getD_some,
      Nat.add_zero, and_self]

/-! ## The second example program is reachable -/

theorem demo_spare_reachable : Reachable 1 demo_spare := by
  have s1 : (Op.construct).returns 1 (World.init : World Nat)
      ⟨⟨[], none, 0, 0, 0⟩, [⟨0, false, 0, []⟩]⟩ := ⟨0, fun fuel _ => rfl⟩
  have s2 : (Op.push_back 0 5).returns 1
      (⟨⟨[], none, 0, 0, 0⟩, [⟨0, false, 0, []⟩]⟩ : World Nat)
      ⟨⟨[], none, 1, 0, 0⟩, [⟨1, false, 0, [5]⟩]⟩ := by
    refine ⟨3, fun fuel hf => ?_⟩
    simp only [Op.run]
    exact on_ok rfl (push_back_small 0 0 5 [] 0 0 rfl (by decide) (passes_none _ _) hf)
  have s3 : (Op.reserve 0 3).returns 1
      (⟨⟨[], none, 1, 0, 0⟩, [⟨1, false, 0, [5]⟩]⟩ : World Nat)
      ⟨⟨[some ⟨3, 1, [5]⟩], none, 2, 0, 1⟩, [⟨1, true, 0, []⟩]⟩ := by
    refine ⟨8, fun fuel hf => ?_⟩
    simp only [Op.run, if_pos (show 3 ≤ max_capacity by decide)]
    exact on_ok rfl (@reserve_rebuild Nat 1 fuel ⟨1, false, 0, [5]⟩ [] none 1 0 0 3
      (valid_small.2 ⟨rfl, Nat.le_refl 1⟩) rfl (by decide) (passes_none _ _) hf)
  have s4 : (Op.copy_construct 0).returns 1
      (⟨⟨[some ⟨3, 1, [5]⟩], none, 2, 0, 1⟩, [⟨1, true, 0, []⟩]⟩ : World Nat) demo_spare := by
    refine ⟨0, fun fuel _ => ?_⟩
    have := @copy_ctor_heap Nat 1 1 0 [] [some ⟨3, 1, [5]⟩] none 2 0 1 3 1 [5] rfl
      (by decide)
    simp only [Op.run, List.getElem?_cons_zero, this]
    rfl
  exact .step _ (.step _ (.step _ (.step _ .init s1) s2) s3) s4

/-- In the second example program `reserve(2)` on container 0, which shares a buffer of
capacity 3 holding one element, ends with a buffer of capacity 2. -/
theorem demo_spare_reserve : (Op.reserve 0 2).returns 1 demo_spare
    ⟨⟨[some ⟨3, 1, [5]⟩, some ⟨2, 1, [5]⟩], none, 3, 0, 1⟩,
      [⟨1, true, 1, []⟩, ⟨1, true, 0, []⟩]⟩ := by
  refine ⟨8, fun fuel hf => ?_⟩
  have hv : valid 1 (⟨1, true, 0, []⟩ : socow_vector Nat) [some ⟨3, 2, [5]⟩] :=
    valid_heap.2 ⟨3, 1, [5], rfl, rfl, rfl, by decide, by decide⟩
  simp only [Op.run, if_pos (show 2 ≤ max_capacity by decide)]
  exact on_ok rfl (@reserve_rebuild Nat 1 fuel ⟨1, true, 0, []⟩ [some ⟨3, 2, [5]⟩] none 2 0 1 2
    hv rfl (by decide) (passes_none _ _) hf)

/-- In the first example program `erase` of the empty range at index 1 of container 0, which
shares its buffer with container 1, moves container 0 to a new buffer. -/
theorem demo_erase_empty : (Op.erase 0 1 1).returns 1 demo
    ⟨⟨[some ⟨2, 1, [5, 6]⟩, some ⟨2, 1, [5, 6]⟩], none, 6, 0, 1⟩,
      [⟨2, true, 1, []⟩, ⟨2, true, 0, []⟩, ⟨1, false, 0, [9]⟩]⟩ := by
  refine ⟨9, fun fuel hf => ?_⟩
  have hr := @erase_empty_shared Nat 1 fuel 2 0 1 [some ⟨2, 2, [5, 6]⟩] none 4 0 1 2 0 [5, 6]
    rfl (by decide) rfl (Nat.le_refl 2) (passes_none _ _) hf
  exact (erase_run (show (demo.objs)[0]? = some ⟨2, true, 0, []⟩ from rfl)
    ⟨Nat.le_refl 1, by decide⟩ hr).1

/-- What the observers of a program say about the container stored at index `i`. -/
theorem obs_at {S : Nat} {w : World α} {i : Nat} {v : socow_vector α}
    (hi : w.objs[i]? = some v) :
    w.size i = v.size_ ∧ w.capacity S i = capacity S v w.st.heap ∧
      w.sharing i = sharing v w.st.heap ∧ w.allocated i = v.allocated_ ∧
      w.data i = (if !v.allocated_ then .small i else .heap v.buf_) := by
  simp only [World.size, World.capacity, World.sharing, World.allocated, World.data,
    obj_eq hi, size, and_self]

/-- A container whose `data()` is the array of the buffer at `p` is heap-backed, with
`buf_ = p`. -/
theorem heap_of_data {w : World α} {i p : Nat} (hd : w.data i = .heap p) :
    ∃ v, w.objs[i]? = some v ∧ v.allocated_ = true ∧ v.buf_ = p := by
  cases hi : w.objs[i]? with
  | none => simp [World.data, World.obj, hi, default_ctor] at hd
  | some v =>
    rw [World.data, obj_eq hi] at hd
    cases ha : v.allocated_ with
    | false => rw [ha] at hd; cases hd
    | true =>
      rw [ha] at hd
      exact ⟨v, rfl, ha, Addr.heap.inj hd⟩

/-- A container that shares its buffer exists and is heap-backed. -/
theorem obj_of_sharing {w : World α} {i : Nat} (hs : w.sharing i = true) :
    ∃ v, w.objs[i]? = some v ∧ sharing v w.st.heap = true ∧ w.data i = .heap v.buf_ := by
  cases hi : w.objs[i]? with
  | none => simp [World.sharing, World.obj, hi, default_ctor, sharing] at hs
  | some v =>
    rw [World.sharing, obj_eq hi] at hs
    refine ⟨v, rfl, hs, ?_⟩
    rw [World.data, obj_eq hi, sharing_allocated hs]
    rfl

/-! ## The specified properties -/

/-- Claim C1 (copy-on-write isolation): in a reachable state where two distinct containers
`a` and `b` reference the same heap buffer `p`, every operation on the single container `a`
that is called within its contract (`push_back`, `pop_back`, `insert`, `erase`, `clear`,
`reserve`, `shrink_to_fit`, a non-const accessor, and also an element write, `clear(bool)`,
`hard_clear`, an assignment to `a` or its destruction) returns and leaves the element
sequence, size, capacity and `data()` address of `b` unchanged. -/
theorem cow_isolation {S : Nat} {w : World α} (hr : Reachable S w) (a b p : Nat)
    (hab : a ≠ b) (_ha : w.data a = .heap p) (hb : w.data b = .heap p) (op : Op α)
    (ht : op.target = some a) (hpre : op.pre S w) :
    ∃ w1, op.returns S w w1 ∧ w1.elems b = w.elems b ∧ w1.size b = w.size b ∧
      w1.capacity S b = w.capacity S b ∧ w1.data b = .heap p := by
  obtain ⟨w1, h1, hst⟩ := target_step (reachable_inv hr) op ht hpre
  obtain ⟨f1, f2, f3, f4, -⟩ := @step_frame α S w w1 a b hst (fun e => hab e.symm)
  exact ⟨w1, h1, f1, f2, f3, f4.trans hb⟩

theorem cow_isolation_witness :
    Reachable 1 demo ∧ (0 : Nat) ≠ 1 ∧ demo.data 0 = .heap 0 ∧ demo.data 1 = .heap 0 ∧
      (Op.push_back 0 7 : Op Nat).target = some 0 ∧ (Op.push_back 0 7 : Op Nat).pre 1 demo ∧
      ∃ w1, (Op.push_back 0 7).returns 1 demo w1 ∧ w1.elems 1 = demo.elems 1 ∧
        w1.size 1 = demo.size 1 ∧ w1.capacity 1 1 = demo.capacity 1 1 ∧
        w1.data 1 = .heap 0 :=
  ⟨demo_reachable, by decide, rfl, rfl, rfl, ⟨by decide, Or.inl (Nat.le_refl 1)⟩,
    cow_isolation demo_reachable 0 1 0 (by decide) rfl rfl (Op.push_back 0 7) rfl
      ⟨by decide, Or.inl (Nat.le_refl 1)⟩⟩

/-- Claim C2 (copying from a heap-backed source shares): for a reachable state and a
container `j`, if `j` is heap-backed with buffer `p`, then the copy constructor from `j` and the
copy assignment `objs[i] = objs[j]` to any other container `i` return, the result has the
`data()` address `p` of the source (which keeps it), the size and the element sequence of the
source, no element is copied, and the reference count of `p` is one more than the references
held before by the containers other than the one assigned to; if `j` is inline, the copy
constructor yields an inline container of capacity `SMALL_SIZE` holding the elements of `j`,
copied one by one. -/
theorem copy_shares_buffer {S : Nat} {w : World α} (hr : Reachable S w) {j : Nat}
    (hj : j < w.objs.length) :
    (∀ p, w.data j = .heap p →
      (∃ w1, (Op.copy_construct j).returns S w w1 ∧
        w1.data w.objs.length = .heap p ∧ w1.data j = .heap p ∧
        w1.size w.objs.length = w.size j ∧ w1.elems w.objs.length = w.elems j ∧
        w1.st.copies = w.st.copies ∧ w1.ref_count p = w.ref_count p + 1) ∧
      (∀ i, i < w.objs.length → i ≠ j →
        ∃ w1, (Op.assign i j).returns S w w1 ∧ w1.data i = .heap p ∧ w1.data j = .heap p ∧
          w1.size i = w.size j ∧ w1.elems i = w.elems j ∧ w1.st.copies = w.st.copies ∧
          w1.ref_count p + (if w.data i = .heap p then 1 else 0) = w.ref_count p + 1)) ∧
    (w.allocated j = false →
      ∃ w1, (Op.copy_construct j).returns S w w1 ∧ w1.allocated w.objs.length = false ∧
        w1.capacity S w.objs.length = S ∧ w1.elems w.objs.length = w.elems j ∧
        w1.st.copies = w.st.copies + w.size j) := by
  have hinv := reachable_inv hr
  obtain ⟨o, ho⟩ := exists_obj hj
  have hdj : w.data j = (if !o.allocated_ then .small j else .heap o.buf_) := by
    rw [World.data, obj_eq ho]
  have haj : w.allocated j = o.allocated_ := by rw [World.allocated, obj_eq ho]
  constructor
  · intro p hp
    rw [hdj] at hp
    have hoa : o.allocated_ = true := by
      cases h : o.allocated_ with
      | true => rfl
      | false => rw [h] at hp; cases hp
    have hpe : o.buf_ = p := by
      rw [hoa] at hp
      exact Addr.heap.inj hp
    have hdj' : w.data j = .heap p := by rw [hdj, hoa, ← hpe]; rfl
    constructor
    · obtain ⟨w1, h1, -, -, -, h5, h6, h7, -, -, h10, -⟩ := copy_construct_step hinv ho
      obtain ⟨g1, g2, g3⟩ := h10 hoa
      refine ⟨w1, h1, g1.trans hdj', ((h5 j hj).2.2.2).trans hdj', h7, h6, g2, ?_⟩
      rw [← hpe]; exact g3
    · intro i hi hij
      obtain ⟨v, hv⟩ := exists_obj hi
      obtain ⟨w1, h1, hst, h3, h4, -, -, h7⟩ := assign_step hinv hv ho hij
      obtain ⟨g1, g2, g3⟩ := h7 hoa
      obtain ⟨-, -, -, f4, -⟩ := @step_frame α S w w1 i j hst (fun e => hij e.symm)
      refine ⟨w1, h1, g1.trans hdj', f4.trans hdj', h4, h3, g2, ?_⟩
      rw [← hpe, ← g3]
      congr 1
      rw [World.data, obj_eq hv]
      cases hva : v.allocated_ with
      | false => simp
      | true => simp
  · intro ha
    rw [haj] at ha
    obtain ⟨w1, h1, -, -, -, -, h6, h7, h8, h9, -, h11⟩ := copy_construct_step hinv ho
    refine ⟨w1, h1, ?_, ?_, h6, (h11 ha).2⟩
    · rw [h9, haj, ha]
    · rw [h8, World.capacity, obj_eq ho, capacity, ha]; rfl

theorem copy_shares_buffer_witness :
    Reachable 1 demo ∧ 0 < demo.objs.length ∧
    ((∀ p, demo.data 0 = .heap p →
      (∃ w1, (Op.copy_construct 0).returns 1 demo w1 ∧
        w1.data demo.objs.length = .heap p ∧ w1.data 0 = .heap p ∧
        w1.size demo.objs.length = demo.size 0 ∧ w1.elems demo.objs.length = demo.elems 0 ∧
        w1.st.copies = demo.st.copies ∧ w1.ref_count p = demo.ref_count p + 1) ∧
      (∀ i, i < demo.objs.length → i ≠ 0 →
        ∃ w1, (Op.assign i 0).returns 1 demo w1 ∧ w1.data i = .heap p ∧ w1.data 0 = .heap p ∧
          w1.size i = demo.size 0 ∧ w1.elems i = demo.elems 0 ∧
          w1.st.copies = demo.st.copies ∧
          w1.ref_count p + (if demo.data i = .heap p then 1 else 0) = demo.ref_count p + 1)) ∧
    (demo.allocated 0 = false →
      ∃ w1, (Op.copy_construct 0).returns 1 demo w1 ∧ w1.allocated demo.objs.length = false ∧
        w1.capacity 1 demo.objs.length = 1 ∧ w1.elems demo.objs.length = demo.elems 0 ∧
        w1.st.copies = demo.st.copies + demo.size 0)) :=
  ⟨demo_reachable, by decide, copy_shares_buffer demo_reachable (by decide)⟩

/-- Claim C3 (`push_back` postcondition): for `SMALL_SIZE ≥ 1`, a reachable state, a container
`i` of it (inline, sole owner of a buffer, or sharing one) and a value `x`, the call
`push_back(x)` returns; afterwards the element sequence is the former one followed by `x`, and
the capacity is twice the former capacity if the container was full, and the former capacity
otherwise. -/
theorem push_back_postcondition {S : Nat} (hS : 1 ≤ S) {w : World α} (hr : Reachable S w)
    (i : Nat) (hi : i < w.objs.length) (x : α) :
    ∃ w1, (Op.push_back i x).returns S w w1 ∧ w1.elems i = w.elems i ++ [x] ∧
      w1.capacity S i =
        (if w.size i = w.capacity S i then 2 * w.capacity S i else w.capacity S i) := by
  obtain ⟨v, hv⟩ := exists_obj hi
  obtain ⟨w1, h1, -, h3, h4, -⟩ := push_back_step x (reachable_inv hr) hv (Or.inl hS)
  refine ⟨w1, h1, h3, ?_⟩
  rw [h4, Nat.mul_comm]

theorem push_back_postcondition_witness :
    1 ≤ 1 ∧ Reachable 1 demo ∧ 2 < demo.objs.length ∧
      ∃ w1, (Op.push_back 2 8).returns 1 demo w1 ∧ w1.elems 2 = demo.elems 2 ++ [8] ∧
        w1.capacity 1 2 =
          (if demo.size 2 = demo.capacity 1 2 then 2 * demo.capacity 1 2
            else demo.capacity 1 2) :=
  ⟨Nat.le_refl 1, demo_reachable, by decide,
    push_back_postcondition (Nat.le_refl 1) demo_reachable 2 (by decide) 8⟩

/-- Claim C4 (`insert` postcondition): for `SMALL_SIZE ≥ 1`, a reachable state, a container
`i`, an index `pos ≤ size()` and a value `x`, the call `insert(begin() + pos, x)` returns;
afterwards the element sequence is the first `pos` former elements, then `x`, then the
remaining former elements; the returned iterator points at index `pos` of the container's
array; and the capacity is doubled if the container was full and unchanged otherwise.  The
rebuild path (shared or full) and the in-place path are both covered. -/
theorem insert_postcondition {S : Nat} (hS : 1 ≤ S) {w : World α} (hr : Reachable S w)
    (i : Nat) (hi : i < w.objs.length) (pos : Nat) (hpos : pos ≤ w.size i) (x : α) :
    ∃ w1, (Op.insert i pos x).returns S w w1 ∧
      w1.elems i = (w.elems i).take pos ++ [x] ++ (w.elems i).drop pos ∧
      (Op.insert i pos x).yields S w (w1.data i, pos) ∧
      w1.capacity S i =
        (if w.size i = w.capacity S i then 2 * w.capacity S i else w.capacity S i) := by
  obtain ⟨v, hv⟩ := exists_obj hi
  rw [World.size, obj_eq hv, size] at hpos
  obtain ⟨w1, h1, -, h3, h4, -, h6⟩ :=
    insert_step pos x (reachable_inv hr) hv (Or.inl hS) hpos
  refine ⟨w1, h1, ?_, h6, ?_⟩
  · rw [h3]; simp
  · rw [h4, Nat.mul_comm]

theorem insert_postcondition_witness :
    1 ≤ 1 ∧ Reachable 1 demo ∧ 0 < demo.objs.length ∧ 1 ≤ demo.size 0 ∧
      ∃ w1, (Op.insert 0 1 8).returns 1 demo w1 ∧
        w1.elems 0 = (demo.elems 0).take 1 ++ [8] ++ (demo.elems 0).drop 1 ∧
        (Op.insert 0 1 8).yields 1 demo (w1.data 0, 1) ∧
        w1.capacity 1 0 =
          (if demo.size 0 = demo.capacity 1 0 then 2 * demo.capacity 1 0
            else demo.capacity 1 0) :=
  ⟨Nat.le_refl 1, demo_reachable, by decide, by decide,
    insert_postcondition (Nat.le_refl 1) demo_reachable 0 (by decide) 1 (by decide) 8⟩

/-- Claim C5 (`erase` postcondition): for a reachable state, a container `i` and indices
`first ≤ last ≤ size()`, the call `erase(begin() + first, begin() + last)` returns; afterwards
the element sequence is the former elements before `first` followed by the former elements
from `last` on, exactly `last - first` elements are gone, the returned iterator points at
index `first` of the container's array, and the capacity is the former one.  The shared path
and the in-place path are both covered. -/
theorem erase_postcondition {S : Nat} {w : World α} (hr : Reachable S w)
    (i : Nat) (hi : i < w.objs.length) (first last : Nat) (hfl : first ≤ last)
    (hln : last ≤ w.size i) :
    ∃ w1, (Op.erase i first last).returns S w w1 ∧
      w1.elems i = (w.elems i).take first ++ (w.elems i).drop last ∧
      w1.size i = w.size i - (last - first) ∧
      (Op.erase i first last).yields S w (w1.data i, first) ∧
      w1.capacity S i = w.capacity S i := by
  obtain ⟨v, hv⟩ := exists_obj hi
  rw [World.size, obj_eq hv, size] at hln
  obtain ⟨w1, h1, -, h3, h4, h5, h6⟩ := erase_step first last (reachable_inv hr) hv hfl hln
  exact ⟨w1, h1, h3, h5, h6, h4⟩

theorem erase_postcondition_witness :
    Reachable 1 demo ∧ 0 < demo.objs.length ∧ 0 ≤ 1 ∧ 1 ≤ demo.size 0 ∧
      ∃ w1, (Op.erase 0 0 1).returns 1 demo w1 ∧
        w1.elems 0 = (demo.elems 0).take 0 ++ (demo.elems 0).drop 1 ∧
        w1.size 0 = demo.size 0 - (1 - 0) ∧
        (Op.erase 0 0 1).yields 1 demo (w1.data 0, 0) ∧
        w1.capacity 1 0 = demo.capacity 1 0 :=
  ⟨demo_reachable, by decide, by decide, by decide,
    erase_postcondition demo_reachable 0 (by decide) 0 1 (by decide) (by decide)⟩

/-- Claim C6 (copy assignment postcondition): for a reachable state and two different
containers `i` and `j`, whatever their modes and sizes, the assignment `objs[i] = objs[j]`
returns; afterwards `i` has the element sequence, the size, the mode and the capacity of `j`,
and the element sequence, size and capacity of `j` are unchanged.  The self-assignment
`objs[i] = objs[i]` returns and changes nothing. -/
theorem assign_postcondition {S : Nat} {w : World α} (hr : Reachable S w)
    (i j : Nat) (hi : i < w.objs.length) (hj : j < w.objs.length) :
    (i ≠ j → ∃ w1, (Op.assign i j).returns S w w1 ∧
      w1.elems i = w.elems j ∧ w1.size i = w.size j ∧ w1.allocated i = w.allocated j ∧
      w1.capacity S i = w.capacity S j ∧
      w1.elems j = w.elems j ∧ w1.size j = w.size j ∧ w1.capacity S j = w.capacity S j) ∧
    (Op.assign i i).returns S w w := by
  refine ⟨fun hij => ?_, assign_self w hi⟩
  obtain ⟨v, hv⟩ := exists_obj hi
  obtain ⟨o, ho⟩ := exists_obj hj
  obtain ⟨w1, h1, hst, h3, h4, h5, h6, -⟩ := assign_step (reachable_inv hr) hv ho hij
  obtain ⟨f1, f2, f3, -, -⟩ := @step_frame α S w w1 i j hst (fun e => hij e.symm)
  exact ⟨w1, h1, h3, h4, h6, h5, f1, f2, f3⟩

theorem assign_postcondition_witness :
    Reachable 1 demo ∧ 0 < demo.objs.length ∧ 2 < demo.objs.length ∧
    ((0 ≠ 2 → ∃ w1, (Op.assign 0 2).returns 1 demo w1 ∧
      w1.elems 0 = demo.elems 2 ∧ w1.size 0 = demo.size 2 ∧
      w1.allocated 0 = demo.allocated 2 ∧ w1.capacity 1 0 = demo.capacity 1 2 ∧
      w1.elems 2 = demo.elems 2 ∧ w1.size 2 = demo.size 2 ∧
      w1.capacity 1 2 = demo.capacity 1 2) ∧
    (Op.assign 0 0).returns 1 demo demo) :=
  ⟨demo_reachable, by decide, by decide,
    assign_postcondition demo_reachable 0 2 (by decide) (by decide)⟩

/-- Claim C7 (`swap` exchanges contents): for a reachable state and two different containers
`i` and `j`, in any combination of modes and any sizes, the call `objs[i].swap(objs[j])`
returns; afterwards `i` has the former element sequence, size and capacity of `j`, and `j` has
those of `i`.  The call `objs[i].swap(objs[i])` returns and changes nothing. -/
theorem swap_exchanges {S : Nat} {w : World α} (hr : Reachable S w)
    (i j : Nat) (hi : i < w.objs.length) (hj : j < w.objs.length) :
    (i ≠ j → ∃ w1, (Op.swap i j).returns S w w1 ∧
      w1.elems i = w.elems j ∧ w1.size i = w.size j ∧ w1.capacity S i = w.capacity S j ∧
      w1.elems j = w.elems i ∧ w1.size j = w.size i ∧ w1.capacity S j = w.capacity S i) ∧
    (Op.swap i i).returns S w w := by
  refine ⟨fun hij => ?_, swap_self w hi⟩
  obtain ⟨v, hv⟩ := exists_obj hi
  obtain ⟨o, ho⟩ := exists_obj hj
  obtain ⟨w1, h1, -, h3, h4, h5, h6, h7, h8, -⟩ := swap_step (reachable_inv hr) hv ho hij
  exact ⟨w1, h1, h3, h5, h7, h4, h6, h8⟩

theorem swap_exchanges_witness :
    Reachable 1 demo ∧ 1 < demo.objs.length ∧ 2 < demo.objs.length ∧
    ((1 ≠ 2 → ∃ w1, (Op.swap 1 2).returns 1 demo w1 ∧
      w1.elems 1 = demo.elems 2 ∧ w1.size 1 = demo.size 2 ∧
      w1.capacity 1 1 = demo.capacity 1 2 ∧
      w1.elems 2 = demo.elems 1 ∧ w1.size 2 = demo.size 1 ∧
      w1.capacity 1 2 = demo.capacity 1 1) ∧
    (Op.swap 1 1).returns 1 demo demo) :=
  ⟨demo_reachable, by decide, by decide,
    swap_exchanges demo_reachable 1 2 (by decide) (by decide)⟩

/-- Claim C8 (`size() ≤ capacity()` is an invariant): in every reachable state every container
has `size() ≤ capacity()`; the states reached are exactly those obtained from the empty program
by public operations that return, and every public operation called within its contract
(`Op.pre`) returns and leaves a state in which every container has `size() ≤ capacity()`. -/
theorem size_le_capacity {S : Nat} {w : World α} (hr : Reachable S w) :
    (∀ i, w.size i ≤ w.capacity S i) ∧
      ∀ op : Op α, op.pre S w →
        ∃ w1, op.returns S w w1 ∧ ∀ i, w1.size i ≤ w1.capacity S i := by
  refine ⟨inv_size_le (reachable_inv hr), fun op hpre => ?_⟩
  obtain ⟨w1, h1, h2⟩ := pre_step (reachable_inv hr) op hpre
  exact ⟨w1, h1, inv_size_le h2⟩

theorem size_le_capacity_witness :
    Reachable 1 demo ∧ (∀ i, demo.size i ≤ demo.capacity 1 i) ∧
      ∀ op : Op Nat, op.pre 1 demo →
        ∃ w1, op.returns 1 demo w1 ∧ ∀ i, w1.size i ≤ w1.capacity 1 i :=
  ⟨demo_reachable, size_le_capacity demo_reachable⟩

/-- Claim C10 (`pop_back` postcondition): for a reachable state and a non-empty container `i`,
the call `pop_back()` returns; afterwards the element sequence is the former one without its
last element, the size is one less and the capacity is unchanged.  If the container shared its
buffer it now references a buffer of its own (reference count 1, another address than
before); otherwise its `data()` address is the former one. -/
theorem pop_back_postcondition {S : Nat} {w : World α} (hr : Reachable S w)
    (i : Nat) (hi : i < w.objs.length) (hne : w.size i ≠ 0) :
    ∃ w1, (Op.pop_back i).returns S w w1 ∧ w1.elems i = (w.elems i).dropLast ∧
      w1.size i + 1 = w.size i ∧ w1.capacity S i = w.capacity S i ∧
      (w.sharing i = true →
        ∃ q, w1.data i = .heap q ∧ w1.ref_count q = 1 ∧ w.data i ≠ .heap q) ∧
      (w.sharing i = false → w1.data i = w.data i) := by
  have hinv := reachable_inv hr
  obtain ⟨v, hv⟩ := exists_obj hi
  rw [World.size, obj_eq hv, size] at hne
  obtain ⟨w1, h1, -, h3, h4, h5, h6, h7⟩ := pop_back_step hinv hv hne
  have hsh : w.sharing i = sharing v w.st.heap := by rw [World.sharing, obj_eq hv]
  refine ⟨w1, h1, h3, ?_, h4, fun hs => ?_, fun hs => h7 (hsh ▸ hs)⟩
  · rw [h5, World.size, obj_eq hv, size]; omega
  · obtain ⟨g1, g2⟩ := h6 (hsh ▸ hs)
    refine ⟨_, g1, g2, ?_⟩
    rw [World.data, obj_eq hv]
    have ha := sharing_allocated (hsh ▸ hs)
    have hlt := valid_lt (hinv.hinv.valid i v hv) ha
    rw [ha]
    intro e
    have := Addr.heap.inj e
    omega

theorem pop_back_postcondition_witness :
    Reachable 1 demo ∧ 1 < demo.objs.length ∧ demo.size 1 ≠ 0 ∧
    ∃ w1, (Op.pop_back 1).returns 1 demo w1 ∧ w1.elems 1 = (demo.elems 1).dropLast ∧
      w1.size 1 + 1 = demo.size 1 ∧ w1.capacity 1 1 = demo.capacity 1 1 ∧
      (demo.sharing 1 = true →
        ∃ q, w1.data 1 = .heap q ∧ w1.ref_count q = 1 ∧ demo.data 1 ≠ .heap q) ∧
      (demo.sharing 1 = false → w1.data 1 = demo.data 1) :=
  ⟨demo_reachable, by decide, by decide,
    pop_back_postcondition demo_reachable 1 (by decide) (by decide)⟩

/-- Claim C11 (`clear()` postcondition): for a reachable state and a container `i`, the call
`clear()` returns with `size() = 0` and the capacity it had.  A container that did not share
its buffer keeps its storage.  A container that shared the buffer `p` ends on a buffer `q`
that was not allocated before, is empty and has reference count 1; the reference count of `p`
is one less than before, and every other container, in particular every other owner of `p`,
has the elements, the size and the storage it had. -/
theorem clear_postcondition {S : Nat} {w : World α} (hr : Reachable S w) (i : Nat)
    (hi : i < w.objs.length) :
    ∃ w1, (Op.clear i).returns S w w1 ∧ w1.size i = 0 ∧ w1.capacity S i = w.capacity S i ∧
      (w.sharing i = false → w1.data i = w.data i) ∧
      (w.sharing i = true → ∀ p, w.data i = .heap p →
        ∃ q, w1.data i = .heap q ∧ q ≠ p ∧ w.st.heap.lookup q = none ∧
          w1.ref_count q = 1 ∧ w1.elems i = [] ∧ w1.ref_count p + 1 = w.ref_count p ∧
          ∀ j, j ≠ i → w1.elems j = w.elems j ∧ w1.size j = w.size j ∧
            w1.data j = w.data j) := by
  obtain ⟨v, hv⟩ := exists_obj hi
  obtain ⟨-, -, e3, -, e5⟩ := @obs_at α S w i v hv
  obtain ⟨w1, h1, hst, h3, h4, h5, h6, h7⟩ := clear_storage (reachable_inv hr) hv
  refine ⟨w1, h1, h5, h4, fun hs => h6 (e3 ▸ hs), fun hs p hp => ?_⟩
  obtain ⟨g1, g2, g3, g4, g5⟩ := h7 (e3 ▸ hs)
  obtain ⟨v', hv', -, hpe⟩ := heap_of_data hp
  rw [hv] at hv'
  cases hv'
  subst hpe
  refine ⟨_, g1, fun e => g3 e.symm, g2, g4, h3, g5, fun j hj => ?_⟩
  obtain ⟨f1, f2, -, f4, -⟩ := @step_frame α S w w1 i j hst hj
  exact ⟨f1, f2, f4⟩

theorem clear_postcondition_witness :
    Reachable 1 demo ∧ 0 < demo.objs.length ∧
    ∃ w1, (Op.clear 0).returns 1 demo w1 ∧ w1.size 0 = 0 ∧
      w1.capacity 1 0 = demo.capacity 1 0 ∧
      (demo.sharing 0 = false → w1.data 0 = demo.data 0) ∧
      (demo.sharing 0 = true → ∀ p, demo.data 0 = .heap p →
        ∃ q, w1.data 0 = .heap q ∧ q ≠ p ∧ demo.st.heap.lookup q = none ∧
          w1.ref_count q = 1 ∧ w1.elems 0 = [] ∧ w1.ref_count p + 1 = demo.ref_count p ∧
          ∀ j, j ≠ 0 → w1.elems j = demo.elems j ∧ w1.size j = demo.size j ∧
            w1.data j = demo.data j) :=
  ⟨demo_reachable, by decide, clear_postcondition demo_reachable 0 (by decide)⟩

/-- Claim C12 (`reserve` postcondition): for a reachable state, a container `i` and any `n`
that `reserve` may be asked for (`n ≤ max_capacity`, so that `make_new_buffer` can serve the
request), the call `reserve(n)` returns, leaves the element sequence as it was and ends with
`capacity() ≥ n`.  If `n > capacity()`, or `n > size()` and the container shared its buffer,
the container does not share a buffer afterwards, its capacity is `n` when `n > SMALL_SIZE`,
and it is inline with capacity `SMALL_SIZE` when `n ≤ SMALL_SIZE`.  Otherwise the call leaves
the whole state as it was. -/
theorem reserve_postcondition {S : Nat} {w : World α} (hr : Reachable S w) (i : Nat)
    (hi : i < w.objs.length) (n : Nat) (hn : n ≤ max_capacity) :
    ∃ w1, (Op.reserve i n).returns S w w1 ∧ w1.elems i = w.elems i ∧
      n ≤ w1.capacity S i ∧
      ((n > w.capacity S i ∨ (n > w.size i ∧ w.sharing i = true)) →
        w1.sharing i = false ∧ (S < n → w1.capacity S i = n) ∧
        (n ≤ S → w1.allocated i = false ∧ w1.capacity S i = S)) ∧
      (¬ (n > w.capacity S i ∨ (n > w.size i ∧ w.sharing i = true)) → w1 = w) := by
  obtain ⟨v, hv⟩ := exists_obj hi
  obtain ⟨e1, e2, e3, -, -⟩ := @obs_at α S w i v hv
  obtain ⟨w1, h1, hst, h3, h4, h5, h6⟩ := reserve_storage n (reachable_inv hr) hv hn
  rw [← e3] at h5 h6
  refine ⟨w1, h1, h3, ?_, fun hc => ?_, h6⟩
  · by_cases hc : n > w.capacity S i ∨ (n > w.size i ∧ w.sharing i = true)
    · obtain ⟨-, g2, g3⟩ := h5 hc
      by_cases hSn : S < n
      · rw [(g2 hSn).2]
      · rw [(g3 (by omega)).2]; omega
    · rw [h6 hc]
      simp only [not_or, not_lt] at hc
      exact hc.1
  · obtain ⟨g1, g2, g3⟩ := h5 hc
    exact ⟨g1, fun hSn => (g2 hSn).2, g3⟩

theorem reserve_postcondition_witness :
    Reachable 1 demo ∧ 0 < demo.objs.length ∧ 3 ≤ max_capacity ∧
    ∃ w1, (Op.reserve 0 3).returns 1 demo w1 ∧ w1.elems 0 = demo.elems 0 ∧
      3 ≤ w1.capacity 1 0 ∧
      ((3 > demo.capacity 1 0 ∨ (3 > demo.size 0 ∧ demo.sharing 0 = true)) →
        w1.sharing 0 = false ∧ (1 < 3 → w1.capacity 1 0 = 3) ∧
        (3 ≤ 1 → w1.allocated 0 = false ∧ w1.capacity 1 0 = 1)) ∧
      (¬ (3 > demo.capacity 1 0 ∨ (3 > demo.size 0 ∧ demo.sharing 0 = true)) → w1 = demo) :=
  ⟨demo_reachable, by decide, by decide,
    reserve_postcondition demo_reachable 0 (by decide) 3 (by decide)⟩

/-- Claim C13 (`reserve` then `shrink_to_fit`): for a reachable state, a container `i` and any
`n` that `reserve` may be asked for (`n ≤ max_capacity`, so that `make_new_buffer` can serve
the request), the calls `reserve(n)` and `shrink_to_fit()` both return, and afterwards the
element sequence is the one before the two calls, the capacity is `size()` if
`size() > SMALL_SIZE`, and the container is inline with capacity `SMALL_SIZE` if
`size() ≤ SMALL_SIZE`.  The call `shrink_to_fit()` alone always returns, keeps the elements
and ends with capacity `max(size(), SMALL_SIZE)`. -/
theorem reserve_shrink_round_trip {S : Nat} {w : World α} (hr : Reachable S w) (i : Nat)
    (hi : i < w.objs.length) (n : Nat) :
    (n ≤ max_capacity →
      ∃ w1 w2, (Op.reserve i n).returns S w w1 ∧ (Op.shrink_to_fit i).returns S w1 w2 ∧
      w2.elems i = w.elems i ∧ w2.size i = w.size i ∧
      (S < w.size i → w2.capacity S i = w.size i) ∧
      (w.size i ≤ S → w2.capacity S i = S ∧ w2.allocated i = false)) ∧
    (∃ w1, (Op.shrink_to_fit i).returns S w w1 ∧ w1.elems i = w.elems i ∧
      w1.size i = w.size i ∧ w1.capacity S i = max (w.size i) S) := by
  obtain ⟨v, hv⟩ := exists_obj hi
  have hinv := reachable_inv hr
  constructor
  · intro hn
    obtain ⟨w1, h1, hst, h3, h4, -⟩ := reserve_step n hinv hv hn
    obtain ⟨u, hu⟩ := exists_obj (show i < w1.objs.length by rw [hst.length]; exact hi)
    obtain ⟨w2, g1, -, g3, g4, g5, g6⟩ := shrink_to_fit_capacity hst.inv hu
    rw [h4] at g5 g6
    refine ⟨w1, w2, h1, g1, g3.trans h3, g4.trans h4, fun hlt => ?_, fun hle => ⟨?_, ?_⟩⟩
    · rw [g5]; omega
    · rw [g5]; omega
    · cases ha : w2.allocated i with
      | false => rfl
      | true => have := g6.1 ha; omega
  · obtain ⟨w1, h1, -, h3, h4, h5, -⟩ := shrink_to_fit_capacity hinv hv
    exact ⟨w1, h1, h3, h4, h5⟩

theorem reserve_shrink_round_trip_witness :
    Reachable 1 demo ∧ 0 < demo.objs.length ∧ 5 ≤ max_capacity ∧
    (∃ w1 w2, (Op.reserve 0 5).returns 1 demo w1 ∧ (Op.shrink_to_fit 0).returns 1 w1 w2 ∧
      w2.elems 0 = demo.elems 0 ∧ w2.size 0 = demo.size 0 ∧
      (1 < demo.size 0 → w2.capacity 1 0 = demo.size 0) ∧
      (demo.size 0 ≤ 1 → w2.capacity 1 0 = 1 ∧ w2.allocated 0 = false)) ∧
    (∃ w1, (Op.shrink_to_fit 0).returns 1 demo w1 ∧ w1.elems 0 = demo.elems 0 ∧
      w1.size 0 = demo.size 0 ∧ w1.capacity 1 0 = max (demo.size 0) 1) :=
  ⟨demo_reachable, by decide, by decide,
    (reserve_shrink_round_trip demo_reachable 0 (by decide) 5).1 (by decide),
    (reserve_shrink_round_trip demo_reachable 0 (by decide) 5).2⟩

/-- Claim C14 (`swap` of two heap-backed containers copies no element): for a reachable state
and two heap-backed containers `i` and `j`, of any sizes, whether they reference two buffers
or share one, the call `objs[i].swap(objs[j])` returns without any element copy construction,
element `std::swap` or element destruction; afterwards `i` references the buffer `j`
referenced and `j` the buffer `i` referenced, and every buffer has the reference count it
had.  For `i = j` the call returns and changes nothing. -/
theorem swap_heap_copies_nothing {S : Nat} {w : World α} (hr : Reachable S w) (i j : Nat)
    (hi : w.allocated i = true) (hj : w.allocated j = true) :
    (i ≠ j → ∃ w1, (Op.swap i j).returns S w w1 ∧ w1.st.copies = w.st.copies ∧
      w1.st.swaps = w.st.swaps ∧ w1.st.dtors = w.st.dtors ∧
      w1.data i = w.data j ∧ w1.data j = w.data i ∧
      ∀ p, w1.ref_count p = w.ref_count p) ∧
    (i = j → (Op.swap i j).returns S w w) := by
  have hobj : ∀ k, w.allocated k = true → ∃ v, w.objs[k]? = some v ∧ v.allocated_ = true := by
    intro k hk
    cases hv : w.objs[k]? with
    | none => simp [World.allocated, World.obj, hv, default_ctor] at hk
    | some v => rw [World.allocated, obj_eq hv] at hk; exact ⟨v, rfl, hk⟩
  obtain ⟨v, hv, hva⟩ := hobj i hi
  obtain ⟨o, ho, hoa⟩ := hobj j hj
  constructor
  · intro hij
    obtain ⟨w1, h1, h2, h3, h4⟩ := swap_heap_step (reachable_inv hr) hv ho hij hva hoa
    refine ⟨w1, h1, ?_, ?_, ?_, h3, h4, fun p => ?_⟩
    · rw [h2]
    · rw [h2]
    · rw [h2]
    · rw [World.ref_count, World.ref_count, h2]
  · intro hij
    subst hij
    exact swap_self w (lt_of_getElem? hv)

theorem swap_heap_copies_nothing_witness :
    Reachable 1 demo ∧ demo.allocated 0 = true ∧ demo.allocated 1 = true ∧
    ((0 ≠ 1 → ∃ w1, (Op.swap 0 1).returns 1 demo w1 ∧ w1.st.copies = demo.st.copies ∧
      w1.st.swaps = demo.st.swaps ∧ w1.st.dtors = demo.st.dtors ∧
      w1.data 0 = demo.data 1 ∧ w1.data 1 = demo.data 0 ∧
      ∀ p, w1.ref_count p = demo.ref_count p) ∧
    (0 = 1 → (Op.swap 0 1).returns 1 demo demo)) :=
  ⟨demo_reachable, rfl, rfl, swap_heap_copies_nothing demo_reachable 0 1 rfl rfl⟩

/-- Claim C15 (privatisation on mutable access): for a reachable state, a container `i` and
any of the non-const accessors `data()`, `operator[]`, `begin()`, `end()`, `front()` and
`back()`, the call returns.  If the container shared the buffer `p`, it ends on a buffer `q`
that was not allocated before and has reference count 1, with the capacity and the element
sequence it had, and the reference count of `p` is one less than before.  If the container
did not share a buffer, the whole state, heap included, is as it was.  The const overloads
`data`, `operator[]`, `begin`, `end`, `front`, `back`, `size`, `capacity` and `empty` only
read: they are the functions `data_const`, `index_const`, `front_const`, `back_const`, `size`,
`capacity` and `empty`, which take a container and a heap and yield a value and no state. -/
theorem access_privatizes {S : Nat} {w : World α} (hr : Reachable S w) (i : Nat)
    (hi : i < w.objs.length) (acc : Accessor) :
    ∃ w1, (Op.access i acc).returns S w w1 ∧
      (w.sharing i = true → ∀ p, w.data i = .heap p →
        ∃ q, w1.data i = .heap q ∧ q ≠ p ∧ w.st.heap.lookup q = none ∧
          w1.ref_count q = 1 ∧ w1.capacity S i = w.capacity S i ∧
          w1.elems i = w.elems i ∧ w1.size i = w.size i ∧
          w1.ref_count p + 1 = w.ref_count p) ∧
      (w.sharing i = false → w1 = w) := by
  obtain ⟨v, hv⟩ := exists_obj hi
  obtain ⟨-, -, e3, -, -⟩ := @obs_at α S w i v hv
  obtain ⟨w1, h1, -, h3, h4, h5, h6, h7⟩ := access_storage acc (reachable_inv hr) hv
  refine ⟨w1, h1, fun hs p hp => ?_, fun hs => h6 (e3 ▸ hs)⟩
  obtain ⟨g1, g2, g3, g4, g5⟩ := h7 (e3 ▸ hs)
  obtain ⟨v', hv', -, hpe⟩ := heap_of_data hp
  rw [hv] at hv'
  cases hv'
  subst hpe
  exact ⟨_, g1, fun e => g3 e.symm, g2, g4, h4, h3, h5, g5⟩

theorem access_privatizes_witness :
    Reachable 1 demo ∧ 0 < demo.objs.length ∧
    ∃ w1, (Op.access 0 Accessor.begin_).returns 1 demo w1 ∧
      (demo.sharing 0 = true → ∀ p, demo.data 0 = .heap p →
        ∃ q, w1.data 0 = .heap q ∧ q ≠ p ∧ demo.st.heap.lookup q = none ∧
          w1.ref_count q = 1 ∧ w1.capacity 1 0 = demo.capacity 1 0 ∧
          w1.elems 0 = demo.elems 0 ∧ w1.size 0 = demo.size 0 ∧
          w1.ref_count p + 1 = demo.ref_count p) ∧
      (demo.sharing 0 = false → w1 = demo) :=
  ⟨demo_reachable, by decide, access_privatizes demo_reachable 0 (by decide) Accessor.begin_⟩

/-- Claim C16, as stated, fails: in the example program container 0 shares the buffer at
address 0 with container 1, the call `erase(begin() + 1, begin() + 1)` on it returns, and
afterwards container 0 references another buffer and the reference count of the buffer at
address 0 has changed. -/
theorem erase_empty_range_counterexample :
    Reachable 1 demo ∧ 1 ≤ demo.size 0 ∧ demo.sharing 0 = true ∧
      (Op.erase 0 1 1).returns 1 demo
        ⟨⟨[some ⟨2, 1, [5, 6]⟩, some ⟨2, 1, [5, 6]⟩], none, 6, 0, 1⟩,
          [⟨2, true, 1, []⟩, ⟨2, true, 0, []⟩, ⟨1, false, 0, [9]⟩]⟩ ∧
      demo.data 0 = .heap 0 ∧
      (World.mk ⟨[some ⟨2, 1, [5, 6]⟩, some ⟨2, 1, [5, 6]⟩], none, 6, 0, 1⟩
          [⟨2, true, 1, []⟩, ⟨2, true, 0, []⟩, ⟨1, false, 0, [9]⟩]).data 0 = .heap 1 ∧
      demo.ref_count 0 = 2 ∧
      (World.mk ⟨[some ⟨2, 1, [5, 6]⟩, some ⟨2, 1, [5, 6]⟩], none, 6, 0, 1⟩
          [⟨2, true, 1, []⟩, ⟨2, true, 0, []⟩, ⟨1, false, 0, [9]⟩]).ref_count 0 = 1 :=
  ⟨demo_reachable, by decide, rfl, demo_erase_empty, rfl, rfl, rfl, rfl⟩

/-- Claim C16, amended (`erase` of an empty range): for a reachable state, a container `i` and
an index `pos ≤ size()`, the call `erase(begin() + pos, begin() + pos)` returns and leaves the
element sequence, the size and the capacity as they were.  If the container did not share a
buffer, the whole state is as it was.  If it shared the buffer `p`, the non-const `data()` of
the return statement moves it to a buffer `q` that was not allocated before and has reference
count 1, and the reference count of `p` is one less than before. -/
theorem erase_empty_range {S : Nat} {w : World α} (hr : Reachable S w) (i : Nat)
    (hi : i < w.objs.length) (pos : Nat) (hpos : pos ≤ w.size i) :
    ∃ w1, (Op.erase i pos pos).returns S w w1 ∧ w1.elems i = w.elems i ∧
      w1.size i = w.size i ∧ w1.capacity S i = w.capacity S i ∧
      (w.sharing i = false → w1 = w) ∧
      (w.sharing i = true → ∀ p, w.data i = .heap p →
        ∃ q, w1.data i = .heap q ∧ q ≠ p ∧ w.st.heap.lookup q = none ∧
          w1.ref_count q = 1 ∧ w1.ref_count p + 1 = w.ref_count p) := by
  obtain ⟨v, hv⟩ := exists_obj hi
  obtain ⟨e1, -, e3, -, -⟩ := @obs_at α S w i v hv
  rw [e1] at hpos
  obtain ⟨w1, h1, -, h3, h4, h5, -, h7, h8⟩ :=
    erase_empty_storage pos (reachable_inv hr) hv hpos
  refine ⟨w1, h1, h3, h4, h5, fun hs => h7 (e3 ▸ hs), fun hs p hp => ?_⟩
  obtain ⟨g1, g2, g3, g4, g5⟩ := h8 (e3 ▸ hs)
  obtain ⟨v', hv', -, hpe⟩ := heap_of_data hp
  rw [hv] at hv'
  cases hv'
  subst hpe
  exact ⟨_, g1, fun e => g3 e.symm, g2, g4, g5⟩

theorem erase_empty_range_witness :
    Reachable 1 demo ∧ 0 < demo.objs.length ∧ 1 ≤ demo.size 0 ∧
    ∃ w1, (Op.erase 0 1 1).returns 1 demo w1 ∧ w1.elems 0 = demo.elems 0 ∧
      w1.size 0 = demo.size 0 ∧ w1.capacity 1 0 = demo.capacity 1 0 ∧
      (demo.sharing 0 = false → w1 = demo) ∧
      (demo.sharing 0 = true → ∀ p, demo.data 0 = .heap p →
        ∃ q, w1.data 0 = .heap q ∧ q ≠ p ∧ demo.st.heap.lookup q = none ∧
          w1.ref_count q = 1 ∧ w1.ref_count p + 1 = demo.ref_count p) :=
  ⟨demo_reachable, by decide, by decide,
    erase_empty_range demo_reachable 0 (by decide) 1 (by decide)⟩

/-- Claim C17 (reference-count accuracy): in a reachable state the reference count of every
live buffer is the number of heap-backed containers whose `buf_` is its address, and is at
least 1; the buffer of every heap-backed container is live; and the destruction of a
heap-backed container returns, destroys its buffer if the reference count was 1, and
otherwise leaves the buffer live with one reference less. -/
theorem ref_count_accuracy {S : Nat} {w : World α} (hr : Reachable S w) :
    (∀ p b, w.st.heap.lookup p = some b →
      b.ref_count_ = refs w.objs p ∧ 1 ≤ b.ref_count_) ∧
    (∀ (i : Nat) (v : socow_vector α), w.objs[i]? = some v → v.allocated_ = true →
      w.st.heap.live v.buf_ = true) ∧
    (∀ i p, w.data i = .heap p →
      ∃ w1, (Op.destroy i).returns S w w1 ∧
        (w.ref_count p = 1 → w1.st.heap.lookup p = none) ∧
        (1 < w.ref_count p →
          w1.st.heap.live p = true ∧ w1.ref_count p + 1 = w.ref_count p)) := by
  have hinv := reachable_inv hr
  refine ⟨fun p b hb => hinv.hinv.counted p b hb, fun i v hv ha => ?_, fun i p hp => ?_⟩
  · have hval := hinv.hinv.valid i v hv
    obtain ⟨n, a, q, sm⟩ := v
    simp only at ha
    subst ha
    rw [valid_heap] at hval
    obtain ⟨c, r, d, hb, -⟩ := hval
    simp only [Heap.live, hb, Option.isSome_some]
  · obtain ⟨v, hv, hva, hpe⟩ := heap_of_data hp
    subst hpe
    obtain ⟨w1, h1, -, h3, h4⟩ := destroy_storage hinv hv hva
    exact ⟨w1, h1, fun h => (h3 h).1, fun h => ⟨(h4 h).1, (h4 h).2.1⟩⟩

theorem ref_count_accuracy_witness :
    Reachable 1 demo ∧
    ((∀ p b, demo.st.heap.lookup p = some b →
      b.ref_count_ = refs demo.objs p ∧ 1 ≤ b.ref_count_) ∧
    (∀ (i : Nat) (v : socow_vector Nat), demo.objs[i]? = some v → v.allocated_ = true →
      demo.st.heap.live v.buf_ = true) ∧
    (∀ i p, demo.data i = .heap p →
      ∃ w1, (Op.destroy i).returns 1 demo w1 ∧
        (demo.ref_count p = 1 → w1.st.heap.lookup p = none) ∧
        (1 < demo.ref_count p →
          w1.st.heap.live p = true ∧ w1.ref_count p + 1 = demo.ref_count p))) :=
  ⟨demo_reachable, ref_count_accuracy demo_reachable⟩

/-- Claim C18 (equal-size sharers): in a reachable state any two containers that reference the
same buffer have the same `size()`, and the number of constructed elements of the buffer is
that size; the destruction of the only owner of a buffer returns, runs exactly that many
element destructors and destroys the buffer. -/
theorem equal_size_sharers {S : Nat} {w : World α} (hr : Reachable S w) :
    (∀ i j p, w.data i = .heap p → w.data j = .heap p →
      w.size i = w.size j ∧ (w.st.heap.getBuf p).data_.length = w.size i) ∧
    (∀ i p, w.data i = .heap p → w.ref_count p = 1 →
      ∃ w1, (Op.destroy i).returns S w w1 ∧
        w1.st.dtors = w.st.dtors + (w.st.heap.getBuf p).data_.length ∧
        w1.st.heap.lookup p = none) := by
  have hinv := reachable_inv hr
  have hlen : ∀ i p, w.data i = .heap p → ∃ v, w.objs[i]? = some v ∧ v.allocated_ = true ∧
      v.buf_ = p ∧ (w.st.heap.getBuf p).data_.length = v.size_ ∧ w.size i = v.size_ := by
    intro i p hp
    obtain ⟨v, hv, hva, hpe⟩ := heap_of_data hp
    refine ⟨v, hv, hva, hpe, ?_, (@obs_at α S w i v hv).1⟩
    have hval := hinv.hinv.valid i v hv
    obtain ⟨n, a, q, sm⟩ := v
    simp only at hva hpe
    subst hva hpe
    rw [valid_heap] at hval
    obtain ⟨c, r, d, hb, -, hl, -⟩ := hval
    simp only [Heap.getBuf, hb, Option.getD_some, hl]
  refine ⟨fun i j p hi hj => ?_, fun i p hp hone => ?_⟩
  · obtain ⟨v, -, -, -, l1, s1⟩ := hlen i p hi
    obtain ⟨o, -, -, -, l2, s2⟩ := hlen j p hj
    exact ⟨by rw [s1, s2, ← l1, ← l2], by rw [s1, l1]⟩
  · obtain ⟨v, hv, hva, hpe, l1, -⟩ := hlen i p hp
    subst hpe
    obtain ⟨w1, h1, -, h3, -⟩ := destroy_storage hinv hv hva
    obtain ⟨g1, g2⟩ := h3 hone
    exact ⟨w1, h1, by rw [g2, l1], g1⟩

theorem equal_size_sharers_witness :
    Reachable 1 demo ∧
    ((∀ i j p, demo.data i = .heap p → demo.data j = .heap p →
      demo.size i = demo.size j ∧ (demo.st.heap.getBuf p).data_.length = demo.size i) ∧
    (∀ i p, demo.data i = .heap p → demo.ref_count p = 1 →
      ∃ w1, (Op.destroy i).returns 1 demo w1 ∧
        w1.st.dtors = demo.st.dtors + (demo.st.heap.getBuf p).data_.length ∧
        w1.st.heap.lookup p = none)) :=
  ⟨demo_reachable, equal_size_sharers demo_reachable⟩

/-- Claim C19, as stated, fails: in the second example program container 0 holds one element
in a buffer of capacity 3 that it shares with container 1; the call `reserve(2)` on it
returns and leaves it with capacity 2. -/
theorem reserve_growth_counterexample :
    Reachable 1 demo_spare ∧ demo_spare.sharing 0 = true ∧ demo_spare.size 0 = 1 ∧
      demo_spare.capacity 1 0 = 3 ∧
      (Op.reserve 0 2).returns 1 demo_spare
        ⟨⟨[some ⟨3, 1, [5]⟩, some ⟨2, 1, [5]⟩], none, 3, 0, 1⟩,
          [⟨1, true, 1, []⟩, ⟨1, true, 0, []⟩]⟩ ∧
      (World.mk ⟨[some ⟨3, 1, [5]⟩, some ⟨2, 1, [5]⟩], none, 3, 0, 1⟩
          [⟨1, true, 1, []⟩, ⟨1, true, 0, []⟩]).capacity 1 0 = 2 :=
  ⟨demo_spare_reachable, rfl, rfl, rfl, demo_spare_reserve, rfl⟩

/-- Claim C19, amended (capacity after `reserve`): for a reachable state, a container `i` and
any `n` that `reserve` may be asked for (`n ≤ max_capacity`, so that `make_new_buffer` can
serve the request), the call `reserve(n)` returns.  The capacity afterwards is at least the
capacity before if the container did not share a buffer, or `n ≤ size()`, or
`n ≥ capacity()`.  For a container that shared a buffer, with `size() < n < capacity()`, the
capacity afterwards is `max(n, SMALL_SIZE)`, which is less than the capacity before. -/
theorem reserve_capacity {S : Nat} {w : World α} (hr : Reachable S w) (i : Nat)
    (hi : i < w.objs.length) (n : Nat) (hn : n ≤ max_capacity) :
    ∃ w1, (Op.reserve i n).returns S w w1 ∧
      ((w.sharing i = false ∨ n ≤ w.size i ∨ w.capacity S i ≤ n) →
        w.capacity S i ≤ w1.capacity S i) ∧
      ((w.sharing i = true ∧ w.size i < n ∧ n < w.capacity S i) →
        w1.capacity S i = max n S ∧ w1.capacity S i < w.capacity S i) := by
  obtain ⟨v, hv⟩ := exists_obj hi
  have hinv := reachable_inv hr
  have hval := hinv.hinv.valid i v hv
  obtain ⟨e1, e2, e3, -, -⟩ := @obs_at α S w i v hv
  obtain ⟨hnc, -, hSc⟩ := valid_size_le hval
  rw [← e1, ← e2] at hnc
  rw [← e2] at hSc
  obtain ⟨w1, h1, -, -, -, h5⟩ := reserve_step n hinv hv hn
  rw [← e3] at h5
  refine ⟨w1, h1, fun hc => ?_, fun hc => ?_⟩
  · rw [h5]
    split
    · rename_i hcond
      rcases hcond with hgt | ⟨hgt, hs⟩
      · split <;> omega
      · rcases hc with hc | hc | hc
        · rw [hc] at hs; cases hs
        · omega
        · split <;> omega
    · exact Nat.le_refl _
  · obtain ⟨hs, h2, h3⟩ := hc
    have hcap : S < w.capacity S i := by
      rw [e2]
      exact valid_cap_lt hval (sharing_allocated (e3 ▸ hs))
    rw [h5, if_pos (Or.inr ⟨h2, hs⟩)]
    split <;> constructor <;> omega

theorem reserve_capacity_witness :
    Reachable 1 demo_spare ∧ 0 < demo_spare.objs.length ∧ 2 ≤ max_capacity ∧
    ∃ w1, (Op.reserve 0 2).returns 1 demo_spare w1 ∧
      ((demo_spare.sharing 0 = false ∨ 2 ≤ demo_spare.size 0 ∨
          demo_spare.capacity 1 0 ≤ 2) →
        demo_spare.capacity 1 0 ≤ w1.capacity 1 0) ∧
      ((demo_spare.sharing 0 = true ∧ demo_spare.size 0 < 2 ∧
          2 < demo_spare.capacity 1 0) →
        w1.capacity 1 0 = max 2 1 ∧ w1.capacity 1 0 < demo_spare.capacity 1 0) :=
  ⟨demo_spare_reachable, by decide, by decide,
    reserve_capacity demo_spare_reachable 0 (by decide) 2 (by decide)⟩

/-- Claim C20 (heap buffers are larger than the inline capacity): in a reachable state a
heap-backed container has a capacity above `SMALL_SIZE`, a container is inline exactly if
its capacity is `SMALL_SIZE`, and the mode test `capacity() > SMALL_SIZE` that the copy
constructor makes on its source agrees with the `allocated_` flag of the source, so that the
copy has the mode of the source; `clear()` on a container that shares its buffer returns and
leaves it heap-backed, on a buffer that was not allocated before and has the capacity of the
old one. -/
theorem heap_capacity_exceeds_inline {S : Nat} {w : World α} (hr : Reachable S w) (i : Nat) :
    (w.allocated i = true → S < w.capacity S i) ∧
    (w.allocated i = false ↔ w.capacity S i = S) ∧
    decide (w.capacity S i > S) = w.allocated i ∧
    (i < w.objs.length → ∃ w1, (Op.copy_construct i).returns S w w1 ∧
      w1.allocated w.objs.length = w.allocated i) ∧
    (w.sharing i = true → ∃ w1, (Op.clear i).returns S w w1 ∧ w1.allocated i = true ∧
      w1.capacity S i = w.capacity S i ∧
      ∃ q, w1.data i = .heap q ∧ w.st.heap.lookup q = none) := by
  have hinv := reachable_inv hr
  have hmode : (w.allocated i = true → S < w.capacity S i) ∧
      (w.allocated i = false → w.capacity S i = S) := by
    cases hv : w.objs[i]? with
    | none =>
      simp [World.allocated, World.capacity, World.obj, hv, default_ctor, capacity]
    | some v =>
      obtain ⟨-, e2, -, e4, -⟩ := @obs_at α S w i v hv
      rw [e2, e4]
      refine ⟨fun ha => valid_cap_lt (hinv.hinv.valid i v hv) ha, fun ha => ?_⟩
      simp only [capacity, ha, Bool.not_false, if_true]
  obtain ⟨m1, m2⟩ := hmode
  refine ⟨m1, ⟨m2, fun hc => ?_⟩, ?_, fun hi => ?_, fun hs => ?_⟩
  · cases ha : w.allocated i with
    | false => rfl
    | true => have := m1 ha; omega
  · cases ha : w.allocated i with
    | false => rw [m2 ha]; simp
    | true => have := m1 ha; simpa using this
  · obtain ⟨v, hv⟩ := exists_obj hi
    obtain ⟨w1, h1, -, -, -, -, -, -, -, h9, -⟩ := copy_construct_step hinv hv
    exact ⟨w1, h1, h9⟩
  · obtain ⟨v, hv, hsv, -⟩ := obj_of_sharing hs
    obtain ⟨w1, h1, hst, -, h4, -, -, h7⟩ := clear_storage hinv hv
    obtain ⟨g1, g2, -⟩ := h7 hsv
    refine ⟨w1, h1, ?_, h4, _, g1, g2⟩
    -- a container whose `data()` is a buffer is heap-backed
    obtain ⟨u', hu', hua', -⟩ := heap_of_data g1
    rw [World.allocated, obj_eq hu']
    exact hua'

theorem heap_capacity_exceeds_inline_witness :
    Reachable 1 demo ∧
    ((demo.allocated 0 = true → 1 < demo.capacity 1 0) ∧
    (demo.allocated 0 = false ↔ demo.capacity 1 0 = 1) ∧
    decide (demo.capacity 1 0 > 1) = demo.allocated 0 ∧
    (0 < demo.objs.length → ∃ w1, (Op.copy_construct 0).returns 1 demo w1 ∧
      w1.allocated demo.objs.length = demo.allocated 0) ∧
    (demo.sharing 0 = true → ∃ w1, (Op.clear 0).returns 1 demo w1 ∧ w1.allocated 0 = true ∧
      w1.capacity 1 0 = demo.capacity 1 0 ∧
      ∃ q, w1.data 0 = .heap q ∧ demo.st.heap.lookup q = none)) :=
  ⟨demo_reachable, heap_capacity_exceeds_inline demo_reachable 0⟩

end SocowVector
